import Mathlib

/-!
# Homura (thesis version): a verification development

A shallow embedding of the core of the Homura chess engine
(`src/src/Move.h`, `Zobrist.cpp`, `Board.h`, `ChaosMagic.h`, `MoveMake.cpp`)
together with theorems about it.

Conventions of the embedding.

* `uint64_t` bitboards, `uint16_t` manifests and `uint8_t` counters are
  natural numbers; every operation that can leave the machine range is
  followed by an explicit `% 2 ^ w`.
* C++ enumerations are inductive types with a `toNat` giving the value the
  enumerator has in the source.
* Heap and stack arrays are functions from the index; where an index can
  leave the array the access is an `Option`.
-/

namespace Homura

/-! ## Enumerations (`ChaosMagic.h`) -/

/-- The alliances, `enum Alliance : uint8_t { White, Black }`. -/
inductive Alliance where
  | White
  | Black
  deriving DecidableEq, Repr

/-- The value of an alliance as an array index. -/
def Alliance.toNat : Alliance → Nat
  | .White => 0
  | .Black => 1

/-- The complement of an alliance, `operator~`: `Alliance(a ^ Black ^ White)`. -/
def Alliance.flip : Alliance → Alliance
  | .White => .Black
  | .Black => .White

/-- The piece types, `enum PieceType { Pawn, Rook, Knight, Bishop, Queen, King, NullPT }`. -/
inductive PieceType where
  | Pawn
  | Rook
  | Knight
  | Bishop
  | Queen
  | King
  | NullPT
  deriving DecidableEq, Repr

/-- The value of a piece type in the source enumeration. -/
def PieceType.toNat : PieceType → Nat
  | .Pawn => 0
  | .Rook => 1
  | .Knight => 2
  | .Bishop => 3
  | .Queen => 4
  | .King => 5
  | .NullPT => 6

/-- The cast `PieceType(n)` for the values the engine produces; any other
value is outside the enumeration and is read as `NullPT`. -/
def PieceType.cast : Nat → PieceType
  | 0 => .Pawn
  | 1 => .Rook
  | 2 => .Knight
  | 3 => .Bishop
  | 4 => .Queen
  | 5 => .King
  | _ => .NullPT

/-- The move types, `enum MoveType { FreeForm, EnPassant, Castling, PawnJump }`. -/
inductive MoveType where
  | FreeForm
  | EnPassant
  | Castling
  | PawnJump
  deriving DecidableEq, Repr

/-- The value of a move type in the source enumeration. -/
def MoveType.toNat : MoveType → Nat
  | .FreeForm => 0
  | .EnPassant => 1
  | .Castling => 2
  | .PawnJump => 3

/-- The sentinel square `NullSQ`, one past `A8 = 63`. -/
def NullSQ : Nat := 64

/-! ## Bit primitives and constant tables (`ChaosMagic.h`) -/

/-- The length of the board, `BoardLength = 64` (`Utility.h`). -/
def BoardLength : Nat := 64

/-- The number of values of a `uint64_t`. -/
def U64 : Nat := 2 ^ 64

/-- The constant `FullBoard = 0xFFFFFFFFFFFFFFFF`. -/
def FullBoard : Nat := 0xFFFFFFFFFFFFFFFF

/-- The bitwise complement `~b` of a `uint64_t`. -/
def not64 (b : Nat) : Nat := FullBoard ^^^ b

/-- The negation `(uint64_t) -(int64_t) b` of a `uint64_t`. -/
def neg64 (b : Nat) : Nat := (U64 - b % U64) % U64

/-- The table `SquareToBitBoard[]`: the 64 entries are the powers of two.
Only indices below 64 belong to the table; the model reads 0 elsewhere. -/
def SquareToBitBoard (sq : Nat) : Nat := if sq < 64 then 2 ^ sq else 0

/-- The board directions, `enum Direction : int8_t`. -/
def North : Int := 8
/-- Direction `South = -North`. -/
def South : Int := -8
/-- Direction `East = 1`. -/
def East : Int := 1
/-- Direction `West = -East`. -/
def West : Int := -1
/-- Direction `NorthEast = North + East`. -/
def NorthEast : Int := 9
/-- Direction `NorthWest = North + West`. -/
def NorthWest : Int := 7
/-- Direction `SouthEast = South + East`. -/
def SouthEast : Int := -7
/-- Direction `SouthWest = South + West`. -/
def SouthWest : Int := -9

/-- The array `BishopDirections[]`. -/
def BishopDirections : List Int := [NorthWest, SouthWest, SouthEast, NorthEast]

/-- The array `RookDirections[]`. -/
def RookDirections : List Int := [North, West, South, East]

/-- The function `shift<D>(b)`: `D > 0 ? b << D : b >> -D` on `uint64_t`. -/
def shift (D : Int) (b : Nat) : Nat :=
  if D > 0 then (b <<< D.toNat) % U64 else b >>> (-D).toNat

/-- The function `fileOf(square)`: `square & 7U`. -/
def fileOf (square : Nat) : Int := ((square &&& 7 : Nat) : Int)

/-- The function `rankOf(square)`: `square >> 3U`. -/
def rankOf (square : Nat) : Int := ((square >>> 3 : Nat) : Int)

/-- The function `withinBounds(origin, direction)`. The call `abs` in its
body is written before `Witchcraft::abs` is declared, so it names the
absolute value of the C library. -/
def withinBounds (origin direction : Int) : Bool :=
  let x := origin + direction
  decide (x ≥ 0) && decide (x ≤ 63) &&
    (decide (|fileOf x.toNat - fileOf origin.toNat| < 2) || decide (|direction| = North))

/-- The scan `bitScanFwd(l)` (count of trailing zeros), by a loop over at most
`n` bit positions starting at position `i`. -/
def bitScanFwdAux : Nat → Nat → Nat → Nat
  | 0, _, i => i
  | n + 1, l, i => if l % 2 = 1 then i else bitScanFwdAux n (l / 2) (i + 1)

/-- The function `bitScanFwd(l)`: the index of the lowest set bit. The source
asserts `l != 0`; the model yields 64 for 0. -/
def bitScanFwd (l : Nat) : Nat := bitScanFwdAux 64 l 0

/-- The function `highBitCount(x)` (population count), over `n` bit positions. -/
def highBitCountAux : Nat → Nat → Nat
  | 0, _ => 0
  | n + 1, x => x % 2 + highBitCountAux n (x / 2)

/-- The function `highBitCount(x)` of a `uint64_t`. -/
def highBitCount (x : Nat) : Nat := highBitCountAux 64 x

/-- The loop `for (; x; x &= x - 1) body(x, bitScanFwd(x))`, with the moves
written by each pass concatenated; `n` bounds the number of passes. -/
def forBitsAux {α : Type} : Nat → Nat → (Nat → Nat → List α) → List α
  | 0, _, _ => []
  | n + 1, x, body =>
    if x = 0 then [] else body x (bitScanFwd x) ++ forBitsAux n (x &&& (x - 1)) body

/-- The loop `for (; x; x &= x - 1)` over a `uint64_t`, which has at most 64
set bits. -/
def forBits {α : Type} (x : Nat) (body : Nat → Nat → List α) : List α :=
  forBitsAux 64 x body

/-- The table `SquareToKnightAttacks[]`. -/
def SquareToKnightAttacksTable : List Nat :=
  [
    0x0000000000020400, 0x0000000000050800, 0x00000000000A1100, 0x0000000000142200,
    0x0000000000284400, 0x0000000000508800, 0x0000000000A01000, 0x0000000000402000,
    0x0000000002040004, 0x0000000005080008, 0x000000000A110011, 0x0000000014220022,
    0x0000000028440044, 0x0000000050880088, 0x00000000A0100010, 0x0000000040200020,
    0x0000000204000402, 0x0000000508000805, 0x0000000A1100110A, 0x0000001422002214,
    0x0000002844004428, 0x0000005088008850, 0x000000A0100010A0, 0x0000004020002040,
    0x0000020400040200, 0x0000050800080500, 0x00000A1100110A00, 0x0000142200221400,
    0x0000284400442800, 0x0000508800885000, 0x0000A0100010A000, 0x0000402000204000,
    0x0002040004020000, 0x0005080008050000, 0x000A1100110A0000, 0x0014220022140000,
    0x0028440044280000, 0x0050880088500000, 0x00A0100010A00000, 0x0040200020400000,
    0x0204000402000000, 0x0508000805000000, 0x0A1100110A000000, 0x1422002214000000,
    0x2844004428000000, 0x5088008850000000, 0xA0100010A0000000, 0x4020002040000000,
    0x0400040200000000, 0x0800080500000000, 0x1100110A00000000, 0x2200221400000000,
    0x4400442800000000, 0x8800885000000000, 0x100010A000000000, 0x2000204000000000,
    0x0004020000000000, 0x0008050000000000, 0x00110A0000000000, 0x0022140000000000,
    0x0044280000000000, 0x0088500000000000, 0x0010A00000000000, 0x0020400000000000
  ]

/-- The table `SquareToKingAttacks[]`. -/
def SquareToKingAttacksTable : List Nat :=
  [
    0x0000000000000302, 0x0000000000000705, 0x0000000000000E0A, 0x0000000000001C14,
    0x0000000000003828, 0x0000000000007050, 0x000000000000E0A0, 0x000000000000C040,
    0x0000000000030203, 0x0000000000070507, 0x00000000000E0A0E, 0x00000000001C141C,
    0x0000000000382838, 0x0000000000705070, 0x0000000000E0A0E0, 0x0000000000C040C0,
    0x0000000003020300, 0x0000000007050700, 0x000000000E0A0E00, 0x000000001C141C00,
    0x0000000038283800, 0x0000000070507000, 0x00000000E0A0E000, 0x00000000C040C000,
    0x0000000302030000, 0x0000000705070000, 0x0000000E0A0E0000, 0x0000001C141C0000,
    0x0000003828380000, 0x0000007050700000, 0x000000E0A0E00000, 0x000000C040C00000,
    0x0000030203000000, 0x0000070507000000, 0x00000E0A0E000000, 0x00001C141C000000,
    0x0000382838000000, 0x0000705070000000, 0x0000E0A0E0000000, 0x0000C040C0000000,
    0x0003020300000000, 0x0007050700000000, 0x000E0A0E00000000, 0x001C141C00000000,
    0x0038283800000000, 0x0070507000000000, 0x00E0A0E000000000, 0x00C040C000000000,
    0x0302030000000000, 0x0705070000000000, 0x0E0A0E0000000000, 0x1C141C0000000000,
    0x3828380000000000, 0x7050700000000000, 0xE0A0E00000000000, 0xC040C00000000000,
    0x0203000000000000, 0x0507000000000000, 0x0A0E000000000000, 0x141C000000000000,
    0x2838000000000000, 0x5070000000000000, 0xA0E0000000000000, 0x40C0000000000000
  ]

/-- The table `SquareToRookBlockerMask[]`. -/
def SquareToRookBlockerMaskTable : List Nat :=
  [
    0x000101010101017E, 0x000202020202027C, 0x000404040404047A, 0x0008080808080876,
    0x001010101010106E, 0x002020202020205E, 0x004040404040403E, 0x008080808080807E,
    0x0001010101017E00, 0x0002020202027C00, 0x0004040404047A00, 0x0008080808087600,
    0x0010101010106E00, 0x0020202020205E00, 0x0040404040403E00, 0x0080808080807E00,
    0x00010101017E0100, 0x00020202027C0200, 0x00040404047A0400, 0x0008080808760800,
    0x00101010106E1000, 0x00202020205E2000, 0x00404040403E4000, 0x00808080807E8000,
    0x000101017E010100, 0x000202027C020200, 0x000404047A040400, 0x0008080876080800,
    0x001010106E101000, 0x002020205E202000, 0x004040403E404000, 0x008080807E808000,
    0x0001017E01010100, 0x0002027C02020200, 0x0004047A04040400, 0x0008087608080800,
    0x0010106E10101000, 0x0020205E20202000, 0x0040403E40404000, 0x0080807E80808000,
    0x00017E0101010100, 0x00027C0202020200, 0x00047A0404040400, 0x0008760808080800,
    0x00106E1010101000, 0x00205E2020202000, 0x00403E4040404000, 0x00807E8080808000,
    0x007E010101010100, 0x007C020202020200, 0x007A040404040400, 0x0076080808080800,
    0x006E101010101000, 0x005E202020202000, 0x003E404040404000, 0x007E808080808000,
    0x7E01010101010100, 0x7C02020202020200, 0x7A04040404040400, 0x7608080808080800,
    0x6E10101010101000, 0x5E20202020202000, 0x3E40404040404000, 0x7E80808080808000
  ]

/-- The table `SquareToBishopBlockerMask[]`. -/
def SquareToBishopBlockerMaskTable : List Nat :=
  [
    0x0040201008040200, 0x0000402010080400, 0x0000004020100A00, 0x0000000040221400,
    0x0000000002442800, 0x0000000204085000, 0x0000020408102000, 0x0002040810204000,
    0x0020100804020000, 0x0040201008040000, 0x00004020100A0000, 0x0000004022140000,
    0x0000000244280000, 0x0000020408500000, 0x0002040810200000, 0x0004081020400000,
    0x0010080402000200, 0x0020100804000400, 0x004020100A000A00, 0x0000402214001400,
    0x0000024428002800, 0x0002040850005000, 0x0004081020002000, 0x0008102040004000,
    0x0008040200020400, 0x0010080400040800, 0x0020100A000A1000, 0x0040221400142200,
    0x0002442800284400, 0x0004085000500800, 0x0008102000201000, 0x0010204000402000,
    0x0004020002040800, 0x0008040004081000, 0x00100A000A102000, 0x0022140014224000,
    0x0044280028440200, 0x0008500050080400, 0x0010200020100800, 0x0020400040201000,
    0x0002000204081000, 0x0004000408102000, 0x000A000A10204000, 0x0014001422400000,
    0x0028002844020000, 0x0050005008040200, 0x0020002010080400, 0x0040004020100800,
    0x0000020408102000, 0x0000040810204000, 0x00000A1020400000, 0x0000142240000000,
    0x0000284402000000, 0x0000500804020000, 0x0000201008040200, 0x0000402010080400,
    0x0002040810204000, 0x0004081020400000, 0x000A102040000000, 0x0014224000000000,
    0x0028440200000000, 0x0050080402000000, 0x0020100804020000, 0x0040201008040200
  ]

/-- The row `SquareToPawnAttacks[White]`. -/
def SquareToPawnAttacksWhiteTable : List Nat :=
  [
    0x0000000000000200, 0x0000000000000500, 0x0000000000000A00, 0x0000000000001400,
    0x0000000000002800, 0x0000000000005000, 0x000000000000A000, 0x0000000000004000,
    0x0000000000020000, 0x0000000000050000, 0x00000000000A0000, 0x0000000000140000,
    0x0000000000280000, 0x0000000000500000, 0x0000000000A00000, 0x0000000000400000,
    0x0000000002000000, 0x0000000005000000, 0x000000000A000000, 0x0000000014000000,
    0x0000000028000000, 0x0000000050000000, 0x00000000A0000000, 0x0000000040000000,
    0x0000000200000000, 0x0000000500000000, 0x0000000A00000000, 0x0000001400000000,
    0x0000002800000000, 0x0000005000000000, 0x000000A000000000, 0x0000004000000000,
    0x0000020000000000, 0x0000050000000000, 0x00000A0000000000, 0x0000140000000000,
    0x0000280000000000, 0x0000500000000000, 0x0000A00000000000, 0x0000400000000000,
    0x0002000000000000, 0x0005000000000000, 0x000A000000000000, 0x0014000000000000,
    0x0028000000000000, 0x0050000000000000, 0x00A0000000000000, 0x0040000000000000,
    0x0200000000000000, 0x0500000000000000, 0x0A00000000000000, 0x1400000000000000,
    0x2800000000000000, 0x5000000000000000, 0xA000000000000000, 0x4000000000000000,
    0x0000000000000000, 0x0000000000000000, 0x0000000000000000, 0x0000000000000000,
    0x0000000000000000, 0x0000000000000000, 0x0000000000000000, 0x0000000000000000
  ]

/-- The row `SquareToPawnAttacks[Black]`. -/
def SquareToPawnAttacksBlackTable : List Nat :=
  [
    0x0000000000000000, 0x0000000000000000, 0x0000000000000000, 0x0000000000000000,
    0x0000000000000000, 0x0000000000000000, 0x0000000000000000, 0x0000000000000000,
    0x0000000000000002, 0x0000000000000005, 0x000000000000000A, 0x0000000000000014,
    0x0000000000000028, 0x0000000000000050, 0x00000000000000A0, 0x0000000000000040,
    0x0000000000000200, 0x0000000000000500, 0x0000000000000A00, 0x0000000000001400,
    0x0000000000002800, 0x0000000000005000, 0x000000000000A000, 0x0000000000004000,
    0x0000000000020000, 0x0000000000050000, 0x00000000000A0000, 0x0000000000140000,
    0x0000000000280000, 0x0000000000500000, 0x0000000000A00000, 0x0000000000400000,
    0x0000000002000000, 0x0000000005000000, 0x000000000A000000, 0x0000000014000000,
    0x0000000028000000, 0x0000000050000000, 0x00000000A0000000, 0x0000000040000000,
    0x0000000200000000, 0x0000000500000000, 0x0000000A00000000, 0x0000001400000000,
    0x0000002800000000, 0x0000005000000000, 0x000000A000000000, 0x0000004000000000,
    0x0000020000000000, 0x0000050000000000, 0x00000A0000000000, 0x0000140000000000,
    0x0000280000000000, 0x0000500000000000, 0x0000A00000000000, 0x0000400000000000,
    0x0002000000000000, 0x0005000000000000, 0x000A000000000000, 0x0014000000000000,
    0x0028000000000000, 0x0050000000000000, 0x00A0000000000000, 0x0040000000000000
  ]

/-- Reading `SquareToKnightAttacks[sq]`. -/
def SquareToKnightAttacks (sq : Nat) : Nat := SquareToKnightAttacksTable.getD sq 0

/-- Reading `SquareToKingAttacks[sq]`. -/
def SquareToKingAttacks (sq : Nat) : Nat := SquareToKingAttacksTable.getD sq 0

/-- Reading `SquareToRookBlockerMask[sq]`. -/
def SquareToRookBlockerMask (sq : Nat) : Nat := SquareToRookBlockerMaskTable.getD sq 0

/-- Reading `SquareToBishopBlockerMask[sq]`. -/
def SquareToBishopBlockerMask (sq : Nat) : Nat := SquareToBishopBlockerMaskTable.getD sq 0

/-- Reading `SquareToPawnAttacks[a][sq]`. -/
def SquareToPawnAttacks (a : Alliance) (sq : Nat) : Nat :=
  match a with
  | .White => SquareToPawnAttacksWhiteTable.getD sq 0
  | .Black => SquareToPawnAttacksBlackTable.getD sq 0

/-! ## Magic attack tables (`ChaosMagic.cpp`) -/

/-- The hash `HASH(bb, m, mn, sa)` with `USE_BMI2` defined: `_pext_u64(bb, m)`,
the bits of `bb` at the set positions of `m`, packed; over `n` bit positions. -/
def pextAux : Nat → Nat → Nat → Nat
  | 0, _, _ => 0
  | n + 1, bb, m =>
    if m % 2 = 1 then bb % 2 + 2 * pextAux n (bb / 2) (m / 2)
    else pextAux n (bb / 2) (m / 2)

/-- The instruction `_pext_u64(bb, m)`. -/
def pext (bb m : Nat) : Nat := pextAux 64 bb m

/-- The inverse deposit: the subset of `m` whose `pext` is `i`; over `n` bit
positions. -/
def pdepAux : Nat → Nat → Nat → Nat
  | 0, _, _ => 0
  | n + 1, i, m =>
    if m % 2 = 1 then i % 2 + 2 * pdepAux n (i / 2) (m / 2)
    else 2 * pdepAux n i (m / 2)

/-- The subset of the mask `m` that `initFancyMagics` hashes to index `i`. -/
def pdep (i m : Nat) : Nat := pdepAux 64 i m

/-- One direction of the inner loop of `initFancyMagics`:
`do { if (!withinBounds(o, d)) break; attackBoard |= x = SquareToBitBoard[o += d]; }
while ((x & blockerBoard) == 0);` with at most `n` passes. -/
def castRay : Nat → Int → Int → Nat → Nat → Nat
  | 0, _, _, _, attackBoard => attackBoard
  | n + 1, o, d, blockerBoard, attackBoard =>
    if withinBounds o d then
      let x := SquareToBitBoard (o + d).toNat
      if x &&& blockerBoard = 0 then castRay n (o + d) d blockerBoard (attackBoard ||| x)
      else attackBoard ||| x
    else attackBoard

/-- The attack board `initFancyMagics` builds for one blocker board: the
`for (int i = 0; i < 4; ++i)` loop over the directions. A ray has at most 7
squares. -/
def castRays (directions : List Int) (sq blockerBoard : Nat) : Nat :=
  directions.foldl (fun attackBoard d => castRay 8 (sq : Int) d blockerBoard attackBoard) 0

/-- The entry at index `i` of the table segment of square `sq`, as
`initFancyMagics` leaves it: `placeAttacks` is called once for every subset of
the blocker mask (the carry-rippler loop), and writes the attack board of the
subset at the index `HASH` gives it; the subset with hash `i` is `pdep i mask`. -/
def attackTableEntry (directions : List Int) (mask : Nat → Nat) (sq i : Nat) : Nat :=
  castRays directions sq (pdep i (mask sq))

/-- The lookup `FancyMagic::getAttacks(blockerBoard)` of the magic of square
`sq`: `attackBoards[HASH(blockerBoard, mask, magicNumber, shiftAmount)]`. -/
def getAttacks (directions : List Int) (mask : Nat → Nat) (sq blockerBoard : Nat) : Nat :=
  attackTableEntry directions mask sq (pext blockerBoard (mask sq))

/-- The attack boards of the sliding pieces, `attackBoard<Rook>` and
`attackBoard<Bishop>`, as functions of the occupancy and the square. -/
structure Magics where
  rook : Nat → Nat → Nat
  bishop : Nat → Nat → Nat

/-- The magics `Witchcraft::init` builds. -/
def Witchcraft : Magics where
  rook := fun board sq => getAttacks RookDirections SquareToRookBlockerMask sq board
  bishop := fun board sq => getAttacks BishopDirections SquareToBishopBlockerMask sq board

/-- The lookup `attackBoard<PT>(board, sq)` for `PT` among Rook, Knight,
Bishop, Queen and King. -/
def attackBoard (W : Magics) (PT : PieceType) (board sq : Nat) : Nat :=
  match PT with
  | .Rook => W.rook board sq
  | .Knight => SquareToKnightAttacks sq
  | .Bishop => W.bishop board sq
  | .Queen => W.rook board sq ||| W.bishop board sq
  | .King => SquareToKingAttacks sq
  | _ => 0

/-- The tables `Paths` and `Rays` behind `pathBoard(from, to)` and
`rayBoard(from, to)`; the headers `Paths.h` and `Rays.h` that define them are
not part of the sources. -/
structure Lines where
  pathBoard : Nat → Nat → Nat
  rayBoard : Nat → Nat → Nat

/-! ## Moves (`Move.h`) -/

/-- A move: the 16-bit `manifest`. -/
structure Move where
  manifest : Nat
  deriving DecidableEq, Repr

namespace Move

/-- Mask `To = 0x003F`. -/
def To : Nat := 0x003F
/-- Mask `From = 0x0FC0`. -/
def From : Nat := 0x0FC0
/-- Mask `Type = 0x3000`. -/
def TypeMask : Nat := 0x3000
/-- Mask `Promotion = 0x8000`. -/
def Promotion : Nat := 0x8000
/-- Mask `PromoPiece = 0x3000`. -/
def PromoPiece : Nat := 0x3000

/-- The constructor `Move(const unsigned int manifest)`: the 32-bit argument
is narrowed to the 16-bit field. -/
def ofUInt (n : Nat) : Move := ⟨n % 2 ^ 32 % 2 ^ 16⟩

/-- The factory `Move::make<MT>(from, to)`:
`(MT << 12U) + (from << 6U) + to`, computed on `unsigned int`. -/
def make (MT : MoveType) (o d : Nat) : Move :=
  ofUInt ((MT.toNat <<< 12) + (o <<< 6) % 2 ^ 32 + d)

/-- The untemplated overload `Move::make(from, to)`: `(from << 6U) + to`. -/
def makePlain (o d : Nat) : Move :=
  ofUInt ((o <<< 6) % 2 ^ 32 + d)

/-- The factory `Move::makePromotion<PT>(from, to)`:
`Promotion + ((PT - Rook) << 12U) + ((from << 6U) + to)`. The source asserts
`PT > Pawn && PT < King`. -/
def makePromotion (PT : PieceType) (o d : Nat) : Move :=
  ofUInt (Promotion + ((PT.toNat - PieceType.Rook.toNat) <<< 12) + ((o <<< 6) % 2 ^ 32 + d))

/-- The accessor `destination()`: `manifest & To`. -/
def destination (m : Move) : Nat := m.manifest &&& To

/-- The accessor `origin()`: `(manifest & From) >> 6U`. -/
def origin (m : Move) : Nat := (m.manifest &&& From) >>> 6

/-- The accessor `moveType()`: `(manifest & Type) >> 12U`. -/
def moveType (m : Move) : Nat := (m.manifest &&& TypeMask) >>> 12

/-- The accessor `promotionPiece()`: `((manifest & PromoPiece) >> 12U) + Rook`. -/
def promotionPiece (m : Move) : Nat :=
  ((m.manifest &&& PromoPiece) >>> 12) + PieceType.Rook.toNat

/-- The accessor `isPromotion()`: `(manifest & Promotion) >> 15U` as a `bool`. -/
def isPromotion (m : Move) : Bool := (m.manifest &&& Promotion) >>> 15 != 0

end Move

/-- The constant `NullMove = 0U`. -/
def NullMove : Move := ⟨0⟩

/-! ## Constants of `Utility.h` -/

/-- The constant `MateValue = INT16_MAX`. -/
def MateValue : Int := 32767

/-- The constant `MinMate = MateValue - 100`. -/
def MinMate : Int := MateValue - 100

/-! ## The transposition table (`Zobrist.h`, `Zobrist.cpp`) -/

namespace Zobrist

/-- The entry types, `enum EntryType : uint8_t { lower, exact, upper, undef }`. -/
inductive EntryType where
  | lower
  | exact
  | upper
  | undef
  deriving DecidableEq, Repr

/-- A table entry, `struct Entry`. -/
structure Entry where
  key : Nat
  value : Int
  clock : Int
  type : EntryType
  move : Move
  depth : Nat
  deriving DecidableEq, Repr

/-- The table length `tt_size = 1000001`. -/
def tt_size : Nat := 1000001

/-- The heap array `transTable` (allocated as `new Entry[tt_size]`): the
entry stored at each index. Only indices below `tt_size` belong to the
array. -/
abbrev TransTable := Nat → Entry

/-- Reading `transTable[i]`; an index outside the allocation has no value. -/
def readEntry (t : TransTable) (i : Nat) : Option Entry :=
  if i < tt_size then some (t i) else none

/-- The table as `clearTrans` leaves it:
every entry is `{0, 0, 0, undef, NullMove, uint8_t(-1)}`. -/
def clearTrans : TransTable := fun _ => ⟨0, 0, 0, .undef, NullMove, 255⟩

/-- The conversion of a 64-bit difference to `int` (two's complement, 32 bits). -/
def toInt32 (x : Int) : Int := (x + 2 ^ 31) % 2 ^ 32 - 2 ^ 31

/-- The slot choice `storage(key, depth, clock)`: the index of the entry the
returned pointer designates, or `none` when a slot that is read lies outside
the table. -/
def storage (t : TransTable) (key depth : Nat) (clock : Int) : Option Nat :=
  let slot := key % tt_size
  match readEntry t slot with
  | none => none
  | some e1 =>
    if e1.key = key then some slot
    else
      match readEntry t (slot ^^^ 1) with
      | none => none
      | some e2 =>
        if e2.key = key then some (slot ^^^ 1)
        else if e1.depth < e2.depth then some slot
        else
          let age1 := toInt32 (clock - e1.clock)
          let age2 := toInt32 (clock - e2.clock)
          if (depth : Int) + (age1 >>> 1) > (e1.depth : Int) + (age2 >>> 2) then some slot
          else some (slot ^^^ 1)

/-- The value written by `store`:
`value < -MinMate ? -MateValue : value > MinMate ? MateValue : value`. -/
def storedValue (value : Int) : Int :=
  if value < -MinMate then -MateValue
  else if value > MinMate then MateValue
  else value

/-- The procedure `store(key, value, type, depth, move, clock)`: the table
afterwards, or `none` when `storage` leaves the table. -/
def store (t : TransTable) (key : Nat) (value : Int) (type : EntryType) (depth : Nat)
    (move : Move) (clock : Int) : Option TransTable :=
  match storage t key depth clock with
  | none => none
  | some i =>
    some (fun j => if j = i then ⟨key, storedValue value, clock, type, move, depth⟩ else t j)

/-- The outcome of `retrieve`: a pointer to a slot (with the table after the
clock update), the null pointer, or an access outside the table. -/
inductive Probe where
  | hit (slot : Nat) (table : TransTable)
  | miss
  | outOfBounds

/-- The procedure `retrieve(index, clock)`. -/
def retrieve (t : TransTable) (index : Nat) (clock : Int) : Probe :=
  let slot := index % tt_size
  match readEntry t slot with
  | none => .outOfBounds
  | some e =>
    if e.key = index then
      .hit slot (fun j => if j = slot then { t slot with clock := clock } else t j)
    else
      match readEntry t (slot ^^^ 1) with
      | none => .outOfBounds
      | some e2 =>
        if e2.key = index then
          .hit (slot ^^^ 1)
            (fun j => if j = slot ^^^ 1 then { t (slot ^^^ 1) with clock := clock } else t j)
        else .miss

end Zobrist

/-! ## Zobrist randoms (`Zobrist.h`, `Zobrist.cpp`) -/

/-- One step of the state of `RandGen::rand()`:
`x ^= x >> 12, x ^= x << 25, x ^= x >> 27`. -/
def RandGen.next (x : Nat) : Nat :=
  let x1 := x ^^^ (x >>> 12)
  let x2 := x1 ^^^ ((x1 <<< 25) % U64)
  x2 ^^^ (x2 >>> 27)

/-- The value `rand()` returns from the updated state:
`x * 2685821657736338717LL`. -/
def RandGen.output (x : Nat) : Nat := (x * 2685821657736338717) % U64

/-- The first `n` values of `rand()` from state `x`. -/
def RandGen.stream : Nat → Nat → List Nat
  | 0, _ => []
  | n + 1, x => RandGen.output (RandGen.next x) :: RandGen.stream n (RandGen.next x)

/-- The random tables of the anonymous namespace of `Zobrist.cpp`. -/
structure Randoms where
  BySquare : Nat → Nat → Nat
  ByEnPassant : Nat → Nat
  CastlingRights : Nat → Nat
  BlackToMove : Nat
  WhiteToMove : Nat

/-- The procedure `initRandoms()` run with `time(nullptr) = seed`: for each
square twelve piece randoms and one en-passant random, then sixteen castling
randoms, then `WhiteToMove` and `BlackToMove`. Indices outside a table read 0
in the model. -/
def initRandoms (seed : Nat) : Randoms :=
  let r := RandGen.stream 850 (seed % U64)
  { BySquare := fun sq p => if sq < 64 ∧ p < 12 then r.getD (13 * sq + p) 0 else 0
    ByEnPassant := fun sq => if sq < 64 then r.getD (13 * sq + 12) 0 else 0
    CastlingRights := fun i => if i < 16 then r.getD (832 + i) 0 else 0
    WhiteToMove := r.getD 848 0
    BlackToMove := r.getD 849 0 }

namespace Randoms

/-- The accessor `Zobrist::get<EnPassant>(sq)`: `ByEnPassant[sq]`. -/
def getEnPassant (Z : Randoms) (sq : Nat) : Nat := Z.ByEnPassant sq

/-- The accessor `Zobrist::get<Castling>(cr)`: `CastlingRights[cr]`. -/
def getCastling (Z : Randoms) (cr : Nat) : Nat := Z.CastlingRights cr

/-- The accessor `Zobrist::get<A>(pt, sq)` (and `get<A, PT>(sq)`):
`BySquare[sq][(A * 6) + pt]`. -/
def get (Z : Randoms) (A : Alliance) (pt : PieceType) (sq : Nat) : Nat :=
  Z.BySquare sq (A.toNat * 6 + pt.toNat)

/-- The accessor `Zobrist::side<A>()` : `A == White ? WhiteToMove : BlackToMove`. -/
def sideOf (Z : Randoms) (A : Alliance) : Nat :=
  match A with
  | .White => Z.WhiteToMove
  | .Black => Z.BlackToMove

/-- The accessor `Zobrist::side(a)`:
`((int) ~a) * WhiteToMove + ((int) a) * BlackToMove`. -/
def side (Z : Randoms) (a : Alliance) : Nat :=
  (a.flip.toNat * Z.WhiteToMove + a.toNat * Z.BlackToMove) % U64

end Randoms

/-! ## Per-alliance defaults (`Board.h`) -/

/-- The directions and masks of an alliance, `struct Defaults`. -/
structure Defaults where
  up : Int
  upRight : Int
  upLeft : Int
  down : Int
  downRight : Int
  downLeft : Int
  left : Int
  right : Int
  kingSideDestination : Nat
  queenSideDestination : Nat
  kingSideRookOrigin : Nat
  queenSideRookOrigin : Nat
  kingSideRookDestination : Nat
  queenSideRookDestination : Nat
  enPassantRank : Nat
  notRightCol : Nat
  notLeftCol : Nat
  pawnStart : Nat
  pawnJumpSquares : Nat
  kingSideMask : Nat
  queenSideMask : Nat
  kingSideRookMoveMask : Nat
  queenSideRookMoveMask : Nat
  prePromotionMask : Nat
  kingSideCastlePath : Nat
  queenSideCastlePath : Nat

/-- The constant `WhiteDefaults`. -/
def WhiteDefaults : Defaults where
  up := North
  upRight := NorthEast
  upLeft := NorthWest
  down := South
  downRight := SouthEast
  downLeft := SouthWest
  left := West
  right := East
  kingSideDestination := 1
  queenSideDestination := 5
  kingSideRookOrigin := 0
  queenSideRookOrigin := 7
  kingSideRookDestination := 2
  queenSideRookDestination := 4
  enPassantRank := 0x000000FF00000000
  notRightCol := 0x7F7F7F7F7F7F7F7F
  notLeftCol := 0xFEFEFEFEFEFEFEFE
  pawnStart := 0x000000000000FF00
  pawnJumpSquares := 0x0000000000FF0000
  kingSideMask := 0x0000000000000006
  queenSideMask := 0x0000000000000070
  kingSideRookMoveMask := 0x0000000000000005
  queenSideRookMoveMask := 0x0000000000000090
  prePromotionMask := 0x00FF000000000000
  kingSideCastlePath := 0x0000000000000006
  queenSideCastlePath := 0x0000000000000030

/-- The constant `BlackDefaults`. -/
def BlackDefaults : Defaults where
  up := South
  upRight := SouthWest
  upLeft := SouthEast
  down := North
  downRight := NorthWest
  downLeft := NorthEast
  left := East
  right := West
  kingSideDestination := 57
  queenSideDestination := 61
  kingSideRookOrigin := 56
  queenSideRookOrigin := 63
  kingSideRookDestination := 58
  queenSideRookDestination := 60
  enPassantRank := 0x00000000FF000000
  notRightCol := 0xFEFEFEFEFEFEFEFE
  notLeftCol := 0x7F7F7F7F7F7F7F7F
  pawnStart := 0x00FF000000000000
  pawnJumpSquares := 0x0000FF0000000000
  kingSideMask := 0x0600000000000000
  queenSideMask := 0x7000000000000000
  kingSideRookMoveMask := 0x0500000000000000
  queenSideRookMoveMask := 0x9000000000000000
  prePromotionMask := 0x000000000000FF00
  kingSideCastlePath := 0x0600000000000000
  queenSideCastlePath := 0x3000000000000000

/-- The function `defaults<A>()`. -/
def defaults (A : Alliance) : Defaults :=
  match A with
  | .White => WhiteDefaults
  | .Black => BlackDefaults

/-- The castling-rights mask `CastlingOff[A][KingSide]`
(`Wkoff = 0x0D`, `Bkoff = 0x07`). -/
def CastlingOffKingSide (A : Alliance) : Nat :=
  match A with
  | .White => 0x0D
  | .Black => 0x07

/-- The castling-rights mask `CastlingOff[A][QueenSide]`
(`Wqoff = 0x0E`, `Bqoff = 0x0B`). -/
def CastlingOffQueenSide (A : Alliance) : Nat :=
  match A with
  | .White => 0x0E
  | .Black => 0x0B

/-- The castling-rights mask `CastlingOffByAlliance[A]`
(`Woff = 0x0C`, `Boff = 0x03`). -/
def CastlingOffByAlliance (A : Alliance) : Nat :=
  match A with
  | .White => 0x0C
  | .Black => 0x03

/-! ## States and boards (`Board.h`) -/

/-- A per-ply state, `class State`. The pointer `prevState` is the rest of the
chain kept by the board. -/
structure State where
  castlingRights : Nat
  epSquare : Nat
  capturedPiece : PieceType
  key : Nat
  move : Move
  version : Nat
  deriving DecidableEq, Repr

/-- The default constructor `State()`: castling rights `0x0F`, en-passant
square `H1`, no captured piece, key 0, `NullMove`, version 0. -/
def State.default : State :=
  { castlingRights := 0x0F, epSquare := 0, capturedPiece := .NullPT, key := 0,
    move := NullMove, version := 0 }

/-- A board, `class Board`: the piece bitboards `pieces[2][7]`, `allPieces`,
the alliance to move, the mailbox, and the state chain: `currentState` is the
state the pointer designates and `prevStates` the states reached from it
through `prevState`, nearest first. -/
structure Board where
  pieces : Alliance → PieceType → Nat
  allPieces : Nat
  currentPlayerAlliance : Alliance
  mailbox : Nat → PieceType
  currentState : State
  prevStates : List State

namespace Board

/-- Assignment to `pieces[A][PT]`. -/
def setPieces (pieces : Alliance → PieceType → Nat) (A : Alliance) (PT : PieceType) (v : Nat) :
    Alliance → PieceType → Nat :=
  fun a pt => if a = A ∧ pt = PT then v else pieces a pt

/-- Assignment to `mailbox[sq]`. -/
def setMailbox (mailbox : Nat → PieceType) (sq : Nat) (v : PieceType) : Nat → PieceType :=
  fun i => if i = sq then v else mailbox i

/-- The accessor `currentPlayer()`. -/
def currentPlayer (b : Board) : Alliance := b.currentPlayerAlliance

/-- The accessor `getPieces<A, PT>()`. -/
def getPieces (b : Board) (A : Alliance) (PT : PieceType) : Nat := b.pieces A PT

/-- The accessor `getPieces<A>()`: `pieces[A][NullPT]`. -/
def getPiecesOf (b : Board) (A : Alliance) : Nat := b.pieces A .NullPT

/-- The accessor `getAllPieces()`. -/
def getAllPieces (b : Board) : Nat := b.allPieces

/-- The accessor `getEpSquare()`. -/
def getEpSquare (b : Board) : Nat := b.currentState.epSquare

/-- The accessor `getPiece(square)`: `mailbox[square]`. -/
def getPiece (b : Board) (square : Nat) : PieceType := b.mailbox square

/-- The accessor `hasAttack()`: `currentState->capturedPiece != NullPT`. -/
def hasAttack (b : Board) : Bool := b.currentState.capturedPiece != .NullPT

/-- The accessor `hasCastlingRights<A, KingSide>()`. -/
def hasCastlingRightsKingSide (b : Board) (A : Alliance) : Bool :=
  match A with
  | .White => (b.currentState.castlingRights &&& 0x02) >>> 1 != 0
  | .Black => (b.currentState.castlingRights &&& 0x08) >>> 3 != 0

/-- The accessor `hasCastlingRights<A, QueenSide>()`. -/
def hasCastlingRightsQueenSide (b : Board) (A : Alliance) : Bool :=
  match A with
  | .White => b.currentState.castlingRights &&& 0x01 != 0
  | .Black => (b.currentState.castlingRights &&& 0x04) >>> 2 != 0

/-- The function `Board::hash(current)`. The en-passant random is read when
`currentState->epSquare` is non-zero; a square outside `ByEnPassant[64]`, or
rights outside `CastlingRights[16]`, leave the table and give `none`. -/
def hash (Z : Randoms) (b : Board) (current : Alliance) : Option Nat :=
  let h0 := Z.side current
  let h1 := [PieceType.Pawn, .Rook, .Knight, .Bishop, .Queen, .King].foldl
    (fun h p =>
      let hw := (forBits (b.pieces .White p) (fun _ sq => [sq])).foldl
        (fun h sq => h ^^^ Z.get .White p sq) h
      (forBits (b.pieces .Black p) (fun _ sq => [sq])).foldl
        (fun h sq => h ^^^ Z.get .Black p sq) hw) h0
  let ep := b.currentState.epSquare
  if ep ≠ 0 ∧ ¬ ep < 64 then none
  else if ¬ b.currentState.castlingRights < 16 then none
  else
    let h2 := if ep ≠ 0 then h1 ^^^ Z.getEnPassant ep else h1
    some (h2 ^^^ Z.getCastling b.currentState.castlingRights)

/-- The procedure `Board::applyMove<A>(m, state)`; `state` is the caller's
`State` object, every field of which the procedure overwrites. -/
def applyMoveFor (Z : Randoms) (A : Alliance) (b : Board) (m : Move) (state : State) : Board :=
  let origin := m.origin
  let destination := m.destination
  let isPromotion := m.isPromotion
  let captureType := b.mailbox destination
  let activeType := b.mailbox origin
  let prev := b.currentState
  let us := A
  let them := A.flip
  let originBoard := SquareToBitBoard origin
  let destinationBoard := SquareToBitBoard destination
  let moveBB := originBoard ||| destinationBoard
  let x := defaults us
  let mailbox := setMailbox (setMailbox b.mailbox origin .NullPT) destination activeType
  -- ZOBRIST
  let key := prev.key ^^^ Z.sideOf .White
  let key := key ^^^ Z.sideOf .Black
  let key := key ^^^ Z.get us activeType origin
  let key := if captureType ≠ .NullPT then key ^^^ Z.get them captureType destination else key
  let key := key ^^^ Z.get us activeType destination
  let key := if prev.epSquare ≠ NullSQ then key ^^^ Z.getEnPassant prev.epSquare else key
  let xx := defaults them
  let rights :=
    if captureType = .Rook then
      if destination = xx.kingSideRookOrigin then prev.castlingRights &&& CastlingOffKingSide them
      else if destination = xx.queenSideRookOrigin then
        prev.castlingRights &&& CastlingOffQueenSide them
      else prev.castlingRights
    else prev.castlingRights
  let moveType := m.moveType
  let st : State :=
    { state with
      capturedPiece := captureType, castlingRights := rights, key := key, move := m,
      version := (prev.version + 1) % 256 }
  let b1 : Board :=
    { b with
      mailbox := mailbox, currentPlayerAlliance := them, currentState := st,
      prevStates := prev :: b.prevStates }
  let b2 : Board :=
    if isPromotion then
      let promo := PieceType.cast m.promotionPiece
      let p := setPieces b1.pieces us .Pawn (b1.pieces us .Pawn ^^^ originBoard)
      let p := setPieces p us promo (p us promo ||| destinationBoard)
      let p := setPieces p us .NullPT (p us .NullPT ^^^ moveBB)
      let p :=
        if captureType ≠ .NullPT then
          let p := setPieces p them .NullPT (p them .NullPT ^^^ destinationBoard)
          setPieces p them captureType (p them captureType ^^^ destinationBoard)
        else p
      { b1 with
        pieces := p, allPieces := p us .NullPT ||| p them .NullPT,
        mailbox := setMailbox b1.mailbox destination promo,
        currentState := { b1.currentState with epSquare := NullSQ } }
    else if moveType = MoveType.FreeForm.toNat ∨ moveType = MoveType.PawnJump.toNat then
      let rights :=
        if activeType = .Rook then
          if x.kingSideRookOrigin = origin then rights &&& CastlingOffKingSide us
          else if x.queenSideRookOrigin = origin then rights &&& CastlingOffQueenSide us
          else rights
        else if activeType = .King then rights &&& CastlingOffByAlliance us
        else rights
      let p := setPieces b1.pieces us activeType (b1.pieces us activeType ^^^ moveBB)
      let p := setPieces p us .NullPT (p us .NullPT ^^^ moveBB)
      let p :=
        if captureType ≠ .NullPT then
          let p := setPieces p them .NullPT (p them .NullPT ^^^ destinationBoard)
          setPieces p them captureType (p them captureType ^^^ destinationBoard)
        else p
      let st := { b1.currentState with castlingRights := rights }
      let st :=
        if moveType = MoveType.PawnJump.toNat then
          { st with epSquare := destination, key := st.key ^^^ Z.getEnPassant destination }
        else { st with epSquare := NullSQ }
      { b1 with pieces := p, allPieces := p us .NullPT ||| p them .NullPT, currentState := st }
    else if moveType = MoveType.Castling.toNat then
      let rights := rights &&& CastlingOffByAlliance us
      let kingSide := x.kingSideMask &&& destinationBoard ≠ 0
      let rookMoveBB := if kingSide then x.kingSideRookMoveMask else x.queenSideRookMoveMask
      let rookOrigin := if kingSide then x.kingSideRookOrigin else x.queenSideRookOrigin
      let rookDestination :=
        if kingSide then x.kingSideRookDestination else x.queenSideRookDestination
      let mailbox := setMailbox (setMailbox b1.mailbox rookOrigin .NullPT) rookDestination .Rook
      let key := b1.currentState.key ^^^ Z.get us .Rook rookOrigin
      let key := key ^^^ Z.get us .Rook rookDestination
      let fullBB := moveBB ||| rookMoveBB
      let p := setPieces b1.pieces us .Rook (b1.pieces us .Rook ^^^ rookMoveBB)
      let p := setPieces p us .King (p us .King ^^^ moveBB)
      let p := setPieces p us .NullPT (p us .NullPT ^^^ fullBB)
      { b1 with
        pieces := p, allPieces := b1.allPieces ^^^ fullBB, mailbox := mailbox,
        currentState :=
          { b1.currentState with castlingRights := rights, key := key, epSquare := NullSQ } }
    else
      -- moveType == EnPassant
      let epSquare := prev.epSquare
      let key := b1.currentState.key ^^^ Z.get them .Pawn epSquare
      let captureBB := SquareToBitBoard epSquare
      let p := setPieces b1.pieces us .Pawn (b1.pieces us .Pawn ^^^ moveBB)
      let p := setPieces p us .NullPT (p us .NullPT ^^^ moveBB)
      let p := setPieces p them .Pawn (p them .Pawn ^^^ captureBB)
      let p := setPieces p them .NullPT (p them .NullPT ^^^ captureBB)
      { b1 with
        pieces := p, allPieces := p us .NullPT ||| p them .NullPT,
        mailbox := setMailbox b1.mailbox epSquare .NullPT,
        currentState := { b1.currentState with key := key, epSquare := NullSQ } }
  let key := b2.currentState.key ^^^ Z.getCastling prev.castlingRights
  let key := key ^^^ Z.getCastling b2.currentState.castlingRights
  { b2 with currentState := { b2.currentState with key := key } }

/-- The procedure `Board::retractMove<A>(m)`, with `A` the alliance that made
the move; `none` when the current state has no previous state (the source
then follows a null pointer). -/
def retractMoveFor (A : Alliance) (b : Board) (m : Move) : Option Board :=
  match b.prevStates with
  | [] => none
  | prev :: rest =>
    let us := A
    let them := A.flip
    let origin := m.origin
    let destination := m.destination
    let isPromotion := m.isPromotion
    let captureType := b.currentState.capturedPiece
    let activeType := b.mailbox destination
    let originBoard := SquareToBitBoard origin
    let destinationBoard := SquareToBitBoard destination
    let moveBB := originBoard ||| destinationBoard
    let x := defaults us
    if isPromotion then
      let promo := PieceType.cast m.promotionPiece
      let mailbox := setMailbox (setMailbox b.mailbox origin .Pawn) destination captureType
      let p := setPieces b.pieces us .Pawn (b.pieces us .Pawn ||| originBoard)
      let p := setPieces p us promo (p us promo ^^^ destinationBoard)
      let p := setPieces p us .NullPT (p us .NullPT ^^^ moveBB)
      let p :=
        if captureType ≠ .NullPT then
          let p := setPieces p them .NullPT (p them .NullPT ||| destinationBoard)
          setPieces p them captureType (p them captureType ||| destinationBoard)
        else p
      some
        { pieces := p, allPieces := p us .NullPT ||| p them .NullPT,
          currentPlayerAlliance := us, mailbox := mailbox, currentState := prev,
          prevStates := rest }
    else
      let mailbox := setMailbox (setMailbox b.mailbox origin activeType) destination captureType
      let moveType := m.moveType
      if moveType = MoveType.FreeForm.toNat ∨ moveType = MoveType.PawnJump.toNat then
        let p := setPieces b.pieces us activeType (b.pieces us activeType ^^^ moveBB)
        let p := setPieces p us .NullPT (p us .NullPT ^^^ moveBB)
        let p :=
          if captureType ≠ .NullPT then
            let p := setPieces p them .NullPT (p them .NullPT ||| destinationBoard)
            setPieces p them captureType (p them captureType ||| destinationBoard)
          else p
        some
          { pieces := p, allPieces := p us .NullPT ||| p them .NullPT,
            currentPlayerAlliance := us, mailbox := mailbox, currentState := prev,
            prevStates := rest }
      else if moveType = MoveType.Castling.toNat then
        let kingSide := x.kingSideMask &&& destinationBoard ≠ 0
        let rookMoveBB := if kingSide then x.kingSideRookMoveMask else x.queenSideRookMoveMask
        let rookOrigin := if kingSide then x.kingSideRookOrigin else x.queenSideRookOrigin
        let rookDestination :=
          if kingSide then x.kingSideRookDestination else x.queenSideRookDestination
        let mailbox := setMailbox (setMailbox mailbox rookOrigin .Rook) rookDestination .NullPT
        let fullBB := moveBB ||| rookMoveBB
        let p := setPieces b.pieces us .Rook (b.pieces us .Rook ^^^ rookMoveBB)
        let p := setPieces p us .King (p us .King ^^^ moveBB)
        let p := setPieces p us .NullPT (p us .NullPT ^^^ fullBB)
        some
          { pieces := p, allPieces := b.allPieces ^^^ fullBB, currentPlayerAlliance := us,
            mailbox := mailbox, currentState := prev, prevStates := rest }
      else
        let epSquare := prev.epSquare
        let captureBB := SquareToBitBoard epSquare
        let p := setPieces b.pieces us .Pawn (b.pieces us .Pawn ^^^ moveBB)
        let p := setPieces p us .NullPT (p us .NullPT ^^^ moveBB)
        let p := setPieces p them .NullPT (p them .NullPT ||| captureBB)
        let p := setPieces p them .Pawn (p them .Pawn ||| captureBB)
        some
          { pieces := p, allPieces := p us .NullPT ||| p them .NullPT,
            currentPlayerAlliance := us, mailbox := setMailbox mailbox epSquare .Pawn,
            currentState := prev, prevStates := rest }

/-- The public `Board::applyMove(m, s)`: `applyMove<White>` when White is to
move, else `applyMove<Black>`. -/
def applyMove (Z : Randoms) (b : Board) (m : Move) (s : State) : Board :=
  match b.currentPlayerAlliance with
  | .White => applyMoveFor Z .White b m s
  | .Black => applyMoveFor Z .Black b m s

/-- The public `Board::retractMove(m)`: `retractMove<Black>` when White is to
move, else `retractMove<White>`. -/
def retractMove (b : Board) (m : Move) : Option Board :=
  match b.currentPlayerAlliance with
  | .White => retractMoveFor .Black b m
  | .Black => retractMoveFor .White b m

/-- The builder `Board::Builder<BT>`: the alliance to start, the piece
bitboards `pieces[2][6]`, and the state the builder points to. -/
structure Builder where
  currentPlayerAlliance : Alliance
  pieces : Alliance → PieceType → Nat
  state : State

namespace Builder

/-- The constructor `Builder<Default>(s)`: White to move and the pieces of the
initial position. -/
def ofDefault (s : State) : Builder where
  currentPlayerAlliance := .White
  pieces := fun a pt =>
    match a, pt with
    | .White, .Pawn => 0x000000000000FF00
    | .White, .Rook => 0x0000000000000081
    | .White, .Knight => 0x0000000000000042
    | .White, .Bishop => 0x0000000000000024
    | .White, .Queen => 0x0000000000000010
    | .White, .King => 0x0000000000000008
    | .Black, .Pawn => 0x00FF000000000000
    | .Black, .Rook => 0x8100000000000000
    | .Black, .Knight => 0x4200000000000000
    | .Black, .Bishop => 0x2400000000000000
    | .Black, .Queen => 0x1000000000000000
    | .Black, .King => 0x0800000000000000
    | _, .NullPT => 0
  state := s

/-- The constructor `Builder<Fen>(s)`: every bitboard cleared and
`s.castlingRights = 0`. -/
def ofFen (s : State) : Builder where
  currentPlayerAlliance := .White
  pieces := fun _ _ => 0
  state := { s with castlingRights := 0 }

/-- The method `setPiece(a, pt, sq)`: `pieces[a][pt] |= SquareToBitBoard[sq]`. -/
def setPiece (B : Builder) (a : Alliance) (pt : PieceType) (sq : Nat) : Builder :=
  { B with pieces := setPieces B.pieces a pt (B.pieces a pt ||| SquareToBitBoard sq) }

/-- The method `setEnPassantSquare(square)`. -/
def setEnPassantSquare (B : Builder) (square : Nat) : Builder :=
  { B with state := { B.state with epSquare := square } }

/-- The method `setCastlingRights<true>(c)` for `c` among `K`, `Q`, `k`, `q`
(the source asserts on any other character). -/
def setCastlingRightsOn (B : Builder) (c : Char) : Builder :=
  let cr := B.state.castlingRights
  let cr :=
    if c = 'K' then cr ||| 0x02
    else if c = 'Q' then cr ||| 0x01
    else if c = 'k' then cr ||| 0x08
    else if c = 'q' then cr ||| 0x04
    else cr
  { B with state := { B.state with castlingRights := cr } }

/-- The method `setCurrentPlayer(c)`: White for `w`, else Black. -/
def setCurrentPlayer (B : Builder) (c : Char) : Builder :=
  { B with currentPlayerAlliance := if c = 'w' then .White else .Black }

end Builder

/-- The mailbox filled by the constructor `Board(const Builder&)`: for each
piece type from Pawn to King, the squares of the white and then of the black
bitboard receive the type. -/
def initMailbox (pieces : Alliance → PieceType → Nat) : Nat → PieceType :=
  [PieceType.Pawn, .Rook, .Knight, .Bishop, .Queen, .King].foldl
    (fun mb p =>
      let mw := (forBits (pieces .White p) (fun _ sq => [sq])).foldl
        (fun mb sq => setMailbox mb sq p) mb
      (forBits (pieces .Black p) (fun _ sq => [sq])).foldl
        (fun mb sq => setMailbox mb sq p) mw)
    (fun _ => .NullPT)

/-- The function `sandwich<A>(b)`. -/
def sandwich (pieces : Alliance → PieceType → Nat) (A : Alliance) : Nat :=
  pieces A .Pawn ||| pieces A .Rook ||| pieces A .Knight ||| pieces A .Bishop |||
    pieces A .Queen ||| pieces A .King

/-- The board the constructor `Board(const Builder&)` sets up before it
writes the key. -/
def ofBuilderNoKey (B : Builder) : Board where
  pieces := fun a pt => if pt = .NullPT then sandwich B.pieces a else B.pieces a pt
  allPieces := sandwich B.pieces .White ||| sandwich B.pieces .Black
  currentPlayerAlliance := B.currentPlayerAlliance
  mailbox := initMailbox B.pieces
  currentState := B.state
  prevStates := []

/-- The constructor `Board(const Builder&)` (`Builder::build()`), ending with
`currentState->key = hash(b.currentPlayerAlliance)`. -/
def build (Z : Randoms) (B : Builder) : Option Board :=
  let b := ofBuilderNoKey B
  match hash Z b B.currentPlayerAlliance with
  | none => none
  | some k => some { b with currentState := { b.currentState with key := k } }

end Board

/-! ## Move generation (`MoveMake.h`, `MoveMake.cpp`) -/

/-- The filter types, `enum FilterType { Aggressive, Passive, All }`. -/
inductive FilterType where
  | Aggressive
  | Passive
  | All
  deriving DecidableEq, Repr

/-- The check types, `enum CheckType { None, Check, DoubleCheck }`. -/
inductive CheckType where
  | None
  | Check
  | DoubleCheck
  deriving DecidableEq, Repr

/-- The conversion of an `int` to `unsigned int`. -/
def toUInt32 (i : Int) : Nat := (i % 2 ^ 32).toNat

/-- The function `attacksOn<A, PT>(board, sq)`. -/
def attacksOn (W : Magics) (A : Alliance) (PT : PieceType) (board : Board) (sq : Nat) : Nat :=
  let us := A
  let them := A.flip
  let theirQueens := board.getPieces them .Queen
  let target := if PT = .NullPT then 0 else board.getPieces us PT
  let allPieces := board.getAllPieces &&& not64 target
  (attackBoard W .Rook allPieces sq &&& (board.getPieces them .Rook ||| theirQueens)) |||
  (attackBoard W .Bishop allPieces sq &&& (board.getPieces them .Bishop ||| theirQueens)) |||
  (SquareToKnightAttacks sq &&& board.getPieces them .Knight) |||
  (SquareToPawnAttacks us sq &&& board.getPieces them .Pawn) |||
  (SquareToKingAttacks sq &&& board.getPieces them .King)

/-- The function `calculateCheck(checkBoard)`. -/
def calculateCheck (checkBoard : Nat) : CheckType :=
  if checkBoard = 0 then .None
  else if checkBoard &&& (checkBoard - 1) ≠ 0 then .DoubleCheck
  else .Check

/-- The function `safeSquares<A>(board, destinations)`. -/
def safeSquares (W : Magics) (A : Alliance) (board : Board) (destinations : Nat) : Bool :=
  (forBits destinations (fun _ d => [d])).all (fun d => attacksOn W A .NullPT board d = 0)

/-- The function `makePromotions(moves, o, d)`: the four moves written. -/
def makePromotions (o d : Nat) : List Move :=
  [Move.makePromotion .Rook o d, Move.makePromotion .Knight o d,
   Move.makePromotion .Bishop o d, Move.makePromotion .Queen o d]

/-- The en-passant part of `makePawnMoves<A, FT>` (from `enPassantSquare` to
the end of the function), for a filter other than Passive. -/
def makeEnPassantMoves (L : Lines) (W : Magics) (A : Alliance) (board : Board)
    (checkPath kingSquare freeLowPawns pinnedLowPawns : Nat) : List Move :=
  let us := A
  let them := A.flip
  let x := defaults us
  let allPieces := board.getAllPieces
  let king := board.getPieces us .King
  let enPassantSquare := board.getEpSquare
  if enPassantSquare = NullSQ then []
  else
    let eppBoard := SquareToBitBoard enPassantSquare
    let destBoard := shift x.up eppBoard
    if destBoard &&& checkPath = 0 ∧ eppBoard &&& SquareToPawnAttacks us kingSquare = 0 then []
    else
      let passMask :=
        shift x.right (eppBoard &&& x.notRightCol) ||| shift x.left (eppBoard &&& x.notLeftCol)
      let freePasses := passMask &&& freeLowPawns
      let pinnedPasses := passMask &&& pinnedLowPawns
      if ¬ (freePasses ≠ 0 ∨ pinnedPasses ≠ 0) then []
      else
        let discovered : Bool :=
          if king &&& x.enPassantRank ≠ 0 then
            let snipers :=
              (board.getPieces them .Queen ||| board.getPieces them .Rook) &&& x.enPassantRank
            (forBits snipers (fun s _ => [s])).any (fun s =>
              let path := L.pathBoard (bitScanFwd s) kingSquare
              if eppBoard &&& path ≠ 0 then
                let b := allPieces &&& not64 snipers &&& path
                let c := b &&& (b - 1)
                decide (b ≠ 0 ∧ c ≠ 0 ∧ c &&& (c - 1) = 0)
              else false)
          else if L.pathBoard kingSquare enPassantSquare ≠ 0 then
            let diagonalSnipers :=
              attackBoard W .Bishop 0 kingSquare &&&
                (board.getPieces them .Bishop ||| board.getPieces them .Queen)
            (forBits diagonalSnipers (fun s _ => [s])).any (fun s =>
              let path := L.pathBoard (bitScanFwd s) kingSquare
              if eppBoard &&& path ≠ 0 then
                let b := allPieces &&& path
                decide (b ≠ 0 ∧ b &&& (b - 1) = 0)
              else false)
          else false
        if discovered then []
        else
          let destinationSquare : Int := (enPassantSquare : Int) + x.up
          forBits freePasses (fun _ o =>
            [Move.make .EnPassant o (toUInt32 destinationSquare)]) ++
          forBits pinnedPasses (fun _ o =>
            if destBoard &&& L.rayBoard kingSquare o ≠ 0 then
              [Move.make .EnPassant o (toUInt32 destinationSquare)]
            else [])

/-- The function `makePawnMoves<A, FT>(board, checkPath, kingGuard, kingSquare,
moves)`: the moves it writes, in order. -/
def makePawnMoves (L : Lines) (W : Magics) (A : Alliance) (FT : FilterType) (board : Board)
    (checkPath kingGuard kingSquare : Nat) : List Move :=
  let us := A
  let them := A.flip
  let x := defaults us
  let enemies := board.getPiecesOf them &&& checkPath
  let allPieces := board.getAllPieces
  let emptySquares := not64 allPieces
  let pawns := board.getPieces us .Pawn
  let freePawns := pawns &&& not64 kingGuard
  let pinnedPawns := pawns &&& kingGuard
  let freeLowPawns := freePawns &&& not64 x.prePromotionMask
  let freeHighPawns := freePawns &&& x.prePromotionMask
  let pinnedLowPawns := pinnedPawns &&& not64 x.prePromotionMask
  let pinnedHighPawns := pinnedPawns &&& x.prePromotionMask
  -- pushes of free low pawns
  (if FT ≠ .Aggressive then
    let p1 := shift x.up freeLowPawns &&& emptySquares
    let p2 := shift x.up (p1 &&& x.pawnJumpSquares) &&& emptySquares
    let p1 := p1 &&& checkPath
    let p2 := p2 &&& checkPath
    forBits p1 (fun _ d => [Move.makePlain (toUInt32 ((d : Int) + x.down)) d]) ++
    forBits p2 (fun _ d => [Move.make .PawnJump (toUInt32 ((d : Int) + x.down + x.down)) d])
  else []) ++
  -- captures of free low pawns
  (if FT ≠ .Passive then
    let ar := shift x.upRight (freeLowPawns &&& x.notRightCol) &&& enemies
    let al := shift x.upLeft (freeLowPawns &&& x.notLeftCol) &&& enemies
    forBits ar (fun _ d => [Move.makePlain (toUInt32 ((d : Int) + x.downLeft)) d]) ++
    forBits al (fun _ d => [Move.makePlain (toUInt32 ((d : Int) + x.downRight)) d])
  else []) ++
  -- pinned low pawns
  (if pinnedLowPawns ≠ 0 then
    (if FT ≠ .Aggressive then
      let p1 := shift x.up pinnedLowPawns &&& emptySquares
      let p2 := shift x.up (p1 &&& x.pawnJumpSquares) &&& emptySquares
      let p1 := p1 &&& checkPath
      let p2 := p2 &&& checkPath
      forBits p1 (fun p1 d =>
        let o := (d : Int) + x.down
        if L.rayBoard kingSquare o.toNat &&& p1 &&& neg64 p1 ≠ 0 then
          [Move.makePlain (toUInt32 o) d]
        else []) ++
      forBits p2 (fun p2 d =>
        let o := (d : Int) + x.down + x.down
        if L.rayBoard kingSquare o.toNat &&& p2 &&& neg64 p2 ≠ 0 then
          [Move.make .PawnJump (toUInt32 o) d]
        else [])
    else []) ++
    (if FT ≠ .Passive then
      let ar := shift x.upRight (pinnedLowPawns &&& x.notRightCol) &&& enemies
      let al := shift x.upLeft (pinnedLowPawns &&& x.notLeftCol) &&& enemies
      forBits ar (fun ar d =>
        let o := (d : Int) + x.downLeft
        if L.rayBoard kingSquare o.toNat &&& ar &&& neg64 ar ≠ 0 then
          [Move.makePlain (toUInt32 o) d]
        else []) ++
      forBits al (fun al d =>
        let o := (d : Int) + x.downRight
        if L.rayBoard kingSquare o.toNat &&& al &&& neg64 al ≠ 0 then
          [Move.makePlain (toUInt32 o) d]
        else [])
    else [])
  else []) ++
  -- promotions of free high pawns
  (if freeHighPawns ≠ 0 then
    (if FT ≠ .Aggressive then
      let p1 := shift x.up freeHighPawns &&& emptySquares &&& checkPath
      forBits p1 (fun _ d => makePromotions (toUInt32 ((d : Int) + x.down)) d)
    else []) ++
    (if FT ≠ .Passive then
      let ar := shift x.upRight (freeHighPawns &&& x.notRightCol) &&& enemies
      let al := shift x.upLeft (freeHighPawns &&& x.notLeftCol) &&& enemies
      forBits ar (fun _ d => makePromotions (toUInt32 ((d : Int) + x.downLeft)) d) ++
      forBits al (fun _ d => makePromotions (toUInt32 ((d : Int) + x.downRight)) d)
    else [])
  else []) ++
  -- promotions of pinned high pawns
  (if pinnedHighPawns ≠ 0 then
    (if FT ≠ .Aggressive then
      let p1 := shift x.up pinnedHighPawns &&& emptySquares &&& checkPath
      forBits p1 (fun p1 d =>
        let o := (d : Int) + x.down
        if L.rayBoard kingSquare o.toNat &&& p1 &&& neg64 p1 ≠ 0 then
          makePromotions (toUInt32 o) d
        else [])
    else []) ++
    (if FT ≠ .Passive then
      let ar := shift x.upRight (pinnedHighPawns &&& x.notRightCol) &&& enemies
      let al := shift x.upLeft (pinnedHighPawns &&& x.notLeftCol) &&& enemies
      forBits ar (fun ar d =>
        let o := (d : Int) + x.downLeft
        if L.rayBoard kingSquare o.toNat &&& ar &&& neg64 ar ≠ 0 then
          makePromotions (toUInt32 o) d
        else []) ++
      forBits al (fun al d =>
        let o := (d : Int) + x.downRight
        if L.rayBoard kingSquare o.toNat &&& al &&& neg64 al ≠ 0 then
          makePromotions (toUInt32 o) d
        else [])
    else [])
  else []) ++
  -- en passant
  (if FT = .Passive then []
  else makeEnPassantMoves L W A board checkPath kingSquare freeLowPawns pinnedLowPawns)

/-- The function `makeMoves<A, PT>(board, kingGuard, filter, kingSquare, moves)`
for a piece type among Rook, Knight, Bishop and Queen: the moves it writes. -/
def makeMovesOf (L : Lines) (W : Magics) (A : Alliance) (PT : PieceType) (board : Board)
    (kingGuard filter kingSquare : Nat) : List Move :=
  let us := A
  let pieceBoard := board.getPieces us PT
  let freePieces := pieceBoard &&& not64 kingGuard
  let allPieces := board.getAllPieces
  let free := forBits freePieces (fun _ origin =>
    forBits (attackBoard W PT allPieces origin &&& filter) (fun _ d =>
      [Move.makePlain origin d]))
  if PT = .Knight then free
  else
    let pinnedPieces := pieceBoard &&& kingGuard
    free ++
    (if pinnedPieces ≠ 0 then
      forBits pinnedPieces (fun _ origin =>
        forBits (attackBoard W PT allPieces origin &&& filter &&& L.rayBoard kingSquare origin)
          (fun _ d => [Move.makePlain origin d]))
    else [])

/-- The function `makeMoves<A, FT>(board, moves)`: the moves it writes, in
order (its return value is their number). -/
def makeMoves (L : Lines) (W : Magics) (A : Alliance) (FT : FilterType) (board : Board) :
    List Move :=
  let us := A
  let them := A.flip
  let allPieces := board.getAllPieces
  let ourPieces := board.getPiecesOf us
  let theirPieces := board.getPiecesOf them
  let partialFilter :=
    if FT = .All then not64 ourPieces
    else if FT = .Passive then not64 allPieces
    else theirPieces
  let king := board.getPieces us .King
  let x := defaults us
  let ksq := bitScanFwd king
  let checkBoard := attacksOn W us .King board ksq
  let checkType := calculateCheck checkBoard
  let nonKing :=
    if checkType ≠ .DoubleCheck then
      let theirQueens := board.getPieces them .Queen
      let snipers :=
        (attackBoard W .Rook 0 ksq &&& (board.getPieces them .Rook ||| theirQueens)) |||
        (attackBoard W .Bishop 0 ksq &&& (board.getPieces them .Bishop ||| theirQueens))
      let blockers := (forBits snipers (fun _ ssq => [ssq])).foldl
        (fun blockers ssq =>
          let blocker := L.pathBoard ssq ksq &&& allPieces
          if blocker ≠ 0 ∧ blocker &&& (blocker - 1) = 0 then blockers ||| blocker
          else blockers) 0
      let kingGuard := ourPieces &&& blockers
      let checkPath :=
        if checkType = .Check then L.pathBoard ksq (bitScanFwd checkBoard) ||| checkBoard
        else FullBoard
      let fullFilter := partialFilter &&& checkPath
      makeMovesOf L W us .Queen board kingGuard fullFilter ksq ++
      makeMovesOf L W us .Knight board kingGuard fullFilter ksq ++
      makeMovesOf L W us .Bishop board kingGuard fullFilter ksq ++
      makeMovesOf L W us .Rook board kingGuard fullFilter ksq ++
      makePawnMoves L W us FT board checkPath kingGuard ksq
    else []
  let kingMoves := forBits (SquareToKingAttacks ksq &&& partialFilter) (fun _ dest =>
    if attacksOn W us .King board dest = 0 then [Move.makePlain ksq dest] else [])
  if FT = .Aggressive ∨ checkType ≠ .None then nonKing ++ kingMoves
  else
    nonKing ++ kingMoves ++
    (if x.kingSideMask &&& allPieces = 0 ∧ board.hasCastlingRightsKingSide us = true ∧
        safeSquares W us board x.kingSideCastlePath = true then
      [Move.make .Castling ksq x.kingSideDestination]
    else []) ++
    (if x.queenSideMask &&& allPieces = 0 ∧ board.hasCastlingRightsQueenSide us = true ∧
        safeSquares W us board x.queenSideCastlePath = true then
      [Move.make .Castling ksq x.queenSideDestination]
    else [])

/-- The function `MoveFactory::generateMoves<FT>(board, moves)`: the moves
written to the list. -/
def generateMoves (L : Lines) (W : Magics) (FT : FilterType) (board : Board) : List Move :=
  match board.currentPlayer with
  | .White => makeMoves L W .White FT board
  | .Black => makeMoves L W .Black FT board

/-! ## FEN parsing (`Fen.h`) -/

namespace FenUtility

/-- The string `PieceToChar = "PRNBQK"`. -/
def PieceToChar : List Char := ['P', 'R', 'N', 'B', 'Q', 'K']

/-- The table `AlgebraicNotationToSquare[file][rank]`. -/
def AlgebraicNotationToSquare : List (List Nat) :=
  [[7, 15, 23, 31, 39, 47, 55, 63],
   [6, 14, 22, 30, 38, 46, 54, 62],
   [5, 13, 21, 29, 37, 45, 53, 61],
   [4, 12, 20, 28, 36, 44, 52, 60],
   [3, 11, 19, 27, 35, 43, 51, 59],
   [2, 10, 18, 26, 34, 42, 50, 58],
   [1, 9, 17, 25, 33, 41, 49, 57],
   [0, 8, 16, 24, 32, 40, 48, 56]]

/-- The function `find(c)`: the index of `c` in `PieceToChar`; the model gives
255 (the `PieceType` that `-1` converts to) when there is none. -/
def find (c : Char) : Nat :=
  match PieceToChar.indexOf? c with
  | some i => i
  | none => 255

/-- The function `isLowerCase(c)`: `c > 96 && c < 123`. -/
def isLowerCase (c : Char) : Bool := decide (c.toNat > 96) && decide (c.toNat < 123)

/-- The piece-placement loops of `parseBoard`:
`for (int sq = A8; sq >= H1; ++c) for (; *c != '/' && *c != ' '; ++c) ...`,
on the characters still to read; `none` when the string ends inside the
loops. The result is the rest of the string and the builder. -/
def parsePlacement : Nat → List Char → Int → Board.Builder → Option (List Char × Board.Builder)
  | 0, _, _, _ => none
  | _ + 1, [], _, _ => none
  | n + 1, c :: cs, sq, B =>
    if c = '/' ∨ c = ' ' then
      if sq ≥ 0 then parsePlacement n cs sq B else some (cs, B)
    else if c.toNat > 48 ∧ c.toNat < 57 then parsePlacement n cs (sq - (c.toNat - 48 : Nat)) B
    else
      let a := if isLowerCase c then Alliance.Black else Alliance.White
      let pt := PieceType.cast (find (Char.ofNat (c.toNat - (if a = .Black then 32 else 0))))
      parsePlacement n cs (sq - 1) (B.setPiece a pt sq.toNat)

/-- The castling loop of `parseBoard`:
`for (; *c != ' '; ++c) b.setCastlingRights<true>(*c); ++c;`. -/
def parseCastling : List Char → Board.Builder → Option (List Char × Board.Builder)
  | [], _ => none
  | c :: cs, B => if c = ' ' then some (cs, B) else parseCastling cs (B.setCastlingRightsOn c)

/-- The builder `parseBoard(fen, x)` passes to `build()`; `none` when the
string ends before the en-passant field. -/
def parseBuilder (fen : List Char) (x : State) : Option Board.Builder :=
  match parsePlacement (fen.length + 1) fen 63 (Board.Builder.ofFen x) with
  | none => none
  | some (c, B) =>
    match c with
    | a :: _ :: c2 =>
      let B := B.setCurrentPlayer a
      let r : Option (List Char × Board.Builder) :=
        match c2 with
        | [] => none
        | h :: t => if h ≠ '-' then parseCastling c2 B else some (t.drop 1, B)
      match r with
      | none => none
      | some (c3, B) =>
        match c3 with
        | [] => none
        | f :: rest =>
          if f ≠ '-' then
            match rest with
            | [] => none
            | rk :: _ =>
              let sq : Int :=
                (((AlgebraicNotationToSquare.getD (f.toNat - 97) []).getD (rk.toNat - 49) 0 : Nat) :
                  Int) + (if a = 'w' then -8 else 8)
              some (B.setEnPassantSquare (sq % 256).toNat)
          else some B
    | _ => none

/-- The function `parseBoard(fen, x)`. -/
def parseBoard (Z : Randoms) (fen : String) (x : State) : Option Board :=
  match parseBuilder fen.toList x with
  | none => none
  | some B => Board.build Z B

end FenUtility

/-! ## The tables of `Paths.h` and `Rays.h` -/

/-- The step from square `a` towards square `b` when the two share a rank, a
file or a diagonal. -/
def lineStep (a b : Nat) : Option Int :=
  let df : Int := (b % 8 : Nat) - (a % 8 : Nat)
  let dr : Int := (b / 8 : Nat) - (a / 8 : Nat)
  if a = b then none
  else if df = 0 ∨ dr = 0 ∨ df.natAbs = dr.natAbs then some (Int.sign dr * 8 + Int.sign df)
  else none

/-- The squares met walking from `o` in steps of `d` (at most `n` of them),
stopping before the square `stop` and at the edge of the board. -/
def lineWalk : Nat → Int → Int → Int → Nat → Nat
  | 0, _, _, _, acc => acc
  | n + 1, o, d, stop, acc =>
    if withinBounds o d then
      if o + d = stop then acc else lineWalk n (o + d) d stop (acc ||| 2 ^ (o + d).toNat)
    else acc

/-- Modelled from the spec: the tables `Paths` and `Rays` of the headers
`Paths.h` and `Rays.h`, which are not among the sources. `pathBoard a b` holds
the squares strictly between two squares that share a rank, a file or a
diagonal, and is 0 otherwise (section 4.1; in `ChaosMagic.h`, the path that
bridges the given squares). `rayBoard a b` holds every square of the line
through two such squares, and is 0 otherwise (in `ChaosMagic.h`, the ray that
intersects the given squares). -/
def PathsAndRays : Lines where
  pathBoard := fun a b =>
    match lineStep a b with
    | none => 0
    | some d => lineWalk 8 a d b 0
  rayBoard := fun a b =>
    match lineStep a b with
    | none => 0
    | some d => lineWalk 8 a d (-1) (lineWalk 8 a (-d) (-1) (2 ^ a))

/-! ## Predicates used in the statements -/

/-- The hash of a position recomputed from scratch as the specification
defines it: the side-to-move random, XOR the piece-square random of the piece
standing on each occupied square, XOR the en-passant random when the
en-passant square is not `NullSQ`, XOR the castling-rights random. -/
def scratchHash (Z : Randoms) (b : Board) : Nat :=
  let h := Z.sideOf b.currentPlayerAlliance
  let h := (List.range 64).foldl
    (fun h sq =>
      if b.mailbox sq = .NullPT then h
      else if (b.pieces .White .NullPT).testBit sq then h ^^^ Z.get .White (b.mailbox sq) sq
      else h ^^^ Z.get .Black (b.mailbox sq) sq) h
  let h := if b.currentState.epSquare ≠ NullSQ then h ^^^ Z.getEnPassant b.currentState.epSquare
    else h
  h ^^^ Z.getCastling b.currentState.castlingRights

/-- Board consistency: every bitboard is a 64-bit value, `pieces[c][NullPT]`
is the union of the six kind boards of colour `c`, `allPieces` is the union of
both colours, no square is set in two different (colour, kind) boards, and
`mailbox[sq] = k` exactly when some `pieces[c][k]` has bit `sq` set (so the
mailbox holds `NullPT` exactly when no board has the bit). -/
structure Board.Consistent (b : Board) : Prop where
  range : ∀ c k, b.pieces c k < 2 ^ 64
  union : ∀ c, b.pieces c .NullPT = Board.sandwich b.pieces c
  all : b.allPieces = b.pieces .White .NullPT ||| b.pieces .Black .NullPT
  disjoint : ∀ sq c k c2 k2, k ≠ .NullPT → k2 ≠ .NullPT →
    (b.pieces c k).testBit sq = true → (b.pieces c2 k2).testBit sq = true → c = c2 ∧ k = k2
  mailbox : ∀ sq, sq < 64 → ∀ k, k ≠ .NullPT →
    (b.mailbox sq = k ↔ ∃ c, (b.pieces c k).testBit sq = true)

/-- The state of the board fits its pieces, for the side to move: that side
has a king; a castling right it holds comes with its rook on the corner the
right names; and the en-passant square, unless it is `NullSQ` or no pawn of the
side to move stands beside it on its rank, holds an enemy pawn and has the
empty square of the board behind that pawn in front of it. -/
structure Board.StateFits (b : Board) : Prop where
  king : b.pieces b.currentPlayerAlliance .King ≠ 0
  kingSide : b.hasCastlingRightsKingSide b.currentPlayerAlliance = true →
    (b.pieces b.currentPlayerAlliance .Rook).testBit
      (defaults b.currentPlayerAlliance).kingSideRookOrigin = true
  queenSide : b.hasCastlingRightsQueenSide b.currentPlayerAlliance = true →
    (b.pieces b.currentPlayerAlliance .Rook).testBit
      (defaults b.currentPlayerAlliance).queenSideRookOrigin = true
  enPassant : b.currentState.epSquare = NullSQ ∨
    (shift (defaults b.currentPlayerAlliance).right
        (SquareToBitBoard b.currentState.epSquare &&&
          (defaults b.currentPlayerAlliance).notRightCol) |||
      shift (defaults b.currentPlayerAlliance).left
        (SquareToBitBoard b.currentState.epSquare &&&
          (defaults b.currentPlayerAlliance).notLeftCol)) &&&
      b.pieces b.currentPlayerAlliance .Pawn = 0 ∨
    (b.currentState.epSquare < 64 ∧
      (b.pieces b.currentPlayerAlliance.flip .Pawn).testBit b.currentState.epSquare = true ∧
      0 ≤ (b.currentState.epSquare : Int) + (defaults b.currentPlayerAlliance).up ∧
      (b.currentState.epSquare : Int) + (defaults b.currentPlayerAlliance).up < 64 ∧
      b.allPieces.testBit
        ((b.currentState.epSquare : Int) + (defaults b.currentPlayerAlliance).up).toNat = false)

/-- A property holds of the value of an option, which is present. -/
def Option.Holds {α : Type} (o : Option α) (P : α → Prop) : Prop :=
  match o with
  | some a => P a
  | none => False

/-- Whether a property holds of the value of an option can be decided. -/
instance Option.decidableHolds {α : Type} (o : Option α) (P : α → Prop) [DecidablePred P] :
    Decidable (Option.Holds o P) :=
  match o with
  | some a => inferInstanceAs (Decidable (P a))
  | none => inferInstanceAs (Decidable False)

/-- The non-null piece types, in the order of the enumeration. -/
def PieceType.kinds : List PieceType := [.Pawn, .Rook, .Knight, .Bishop, .Queen, .King]

/-- The (colour, kind) pairs that name a piece bitboard. -/
def Board.slots : List (Alliance × PieceType) :=
  PieceType.kinds.map (fun k => (Alliance.White, k)) ++
    PieceType.kinds.map (fun k => (Alliance.Black, k))

/-- Board consistency as a computation over the fourteen bitboards and the 64
mailbox entries. -/
def Board.consistentB (b : Board) : Bool :=
  (Board.slots.all fun s => decide (b.pieces s.1 s.2 < 2 ^ 64)) &&
  decide (b.pieces .White .NullPT = Board.sandwich b.pieces .White) &&
  decide (b.pieces .Black .NullPT = Board.sandwich b.pieces .Black) &&
  decide (b.allPieces = b.pieces .White .NullPT ||| b.pieces .Black .NullPT) &&
  (Board.slots.all fun s => Board.slots.all fun t =>
    decide (s = t) || decide (b.pieces s.1 s.2 &&& b.pieces t.1 t.2 = 0)) &&
  ((List.range 64).all fun sq => PieceType.kinds.all fun k =>
    decide (b.mailbox sq = k) ==
      ((b.pieces .White k).testBit sq || (b.pieces .Black k).testBit sq))

/-- The random tables `initRandoms()` builds when `time(nullptr)` is 1. -/
def RandomsAtOne : Randoms := initRandoms 1

/-- What `applyMove` takes for granted of the move it is given, on the board
before the move: origin and destination are squares, a piece of the side to
move stands on the origin and none on the destination; a promotion starts from
a pawn; a castling move starts from the king, ends on one of the two castling
destinations, which is empty, with the rook of that side on its corner and the
rook's destination empty; an en-passant capture starts from a pawn, ends on an
empty square, and the en-passant square is a square holding an enemy pawn. -/
structure Board.MoveFits (b : Board) (m : Move) : Prop where
  origin_lt : m.origin < 64
  destination_lt : m.destination < 64
  own : (b.pieces b.currentPlayerAlliance .NullPT).testBit m.origin = true
  notOwn : (b.pieces b.currentPlayerAlliance .NullPT).testBit m.destination = false
  promotion : m.isPromotion = true →
    (b.pieces b.currentPlayerAlliance .Pawn).testBit m.origin = true
  castling : m.isPromotion = false → m.moveType = MoveType.Castling.toNat →
    (b.pieces b.currentPlayerAlliance .King).testBit m.origin = true ∧
    b.allPieces.testBit m.destination = false ∧
    ((m.destination = (defaults b.currentPlayerAlliance).kingSideDestination ∧
        (b.pieces b.currentPlayerAlliance .Rook).testBit
          (defaults b.currentPlayerAlliance).kingSideRookOrigin = true ∧
        b.allPieces.testBit (defaults b.currentPlayerAlliance).kingSideRookDestination = false) ∨
      (m.destination = (defaults b.currentPlayerAlliance).queenSideDestination ∧
        (b.pieces b.currentPlayerAlliance .Rook).testBit
          (defaults b.currentPlayerAlliance).queenSideRookOrigin = true ∧
        b.allPieces.testBit (defaults b.currentPlayerAlliance).queenSideRookDestination = false))
  enPassant : m.isPromotion = false → m.moveType = MoveType.EnPassant.toNat →
    (b.pieces b.currentPlayerAlliance .Pawn).testBit m.origin = true ∧
    b.allPieces.testBit m.destination = false ∧
    b.currentState.epSquare < 64 ∧
    (b.pieces b.currentPlayerAlliance.flip .Pawn).testBit b.currentState.epSquare = true

/-- The piece standing on a square of a board, read from the mailbox and the
union slots. -/
def Board.occupant (b : Board) (sq : Nat) : Option (Alliance × PieceType) :=
  if sq < 64 then
    if b.mailbox sq = .NullPT then none
    else if (b.pieces .White .NullPT).testBit sq then some (.White, b.mailbox sq)
    else if (b.pieces .Black .NullPT).testBit sq then some (.Black, b.mailbox sq)
    else none
  else none

/-- The board is the picture of a placement `f` of pieces on squares: each
bitboard holds the squares of its pieces, the union slots and `allPieces` the
squares of a colour and of all pieces, and the mailbox the kind on each square. -/
structure Board.PlacedBy (b : Board) (f : Nat → Option (Alliance × PieceType)) : Prop where
  noNull : ∀ sq c, f sq ≠ some (c, .NullPT)
  bound : ∀ sq, 64 ≤ sq → f sq = none
  kind : ∀ c k sq, k ≠ .NullPT → ((b.pieces c k).testBit sq = true ↔ f sq = some (c, k))
  union : ∀ c sq, (b.pieces c .NullPT).testBit sq = true ↔ ∃ k, f sq = some (c, k)
  all : ∀ sq, b.allPieces.testBit sq = true ↔ f sq ≠ none
  mailbox : ∀ sq, sq < 64 →
    b.mailbox sq = (match f sq with
      | some (_, k) => k
      | none => .NullPT)

/-- A position with the white king on e1, the white rook on h1 and the black
king on e8, White to move holding the king-side castling right, as
`Builder<Fen>` over a default-constructed `State` sets it up, before the key
is written. -/
def Board.kingAndRook : Board :=
  Board.ofBuilderNoKey
    (((((Board.Builder.ofFen State.default).setPiece .White .King 3).setPiece
      .White .Rook 0).setPiece .Black .King 59).setCastlingRightsOn 'K')

namespace Board

/-- The procedure `Board::applyNull<A>(state)`; `state` is the caller's `State`
object, of which the procedure leaves the field `epSquare` as it finds it. -/
def applyNullFor (Z : Randoms) (A : Alliance) (b : Board) (state : State) : Board :=
  let prev := b.currentState
  let key := prev.key ^^^ Z.sideOf .White
  let key := key ^^^ Z.sideOf .Black
  let key := if prev.epSquare ≠ NullSQ then key ^^^ Z.getEnPassant prev.epSquare else key
  { b with
    currentState :=
      { state with
        capturedPiece := .NullPT, castlingRights := prev.castlingRights, key := key,
        move := NullMove, version := (prev.version + 1) % 256 },
    prevStates := prev :: b.prevStates,
    currentPlayerAlliance := A.flip }

/-- The procedure `Board::retractNull<A>()`; `none` when the current state has
no previous state (the source then follows a null pointer). -/
def retractNullFor (A : Alliance) (b : Board) : Option Board :=
  match b.prevStates with
  | [] => none
  | prev :: rest =>
    some { b with currentPlayerAlliance := A, currentState := prev, prevStates := rest }

/-- The public `Board::applyNullMove(s)`: `applyNull<White>` when White is to
move, else `applyNull<Black>`. -/
def applyNullMove (Z : Randoms) (b : Board) (s : State) : Board :=
  match b.currentPlayerAlliance with
  | .White => applyNullFor Z .White b s
  | .Black => applyNullFor Z .Black b s

/-- The public `Board::retractNullMove()`: `retractNull<Black>` when White is
to move, else `retractNull<White>`. -/
def retractNullMove (b : Board) : Option Board :=
  match b.currentPlayerAlliance with
  | .White => retractNullFor .Black b
  | .Black => retractNullFor .White b

end Board

/-- How `applyMove` reads a move as an en-passant capture: not a promotion,
with the type field `EnPassant`. -/
def Move.isEnPassant (m : Move) : Prop :=
  m.isPromotion = false ∧ m.moveType = MoveType.EnPassant.toNat

/-- How `applyMove` reads a move as a castling move: not a promotion, with the
type field `Castling`. -/
def Move.isCastling (m : Move) : Prop :=
  m.isPromotion = false ∧ m.moveType = MoveType.Castling.toNat

/-- How `applyMove` reads a move as a pawn jump: not a promotion, with the type
field `PawnJump`. -/
def Move.isPawnJump (m : Move) : Prop :=
  m.isPromotion = false ∧ m.moveType = MoveType.PawnJump.toNat

/-- Whether a move reads as an en-passant capture can be decided. -/
instance Move.decidableIsEnPassant (m : Move) : Decidable m.isEnPassant := by
  unfold Move.isEnPassant; infer_instance

/-- Whether a move reads as a castling move can be decided. -/
instance Move.decidableIsCastling (m : Move) : Decidable m.isCastling := by
  unfold Move.isCastling; infer_instance

/-- Whether a move reads as a pawn jump can be decided. -/
instance Move.decidableIsPawnJump (m : Move) : Decidable m.isPawnJump := by
  unfold Move.isPawnJump; infer_instance

/-- The effect the specification gives a castling move `m` made by the side to
move of `b`, read on the board `b2` after the move: the rights of the mover are
gone and those of the other side are as before; the king has left the origin
of the move for its destination; the rook has left the king-side corner for the
king-side rook destination when the destination lies in `kingSideMask`, and
the queen-side corner for the queen-side rook destination otherwise, in the
bitboards and in the mailbox; and the en-passant square is `NullSQ`. -/
structure Board.CastlingEffect (b b2 : Board) (m : Move) : Prop where
  rights : b2.currentState.castlingRights =
    b.currentState.castlingRights &&& CastlingOffByAlliance b.currentPlayerAlliance
  ownKingSide : b2.hasCastlingRightsKingSide b.currentPlayerAlliance = false
  ownQueenSide : b2.hasCastlingRightsQueenSide b.currentPlayerAlliance = false
  theirKingSide : b2.hasCastlingRightsKingSide b.currentPlayerAlliance.flip =
    b.hasCastlingRightsKingSide b.currentPlayerAlliance.flip
  theirQueenSide : b2.hasCastlingRightsQueenSide b.currentPlayerAlliance.flip =
    b.hasCastlingRightsQueenSide b.currentPlayerAlliance.flip
  kingBoard : b2.pieces b.currentPlayerAlliance .King =
    b.pieces b.currentPlayerAlliance .King ^^^
      (SquareToBitBoard m.origin ||| SquareToBitBoard m.destination)
  kingFrom : (b.pieces b.currentPlayerAlliance .King).testBit m.origin = true
  kingLeft : (b2.pieces b.currentPlayerAlliance .King).testBit m.origin = false
  kingArrived : (b2.pieces b.currentPlayerAlliance .King).testBit m.destination = true
  mailboxOrigin : b2.mailbox m.origin = .NullPT
  mailboxDestination : b2.mailbox m.destination = .King
  rookFrom : (b.pieces b.currentPlayerAlliance .Rook).testBit
    (if (defaults b.currentPlayerAlliance).kingSideMask &&& SquareToBitBoard m.destination ≠ 0
      then (defaults b.currentPlayerAlliance).kingSideRookOrigin
      else (defaults b.currentPlayerAlliance).queenSideRookOrigin) = true
  rookLeft : (b2.pieces b.currentPlayerAlliance .Rook).testBit
    (if (defaults b.currentPlayerAlliance).kingSideMask &&& SquareToBitBoard m.destination ≠ 0
      then (defaults b.currentPlayerAlliance).kingSideRookOrigin
      else (defaults b.currentPlayerAlliance).queenSideRookOrigin) = false
  rookArrived : (b2.pieces b.currentPlayerAlliance .Rook).testBit
    (if (defaults b.currentPlayerAlliance).kingSideMask &&& SquareToBitBoard m.destination ≠ 0
      then (defaults b.currentPlayerAlliance).kingSideRookDestination
      else (defaults b.currentPlayerAlliance).queenSideRookDestination) = true
  mailboxRookOrigin : b2.mailbox
    (if (defaults b.currentPlayerAlliance).kingSideMask &&& SquareToBitBoard m.destination ≠ 0
      then (defaults b.currentPlayerAlliance).kingSideRookOrigin
      else (defaults b.currentPlayerAlliance).queenSideRookOrigin) = .NullPT
  mailboxRookDestination : b2.mailbox
    (if (defaults b.currentPlayerAlliance).kingSideMask &&& SquareToBitBoard m.destination ≠ 0
      then (defaults b.currentPlayerAlliance).kingSideRookDestination
      else (defaults b.currentPlayerAlliance).queenSideRookDestination) = .Rook
  epSquare : b2.currentState.epSquare = NullSQ

/-- The eight compass directions. -/
def CompassDirections : List Int :=
  [North, South, East, West, NorthEast, NorthWest, SouthEast, SouthWest]

/-- Following the words of the specification: the square one step from the
square `s` in the compass direction `D`, in file and rank coordinates
(`fileOf` counts the files from 0 to 7 eastwards, `rankOf` the ranks from 0 to
7 northwards); `none` when the step leaves the board. -/
def stepSquare (D : Int) (s : Nat) : Option Nat :=
  let df : Int :=
    if D = East ∨ D = NorthEast ∨ D = SouthEast then 1
    else if D = West ∨ D = NorthWest ∨ D = SouthWest then -1 else 0
  let dr : Int :=
    if D = North ∨ D = NorthEast ∨ D = NorthWest then 1
    else if D = South ∨ D = SouthEast ∨ D = SouthWest then -1 else 0
  let f : Int := fileOf s + df
  let r : Int := rankOf s + dr
  if s < 64 ∧ 0 ≤ f ∧ f < 8 ∧ 0 ≤ r ∧ r < 8 then some (r * 8 + f).toNat else none

/-- Following the words of the specification: the set of on-board squares one
step in direction `D` from a set square of the bitboard `b`. -/
def stepBoard (D : Int) (b : Nat) : Nat :=
  (List.range 64).foldl
    (fun acc s =>
      match (if b.testBit s then stepSquare D s else none) with
      | some t => acc ||| 2 ^ t
      | none => acc) 0

/-- The squares a shift in direction `D` may start from without leaving the
board over its east or west edge: all but the east-most file for an eastward
direction, all but the west-most file for a westward one. -/
def edgeMask (D : Int) : Nat :=
  if D = East ∨ D = NorthEast ∨ D = SouthEast then 0x7F7F7F7F7F7F7F7F
  else if D = West ∨ D = NorthWest ∨ D = SouthWest then 0xFEFEFEFEFEFEFEFE
  else FullBoard

/-! ## Move lists and the quiescence search (`MoveMake.h`, `MoveMake.cpp`, `Backtrack.cpp`) -/

/-- The table `val[7][7]` (most valuable victim, least valuable attacker),
indexed by the victim and then by the attacker. -/
def valTable : List (List Nat) :=
  [[ 5,  3,  4,  4,  2,  1, 0],
   [25, 23, 24, 24, 22, 21, 0],
   [15, 13, 14, 14, 12, 11, 0],
   [15, 13, 14, 14, 12, 11, 0],
   [35, 33, 34, 34, 32, 31, 0],
   [ 0,  0,  0,  0,  0,  0, 0],
   [ 0,  0,  0,  0,  0,  0, 0]]

/-- Reading `val[victim][attacker]`. -/
def val (victim attacker : Nat) : Nat := (valTable.getD victim []).getD attacker 0

/-- The fields of `struct control` that the move lists and the quiescence
search read or write: the history counters, the node counter, the quiescence
depth limit, the killer moves by ply, and the principal-variation move. -/
structure Control where
  history : Alliance → Nat → Nat → Nat
  NODES : Int
  Q_PLY : Int
  killers : Nat → Nat → Move
  pvMove : Move

/-- The method `control::isKiller(depth, m)`. -/
def Control.isKiller (c : Control) (depth : Int) (m : Move) : Bool :=
  decide (c.killers depth.toNat 0 = m) || decide (c.killers depth.toNat 1 = m)

/-- One pass of the insertion sorts `_sort_attacks` and `_sort_quiets`: the
move `t` is put into the sorted moves before it,
`while (--j >= l && key(t) > key(*j)) j[1] = *j; j[1] = t;`: the moves at the
end of `sorted` with a key below that of `t` move up by one place. -/
def insertByKey (key : Move → Nat) (t : Move) (sorted : List Move) : List Move :=
  (sorted.reverse.dropWhile (fun j => decide (key t > key j))).reverse ++
    t :: (sorted.reverse.takeWhile (fun j => decide (key t > key j))).reverse

/-- The insertion sort `for (Move *i = l; i <= r; ++i)` over a segment of
moves, in non-increasing order of the key. -/
def sortByKey (key : Move → Nat) (moves : List Move) : List Move :=
  moves.foldl (fun sorted t => insertByKey key t sorted) []

/-- The function `_sort_attacks(b, l, r)`: the key of a move is
`val[b->getPiece(destination)][b->getPiece(origin)]`. -/
def sortAttacks (b : Board) (moves : List Move) : List Move :=
  sortByKey (fun m => val (b.getPiece m.destination).toNat (b.getPiece m.origin).toNat) moves

/-- The function `_sort_quiets(b, l, r, q)`: the key of a move is
`q->history[b->currentPlayer()][origin][destination]`. -/
def sortQuiets (b : Board) (q : Control) (moves : List Move) : List Move :=
  sortByKey (fun m => q.history b.currentPlayer m.origin m.destination) moves

/-- The loop of `_sort_killers(l, r, q, d)`: `placed` are the killers brought
to the front so far, `skipped` the moves passed over, in their order. The loop
ends when two killers are placed or the segment is exhausted. -/
def sortKillersAux (q : Control) (d : Int) :
    List Move → List Move → List Move → List Move × List Move
  | placed, skipped, [] => (placed, skipped)
  | placed, skipped, k :: rest =>
    if placed.length < 2 then
      if q.isKiller d k then sortKillersAux q d (placed ++ [k]) skipped rest
      else sortKillersAux q d placed (skipped ++ [k]) rest
    else (placed, skipped ++ k :: rest)

/-- The function `_sort_killers(l, r, q, d)`: the killers placed at the front
of the segment, and the moves from the returned pointer on. -/
def sortKillers (q : Control) (d : Int) (moves : List Move) : List Move × List Move :=
  sortKillersAux q d [] [] moves

/-- The function `_sort_pvmove(l, r, q)`: the first move equal to `q->pvMove`
goes to the front, the moves before it move up by one place. -/
def sortPvmove (q : Control) (moves : List Move) : List Move :=
  if q.pvMove ∈ moves then
    q.pvMove :: (moves.takeWhile (fun k => decide (k ≠ q.pvMove)) ++
      (moves.dropWhile (fun k => decide (k ≠ q.pvMove))).drop 1)
  else moves

/-- The constructor `MoveList<Q>(b, q, d)`: the attacks, sorted when there is
more than one. -/
def moveListQ (L : Lines) (W : Magics) (b : Board) : List Move :=
  let attacks := generateMoves L W .Aggressive b
  if attacks.length > 1 then sortAttacks b attacks else attacks

/-- The constructor `MoveList<AB>(b, q, d)`: the sorted attacks, then the
quiets with the killers first and the rest by history, and the
principal-variation move, when there is one, brought to the front. -/
def moveListAB (L : Lines) (W : Magics) (b : Board) (q : Control) (d : Int) : List Move :=
  let attacks := moveListQ L W b
  let quiets := generateMoves L W .Passive b
  let ks := sortKillers q d quiets
  let rest := if ks.2.length > 1 then sortQuiets b q ks.2 else ks.2
  let all := attacks ++ ks.1 ++ rest
  if q.pvMove = NullMove then all else sortPvmove q all

/-- What the search takes from outside the sources at hand: the functions of
`Eval.h` (`eval<A>`, `isMatePossible`, `repeating`, `mateEval`), which is not
among the sources, and the system clock read by `abort`: `expired n` tells
whether the `n`-th reading of the clock finds the allotted time used up. -/
structure Oracle where
  eval : Alliance → Board → Int
  isMatePossible : Board → Bool
  repeating : Board → Int → Bool
  mateEval : Int → Int
  expired : Nat → Bool

/-- The state of a search: the controls and the number of readings of the
clock made so far. -/
structure Search where
  control : Control
  clockReads : Nat

/-- The loops `for (State s; ...)` of `quiescence<A>` over the move list:
each move is applied, scored by the negated value of `child` (the call
`quiescence<~A>(b, d + 1, r - 1, -o, -a, c)`) and retracted; the loop returns
beta on the first score that reaches it and raises alpha otherwise. The result
is `none` when the child has none or when `retractMove` finds no previous
state. The state object `s` is overwritten by `applyMove`. -/
def searchMoves (Z : Randoms)
    (child : Board → Int → Int → Search → Option (Int × Board × Search)) :
    List Move → Board → Int → Int → Search → Option (Int × Board × Search)
  | [], b, a, _, c => some (a, b, c)
  | k :: ks, b, a, o, c =>
    match child (b.applyMove Z k State.default) (-o) (-a) c with
    | none => none
    | some (v, b2, c2) =>
      match b2.retractMove k with
      | none => none
      | some b3 =>
        let score := -v
        if score ≥ o then some (o, b3, c2)
        else searchMoves Z child ks b3 (if score > a then score else a) o c2

/-- The function `quiescence<A>(b, d, r, a, o, c)`, with the value it returns,
the board and the search state it leaves; `fuel` bounds the depth of the
recursion, and the result is `none` when it is used up. The scores are
integers; the source computes them in `int32_t`. -/
def quiescence (O : Oracle) (Z : Randoms) (L : Lines) (W : Magics) :
    Nat → Alliance → Board → Int → Int → Int → Int → Search → Option (Int × Board × Search)
  | 0, _, _, _, _, _, _, _ => none
  | fuel + 1, A, b, d, r, a, o, c =>
    let expired := O.expired c.clockReads
    let c : Search := { c with clockReads := c.clockReads + 1 }
    if expired then some (0, b, c)
    else
      let c : Search := { c with control := { c.control with NODES := c.control.NODES + 1 } }
      if !O.isMatePossible b || O.repeating b d then some (0, b, c)
      else if attacksOn W A .King b (bitScanFwd (b.getPieces A .King)) ≠ 0 then
        let c : Search := { c with control := { c.control with pvMove := NullMove } }
        let ml := moveListAB L W b c.control d
        if ml.length ≤ 0 then some (-O.mateEval d, b, c)
        else
          searchMoves Z
            (fun b2 a2 o2 c2 => quiescence O Z L W fuel A.flip b2 (d + 1) (r - 1) a2 o2 c2)
            ml b a o c
      else if r ≤ -c.control.Q_PLY then some (O.eval A b, b, c)
      else
        let sp := O.eval A b
        if sp ≥ o then some (o, b, c)
        else
          let a := if a < sp then sp else a
          let c : Search := { c with control := { c.control with pvMove := NullMove } }
          let ml := moveListQ L W b
          searchMoves Z
            (fun b2 a2 o2 c2 => quiescence O Z L W fuel A.flip b2 (d + 1) (r - 1) a2 o2 c2)
            ml b a o c

/-- The position `7k/5Q2/6K1/8/8/8/8/8` with Black to move and no castling
rights, as `Builder<Fen>` over a default-constructed `State` sets it up, before
the key is written. -/
def Board.stalemate : Board :=
  Board.ofBuilderNoKey
    (((((Board.Builder.ofFen State.default).setPiece .Black .King 56).setPiece
      .White .Queen 50).setPiece .White .King 41).setCurrentPlayer 'b')

/-- An oracle for evaluations at concrete positions: a clock that never
expires, mate always possible, no repetition, the evaluation `v` at every
position and the mate score `32767 - d`. -/
def Oracle.constant (v : Int) : Oracle where
  eval := fun _ _ => v
  isMatePossible := fun _ => true
  repeating := fun _ _ => false
  mateEval := fun d => 32767 - d
  expired := fun _ => false

/-- Controls for evaluations at concrete positions: the history counters and
the killers as `control::clearHistory()` leaves them, the node counter 0, no
principal-variation move, and the quiescence depth limit `qply`. -/
def Control.cleared (qply : Int) : Control where
  history := fun _ _ _ => 0
  NODES := 0
  Q_PLY := qply
  killers := fun _ _ => NullMove
  pvMove := NullMove

/-- What the filter of `generateMoves<FT>` asks of a destination square: no
piece of the side to move for `All`, no piece at all for `Passive`, a piece of
the other side for `Aggressive`. -/
def Board.Target (b : Board) (FT : FilterType) (d : Nat) : Prop :=
  match FT with
  | .All => (b.pieces b.currentPlayerAlliance .NullPT).testBit d = false
  | .Passive => b.allPieces.testBit d = false
  | .Aggressive => (b.pieces b.currentPlayerAlliance.flip .NullPT).testBit d = true

/-- How a move comes to be written by `generateMoves<FT>`, with what the
generator has tested of it. `plain`: a move of a piece of kind `PT` of the side
to move from `o` to a destination the filter admits; a king moves from the
king square to a square not attacked, and any other piece moves only when the
king is not in double check. `promotion`: one of the four promotions of a pawn.
`jump`: a double push to an empty square. `enPassant`: an en-passant capture by
a pawn to the empty square behind the pawn on the en-passant square.
`castling`: a castling move from the king square, written when the king is not
in check, the corridor of the side is empty, the right is held and the path of
the king is safe. -/
inductive Board.Written (W : Magics) (b : Board) (FT : FilterType) : Move → Prop
  | plain (PT : PieceType) (o d : Nat) (hPT : PT ≠ .NullPT) (ho : o < 64) (hd : d < 64)
      (hown : (b.pieces b.currentPlayerAlliance PT).testBit o = true)
      (ht : b.Target FT d)
      (hking : PT = .King → o = bitScanFwd (b.getPieces b.currentPlayerAlliance .King) ∧
        attacksOn W b.currentPlayerAlliance .King b d = 0)
      (hchk : PT ≠ .King →
        calculateCheck (attacksOn W b.currentPlayerAlliance .King b
          (bitScanFwd (b.getPieces b.currentPlayerAlliance .King))) ≠ .DoubleCheck) :
      Board.Written W b FT (Move.makePlain o d)
  | promotion (o d : Nat) (m : Move) (ho : o < 64) (hd : d < 64)
      (hown : (b.pieces b.currentPlayerAlliance .Pawn).testBit o = true)
      (ht : b.Target FT d)
      (hchk : calculateCheck (attacksOn W b.currentPlayerAlliance .King b
          (bitScanFwd (b.getPieces b.currentPlayerAlliance .King))) ≠ .DoubleCheck)
      (hm : m ∈ makePromotions o d) :
      Board.Written W b FT m
  | jump (o d : Nat) (ho : o < 64) (hd : d < 64)
      (hown : (b.pieces b.currentPlayerAlliance .Pawn).testBit o = true)
      (hFT : FT ≠ .Aggressive) (hempty : b.allPieces.testBit d = false)
      (hchk : calculateCheck (attacksOn W b.currentPlayerAlliance .King b
          (bitScanFwd (b.getPieces b.currentPlayerAlliance .King))) ≠ .DoubleCheck) :
      Board.Written W b FT (Move.make .PawnJump o d)
  | enPassant (o d : Nat) (ho : o < 64) (hd : d < 64)
      (hown : (b.pieces b.currentPlayerAlliance .Pawn).testBit o = true)
      (hFT : FT ≠ .Passive) (hempty : b.allPieces.testBit d = false)
      (hchk : calculateCheck (attacksOn W b.currentPlayerAlliance .King b
          (bitScanFwd (b.getPieces b.currentPlayerAlliance .King))) ≠ .DoubleCheck) :
      Board.Written W b FT (Move.make .EnPassant o d)
  | castling (d : Nat) (hFT : FT ≠ .Aggressive)
      (hchk : attacksOn W b.currentPlayerAlliance .King b
        (bitScanFwd (b.getPieces b.currentPlayerAlliance .King)) = 0)
      (hside :
        (d = (defaults b.currentPlayerAlliance).kingSideDestination ∧
          (defaults b.currentPlayerAlliance).kingSideMask &&& b.allPieces = 0 ∧
          b.hasCastlingRightsKingSide b.currentPlayerAlliance = true ∧
          safeSquares W b.currentPlayerAlliance b
            (defaults b.currentPlayerAlliance).kingSideCastlePath = true) ∨
        (d = (defaults b.currentPlayerAlliance).queenSideDestination ∧
          (defaults b.currentPlayerAlliance).queenSideMask &&& b.allPieces = 0 ∧
          b.hasCastlingRightsQueenSide b.currentPlayerAlliance = true ∧
          safeSquares W b.currentPlayerAlliance b
            (defaults b.currentPlayerAlliance).queenSideCastlePath = true)) :
      Board.Written W b FT
        (Move.make .Castling (bitScanFwd (b.getPieces b.currentPlayerAlliance .King)) d)

/-- The position `r3k2r/8/8/8/8/8/8/R3K2R` with White to move and all four
castling rights, as `Builder<Fen>` over a default-constructed `State` sets it
up, before the key is written. -/
def Board.castles : Board :=
  Board.ofBuilderNoKey
    (Board.Builder.setCastlingRightsOn
      (Board.Builder.setCastlingRightsOn
        (Board.Builder.setCastlingRightsOn
          (Board.Builder.setCastlingRightsOn
            (((((((Board.Builder.ofFen State.default).setPiece .Black .Rook 63).setPiece
              .Black .King 59).setPiece .Black .Rook 56).setPiece .White .Rook 7).setPiece
              .White .King 3).setPiece .White .Rook 0)
            'K')
          'Q')
        'k')
      'q')

/-- The squares the inner loop of `initFancyMagics` steps on from `o` in
direction `d` when no blocker stops it: it goes on while `withinBounds(o, d)`
holds; at most `n` steps. -/
def raySquares : Nat → Int → Int → List Nat
  | 0, _, _ => []
  | n + 1, o, d => if withinBounds o d then (o + d).toNat :: raySquares n (o + d) d else []

/-- The squares of a walk up to and including its first square set in `occ`. -/
def stopAt (occ : Nat) : List Nat → List Nat
  | [] => []
  | s :: l => if occ.testBit s then [s] else s :: stopAt occ l

/-- All squares of a walk but its last one are set in `mask`. -/
def innerIn (mask : Nat) : List Nat → Bool
  | [] => true
  | [_] => true
  | s :: t :: l => mask.testBit s && innerIn mask (t :: l)

/-- Reference walk, from the words of the specification: the squares reached
from the square on file `file` and rank `rank` by steps of `df` files and `dr`
ranks, staying on the board (files and ranks 0 to 7, so no wrap between
files), up to and including the first square set in `occ`. A walk on the board
has at most 7 steps. -/
def walkRef : Nat → Int → Int → Int → Int → Nat → List Nat
  | 0, _, _, _, _, _ => []
  | n + 1, file, rank, df, dr, occ =>
    if 0 ≤ file + df ∧ file + df ≤ 7 ∧ 0 ≤ rank + dr ∧ rank + dr ≤ 7 then
      if occ.testBit (8 * (rank + dr) + (file + df)).toNat then
        [(8 * (rank + dr) + (file + df)).toNat]
      else (8 * (rank + dr) + (file + df)).toNat :: walkRef n (file + df) (rank + dr) df dr occ
    else []

/-- The four rook steps in files and ranks: north, west, south, east. -/
def rookStepsRef : List (Int × Int) := [(0, 1), (-1, 0), (0, -1), (1, 0)]

/-- The four bishop steps in files and ranks: north-west, south-west,
south-east, north-east. -/
def bishopStepsRef : List (Int × Int) := [(-1, 1), (-1, -1), (1, -1), (1, 1)]

/-- Reference attack set, from the words of the specification: the squares
reached by walking from `sq` in each of the given directions. -/
def reachedRef (steps : List (Int × Int)) (occ sq : Nat) : List Nat :=
  steps.flatMap (fun st => walkRef 8 ((sq % 8 : Nat) : Int) ((sq / 8 : Nat) : Int) st.1 st.2 occ)

/-- The squares of the reference walk when no square is occupied. -/
def lineRef (n : Nat) (file rank df dr : Int) : List Nat := walkRef n file rank df dr 0

/-- The step by `d` squares in files and ranks, for the eight directions. -/
def stepOf (d : Int) : Int × Int :=
  if d = North then (0, 1) else if d = South then (0, -1)
  else if d = East then (1, 0) else if d = West then (-1, 0)
  else if d = NorthEast then (1, 1) else if d = NorthWest then (-1, 1)
  else if d = SouthEast then (1, -1) else (-1, -1)

/-- The checks of the rays of one square: the loop of `initFancyMagics` walks
the same squares as the reference walk, ends before 8 steps, and all squares
of a rook or bishop ray but the last lie in the blocker mask. -/
def rayChecks (sq : Nat) : Bool :=
  (RookDirections ++ BishopDirections).all (fun d =>
    decide (raySquares 8 sq d =
      lineRef 8 ((sq % 8 : Nat) : Int) ((sq / 8 : Nat) : Int) (stepOf d).1 (stepOf d).2) &&
    decide ((raySquares 8 sq d).length < 8)) &&
  RookDirections.all (fun d => innerIn (SquareToRookBlockerMask sq) (raySquares 8 sq d)) &&
  BishopDirections.all (fun d => innerIn (SquareToBishopBlockerMask sq) (raySquares 8 sq d))

/-- The table `FancyRookSizes[]`. -/
def FancyRookSizesTable : List Nat :=
  [
    4096, 2048, 2048, 2048, 2048, 2048, 2048, 4096,
    2048, 1024, 1024, 1024, 1024, 1024, 1024, 2048,
    2048, 1024, 1024, 1024, 1024, 1024, 1024, 2048,
    2048, 1024, 1024, 1024, 1024, 1024, 1024, 2048,
    2048, 1024, 1024, 1024, 1024, 1024, 1024, 2048,
    2048, 1024, 1024, 1024, 1024, 1024, 1024, 2048,
    2048, 1024, 1024, 1024, 1024, 1024, 1024, 2048,
    4096, 2048, 2048, 2048, 2048, 2048, 2048, 4096
  ]

/-- The table `FancyBishopSizes[]`. -/
def FancyBishopSizesTable : List Nat :=
  [
    64, 32, 32, 32, 32, 32, 32, 64,
    32, 32, 32, 32, 32, 32, 32, 32,
    32, 32, 128, 128, 128, 128, 32, 32,
    32, 32, 128, 512, 512, 128, 32, 32,
    32, 32, 128, 512, 512, 128, 32, 32,
    32, 32, 128, 128, 128, 128, 32, 32,
    32, 32, 32, 32, 32, 32, 32, 32,
    64, 32, 32, 32, 32, 32, 32, 64
  ]

/-- Reading `FancyRookSizes[sq]`. -/
def FancyRookSizes (sq : Nat) : Nat := FancyRookSizesTable.getD sq 0

/-- Reading `FancyBishopSizes[sq]`. -/
def FancyBishopSizes (sq : Nat) : Nat := FancyBishopSizesTable.getD sq 0

/-- The length of the array `RookAttacks[102400]`. -/
def RookAttacksLength : Nat := 102400

/-- The length of the array `BishopAttacks[5248]`. -/
def BishopAttacksLength : Nat := 5248

/-- The class `FancyMagic` with `USE_BMI2` defined: the pointer
`attackBoards`, kept as the index in the attack table where the segment of the
square starts, and the blocker mask. -/
structure FancyMagic where
  attackBoards : Nat
  mask : Nat
  deriving DecidableEq, Repr

/-- The difference `a - b` of two `uint64_t`. -/
def sub64 (a b : Nat) : Nat := (a + (U64 - b % U64)) % U64

/-- The method `FancyMagic::Builder::placeAttacks(blockerBoard, attackBoard)`:
`attacks[HASH(blockerBoard, mask, magicNumber, shiftAmount)] = attackBoard`,
on an attack table of `size` entries; a write outside the table has no
result. -/
def placeAttacks (size attacks mask : Nat) (table : Nat → Nat) (blockerBoard attackBoard : Nat) :
    Option (Nat → Nat) :=
  if attacks + pext blockerBoard mask < size then
    some (fun j => if j = attacks + pext blockerBoard mask then attackBoard else table j)
  else none

/-- The loop `do { ... blockerBoard = (blockerBoard - mask) & mask; }
while (blockerBoard > 0);` of `initFancyMagics` for the square `sq`: each pass
builds the attack board of `blockerBoard` and places it; at most `n` passes,
and no result when the passes run out. -/
def fillAttacks (directions : List Int) (size attacks mask sq : Nat) :
    Nat → Nat → (Nat → Nat) → Option (Nat → Nat)
  | 0, _, _ => none
  | n + 1, blockerBoard, table =>
    match placeAttacks size attacks mask table blockerBoard
        (castRays directions sq blockerBoard) with
    | none => none
    | some placed =>
      if sub64 blockerBoard mask &&& mask > 0 then
        fillAttacks directions size attacks mask sq n (sub64 blockerBoard mask &&& mask) placed
      else some placed

/-- The loop `for (int sq = H1; sq <= A8; ++sq)` of `initFancyMagics`, for
`count` squares from `sq` on: the magics written to `incantations` and the
attack table. The carry-rippler loop of a square runs over `uint64_t` values,
so it gets `U64` passes. -/
def initSquares (directions : List Int) (blockerMask sizes : Nat → Nat) (size : Nat) :
    Nat → Nat → Nat → (Nat → Nat) → Option (List FancyMagic × (Nat → Nat))
  | 0, _, _, table => some ([], table)
  | count + 1, sq, attackPointer, table =>
    match fillAttacks directions size attackPointer (blockerMask sq) sq U64 0 table with
    | none => none
    | some filled =>
      match initSquares directions blockerMask sizes size count (sq + 1)
          (attackPointer + sizes sq) filled with
      | none => none
      | some (incantations, attackTable) =>
        some (⟨attackPointer, blockerMask sq⟩ :: incantations, attackTable)

/-- The function `initFancyMagics(incantations, attackTable, directions,
blockerMask, magicNumbers, sizes)` on an attack table of `size` entries, all 0
before (the tables are global arrays). -/
def initFancyMagics (directions : List Int) (blockerMask sizes : Nat → Nat) (size : Nat) :
    Option (List FancyMagic × (Nat → Nat)) :=
  initSquares directions blockerMask sizes size 64 0 0 (fun _ => 0)

/-- The method `FancyMagic::getAttacks(blockerBoard)`:
`attackBoards[HASH(blockerBoard, mask, magicNumber, shiftAmount)]`, read from
an attack table of `size` entries; a read outside the table has no result. -/
def FancyMagic.getAttacks (fm : FancyMagic) (size : Nat) (table : Nat → Nat)
    (blockerBoard : Nat) : Option Nat :=
  if fm.attackBoards + pext blockerBoard fm.mask < size then
    some (table (fm.attackBoards + pext blockerBoard fm.mask))
  else none

/-- The globals that `Witchcraft::init` fills: the arrays
`RookAttackWitchcraft` and `BishopAttackWitchcraft` of magics and the attack
tables `RookAttacks` and `BishopAttacks`. -/
structure Cauldron where
  RookAttackWitchcraft : List FancyMagic
  BishopAttackWitchcraft : List FancyMagic
  RookAttacks : Nat → Nat
  BishopAttacks : Nat → Nat

/-- The function `Witchcraft::init()` with `USE_BMI2` defined. -/
def Witchcraft.init : Option Cauldron :=
  (initFancyMagics RookDirections SquareToRookBlockerMask FancyRookSizes RookAttacksLength).bind
    (fun rooks =>
      (initFancyMagics BishopDirections SquareToBishopBlockerMask FancyBishopSizes
        BishopAttacksLength).bind
        (fun bishops => some ⟨rooks.1, bishops.1, rooks.2, bishops.2⟩))

/-- The lookups `attackBoard<PT>(board, sq)` on the globals, for `PT` among
Rook, Knight, Bishop, Queen and King; no result where an array is read outside
its bounds. -/
def Cauldron.attackBoard (C : Cauldron) (PT : PieceType) (board sq : Nat) : Option Nat :=
  match PT with
  | .Rook =>
    (C.RookAttackWitchcraft.get? sq).bind
      (fun fm => fm.getAttacks RookAttacksLength C.RookAttacks board)
  | .Knight => SquareToKnightAttacksTable.get? sq
  | .Bishop =>
    (C.BishopAttackWitchcraft.get? sq).bind
      (fun fm => fm.getAttacks BishopAttacksLength C.BishopAttacks board)
  | .Queen =>
    (C.RookAttackWitchcraft.get? sq).bind (fun fm =>
      (fm.getAttacks RookAttacksLength C.RookAttacks board).bind (fun rook =>
        (C.BishopAttackWitchcraft.get? sq).bind (fun fm2 =>
          (fm2.getAttacks BishopAttacksLength C.BishopAttacks board).bind (fun bishop =>
            some (rook ||| bishop)))))
  | .King => SquareToKingAttacksTable.get? sq
  | _ => none

/-- The index in the attack table where the segment of square `sq` starts: the
sum of the sizes of the squares before. -/
def segmentStart (sizes : Nat → Nat) : Nat → Nat
  | 0 => 0
  | sq + 1 => segmentStart sizes sq + sizes sq

/-- The checks of the blocker mask and segment size of one square: the mask is
a 64-bit value and the segment has room for every subset of the mask. -/
def segmentChecks (blockerMask sizes : Nat → Nat) (sq : Nat) : Bool :=
  decide (blockerMask sq < 2 ^ 64) && decide (2 ^ highBitCount (blockerMask sq) ≤ sizes sq)

/-- The search state after the entry of `quiescence<A>`: the clock has been
read once more and the node counted (`++c->NODES`). -/
def Search.entered (c : Search) : Search :=
  { clockReads := c.clockReads + 1,
    control := { c.control with NODES := c.control.NODES + 1 } }

/-- The search state after `c->pvMove = NullMove`. -/
def Search.withoutPv (c : Search) : Search :=
  { c with control := { c.control with pvMove := NullMove } }

/-- The position `4r2k/8/8/8/8/5n2/8/4K3` with White to move and no castling
rights, as `Builder<Fen>` over a default-constructed `State` sets it up, before
the key is written: the white king on e1 is attacked by the rook on e8 and by
the knight on f3. -/
def Board.doubleCheck : Board :=
  Board.ofBuilderNoKey
    (((((Board.Builder.ofFen State.default).setPiece .Black .Rook 59).setPiece
      .Black .King 56).setPiece .Black .Knight 18).setPiece .White .King 3)

/-- Reading the move `*p` at the index `i` of an array of moves (the pointer
`p`, counted in moves from the start of the array); an index outside the array
reads `NullMove` in the model. -/
def getMove (arr : List Move) (i : Nat) : Move := (arr.get? i).getD NullMove

/-- The assignment `*p = v` at the index `i` of an array of moves; an index
outside the array is left out in the model. -/
def setMove (arr : List Move) (i : Nat) (v : Move) : List Move := arr.set i v

/-- The `n` moves of an array from the index `l` on. -/
def segment (arr : List Move) (l n : Nat) : List Move :=
  (List.range n).map (fun i => getMove arr (l + i))

/-- The inner loop of `_sort_attacks` and `_sort_quiets` with what follows it,
`while (--j >= l && key(t) > key(*j)) j[1] = *j; j[1] = t;`, entered with
`j = l + n`: the pointer goes down by one each pass, so `n` counts the passes
left before `--j >= l` fails. -/
def shiftInsert (key : Move → Nat) (l : Nat) (t : Move) : Nat → List Move → List Move
  | 0, arr => setMove arr l t
  | n + 1, arr =>
    if key t > key (getMove arr (l + n)) then
      shiftInsert key l t n (setMove arr (l + n + 1) (getMove arr (l + n)))
    else setMove arr (l + n + 1) t

/-- The outer loop `for (Move *i = l; i <= r; ++i)` of `_sort_attacks` and
`_sort_quiets`, entered with `i = l + k` and `n` passes left before `i <= r`
fails: `t = *i` is put into the moves before it. -/
def sortLoop (key : Move → Nat) (l : Nat) : Nat → Nat → List Move → List Move
  | 0, _, arr => arr
  | n + 1, k, arr => sortLoop key l n (k + 1) (shiftInsert key l (getMove arr (l + k)) k arr)

/-- The function `_sort_attacks(b, l, r)` on an array of moves, with `l` an
index of the array and `r` an index or the index before `l`: the loop makes
`r - l + 1` passes (none when `r < l`). -/
def sortAttacksArray (b : Board) (arr : List Move) (l : Nat) (r : Int) : List Move :=
  sortLoop (fun m => val (b.getPiece m.destination).toNat (b.getPiece m.origin).toNat) l
    (r - (l : Int) + 1).toNat 0 arr

/-- The function `_sort_quiets(b, l, r, q)` on an array of moves. -/
def sortQuietsArray (b : Board) (arr : List Move) (l : Nat) (r : Int) (q : Control) : List Move :=
  sortLoop (fun m => q.history b.currentPlayer m.origin m.destination) l
    (r - (l : Int) + 1).toNat 0 arr

/-- The loop `while (--p >= l) p[1] = *p;` of `_sort_killers` and
`_sort_pvmove`, entered with `p = l + n`: the `n` moves from `l` on move up by
one place. -/
def shiftUp (l : Nat) : Nat → List Move → List Move
  | 0, arr => arr
  | n + 1, arr => shiftUp l n (setMove arr (l + n + 1) (getMove arr (l + n)))

/-- The loop `for (Move* k = l; l < ob && k <= r; ++k)` of `_sort_killers`,
with `n` passes left before `k <= r` fails: a killer at `k` is taken out, the
moves from `l` to `k - 1` move up by one place, the killer is written to `*l`
and `l` goes up by one. The result is the pointer `l` and the array. -/
def sortKillersLoop (q : Control) (d : Int) (ob : Nat) :
    Nat → Nat → Nat → List Move → Nat × List Move
  | 0, l, _, arr => (l, arr)
  | n + 1, l, k, arr =>
    if l < ob then
      if q.isKiller d (getMove arr k) then
        sortKillersLoop q d ob n (l + 1) (k + 1)
          (setMove (shiftUp l (k - l) arr) l (getMove arr k))
      else sortKillersLoop q d ob n l (k + 1) arr
    else (l, arr)

/-- The function `_sort_killers(l, r, q, d)` on an array of moves: the pointer
it returns and the array. -/
def sortKillersArray (arr : List Move) (l : Nat) (r : Int) (q : Control) (d : Int) :
    Nat × List Move :=
  sortKillersLoop q d (l + 2) (r - (l : Int) + 1).toNat l l arr

/-- The loop `for (Move* k = l; k <= r; ++k)` of `_sort_pvmove`, with `n`
passes left before `k <= r` fails: at the first move equal to `q->pvMove` the
moves from `l` to `k - 1` move up by one place, the move is written to `*l`
and the loop ends. -/
def sortPvmoveLoop (q : Control) (l : Nat) : Nat → Nat → List Move → List Move
  | 0, _, arr => arr
  | n + 1, k, arr =>
    if getMove arr k ≠ q.pvMove then sortPvmoveLoop q l n (k + 1) arr
    else setMove (shiftUp l (k - l) arr) l (getMove arr k)

/-- The function `_sort_pvmove(l, r, q)` on an array of moves. -/
def sortPvmoveArray (arr : List Move) (l : Nat) (r : Int) (q : Control) : List Move :=
  sortPvmoveLoop q l (r - (l : Int) + 1).toNat l arr

/-- The moves `generateMoves<FT>(b, base)` writes to the array from the index
`base` on, one after the other. -/
def writeMoves : List Move → Nat → List Move → List Move
  | arr, _, [] => arr
  | arr, base, k :: ks => writeMoves (setMove arr base k) (base + 1) ks

/-- A move list, `class MoveList`: the array `Move m[256]` and the field
`size`. -/
structure MoveList where
  m : List Move
  size : Nat

/-- The moves of a move list from `begin()` to `end()`. -/
def MoveList.toList (ml : MoveList) : List Move := segment ml.m 0 ml.size

/-- The constructor `MoveList<Q>(b, q, d)`, on an array that holds `m0`
before: the attacks are generated and, when there is more than one, sorted. -/
def MoveList.ofQ (L : Lines) (W : Magics) (b : Board) (m0 : List Move) : MoveList :=
  let attacks := generateMoves L W .Aggressive b
  let size := attacks.length
  let m := writeMoves m0 0 attacks
  let m := if size > 1 then sortAttacksArray b m 0 ((0 : Int) + ((size : Int) - 1)) else m
  ⟨m, size⟩

/-- The constructor `MoveList<AB>(b, q, d)`, on an array that holds `m0`
before. -/
def MoveList.ofAB (L : Lines) (W : Magics) (b : Board) (q : Control) (d : Int)
    (m0 : List Move) : MoveList :=
  let ml := MoveList.ofQ L W b m0
  let base := 0 + ml.size
  let quiets := generateMoves L W .Passive b
  let size := ml.size + quiets.length
  let m := writeMoves ml.m base quiets
  let e : Int := (0 : Int) + (size : Int) - 1
  let sorted := sortKillersArray m base e q d
  let base := sorted.1
  let m := sorted.2
  let m := if e > (base : Int) then sortQuietsArray b m base e q else m
  if q.pvMove = NullMove then ⟨m, size⟩
  else ⟨sortPvmoveArray m 0 e q, size⟩

/-- The constant `INT32_MAX`. -/
def INT32_MAX : Int := 2147483647

/-- The constant `INT32_MIN`. -/
def INT32_MIN : Int := -2147483648

/-- The negation `-x` of an `int32_t`, with the value the two's complement gives
when `x` is `INT32_MIN`. -/
def neg32 (x : Int) : Int := Zobrist.toInt32 (-x)

/-- A node of the search tree in memory, `class Node`. The list `children` is
the `NodeList` in the order of the pointers `next` from `tail` on; `parent`
tells whether the pointer `parent` is set (the root has none); `pvNode` is the
place in `children` of the child the pointer `pvNode` points to, if any. -/
structure Node where
  children : List Node
  parent : Bool
  pvNode : Option Nat
  alpha : Int
  beta : Int
  vminus : Int
  vplus : Int
  score : Int
  move : Move
  flags : Nat

/-- The constructor `Node(p, m, t, s)` of a node with a parent. -/
def Node.create (m : Move) (t : Nat) (s : Int) : Node :=
  { children := [], parent := true, pvNode := none, alpha := -INT32_MAX, beta := INT32_MAX,
    vminus := -INT32_MAX, vplus := INT32_MAX, score := s, move := m, flags := t }

/-- The method `NodeList::push_back(n)`: with a `head`, `head->next = n` and
`head = n`; without, `head = tail = n`. In the order of the pointers `next`
from `tail` on, `n` comes last. -/
def NodeList.push_back (list : List Node) (n : Node) : List Node :=
  match list with
  | [] => [n]
  | x :: xs => x :: xs ++ [n]

/-- The loop `foreach_node(x, children)` of `Node::backprop()`, at the child in
place `i`: the maxima so far and the place of the child `currentPVNode` points
to. -/
def Node.backpropLoop : List Node → Nat → Int → Int → Int → Option Nat →
    Int × Int × Int × Option Nat
  | [], _, maxVMinus, maxVPlus, maxScore, currentPVNode =>
    (maxVMinus, maxVPlus, maxScore, currentPVNode)
  | x :: xs, i, maxVMinus, maxVPlus, maxScore, currentPVNode =>
    let maxVMinus := max maxVMinus (neg32 x.vplus)
    let maxVPlus := max maxVPlus (neg32 x.vminus)
    let l := x.score
    if l ≠ INT32_MIN ∧ neg32 l > maxScore then
      Node.backpropLoop xs (i + 1) maxVMinus maxVPlus (neg32 l) (some i)
    else Node.backpropLoop xs (i + 1) maxVMinus maxVPlus maxScore currentPVNode

/-- The method `Node::backprop()`. -/
def Node.backprop (n : Node) : Node :=
  let res := Node.backpropLoop n.children 0 (-INT32_MAX) (-INT32_MAX) (-INT32_MAX) none
  { n with vminus := res.1, vplus := res.2.1, score := res.2.2.1, pvNode := res.2.2.2 }

/-- The bounds `x->alpha = std::max(-beta, x->vminus)` and
`x->beta = std::min(-alpha, x->vplus)` that `Node::select` writes to a child
`x` of a node with the bounds `alpha` and `beta`. -/
def Node.window (alpha beta : Int) (x : Node) : Node :=
  { x with alpha := max (neg32 beta) x.vminus, beta := min (neg32 alpha) x.vplus }

/-- The loop `foreach_node(x, children, ++i)` of `Node::select(i, r)`, at the
child in place `i`, with the children before it in `done`: the place of the
child returned (or none for the null pointer), the value of `i` and the
children at the return. -/
def Node.selectLoop (alpha beta : Int) (parent : Bool) (margin : Nat) :
    List Node → Nat → List Node → Option Nat → Int → Option Nat × Nat × List Node
  | [], i, done, choice, _ => (choice, i, done)
  | x :: xs, i, done, choice, maxScore =>
    let x := Node.window alpha beta x
    if x.alpha ≥ x.beta then
      Node.selectLoop alpha beta parent margin xs (i + 1) (done ++ [x]) choice maxScore
    else if !parent || decide (i < margin) || decide (x.score = INT32_MIN) then
      (some i, i, done ++ x :: xs)
    else
      let l := neg32 x.score
      if l > maxScore then
        Node.selectLoop alpha beta parent margin xs (i + 1) (done ++ [x]) (some i) l
      else Node.selectLoop alpha beta parent margin xs (i + 1) (done ++ [x]) choice maxScore

/-- The method `Node::select(i, r)` for a remaining depth `r` (a `uint32_t`):
the place in `children` of the child returned (none for the null pointer), the
value it leaves in `i`, and the node with the bounds written to its
children. -/
def Node.select (n : Node) (r : Nat) : Option Nat × Nat × Node :=
  let margin := (r <<< 1) % 2 ^ 32
  let res := Node.selectLoop n.alpha n.beta n.parent margin n.children 0 [] none INT32_MIN
  (res.1, res.2.1, { n with children := res.2.2 })

/-- The node types, `enum NodeType : uint8_t { ROOT, IID, PV, NONPV }`. -/
inductive NodeType where
  | ROOT
  | IID
  | PV
  | NONPV
  deriving DecidableEq, Repr

/-- The constant `NULL_R = 2`. -/
def NULL_R : Int := 2

/-- The constant `RFP_RD = 5`. -/
def RFP_RD : Int := 5

/-- The constant `NMP_RD = 2`. -/
def NMP_RD : Int := 2

/-- The constant `RAZ_RD = 2`. -/
def RAZ_RD : Int := 2

/-- The constant `IID_RD = 4`. -/
def IID_RD : Int := 4

/-- The constant `IID_R = 3`. -/
def IID_R : Int := 3

/-- The constant `FUT_RD = 8`. -/
def FUT_RD : Int := 8

/-- The constant `MaxDepth = 65`. -/
def MaxDepth : Int := 65

/-- The method `Board::hasMajorMinor()`, read as a condition. -/
def Board.hasMajorMinor (b : Board) : Bool :=
  highBitCount (b.pieces .White .Queen ||| b.pieces .Black .Queen |||
    b.pieces .White .Rook ||| b.pieces .Black .Rook |||
    b.pieces .White .Bishop ||| b.pieces .Black .Bishop |||
    b.pieces .White .Knight ||| b.pieces .Black .Knight) ≠ 0

/-- What `alphaBeta` reads and writes besides the board: the fields of
`struct control` (those of `Search`, and `evals`, `MAX_DEPTH`, `NULL_PLY`,
`time`, `bestMove`, `iidMoves`) and the transposition table `transTable`. The
arrays `evals` and `iidMoves` have `MaxDepth` places. -/
structure Engine where
  search : Search
  evals : Nat → Int
  MAX_DEPTH : Int
  NULL_PLY : Int
  time : Int
  bestMove : Move
  iidMoves : Nat → Move
  table : Zobrist.TransTable

/-- The locals of `alphaBeta` that the loop over the moves reads. -/
structure Frame where
  oa : Int
  el : Int
  key : Nat
  ttmove : Move
  inCheck : Bool
  ev : Int
  improving : Bool
  futile : Bool

/-- The oracle of `quiescence` for an engine whose clock shows `clock n`
milliseconds at its `n`-th reading: `abort(c->time, c->epoch)` is
`ms >= time`. -/
def Oracle.timed (O : Oracle) (clock : Nat → Int) (time : Int) : Oracle :=
  { O with expired := fun n => decide (clock n ≥ time) }

/-- The use `alphaBeta` makes of a table entry `tt` that `retrieve` found: the
score it returns at once, or the bounds `a` and `o` and the move `ttmove` it
goes on with. -/
def alphaBetaEntry (NT : NodeType) (d r a o : Int) (tt : Zobrist.Entry) :
    Int ⊕ (Int × Int × Move) :=
  if tt.move ≠ NullMove then
    if (tt.depth : Int) ≥ r ∧ NT ≠ .ROOT ∧ NT ≠ .IID then
      let score := tt.value
      let score :=
        if score ≤ -MateValue then score + d
        else if score ≥ MateValue then score - d
        else score
      if tt.type = .exact then .inl score
      else
        let a := if tt.type = .lower then max a score else a
        let o := if tt.type = .lower then o else if tt.type = .upper then min o score else o
        if a ≥ o then .inl score else .inr (a, o, tt.move)
    else .inr (a, o, tt.move)
  else .inr (a, o, NullMove)

/-- The end of `alphaBeta<A, NT, DO_NULL>`, from `c->pvMove = ttmove` on: the
move list `MoveList<AB> ml(b, c, d)`, the return at an empty move list, and
the loop over the moves. The loop, which is not reached at an empty move list,
is the parameter `loop`: any function of the recursive call, the arguments,
the locals, the move list and the engine. -/
def alphaBetaFinish (O : Oracle) (L : Lines) (W : Magics)
    (loop : (NodeType → Bool → Alliance → Board → Int → Int → Int → Int → Engine →
        Option (Int × Board × Engine)) →
      NodeType → Bool → Alliance → Board → Int → Int → Int → Int → Frame → List Move → Engine →
        Option (Int × Board × Engine))
    (recur : NodeType → Bool → Alliance → Board → Int → Int → Int → Int → Engine →
      Option (Int × Board × Engine))
    (NT : NodeType) (DO_NULL : Bool) (A : Alliance) (b : Board) (d r a o : Int) (f : Frame)
    (c : Engine) : Option (Int × Board × Engine) :=
  let c : Engine :=
    { c with search := { c.search with control := { c.search.control with pvMove := f.ttmove } } }
  let ml := moveListAB L W b c.search.control d
  if ml.length ≤ 0 then
    if f.inCheck then some (-O.mateEval d, b, c) else some (0, b, c)
  else loop recur NT DO_NULL A b d r a o f ml c

/-- The part of `alphaBeta<A, NT, DO_NULL>` from the futility flag on: the flag
`futile`, and the internal iterative deepening
`alphaBeta<A, IID, true>(b, d, r - IID_R, a, o, c)` of a principal-variation
node without a table move, which sets `ttmove = c->iidMoves[d]`; then
`alphaBetaFinish`. -/
def alphaBetaMoves (O : Oracle) (L : Lines) (W : Magics)
    (loop : (NodeType → Bool → Alliance → Board → Int → Int → Int → Int → Engine →
        Option (Int × Board × Engine)) →
      NodeType → Bool → Alliance → Board → Int → Int → Int → Int → Frame → List Move → Engine →
        Option (Int × Board × Engine))
    (recur : NodeType → Bool → Alliance → Board → Int → Int → Int → Int → Engine →
      Option (Int × Board × Engine))
    (NT : NodeType) (DO_NULL : Bool) (A : Alliance) (b : Board) (d r a o : Int) (f : Frame)
    (c : Engine) : Option (Int × Board × Engine) :=
  let pvNode := decide (NT ≠ .NONPV)
  let fMargin := 100 + (r - 1) * 70
  let futile := decide (r ≤ FUT_RD) && !pvNode && decide ((Int.natAbs a : Int) < MinMate) &&
    decide ((Int.natAbs o : Int) < MinMate) && decide (f.ev + fMargin < a)
  if r ≥ IID_RD ∧ pvNode = true ∧ f.ttmove = NullMove then
    let c : Engine := { c with iidMoves := Function.update c.iidMoves d.toNat NullMove }
    match recur .IID true A b d (r - IID_R) a o c with
    | none => none
    | some (_, b2, c2) =>
      alphaBetaFinish O L W loop recur NT DO_NULL A b2 d r a o
        { f with ttmove := c2.iidMoves d.toNat, futile := futile } c2
  else alphaBetaFinish O L W loop recur NT DO_NULL A b d r a o { f with futile := futile } c

/-- The middle of `alphaBeta<A, NT, DO_NULL>`, from the static null move
pruning to the razoring: the return of beta when the evaluation is above it by
the margin, the null-move search
`-alphaBeta<~A, NONPV, false>(b, d + 1, r - 1 - NULL_R, -o, -o + 1, c)` between
`applyNullMove(s)` and `retractNullMove()`, and the razoring by
`quiescence<A>(b, d, 0, a - 1, a, c)`; then `alphaBetaMoves`. None of the three
is tried at a principal-variation node. -/
def alphaBetaPrune (O : Oracle) (clock : Nat → Int) (Z : Randoms) (L : Lines) (W : Magics)
    (loop : (NodeType → Bool → Alliance → Board → Int → Int → Int → Int → Engine →
        Option (Int × Board × Engine)) →
      NodeType → Bool → Alliance → Board → Int → Int → Int → Int → Frame → List Move → Engine →
        Option (Int × Board × Engine))
    (fuel : Nat)
    (recur : NodeType → Bool → Alliance → Board → Int → Int → Int → Int → Engine →
      Option (Int × Board × Engine))
    (NT : NodeType) (DO_NULL : Bool) (A : Alliance) (b : Board) (d r a o : Int) (f : Frame)
    (c : Engine) : Option (Int × Board × Engine) :=
  let pvNode := decide (NT ≠ .NONPV)
  let rfMargin := 50 + 100 * (r + (if f.improving then 1 else 0))
  if (!f.inCheck && !pvNode && decide (r ≤ RFP_RD) && decide ((Int.natAbs o : Int) < MinMate) &&
      decide (f.ev - rfMargin ≥ o)) = true then some (o, b, c)
  else
    let razor := fun (b : Board) (c : Engine) =>
      let rMargin := r * 300
      if (!f.inCheck && !pvNode && decide (r ≤ RAZ_RD) && decide (f.ev + rMargin < a)) = true then
        match quiescence (O.timed clock c.time) Z L W fuel A b d 0 (a - 1) a c.search with
        | none => none
        | some (rs, b2, s2) =>
          if rs + rMargin < a then some (a, b2, { c with search := s2 })
          else alphaBetaMoves O L W loop recur NT DO_NULL A b2 d r a o f { c with search := s2 }
      else alphaBetaMoves O L W loop recur NT DO_NULL A b d r a o f c
    if (DO_NULL && !f.inCheck && !pvNode && decide (r ≥ NMP_RD) && decide (d > c.NULL_PLY) &&
        b.hasMajorMinor) = true then
      match recur .NONPV false A.flip (b.applyNullMove Z State.default) (d + 1) (r - 1 - NULL_R)
          (-o) (-o + 1) c with
      | none => none
      | some (v, b2, c2) =>
        match b2.retractNullMove with
        | none => none
        | some b3 =>
          let nms := -v
          if nms ≥ o ∧ (Int.natAbs nms : Int) < MinMate then some (o, b3, c2)
          else razor b3 c2
    else razor b c

/-- The part of `alphaBeta<A, NT, DO_NULL>` after the table has been asked,
with the bounds and the table move that came of it: the check flag, the
evaluation written to `c->evals[d]`, the flag `improving`; then
`alphaBetaPrune`. The result is `none` when `d` is no place of `evals`. -/
def alphaBetaEval (O : Oracle) (clock : Nat → Int) (Z : Randoms) (L : Lines) (W : Magics)
    (loop : (NodeType → Bool → Alliance → Board → Int → Int → Int → Int → Engine →
        Option (Int × Board × Engine)) →
      NodeType → Bool → Alliance → Board → Int → Int → Int → Int → Frame → List Move → Engine →
        Option (Int × Board × Engine))
    (fuel : Nat)
    (recur : NodeType → Bool → Alliance → Board → Int → Int → Int → Int → Engine →
      Option (Int × Board × Engine))
    (NT : NodeType) (DO_NULL : Bool) (A : Alliance) (b : Board) (d r a o oa el : Int) (key : Nat)
    (ttmove : Move) (c : Engine) : Option (Int × Board × Engine) :=
  let inCheck := decide (attacksOn W A .King b (bitScanFwd (b.getPieces A .King)) ≠ 0)
  if 0 ≤ d ∧ d < MaxDepth then
    let ev := if inCheck then -O.mateEval d else O.eval A b
    let c : Engine := { c with evals := Function.update c.evals d.toNat ev }
    let improving := decide (d > 2) && decide (ev > c.evals (d - 2).toNat)
    alphaBetaPrune O clock Z L W loop fuel recur NT DO_NULL A b d r a o
      { oa := oa, el := el, key := key, ttmove := ttmove, inCheck := inCheck, ev := ev,
        improving := improving, futile := false } c
  else none

/-- The function `alphaBeta<A, NT, DO_NULL>(b, d, r, a, o, c)` up to the loop
over the moves, with the value it returns, the board and the engine it leaves.
The clock shows `clock n` milliseconds at its `n`-th reading and `contempt` is
the function of that name of `Eval.h`; `fuel` bounds the depth of the
recursion, and the result is `none` when it is used up or when an access
leaves an array. The scores are integers; the source computes them in
`int32_t`. -/
def alphaBeta (O : Oracle) (clock : Nat → Int) (contempt : Board → Int) (Z : Randoms)
    (L : Lines) (W : Magics)
    (loop : (NodeType → Bool → Alliance → Board → Int → Int → Int → Int → Engine →
        Option (Int × Board × Engine)) →
      NodeType → Bool → Alliance → Board → Int → Int → Int → Int → Frame → List Move → Engine →
        Option (Int × Board × Engine)) :
    Nat → NodeType → Bool → Alliance → Board → Int → Int → Int → Int → Engine →
      Option (Int × Board × Engine)
  | 0, _, _, _, _, _, _, _, _, _ => none
  | fuel + 1, NT, DO_NULL, A, b, d, r, a, o, c =>
    let el := Zobrist.toInt32 (clock c.search.clockReads)
    let c : Engine := { c with search := { c.search with clockReads := c.search.clockReads + 1 } }
    if el ≥ c.time then some (0, b, c)
    else
      let c : Engine :=
        { c with search :=
          { c.search with control := { c.search.control with NODES := c.search.control.NODES + 1 } } }
      if NT ≠ .ROOT ∧ (!O.isMatePossible b || O.repeating b d) = true then some (contempt b, b, c)
      else if r ≤ 0 then
        match quiescence (O.timed clock c.time) Z L W fuel A b d r a o c.search with
        | none => none
        | some (v, b2, s2) => some (v, b2, { c with search := s2 })
      else
        let key := b.currentState.key
        match Zobrist.retrieve c.table key el with
        | .outOfBounds => none
        | .miss =>
          alphaBetaEval O clock Z L W loop fuel
            (fun NT2 n2 A2 b2 d2 r2 a2 o2 c2 =>
              alphaBeta O clock contempt Z L W loop fuel NT2 n2 A2 b2 d2 r2 a2 o2 c2)
            NT DO_NULL A b d r a o a el key NullMove c
        | .hit slot table =>
          let c : Engine := { c with table := table }
          match alphaBetaEntry NT d r a o (table slot) with
          | .inl score => some (score, b, c)
          | .inr (a2, o2, ttmove) =>
            alphaBetaEval O clock Z L W loop fuel
              (fun NT2 n2 A2 b2 d2 r2 a3 o3 c2 =>
                alphaBeta O clock contempt Z L W loop fuel NT2 n2 A2 b2 d2 r2 a3 o3 c2)
              NT DO_NULL A b d r a2 o2 a el key ttmove c

/-- The position `7k/5Q2/6K1/8/8/8/8/8` with Black to move and no castling
rights, as `Builder::build()` sets it up with the randoms of seed 1: the
position `Board.stalemate` with its key written. -/
def Board.stalemateBuilt : Board :=
  (Board.build RandomsAtOne
    (((((Board.Builder.ofFen State.default).setPiece .Black .King 56).setPiece
      .White .Queen 50).setPiece .White .King 41).setCurrentPlayer 'b')).getD Board.stalemate

/-- An engine for evaluations at concrete positions: the controls
`Control.cleared 8`, no reading of the clock made, every evaluation 0, 1000
milliseconds allotted, no best move and no move of an internal iterative
deepening, and the table as `clearTrans` leaves it. -/
def Engine.cleared : Engine where
  search := { control := Control.cleared 8, clockReads := 0 }
  evals := fun _ => 0
  MAX_DEPTH := 65
  NULL_PLY := 0
  time := 1000
  bestMove := NullMove
  iidMoves := fun _ => NullMove
  table := Zobrist.clearTrans

/-- The function `Witchcraft::abs(x)` of an `int`:
`x - (signed int)(((unsigned int)x << 1U) & ((unsigned int)x >> 31U))`. -/
def Witchcraft.abs (x : Int) : Int :=
  Zobrist.toInt32
    (x - Zobrist.toInt32 ((((toUInt32 x <<< 1) % 2 ^ 32 &&& (toUInt32 x >>> 31) : Nat) : Int)))

/-- The constructor `Builder(const Board& board)`, which copies a board into a
builder: the alliance to move, the twelve piece bitboards, and the pointer to
the current state of the board. -/
def Board.Builder.ofBoard (board : Board) : Board.Builder where
  currentPlayerAlliance := board.currentPlayerAlliance
  pieces := fun a pt => if pt = .NullPT then 0 else board.pieces a pt
  state := board.currentState

/-- The constant `UINT32_MAX`. -/
def UINT32_MAX : Nat := 4294967295

/-- The method `control::ageHistory()`: `history[i][j][k] >>= 1U` for both
colours and all 64 by 64 pairs of squares. -/
def Control.ageHistory (c : Control) : Control :=
  { c with history := fun a j k => if j < 64 ∧ k < 64 then c.history a j k >>> 1
      else c.history a j k }

/-- The two statements `history[A][origin][dest] += inc;
if (history[A][origin][dest] >= UINT32_MAX) ageHistory();` that
`updateHistory` and `raiseHistory` share, for an `int` increment added to the
`uint64_t` counter; no result when a square leaves the table. -/
def Control.addHistory (c : Control) (A : Alliance) (origin dest inc : Int) : Option Control :=
  if 0 ≤ origin ∧ origin < 64 ∧ 0 ≤ dest ∧ dest < 64 then
    let h := (((c.history A origin.toNat dest.toNat : Nat) : Int) + inc) % 2 ^ 64
    let c2 : Control :=
      { c with history := fun a j k =>
          if a = A ∧ j = origin.toNat ∧ k = dest.toNat then h.toNat else c.history a j k }
    if h.toNat ≥ UINT32_MAX then some c2.ageHistory else some c2
  else none

/-- The method `control::updateHistory<A>(origin, dest, depth)`: the increment
is `depth*depth`, an `int` product; no result when the product is no `int`. -/
def Control.updateHistory (c : Control) (A : Alliance) (origin dest depth : Int) :
    Option Control :=
  if -2147483648 ≤ depth * depth ∧ depth * depth ≤ 2147483647 then
    c.addHistory A origin dest (depth * depth)
  else none

/-- The method `control::raiseHistory<A>(origin, dest, depth)`: the increment
is `depth`. -/
def Control.raiseHistory (c : Control) (A : Alliance) (origin dest depth : Int) :
    Option Control :=
  c.addHistory A origin dest depth

/-- The constructor `MoveList<MCTS>(b)`: the moves of `generateMoves<All>`,
in the order the generator writes them. -/
def moveListMCTS (L : Lines) (W : Magics) (b : Board) : List Move :=
  generateMoves L W .All b

/-! # Theorems -/

/-! ## Move packing -/

/-- A masked field of a word, shifted down, is a quotient and remainder. -/
theorem and_shiftLeft_mask (m k n : Nat) :
    (m &&& ((2 ^ n - 1) <<< k)) >>> k = m / 2 ^ k % 2 ^ n := by
  rw [← Nat.shiftRight_eq_div_pow]
  apply Nat.eq_of_testBit_eq
  intro i
  simp only [Nat.testBit_shiftRight, Nat.testBit_and, Nat.testBit_shiftLeft,
    Nat.testBit_mod_two_pow, Nat.testBit_two_pow_sub_one]
  have h1 : k + i ≥ k := Nat.le_add_right k i
  have h2 : k + i - k = i := Nat.add_sub_cancel_left k i
  simp [h1, h2, Bool.and_comm]

/-- The accessor `destination()` as a remainder. -/
theorem Move.destination_eq (m : Move) : m.destination = m.manifest % 64 :=
  Nat.and_pow_two_sub_one_eq_mod m.manifest 6

/-- The accessor `origin()` as a quotient and remainder. -/
theorem Move.origin_eq (m : Move) : m.origin = m.manifest / 64 % 64 :=
  and_shiftLeft_mask m.manifest 6 6

/-- The accessor `moveType()` as a quotient and remainder. -/
theorem Move.moveType_eq (m : Move) : m.moveType = m.manifest / 4096 % 4 :=
  and_shiftLeft_mask m.manifest 12 2

/-- The accessor `promotionPiece()` as a quotient and remainder. -/
theorem Move.promotionPiece_eq (m : Move) : m.promotionPiece = m.manifest / 4096 % 4 + 1 := by
  have key : (m.manifest &&& 0x3000) >>> 12 = m.manifest / 4096 % 4 :=
    and_shiftLeft_mask m.manifest 12 2
  show (m.manifest &&& 0x3000) >>> 12 + 1 = _
  rw [key]

/-- The accessor `isPromotion()` as a quotient and remainder. -/
theorem Move.isPromotion_eq (m : Move) :
    m.isPromotion = decide (m.manifest / 32768 % 2 ≠ 0) := by
  have key : (m.manifest &&& 0x8000) >>> 15 = m.manifest / 32768 % 2 :=
    and_shiftLeft_mask m.manifest 15 1
  show ((m.manifest &&& 0x8000) >>> 15 != 0) = _
  rw [key]
  rcases Nat.mod_two_eq_zero_or_one (m.manifest / 32768) with h0 | h0 <;> rw [h0] <;> rfl

/-- The manifest of `Move::make<MT>(o, d)` for squares below 64. -/
theorem Move.make_manifest (MT : MoveType) (o d : Nat) (ho : o < 64) (hd : d < 64) :
    (Move.make MT o d).manifest = MT.toNat * 4096 + o * 64 + d := by
  have hMT : MT.toNat < 4 := by cases MT <;> decide
  show ((MT.toNat <<< 12) + (o <<< 6) % 2 ^ 32 + d) % 2 ^ 32 % 2 ^ 16 = _
  simp only [Nat.shiftLeft_eq]
  omega

/-- The manifest of `Move::make(o, d)` for squares below 64. -/
theorem Move.makePlain_manifest (o d : Nat) (ho : o < 64) (hd : d < 64) :
    (Move.makePlain o d).manifest = o * 64 + d := by
  show ((o <<< 6) % 2 ^ 32 + d) % 2 ^ 32 % 2 ^ 16 = _
  simp only [Nat.shiftLeft_eq]
  omega

/-- The manifest of `Move::makePromotion<PT>(o, d)` for squares below 64. -/
theorem Move.makePromotion_manifest (PT : PieceType) (o d : Nat) (ho : o < 64) (hd : d < 64)
    (hPT : PT = .Rook ∨ PT = .Knight ∨ PT = .Bishop ∨ PT = .Queen) :
    (Move.makePromotion PT o d).manifest = 32768 + (PT.toNat - 1) * 4096 + o * 64 + d := by
  have hP : PT.toNat - 1 < 4 := by rcases hPT with h | h | h | h <;> subst h <;> decide
  show (0x8000 + ((PT.toNat - 1) <<< 12) + ((o <<< 6) % 2 ^ 32 + d)) % 2 ^ 32 % 2 ^ 16 = _
  simp only [Nat.shiftLeft_eq]
  omega

/-- C7: for every move type `MT` and all squares `o`, `d` below 64, the move
`Move::make<MT>(o, d)` has origin `o`, destination `d`, move type `MT` and no
promotion flag; its manifest is a 16-bit value holding `d` in bits 0..5 and
`o` in bits 6..11; `Move::make(o, d)` is `Move::make<FreeForm>(o, d)`; and the
move is `NullMove` only for `make<FreeForm>(0, 0)`. -/
theorem Move.make_roundtrip (MT : MoveType) (o d : Nat) (ho : o < 64) (hd : d < 64) :
    (Move.make MT o d).origin = o ∧ (Move.make MT o d).destination = d ∧
    (Move.make MT o d).moveType = MT.toNat ∧ (Move.make MT o d).isPromotion = false ∧
    (Move.make MT o d).manifest < 2 ^ 16 ∧
    (Move.make MT o d).manifest % 64 = d ∧ (Move.make MT o d).manifest / 64 % 64 = o ∧
    Move.makePlain o d = Move.make .FreeForm o d ∧
    (Move.make MT o d = NullMove ↔ MT = .FreeForm ∧ o = 0 ∧ d = 0) := by
  have hMT : MT.toNat < 4 := by cases MT <;> decide
  have hm := Move.make_manifest MT o d ho hd
  have hp := Move.makePlain_manifest o d ho hd
  have hf := Move.make_manifest .FreeForm o d ho hd
  have hF : MoveType.FreeForm.toNat = 0 := rfl
  refine ⟨?_, ?_, ?_, ?_, ?_, ?_, ?_, ?_, ?_⟩
  · rw [Move.origin_eq, hm]; omega
  · rw [Move.destination_eq, hm]; omega
  · rw [Move.moveType_eq, hm]; omega
  · rw [Move.isPromotion_eq, hm]
    have : (MT.toNat * 4096 + o * 64 + d) / 32768 % 2 = 0 := by omega
    simp [this]
  · rw [hm]; omega
  · rw [hm]; omega
  · rw [hm]; omega
  · have h1 : ∀ a b : Move, a.manifest = b.manifest → a = b := by
      intro a b h; cases a; cases b; simp_all
    apply h1; rw [hp, hf, hF]; omega
  · constructor
    · intro h
      have h0 : (Move.make MT o d).manifest = 0 := by rw [h]; rfl
      rw [hm] at h0
      have h2 : MT.toNat = 0 := by omega
      refine ⟨?_, by omega, by omega⟩
      cases MT <;> simp_all [MoveType.toNat]
    · rintro ⟨h1, h2, h3⟩
      have h1m : ∀ a b : Move, a.manifest = b.manifest → a = b := by
        intro a b h; cases a; cases b; simp_all
      apply h1m
      rw [hm, h1, h2, h3]; rfl

/-- C7 at the en-passant capture e5 to d6. -/
theorem Move.make_roundtrip_witness :
    (Move.make .EnPassant 35 44).origin = 35 ∧ (Move.make .EnPassant 35 44).destination = 44 ∧
    (Move.make .EnPassant 35 44).moveType = MoveType.EnPassant.toNat ∧
    (Move.make .EnPassant 35 44).isPromotion = false ∧
    (Move.make .EnPassant 35 44).manifest < 2 ^ 16 ∧
    (Move.make .EnPassant 35 44).manifest % 64 = 44 ∧
    (Move.make .EnPassant 35 44).manifest / 64 % 64 = 35 ∧
    Move.makePlain 35 44 = Move.make .FreeForm 35 44 ∧
    (Move.make .EnPassant 35 44 = NullMove ↔ MoveType.EnPassant = .FreeForm ∧ 35 = 0 ∧ 44 = 0) :=
  Move.make_roundtrip .EnPassant 35 44 (by decide) (by decide)

/-- C8: for every promotion piece `PT` among Rook, Knight, Bishop and Queen and
all squares `o`, `d` below 64, `Move::makePromotion<PT>(o, d)` is a promotion
whose promotion piece is `PT`, whose origin is `o` and whose destination is
`d`; bit 15 of its manifest is set and bits 12..13 hold `PT - Rook`. -/
theorem Move.makePromotion_roundtrip (PT : PieceType)
    (hPT : PT = .Rook ∨ PT = .Knight ∨ PT = .Bishop ∨ PT = .Queen)
    (o d : Nat) (ho : o < 64) (hd : d < 64) :
    (Move.makePromotion PT o d).isPromotion = true ∧
    (Move.makePromotion PT o d).promotionPiece = PT.toNat ∧
    (Move.makePromotion PT o d).origin = o ∧
    (Move.makePromotion PT o d).destination = d ∧
    (Move.makePromotion PT o d).manifest.testBit 15 = true ∧
    (Move.makePromotion PT o d).manifest / 4096 % 4 = PT.toNat - PieceType.Rook.toNat ∧
    (Move.makePromotion PT o d).manifest < 2 ^ 16 := by
  have hP : 1 ≤ PT.toNat ∧ PT.toNat ≤ 4 := by
    rcases hPT with h | h | h | h <;> subst h <;> decide
  have hR : PieceType.Rook.toNat = 1 := rfl
  have hm := Move.makePromotion_manifest PT o d ho hd hPT
  refine ⟨?_, ?_, ?_, ?_, ?_, ?_, ?_⟩
  · rw [Move.isPromotion_eq, hm]
    have : (32768 + (PT.toNat - 1) * 4096 + o * 64 + d) / 32768 % 2 = 1 := by omega
    simp [this]
  · rw [Move.promotionPiece_eq, hm]; omega
  · rw [Move.origin_eq, hm]; omega
  · rw [Move.destination_eq, hm]; omega
  · rw [hm, Nat.testBit, Nat.shiftRight_eq_div_pow]
    have : (32768 + (PT.toNat - 1) * 4096 + o * 64 + d) / 2 ^ 15 = 1 := by omega
    rw [this]; rfl
  · rw [hm, hR]; omega
  · rw [hm]; omega

/-- C8 at the promotion to a queen from b7 to a8. -/
theorem Move.makePromotion_roundtrip_witness :
    (Move.makePromotion .Queen 54 63).isPromotion = true ∧
    (Move.makePromotion .Queen 54 63).promotionPiece = PieceType.Queen.toNat ∧
    (Move.makePromotion .Queen 54 63).origin = 54 ∧
    (Move.makePromotion .Queen 54 63).destination = 63 ∧
    (Move.makePromotion .Queen 54 63).manifest.testBit 15 = true ∧
    (Move.makePromotion .Queen 54 63).manifest / 4096 % 4 =
      PieceType.Queen.toNat - PieceType.Rook.toNat ∧
    (Move.makePromotion .Queen 54 63).manifest < 2 ^ 16 :=
  Move.makePromotion_roundtrip .Queen (Or.inr (Or.inr (Or.inr rfl))) 54 63 (by decide) (by decide)

/-! ## The transposition table -/

/-- What `store` writes as the value: `MateValue` above `MinMate`, `-MateValue`
below `-MinMate`, and the value itself from `-MinMate` to `MinMate`. -/
theorem Zobrist.storedValue_cases (v : Int) :
    (MinMate < v → Zobrist.storedValue v = MateValue) ∧
    (v < -MinMate → Zobrist.storedValue v = -MateValue) ∧
    (-MinMate ≤ v → v ≤ MinMate → Zobrist.storedValue v = v) := by
  unfold Zobrist.storedValue MinMate MateValue
  refine ⟨fun h => ?_, fun h => ?_, fun h1 h2 => ?_⟩
  · rw [if_neg (by omega), if_pos h]
  · rw [if_pos h]
  · rw [if_neg (by omega), if_neg (by omega)]

/-- The slot `storage` returns lies in the table and is one of the two slots
of the key. -/
theorem Zobrist.storage_some (t : Zobrist.TransTable) (key depth : Nat) (clock : Int) (i : Nat)
    (h : Zobrist.storage t key depth clock = some i) :
    i < Zobrist.tt_size ∧
    (i = key % Zobrist.tt_size ∨
      (i = key % Zobrist.tt_size ^^^ 1 ∧ (t (key % Zobrist.tt_size)).key ≠ key)) := by
  have hslot : key % Zobrist.tt_size < Zobrist.tt_size := Nat.mod_lt _ (by decide)
  unfold Zobrist.storage at h
  simp only [Zobrist.readEntry, if_pos hslot] at h
  by_cases h1 : (t (key % Zobrist.tt_size)).key = key
  · rw [if_pos h1] at h
    cases h
    exact ⟨hslot, Or.inl rfl⟩
  · rw [if_neg h1] at h
    by_cases h2 : key % Zobrist.tt_size ^^^ 1 < Zobrist.tt_size
    · rw [if_pos h2] at h
      simp only at h
      split_ifs at h <;> cases h <;> first
        | exact ⟨hslot, Or.inl rfl⟩
        | exact ⟨h2, Or.inr ⟨rfl, h1⟩⟩
    · rw [if_neg h2] at h
      cases h

/-- When both slots of the key lie in the table, `storage` returns a slot. -/
theorem Zobrist.storage_inBounds (t : Zobrist.TransTable) (key depth : Nat) (clock : Int)
    (h2 : key % Zobrist.tt_size ^^^ 1 < Zobrist.tt_size) :
    ∃ i, Zobrist.storage t key depth clock = some i := by
  have hslot : key % Zobrist.tt_size < Zobrist.tt_size := Nat.mod_lt _ (by decide)
  unfold Zobrist.storage
  simp only [Zobrist.readEntry, if_pos hslot, if_pos h2]
  split_ifs <;> exact ⟨_, rfl⟩

/-- Store then retrieve, for a key both of whose slots lie in the table:
`store` succeeds, and `retrieve` of the same key returns a pointer to an entry
with the stored key, move, depth and type, the normalised value, and the clock
of the retrieval. -/
theorem Zobrist.store_retrieve_inBounds (t : Zobrist.TransTable) (key : Nat) (v : Int)
    (ty : Zobrist.EntryType) (d : Nat) (m : Move) (c c2 : Int)
    (h2 : key % Zobrist.tt_size ^^^ 1 < Zobrist.tt_size) :
    ∃ t1 i t2, Zobrist.store t key v ty d m c = some t1 ∧
      Zobrist.retrieve t1 key c2 = .hit i t2 ∧
      t2 i = ⟨key, Zobrist.storedValue v, c2, ty, m, d⟩ := by
  have hslot : key % Zobrist.tt_size < Zobrist.tt_size := Nat.mod_lt _ (by decide)
  obtain ⟨i, hi⟩ := Zobrist.storage_inBounds t key d c h2
  obtain ⟨_, hcase⟩ := Zobrist.storage_some t key d c i hi
  have hst : Zobrist.store t key v ty d m c =
      some (fun j => if j = i then ⟨key, Zobrist.storedValue v, c, ty, m, d⟩ else t j) := by
    simp only [Zobrist.store, hi]
  refine ⟨fun j => if j = i then ⟨key, Zobrist.storedValue v, c, ty, m, d⟩ else t j, i,
    fun j => if j = i then
      { (if i = i then (⟨key, Zobrist.storedValue v, c, ty, m, d⟩ : Zobrist.Entry) else t i) with
        clock := c2 }
      else if j = i then ⟨key, Zobrist.storedValue v, c, ty, m, d⟩ else t j, hst, ?_, ?_⟩
  · unfold Zobrist.retrieve
    simp only [Zobrist.readEntry, if_pos hslot, if_pos h2]
    rcases hcase with h | ⟨h, hne⟩
    · subst h
      simp
    · have hx : key % Zobrist.tt_size ≠ i := by
        intro hh
        have h3 : key % Zobrist.tt_size ^^^ 1 = key % Zobrist.tt_size := by rw [← h, hh]
        have h4 := congrArg (fun n => n.testBit 0) h3
        simp [Nat.testBit_xor] at h4
        omega
      subst h
      simp [hx, hne]
  · simp

/-- The round trip at key 7 on the cleared table, with a mate-range value. -/
theorem Zobrist.store_retrieve_inBounds_witness :
    ∃ t1 i t2, Zobrist.store Zobrist.clearTrans 7 40000 .exact 3 (Move.makePlain 11 27) 5 =
        some t1 ∧
      Zobrist.retrieve t1 7 9 = .hit i t2 ∧
      t2 i = ⟨7, Zobrist.storedValue 40000, 9, .exact, Move.makePlain 11 27, 3⟩ :=
  Zobrist.store_retrieve_inBounds Zobrist.clearTrans 7 40000 .exact 3 (Move.makePlain 11 27) 5 9
    (by decide)

/-- C9, at the key 1000000 on the table `clearTrans` leaves: the primary slot
is the last entry of the table and holds another key, so `storage` reads the
buddy slot `1000000 ^ 1 = 1000001`, one past the end of the allocation, and
`store` has no defined result. -/
theorem Zobrist.store_out_of_bounds (v : Int) (ty : Zobrist.EntryType) (d : Nat) (m : Move)
    (c : Int) :
    1000000 % Zobrist.tt_size ^^^ 1 = Zobrist.tt_size ∧
    Zobrist.store Zobrist.clearTrans 1000000 v ty d m c = none := by
  refine ⟨by decide, ?_⟩
  have h1 : Zobrist.storage Zobrist.clearTrans 1000000 d c = none := by
    unfold Zobrist.storage
    have e1 : Zobrist.readEntry Zobrist.clearTrans (1000000 % Zobrist.tt_size) =
        some ⟨0, 0, 0, .undef, NullMove, 255⟩ := by decide
    have e2 : Zobrist.readEntry Zobrist.clearTrans (1000000 % Zobrist.tt_size ^^^ 1) = none := by
      decide
    simp only [e1, e2]
    rfl
  simp only [Zobrist.store, h1]

/-- C10, at the value `MinMate = 32667`: `store` writes 32667 itself, which is
not `MateValue = 32767`. -/
theorem Zobrist.store_MinMate (ty : Zobrist.EntryType) (d : Nat) (m : Move) (c : Int) :
    MinMate = 32667 ∧ MateValue = 32767 ∧ Zobrist.storedValue MinMate = 32667 ∧
    Zobrist.storedValue (-MinMate) = -32667 ∧
    (Zobrist.store Zobrist.clearTrans 0 MinMate ty d m c).map (fun t => (t 0).value) =
      some 32667 := by
  refine ⟨by decide, by decide, by decide, by decide, ?_⟩
  have h1 : Zobrist.storage Zobrist.clearTrans 0 d c = some 0 := by
    unfold Zobrist.storage
    have e1 : Zobrist.readEntry Zobrist.clearTrans (0 % Zobrist.tt_size) =
        some ⟨0, 0, 0, .undef, NullMove, 255⟩ := by decide
    simp only [e1]
    rfl
  simp only [Zobrist.store, h1, Option.map]
  rfl

/-! ## Consistency of concrete boards -/

/-- A property that holds of the value of an option holds of some value. -/
theorem Option.Holds.exists {α : Type} {o : Option α} {P : α → Prop} (h : Option.Holds o P) :
    ∃ a, o = some a ∧ P a := by
  cases o with
  | none => exact h.elim
  | some a => exact ⟨a, rfl, h⟩

/-- Every (colour, kind) pair with a non-null kind is a slot. -/
theorem Board.mem_slots (c : Alliance) (k : PieceType) (hk : k ≠ .NullPT) :
    (c, k) ∈ Board.slots := by
  cases c <;> cases k <;> first | exact absurd rfl hk | decide

/-- Every non-null kind is listed in `kinds`. -/
theorem PieceType.mem_kinds (k : PieceType) (hk : k ≠ .NullPT) : k ∈ PieceType.kinds := by
  cases k <;> first | exact absurd rfl hk | decide

/-- The computed consistency check is sound. -/
theorem Board.consistent_of_consistentB (b : Board) (h : b.consistentB = true) :
    b.Consistent := by
  unfold Board.consistentB at h
  simp only [Bool.and_eq_true, List.all_eq_true, decide_eq_true_eq, Bool.or_eq_true,
    beq_iff_eq] at h
  obtain ⟨⟨⟨⟨⟨hr, huw⟩, hub⟩, hall⟩, hdis⟩, hmb⟩ := h
  have hrange : ∀ c k, k ≠ PieceType.NullPT → b.pieces c k < 2 ^ 64 :=
    fun c k hk => hr (c, k) (Board.mem_slots c k hk)
  have hunion : ∀ c, b.pieces c .NullPT = Board.sandwich b.pieces c := by
    intro c; cases c
    · exact huw
    · exact hub
  refine ⟨?_, hunion, hall, ?_, ?_⟩
  · intro c k
    by_cases hk : k = .NullPT
    · subst hk
      rw [hunion c]
      unfold Board.sandwich
      have p := hrange c .Pawn (by decide)
      have r := hrange c .Rook (by decide)
      have n := hrange c .Knight (by decide)
      have bb := hrange c .Bishop (by decide)
      have q := hrange c .Queen (by decide)
      have kk := hrange c .King (by decide)
      exact Nat.or_lt_two_pow (Nat.or_lt_two_pow (Nat.or_lt_two_pow (Nat.or_lt_two_pow
        (Nat.or_lt_two_pow p r) n) bb) q) kk
    · exact hrange c k hk
  · intro sq c k c2 k2 hk hk2 h1 h2
    rcases hdis (c, k) (Board.mem_slots c k hk) (c2, k2) (Board.mem_slots c2 k2 hk2) with e | e
    · exact ⟨congrArg Prod.fst e, congrArg Prod.snd e⟩
    · have h3 : (b.pieces c k &&& b.pieces c2 k2).testBit sq = true := by
        rw [Nat.testBit_and, h1, h2]; rfl
      simp only at e
      rw [e] at h3
      simp at h3
  · intro sq hsq k hk
    have h1 := hmb sq (List.mem_range.mpr hsq) k (PieceType.mem_kinds k hk)
    constructor
    · intro hm
      have h2 : ((b.pieces .White k).testBit sq || (b.pieces .Black k).testBit sq) = true := by
        rw [← h1]; exact decide_eq_true hm
      rcases Bool.or_eq_true _ _ |>.mp h2 with h3 | h3
      · exact ⟨.White, h3⟩
      · exact ⟨.Black, h3⟩
    · rintro ⟨c, hc⟩
      have h2 : ((b.pieces .White k).testBit sq || (b.pieces .Black k).testBit sq) = true := by
        cases c
        · rw [hc]; rfl
        · rw [hc]; exact Bool.or_true _
      rw [← h1] at h2
      exact of_decide_eq_true h2

/-! ## Bit-level lemmas -/

/-- The bits of `SquareToBitBoard`. -/
theorem testBit_SquareToBitBoard (o sq : Nat) (ho : o < 64) :
    (SquareToBitBoard o).testBit sq = decide (o = sq) := by
  unfold SquareToBitBoard
  rw [if_pos ho, Nat.testBit_two_pow]

/-- A square board is a 64-bit value. -/
theorem SquareToBitBoard_lt (o : Nat) : SquareToBitBoard o < 2 ^ 64 := by
  unfold SquareToBitBoard
  split_ifs with h
  · exact Nat.pow_lt_pow_right (by decide) h
  · decide

/-- A set bit of a 64-bit value has an index below 64. -/
theorem lt_of_testBit {x i : Nat} (hx : x < 2 ^ 64) (h : x.testBit i = true) : i < 64 := by
  by_contra hi
  have h1 : x < 2 ^ i := lt_of_lt_of_le hx (Nat.pow_le_pow_right (by decide) (by omega))
  rw [Nat.testBit_lt_two_pow h1] at h
  exact Bool.noConfusion h

/-- The bits of a complement. -/
theorem testBit_not64 (x sq : Nat) :
    (not64 x).testBit sq = (decide (sq < 64) ^^ x.testBit sq) := by
  unfold not64 FullBoard
  rw [Nat.testBit_xor]
  have h : (0xFFFFFFFFFFFFFFFF : Nat) = 2 ^ 64 - 1 := by decide
  rw [h, Nat.testBit_two_pow_sub_one]

/-- A set bit of the complement of a 64-bit value. -/
theorem testBit_not64_iff {x sq : Nat} (hx : x < 2 ^ 64) :
    (not64 x).testBit sq = true ↔ sq < 64 ∧ x.testBit sq = false := by
  rw [testBit_not64]
  by_cases h : sq < 64
  · cases hb : x.testBit sq <;> simp [h]
  · have h1 : x.testBit sq = false := by
      cases hb : x.testBit sq
      · rfl
      · exact absurd (lt_of_testBit hx hb) h
    simp [h, h1]

/-- The complement of a value is a 64-bit value when the value is. -/
theorem not64_lt {x : Nat} (hx : x < 2 ^ 64) : not64 x < 2 ^ 64 := by
  unfold not64 FullBoard
  exact Nat.xor_lt_two_pow (by decide) hx

/-- An intersection is a 64-bit value when its right operand is. -/
theorem and_lt_right {x y : Nat} (hy : y < 2 ^ 64) : x &&& y < 2 ^ 64 :=
  lt_of_le_of_lt Nat.and_le_right hy

/-- An intersection is a 64-bit value when its left operand is. -/
theorem and_lt_left {x y : Nat} (hx : x < 2 ^ 64) : x &&& y < 2 ^ 64 :=
  lt_of_le_of_lt Nat.and_le_left hx

/-- The scan finds a set bit of a non-zero value within its width. -/
theorem bitScanFwdAux_spec : ∀ (n l i : Nat), l ≠ 0 → l < 2 ^ n →
    ∃ j, bitScanFwdAux n l i = i + j ∧ l.testBit j = true ∧ j < n
  | 0, l, i, h0, hl => by
    have : l = 0 := by simpa using hl
    exact absurd this h0
  | n + 1, l, i, h0, hl => by
    unfold bitScanFwdAux
    by_cases h : l % 2 = 1
    · rw [if_pos h]
      refine ⟨0, rfl, ?_, Nat.succ_pos n⟩
      rw [Nat.testBit_zero]
      exact decide_eq_true h
    · rw [if_neg h]
      have h2 : l / 2 ≠ 0 := by omega
      have h3 : l / 2 < 2 ^ n := by
        rw [Nat.pow_succ] at hl
        omega
      obtain ⟨j, hj, hb, hjn⟩ := bitScanFwdAux_spec n (l / 2) (i + 1) h2 h3
      refine ⟨j + 1, by rw [hj]; omega, ?_, by omega⟩
      rw [Nat.testBit_succ]
      exact hb

/-- The scan of a non-zero 64-bit value is the index of a set bit. -/
theorem testBit_bitScanFwd {l : Nat} (h0 : l ≠ 0) (hl : l < 2 ^ 64) :
    l.testBit (bitScanFwd l) = true ∧ bitScanFwd l < 64 := by
  obtain ⟨j, hj, hb, hjn⟩ := bitScanFwdAux_spec 64 l 0 h0 hl
  unfold bitScanFwd
  rw [hj, Nat.zero_add]
  exact ⟨hb, hjn⟩

/-- Every element the loop writes comes from a pass at a set bit of the
looped value. -/
theorem mem_forBitsAux {α : Type} (body : Nat → Nat → List α) (m : α) :
    ∀ (n x : Nat), x < 2 ^ 64 → m ∈ forBitsAux n x body →
      ∃ y d, x.testBit d = true ∧ d < 64 ∧ m ∈ body y d
  | 0, x, _, h => by
    unfold forBitsAux at h
    exact absurd h (List.not_mem_nil m)
  | n + 1, x, hx, h => by
    unfold forBitsAux at h
    by_cases h0 : x = 0
    · rw [if_pos h0] at h
      exact absurd h (List.not_mem_nil m)
    · rw [if_neg h0] at h
      rcases List.mem_append.mp h with h1 | h1
      · exact ⟨x, bitScanFwd x, (testBit_bitScanFwd h0 hx).1, (testBit_bitScanFwd h0 hx).2, h1⟩
      · obtain ⟨y, d, hd, hd64, hm⟩ := mem_forBitsAux body m n (x &&& (x - 1)) (and_lt_left hx) h1
        rw [Nat.testBit_and] at hd
        exact ⟨y, d, (Bool.and_eq_true _ _ |>.mp hd).1, hd64, hm⟩

/-- Every element the loop over a 64-bit value writes comes from a pass at a
set bit of the value. -/
theorem mem_forBits {α : Type} (body : Nat → Nat → List α) (m : α) (x : Nat) (hx : x < 2 ^ 64)
    (h : m ∈ forBits x body) : ∃ y d, x.testBit d = true ∧ d < 64 ∧ m ∈ body y d :=
  mem_forBitsAux body m 64 x hx h

/-- A set bit of a shifted board comes from a set bit of the board one step
back. -/
theorem testBit_shift {D : Int} {b d : Nat} (hb : b < 2 ^ 64)
    (h : (shift D b).testBit d = true) :
    d < 64 ∧ 0 ≤ (d : Int) - D ∧ b.testBit ((d : Int) - D).toNat = true := by
  unfold shift at h
  by_cases hD : D > 0
  · rw [if_pos hD] at h
    have hU : U64 = 2 ^ 64 := rfl
    rw [hU, Nat.testBit_mod_two_pow, Nat.testBit_shiftLeft] at h
    simp only [Bool.and_eq_true, decide_eq_true_eq] at h
    obtain ⟨h1, h2, h3⟩ := h
    refine ⟨h1, by omega, ?_⟩
    have : ((d : Int) - D).toNat = d - D.toNat := by omega
    rw [this]; exact h3
  · rw [if_neg hD] at h
    rw [Nat.testBit_shiftRight] at h
    have h1 := lt_of_testBit hb h
    refine ⟨by omega, by omega, ?_⟩
    have : ((d : Int) - D).toNat = (-D).toNat + d := by omega
    rw [this]; exact h

/-- The conversion to `unsigned int` of a small non-negative `int`. -/
theorem toUInt32_of_nat (i : Int) (h0 : 0 ≤ i) (h1 : i < 64) : toUInt32 i = i.toNat := by
  unfold toUInt32
  have : i % 2 ^ 32 = i := Int.emod_eq_of_lt h0 (by omega)
  rw [this]

/-! ## Facts of a consistent board -/

/-- The bits of a union slot. -/
theorem testBit_sandwich (p : Alliance → PieceType → Nat) (c : Alliance) (sq : Nat) :
    (Board.sandwich p c).testBit sq = true ↔
      ∃ k, k ≠ PieceType.NullPT ∧ (p c k).testBit sq = true := by
  unfold Board.sandwich
  simp only [Nat.testBit_or, Bool.or_eq_true]
  constructor
  · rintro (((((h | h) | h) | h) | h) | h)
    · exact ⟨.Pawn, by decide, h⟩
    · exact ⟨.Rook, by decide, h⟩
    · exact ⟨.Knight, by decide, h⟩
    · exact ⟨.Bishop, by decide, h⟩
    · exact ⟨.Queen, by decide, h⟩
    · exact ⟨.King, by decide, h⟩
  · rintro ⟨k, hk, h⟩
    cases k
    · exact Or.inl (Or.inl (Or.inl (Or.inl (Or.inl h))))
    · exact Or.inl (Or.inl (Or.inl (Or.inl (Or.inr h))))
    · exact Or.inl (Or.inl (Or.inl (Or.inr h)))
    · exact Or.inl (Or.inl (Or.inr h))
    · exact Or.inl (Or.inr h)
    · exact Or.inr h
    · exact absurd rfl hk

/-- On a consistent board a piece of a colour is in the union slot of the colour. -/
theorem Board.Consistent.mem_union {b : Board} (hc : b.Consistent) {c : Alliance}
    {k : PieceType} {sq : Nat} (hk : k ≠ .NullPT) (h : (b.pieces c k).testBit sq = true) :
    (b.pieces c .NullPT).testBit sq = true := by
  rw [hc.union c]
  exact (testBit_sandwich b.pieces c sq).mpr ⟨k, hk, h⟩

/-- On a consistent board the union slots of the two colours share no square. -/
theorem Board.Consistent.union_disjoint {b : Board} (hc : b.Consistent) {c : Alliance}
    {sq : Nat} (h : (b.pieces c.flip .NullPT).testBit sq = true) :
    (b.pieces c .NullPT).testBit sq = false := by
  cases hb : (b.pieces c .NullPT).testBit sq
  · rfl
  · rw [hc.union] at h hb
    obtain ⟨k, hk, h1⟩ := (testBit_sandwich b.pieces c.flip sq).mp h
    obtain ⟨k2, hk2, h2⟩ := (testBit_sandwich b.pieces c sq).mp hb
    have := (hc.disjoint sq c.flip k c k2 hk hk2 h1 h2).1
    cases c <;> cases this

/-- The bits of `allPieces` on a consistent board. -/
theorem Board.Consistent.testBit_all {b : Board} (hc : b.Consistent) (c : Alliance) (sq : Nat) :
    b.allPieces.testBit sq =
      ((b.pieces c .NullPT).testBit sq || (b.pieces c.flip .NullPT).testBit sq) := by
  rw [hc.all, Nat.testBit_or]
  cases c
  · rfl
  · exact Bool.or_comm _ _

/-- On a consistent board an empty square holds no piece of either colour. -/
theorem Board.Consistent.not_mem_of_empty {b : Board} (hc : b.Consistent) (c : Alliance)
    {sq : Nat} (h : b.allPieces.testBit sq = false) :
    (b.pieces c .NullPT).testBit sq = false := by
  rw [hc.testBit_all c sq] at h
  exact (Bool.or_eq_false_iff.mp h).1

/-- `allPieces` of a consistent board is a 64-bit value. -/
theorem Board.Consistent.all_lt {b : Board} (hc : b.Consistent) : b.allPieces < 2 ^ 64 := by
  rw [hc.all]
  exact Nat.or_lt_two_pow (hc.range _ _) (hc.range _ _)

/-! ## The moves written by the generator fit the board -/

/-- The fields of `Move::make(o, d)`. -/
theorem Move.makePlain_fields (o d : Nat) (ho : o < 64) (hd : d < 64) :
    (Move.makePlain o d).origin = o ∧ (Move.makePlain o d).destination = d ∧
    (Move.makePlain o d).moveType = 0 ∧ (Move.makePlain o d).isPromotion = false := by
  have hp := Move.makePlain_manifest o d ho hd
  refine ⟨?_, ?_, ?_, ?_⟩
  · rw [Move.origin_eq, hp]; omega
  · rw [Move.destination_eq, hp]; omega
  · rw [Move.moveType_eq, hp]; omega
  · rw [Move.isPromotion_eq, hp]
    have : (o * 64 + d) / 32768 % 2 = 0 := by omega
    simp [this]

/-- The fields of `Move::make<MT>(o, d)`. -/
theorem Move.make_fields (MT : MoveType) (o d : Nat) (ho : o < 64) (hd : d < 64) :
    (Move.make MT o d).origin = o ∧ (Move.make MT o d).destination = d ∧
    (Move.make MT o d).moveType = MT.toNat ∧ (Move.make MT o d).isPromotion = false := by
  have hMT : MT.toNat < 4 := by cases MT <;> decide
  have hm := Move.make_manifest MT o d ho hd
  refine ⟨?_, ?_, ?_, ?_⟩
  · rw [Move.origin_eq, hm]; omega
  · rw [Move.destination_eq, hm]; omega
  · rw [Move.moveType_eq, hm]; omega
  · rw [Move.isPromotion_eq, hm]
    have : (MT.toNat * 4096 + o * 64 + d) / 32768 % 2 = 0 := by omega
    simp [this]

/-- The fields of `Move::makePromotion<PT>(o, d)`. -/
theorem Move.makePromotion_fields (PT : PieceType) (o d : Nat) (ho : o < 64) (hd : d < 64)
    (hPT : PT = .Rook ∨ PT = .Knight ∨ PT = .Bishop ∨ PT = .Queen) :
    (Move.makePromotion PT o d).origin = o ∧ (Move.makePromotion PT o d).destination = d ∧
    (Move.makePromotion PT o d).isPromotion = true ∧
    (Move.makePromotion PT o d).promotionPiece = PT.toNat := by
  have hP : 1 ≤ PT.toNat ∧ PT.toNat ≤ 4 := by
    rcases hPT with h | h | h | h <;> subst h <;> decide
  have hm := Move.makePromotion_manifest PT o d ho hd hPT
  refine ⟨?_, ?_, ?_, ?_⟩
  · rw [Move.origin_eq, hm]; omega
  · rw [Move.destination_eq, hm]; omega
  · rw [Move.isPromotion_eq, hm]
    have : (32768 + (PT.toNat - 1) * 4096 + o * 64 + d) / 32768 % 2 = 1 := by omega
    simp [this]
  · rw [Move.promotionPiece_eq, hm]; omega

/-- A plain move from an own piece to a square without an own piece fits. -/
theorem Board.fits_plain (b : Board) (o d : Nat) (ho : o < 64) (hd : d < 64)
    (hown : (b.pieces b.currentPlayerAlliance .NullPT).testBit o = true)
    (hnot : (b.pieces b.currentPlayerAlliance .NullPT).testBit d = false) :
    b.MoveFits (Move.makePlain o d) := by
  obtain ⟨h1, h2, h3, h4⟩ := Move.makePlain_fields o d ho hd
  refine ⟨by rw [h1]; exact ho, by rw [h2]; exact hd, by rw [h1]; exact hown,
    by rw [h2]; exact hnot, ?_, ?_, ?_⟩
  · intro h; rw [h4] at h; exact Bool.noConfusion h
  · intro _ h; rw [h3] at h; exact absurd h (by decide)
  · intro _ h; rw [h3] at h; exact absurd h (by decide)

/-- A pawn jump from an own piece to a square without an own piece fits. -/
theorem Board.fits_jump (b : Board) (o d : Nat) (ho : o < 64) (hd : d < 64)
    (hown : (b.pieces b.currentPlayerAlliance .NullPT).testBit o = true)
    (hnot : (b.pieces b.currentPlayerAlliance .NullPT).testBit d = false) :
    b.MoveFits (Move.make .PawnJump o d) := by
  obtain ⟨h1, h2, h3, h4⟩ := Move.make_fields .PawnJump o d ho hd
  refine ⟨by rw [h1]; exact ho, by rw [h2]; exact hd, by rw [h1]; exact hown,
    by rw [h2]; exact hnot, ?_, ?_, ?_⟩
  · intro h; rw [h4] at h; exact Bool.noConfusion h
  · intro _ h; rw [h3] at h; exact absurd h (by decide)
  · intro _ h; rw [h3] at h; exact absurd h (by decide)

/-- A promotion of an own pawn to a square without an own piece fits. -/
theorem Board.fits_promotions (b : Board) (hc : b.Consistent) (o d : Nat) (ho : o < 64)
    (hd : d < 64)
    (hown : (b.pieces b.currentPlayerAlliance .Pawn).testBit o = true)
    (hnot : (b.pieces b.currentPlayerAlliance .NullPT).testBit d = false)
    (m : Move) (hm : m ∈ makePromotions o d) : b.MoveFits m := by
  have key : ∀ PT : PieceType, (PT = .Rook ∨ PT = .Knight ∨ PT = .Bishop ∨ PT = .Queen) →
      b.MoveFits (Move.makePromotion PT o d) := by
    intro PT hPT
    obtain ⟨h1, h2, h3, _⟩ := Move.makePromotion_fields PT o d ho hd hPT
    refine ⟨by rw [h1]; exact ho, by rw [h2]; exact hd,
      by rw [h1]; exact hc.mem_union (by decide) hown, by rw [h2]; exact hnot, ?_, ?_, ?_⟩
    · intro _; rw [h1]; exact hown
    · intro h; rw [h3] at h; exact Bool.noConfusion h
    · intro h; rw [h3] at h; exact Bool.noConfusion h
  unfold makePromotions at hm
  simp only [List.mem_cons, List.mem_singleton, List.not_mem_nil, or_false] at hm
  rcases hm with h | h | h | h <;> subst h
  · exact key .Rook (Or.inl rfl)
  · exact key .Knight (Or.inr (Or.inl rfl))
  · exact key .Bishop (Or.inr (Or.inr (Or.inl rfl)))
  · exact key .Queen (Or.inr (Or.inr (Or.inr rfl)))

/-- A castling move of the king to an empty castling destination, with the
rook on its corner and the rook's destination empty, fits. -/
theorem Board.fits_castling (b : Board) (hc : b.Consistent) (o d : Nat) (ho : o < 64)
    (hd : d < 64)
    (hking : (b.pieces b.currentPlayerAlliance .King).testBit o = true)
    (hempty : b.allPieces.testBit d = false)
    (hside :
      (d = (defaults b.currentPlayerAlliance).kingSideDestination ∧
        (b.pieces b.currentPlayerAlliance .Rook).testBit
          (defaults b.currentPlayerAlliance).kingSideRookOrigin = true ∧
        b.allPieces.testBit (defaults b.currentPlayerAlliance).kingSideRookDestination = false) ∨
      (d = (defaults b.currentPlayerAlliance).queenSideDestination ∧
        (b.pieces b.currentPlayerAlliance .Rook).testBit
          (defaults b.currentPlayerAlliance).queenSideRookOrigin = true ∧
        b.allPieces.testBit
          (defaults b.currentPlayerAlliance).queenSideRookDestination = false)) :
    b.MoveFits (Move.make .Castling o d) := by
  obtain ⟨h1, h2, h3, h4⟩ := Move.make_fields .Castling o d ho hd
  refine ⟨by rw [h1]; exact ho, by rw [h2]; exact hd,
    by rw [h1]; exact hc.mem_union (by decide) hking,
    by rw [h2]; exact hc.not_mem_of_empty _ hempty, ?_, ?_, ?_⟩
  · intro h; rw [h4] at h; exact Bool.noConfusion h
  · intro _ _; rw [h1, h2]; exact ⟨hking, hempty, hside⟩
  · intro _ h; rw [h3] at h; exact absurd h (by decide)

/-- An en-passant capture by an own pawn to an empty square, with an enemy
pawn on the en-passant square, fits. -/
theorem Board.fits_enPassant (b : Board) (hc : b.Consistent) (o d : Nat) (ho : o < 64)
    (hd : d < 64)
    (hpawn : (b.pieces b.currentPlayerAlliance .Pawn).testBit o = true)
    (hempty : b.allPieces.testBit d = false)
    (hep : b.currentState.epSquare < 64)
    (htheir : (b.pieces b.currentPlayerAlliance.flip .Pawn).testBit b.currentState.epSquare
      = true) :
    b.MoveFits (Move.make .EnPassant o d) := by
  obtain ⟨h1, h2, h3, h4⟩ := Move.make_fields .EnPassant o d ho hd
  refine ⟨by rw [h1]; exact ho, by rw [h2]; exact hd,
    by rw [h1]; exact hc.mem_union (by decide) hpawn,
    by rw [h2]; exact hc.not_mem_of_empty _ hempty, ?_, ?_, ?_⟩
  · intro h; rw [h4] at h; exact Bool.noConfusion h
  · intro _ h; rw [h3] at h; exact absurd h (by decide)
  · intro _ _; rw [h1, h2]; exact ⟨hpawn, hempty, hep, htheir⟩

/-- The moves of a loop over origins and, for each, over targets fit, when the
origins hold own pieces and the targets hold none. -/
theorem Board.pieceLoop_fits (b : Board) (hc : b.Consistent) (PT : PieceType)
    (hPT : PT ≠ .NullPT) (origins : Nat) (ho64 : origins < 2 ^ 64)
    (horig : ∀ o, origins.testBit o = true →
      (b.pieces b.currentPlayerAlliance PT).testBit o = true)
    (targets : Nat → Nat) (ht64 : ∀ o, targets o < 2 ^ 64)
    (ht : ∀ o d, (targets o).testBit d = true →
      (b.pieces b.currentPlayerAlliance .NullPT).testBit d = false)
    (m : Move)
    (hm : m ∈ forBits origins (fun _ origin =>
      forBits (targets origin) (fun _ d => [Move.makePlain origin d]))) :
    b.MoveFits m := by
  obtain ⟨_, o, hbo, ho, hm1⟩ := mem_forBits _ m origins ho64 hm
  obtain ⟨_, d, hbd, hd, hm2⟩ := mem_forBits _ m (targets o) (ht64 o) hm1
  rw [List.mem_singleton] at hm2
  subst hm2
  exact b.fits_plain o d ho hd (hc.mem_union hPT (horig o hbo)) (ht o d hbd)

/-- The moves written by `makeMoves<A, PT>` fit, when the filter admits no
square of an own piece. -/
theorem makeMovesOf_fits (L : Lines) (W : Magics) (b : Board) (hc : b.Consistent)
    (PT : PieceType) (hPT : PT ≠ .NullPT) (kingGuard filter kingSquare : Nat)
    (hf : filter < 2 ^ 64)
    (hfilter : ∀ d, filter.testBit d = true →
      (b.pieces b.currentPlayerAlliance .NullPT).testBit d = false)
    (m : Move)
    (hm : m ∈ makeMovesOf L W b.currentPlayerAlliance PT b kingGuard filter kingSquare) :
    b.MoveFits m := by
  have hfree : ∀ m, m ∈ forBits (b.getPieces b.currentPlayerAlliance PT &&& not64 kingGuard)
      (fun _ origin => forBits (attackBoard W PT b.getAllPieces origin &&& filter)
        (fun _ d => [Move.makePlain origin d])) → b.MoveFits m := by
    intro m hm
    refine b.pieceLoop_fits hc PT hPT _ (and_lt_left (hc.range _ _)) ?_
      (fun origin => attackBoard W PT b.getAllPieces origin &&& filter)
      (fun _ => and_lt_right hf) ?_ m hm
    · intro o h
      rw [Nat.testBit_and] at h
      exact (Bool.and_eq_true _ _ |>.mp h).1
    · intro o d h
      rw [Nat.testBit_and] at h
      exact hfilter d (Bool.and_eq_true _ _ |>.mp h).2
  have hpinned : ∀ m, m ∈ forBits (b.getPieces b.currentPlayerAlliance PT &&& kingGuard)
      (fun _ origin => forBits
        (attackBoard W PT b.getAllPieces origin &&& filter &&& L.rayBoard kingSquare origin)
        (fun _ d => [Move.makePlain origin d])) → b.MoveFits m := by
    intro m hm
    refine b.pieceLoop_fits hc PT hPT _ (and_lt_left (hc.range _ _)) ?_
      (fun origin =>
        attackBoard W PT b.getAllPieces origin &&& filter &&& L.rayBoard kingSquare origin)
      (fun _ => and_lt_left (and_lt_right hf)) ?_ m hm
    · intro o h
      rw [Nat.testBit_and] at h
      exact (Bool.and_eq_true _ _ |>.mp h).1
    · intro o d h
      rw [Nat.testBit_and, Nat.testBit_and] at h
      exact hfilter d (Bool.and_eq_true _ _ |>.mp (Bool.and_eq_true _ _ |>.mp h).1).2
  unfold makeMovesOf at hm
  simp only [] at hm
  split_ifs at hm with h1 h2
  · exact hfree m hm
  · rcases List.mem_append.mp hm with h | h
    · exact hfree m h
    · exact hpinned m h
  · rcases List.mem_append.mp hm with h | h
    · exact hfree m h
    · exact absurd h (List.not_mem_nil m)

/-- The partial filter of `makeMoves<A, FT>` is a 64-bit value that admits no
square of an own piece. -/
theorem Board.partialFilter_spec (b : Board) (hc : b.Consistent) (FT : FilterType) :
    (if FT = .All then not64 (b.getPiecesOf b.currentPlayerAlliance)
      else if FT = .Passive then not64 b.getAllPieces
      else b.getPiecesOf b.currentPlayerAlliance.flip) < 2 ^ 64 ∧
    ∀ d, (if FT = .All then not64 (b.getPiecesOf b.currentPlayerAlliance)
      else if FT = .Passive then not64 b.getAllPieces
      else b.getPiecesOf b.currentPlayerAlliance.flip).testBit d = true →
      (b.pieces b.currentPlayerAlliance .NullPT).testBit d = false := by
  unfold Board.getPiecesOf Board.getAllPieces
  split_ifs with h1 h2
  · refine ⟨not64_lt (hc.range _ _), fun d h => ?_⟩
    exact ((testBit_not64_iff (hc.range _ _)).mp h).2
  · refine ⟨not64_lt hc.all_lt, fun d h => ?_⟩
    exact hc.not_mem_of_empty _ ((testBit_not64_iff hc.all_lt).mp h).2
  · exact ⟨hc.range _ _, fun d h => hc.union_disjoint h⟩

/-- An element of a guarded list is an element of the list. -/
theorem mem_of_mem_ite {α : Type} {c : Prop} [Decidable c] {l : List α} {m : α}
    (h : m ∈ if c then l else []) : m ∈ l := by
  split_ifs at h
  · exact h
  · exact absurd h (List.not_mem_nil m)

/-- The backward directions of an alliance are the opposites of its forward
directions. -/
theorem defaults_directions (A : Alliance) :
    (defaults A).down = -(defaults A).up ∧ (defaults A).downLeft = -(defaults A).upRight ∧
    (defaults A).downRight = -(defaults A).upLeft := by
  cases A <;> decide

/-- The moves of a loop over pawn targets fit, when every target holds no own
piece and the origin computed from it holds an own pawn. -/
theorem Board.pawnLoop_fits (b : Board) (hc : b.Consistent) (targets : Nat)
    (ht64 : targets < 2 ^ 64) (org : Nat → Int)
    (ht : ∀ d, targets.testBit d = true →
      (b.pieces b.currentPlayerAlliance .NullPT).testBit d = false ∧ 0 ≤ org d ∧
      (b.pieces b.currentPlayerAlliance .Pawn).testBit (org d).toNat = true)
    (body : Nat → Nat → List Move) (m : Move)
    (hbody : ∀ y d, m ∈ body y d →
      m = Move.makePlain (toUInt32 (org d)) d ∨ m = Move.make .PawnJump (toUInt32 (org d)) d ∨
      m ∈ makePromotions (toUInt32 (org d)) d)
    (hm : m ∈ forBits targets body) : b.MoveFits m := by
  obtain ⟨y, d, hbd, hd, hm1⟩ := mem_forBits body m targets ht64 hm
  obtain ⟨hnot, h0, hp⟩ := ht d hbd
  have ho : (org d).toNat < 64 := lt_of_testBit (hc.range _ _) hp
  have hu : toUInt32 (org d) = (org d).toNat := toUInt32_of_nat _ h0 (by omega)
  rcases hbody y d hm1 with h | h | h
  · rw [h, hu]
    exact b.fits_plain _ d ho hd (hc.mem_union (by decide) hp) hnot
  · rw [h, hu]
    exact b.fits_jump _ d ho hd (hc.mem_union (by decide) hp) hnot
  · rw [hu] at h
    exact b.fits_promotions hc _ d ho hd hp hnot m h

/-- A push target: an empty square one step ahead of a source square. -/
theorem Board.pushTarget_spec (b : Board) (hc : b.Consistent) (c : Alliance) (src : Nat)
    (hsrc : src < 2 ^ 64) (up : Int) (d : Nat)
    (h : (shift up src &&& not64 b.allPieces).testBit d = true) :
    (b.pieces c .NullPT).testBit d = false ∧ 0 ≤ (d : Int) - up ∧
      src.testBit ((d : Int) - up).toNat = true := by
  rw [Nat.testBit_and, Bool.and_eq_true] at h
  obtain ⟨h1, h2⟩ := h
  obtain ⟨_, h3, h4⟩ := testBit_shift hsrc h1
  exact ⟨hc.not_mem_of_empty c ((testBit_not64_iff hc.all_lt).mp h2).2, h3, h4⟩

/-- A capture target: a square of an enemy piece one step ahead of a source
square. -/
theorem Board.captureTarget_spec (b : Board) (hc : b.Consistent) (c : Alliance) (src : Nat)
    (hsrc : src < 2 ^ 64) (dir : Int) (cp d : Nat)
    (h : (shift dir src &&& (b.pieces c.flip .NullPT &&& cp)).testBit d = true) :
    (b.pieces c .NullPT).testBit d = false ∧ 0 ≤ (d : Int) - dir ∧
      src.testBit ((d : Int) - dir).toNat = true := by
  rw [Nat.testBit_and, Nat.testBit_and, Bool.and_eq_true, Bool.and_eq_true] at h
  obtain ⟨h1, h2, _⟩ := h
  obtain ⟨_, h3, h4⟩ := testBit_shift hsrc h1
  exact ⟨hc.union_disjoint h2, h3, h4⟩

/-- An element of a list guarded by the negation of a condition is an element
of the list. -/
theorem mem_of_mem_ite_else {α : Type} {c : Prop} [Decidable c] {l : List α} {m : α}
    (h : m ∈ if c then [] else l) : m ∈ l := by
  split_ifs at h
  · exact absurd h (List.not_mem_nil m)
  · exact h

/-- The moves of a loop over single-push targets fit. -/
theorem Board.pushLoop_fits (b : Board) (hc : b.Consistent) (src : Nat) (hsrc : src < 2 ^ 64)
    (hsub : ∀ i, src.testBit i = true →
      (b.pieces b.currentPlayerAlliance .Pawn).testBit i = true)
    (cp : Nat) (body : Nat → Nat → List Move) (m : Move)
    (hbody : ∀ y d, m ∈ body y d →
      m = Move.makePlain (toUInt32 ((d : Int) + (defaults b.currentPlayerAlliance).down)) d ∨
      m = Move.make .PawnJump
        (toUInt32 ((d : Int) + (defaults b.currentPlayerAlliance).down)) d ∨
      m ∈ makePromotions (toUInt32 ((d : Int) + (defaults b.currentPlayerAlliance).down)) d)
    (hm : m ∈ forBits
      (shift (defaults b.currentPlayerAlliance).up src &&& not64 b.allPieces &&& cp) body) :
    b.MoveFits m := by
  have hdn := (defaults_directions b.currentPlayerAlliance).1
  refine b.pawnLoop_fits hc _ (and_lt_left (and_lt_right (not64_lt hc.all_lt)))
    (fun d => (d : Int) + (defaults b.currentPlayerAlliance).down) ?_ body m hbody hm
  intro d hd
  rw [Nat.testBit_and, Bool.and_eq_true] at hd
  obtain ⟨h1, h2, h3⟩ := b.pushTarget_spec hc b.currentPlayerAlliance src hsrc _ d hd.1
  have e : (d : Int) + (defaults b.currentPlayerAlliance).down =
      (d : Int) - (defaults b.currentPlayerAlliance).up := by rw [hdn]; ring
  simp only [e]
  exact ⟨h1, h2, hsub _ h3⟩

/-- The moves of a loop over double-push targets fit. -/
theorem Board.jumpLoop_fits (b : Board) (hc : b.Consistent) (src : Nat) (hsrc : src < 2 ^ 64)
    (hsub : ∀ i, src.testBit i = true →
      (b.pieces b.currentPlayerAlliance .Pawn).testBit i = true)
    (cp : Nat) (body : Nat → Nat → List Move) (m : Move)
    (hbody : ∀ y d, m ∈ body y d →
      m = Move.makePlain (toUInt32 ((d : Int) + (defaults b.currentPlayerAlliance).down +
        (defaults b.currentPlayerAlliance).down)) d ∨
      m = Move.make .PawnJump (toUInt32 ((d : Int) + (defaults b.currentPlayerAlliance).down +
        (defaults b.currentPlayerAlliance).down)) d ∨
      m ∈ makePromotions (toUInt32 ((d : Int) + (defaults b.currentPlayerAlliance).down +
        (defaults b.currentPlayerAlliance).down)) d)
    (hm : m ∈ forBits
      (shift (defaults b.currentPlayerAlliance).up
        (shift (defaults b.currentPlayerAlliance).up src &&& not64 b.allPieces &&&
          (defaults b.currentPlayerAlliance).pawnJumpSquares) &&&
        not64 b.allPieces &&& cp) body) :
    b.MoveFits m := by
  have hdn := (defaults_directions b.currentPlayerAlliance).1
  refine b.pawnLoop_fits hc _ (and_lt_left (and_lt_right (not64_lt hc.all_lt)))
    (fun d => (d : Int) + (defaults b.currentPlayerAlliance).down +
      (defaults b.currentPlayerAlliance).down) ?_ body m hbody hm
  intro d hd
  rw [Nat.testBit_and, Bool.and_eq_true] at hd
  obtain ⟨h1, h2, h3⟩ := b.pushTarget_spec hc b.currentPlayerAlliance _
    (and_lt_left (and_lt_right (not64_lt hc.all_lt))) _ d hd.1
  rw [Nat.testBit_and, Bool.and_eq_true] at h3
  obtain ⟨_, h5, h6⟩ := b.pushTarget_spec hc b.currentPlayerAlliance src hsrc _ _ h3.1
  have e : ((d : Int) + (defaults b.currentPlayerAlliance).down +
      (defaults b.currentPlayerAlliance).down).toNat =
      ((((d : Int) - (defaults b.currentPlayerAlliance).up).toNat : Int) -
        (defaults b.currentPlayerAlliance).up).toNat := by
    rw [hdn]; omega
  simp only [e]
  refine ⟨h1, ?_, hsub _ h6⟩
  rw [hdn]; omega

/-- The moves of a loop over capture targets fit. -/
theorem Board.captureLoop_fits (b : Board) (hc : b.Consistent) (src : Nat)
    (hsrc : src < 2 ^ 64)
    (hsub : ∀ i, src.testBit i = true →
      (b.pieces b.currentPlayerAlliance .Pawn).testBit i = true)
    (dir back : Int) (hback : back = -dir)
    (col cp : Nat) (body : Nat → Nat → List Move) (m : Move)
    (hbody : ∀ y d, m ∈ body y d →
      m = Move.makePlain (toUInt32 ((d : Int) + back)) d ∨
      m = Move.make .PawnJump (toUInt32 ((d : Int) + back)) d ∨
      m ∈ makePromotions (toUInt32 ((d : Int) + back)) d)
    (hm : m ∈ forBits
      (shift dir (src &&& col) &&& (b.pieces b.currentPlayerAlliance.flip .NullPT &&& cp))
      body) :
    b.MoveFits m := by
  refine b.pawnLoop_fits hc _ (and_lt_right (and_lt_left (hc.range _ _)))
    (fun d => (d : Int) + back) ?_ body m hbody hm
  intro d hd
  obtain ⟨h1, h2, h3⟩ := b.captureTarget_spec hc b.currentPlayerAlliance (src &&& col)
    (and_lt_left hsrc) dir cp d hd
  rw [Nat.testBit_and, Bool.and_eq_true] at h3
  have e : (d : Int) + back = (d : Int) - dir := by rw [hback]; ring
  simp only [e]
  exact ⟨h1, h2, hsub _ h3.1⟩

/-- The moves written by the en-passant part of `makePawnMoves` fit, when the
state fits the board. -/
theorem makeEnPassantMoves_fits (L : Lines) (W : Magics) (b : Board) (hc : b.Consistent)
    (hs : b.StateFits) (checkPath kingSquare freeLowPawns pinnedLowPawns : Nat)
    (hf64 : freeLowPawns < 2 ^ 64) (hp64 : pinnedLowPawns < 2 ^ 64)
    (hfree : ∀ i, freeLowPawns.testBit i = true →
      (b.pieces b.currentPlayerAlliance .Pawn).testBit i = true)
    (hpinned : ∀ i, pinnedLowPawns.testBit i = true →
      (b.pieces b.currentPlayerAlliance .Pawn).testBit i = true)
    (m : Move)
    (hm : m ∈ makeEnPassantMoves L W b.currentPlayerAlliance b checkPath kingSquare
      freeLowPawns pinnedLowPawns) : b.MoveFits m := by
  unfold makeEnPassantMoves at hm
  simp only [Board.getEpSquare] at hm
  have hne : b.currentState.epSquare ≠ NullSQ := by
    intro hh
    rw [if_pos hh] at hm
    exact absurd hm (List.not_mem_nil m)
  have hm := mem_of_mem_ite_else hm
  have hm := mem_of_mem_ite_else hm
  have hm := mem_of_mem_ite_else hm
  have hm := mem_of_mem_ite_else hm
  -- every origin is a pawn beside the en-passant square
  have key : ∀ passers : Nat, passers < 2 ^ 64 →
      (∀ i, passers.testBit i = true →
        (b.pieces b.currentPlayerAlliance .Pawn).testBit i = true) →
      ∀ body : Nat → Nat → List Move,
      (∀ y o, m ∈ body y o → m = Move.make .EnPassant o
        (toUInt32 ((b.currentState.epSquare : Int) + (defaults b.currentPlayerAlliance).up))) →
      m ∈ forBits
        ((shift (defaults b.currentPlayerAlliance).right
            (SquareToBitBoard b.currentState.epSquare &&&
              (defaults b.currentPlayerAlliance).notRightCol) |||
          shift (defaults b.currentPlayerAlliance).left
            (SquareToBitBoard b.currentState.epSquare &&&
              (defaults b.currentPlayerAlliance).notLeftCol)) &&& passers) body →
      b.MoveFits m := by
    intro passers hp64 hsub body hbody hmem
    obtain ⟨y, o, hbo, ho, hm1⟩ := mem_forBits body m _ (and_lt_right hp64) hmem
    rw [Nat.testBit_and, Bool.and_eq_true] at hbo
    have hpawn := hsub o hbo.2
    rcases hs.enPassant with h | h | h
    · exact absurd h hne
    · have h1 : ((shift (defaults b.currentPlayerAlliance).right
            (SquareToBitBoard b.currentState.epSquare &&&
              (defaults b.currentPlayerAlliance).notRightCol) |||
          shift (defaults b.currentPlayerAlliance).left
            (SquareToBitBoard b.currentState.epSquare &&&
              (defaults b.currentPlayerAlliance).notLeftCol)) &&&
          b.pieces b.currentPlayerAlliance .Pawn).testBit o = true := by
        rw [Nat.testBit_and, hbo.1, hpawn]; rfl
      rw [h] at h1
      simp at h1
    · obtain ⟨hep, htheir, h0, h64, hempty⟩ := h
      have hu := toUInt32_of_nat _ h0 h64
      rw [hbody y o hm1, hu]
      exact b.fits_enPassant hc o _ ho (by omega) hpawn hempty hep htheir
  rcases List.mem_append.mp hm with h | h
  · exact key freeLowPawns hf64 hfree _ (fun y o h => List.mem_singleton.mp h) h
  · exact key pinnedLowPawns hp64 hpinned _
      (fun y o h => List.mem_singleton.mp (mem_of_mem_ite h)) h

/-- The moves written by `makePawnMoves<A, FT>` fit, when the state fits the
board. -/
theorem makePawnMoves_fits (L : Lines) (W : Magics) (b : Board) (hc : b.Consistent)
    (hs : b.StateFits) (FT : FilterType) (checkPath kingGuard kingSquare : Nat) (m : Move)
    (hm : m ∈ makePawnMoves L W b.currentPlayerAlliance FT b checkPath kingGuard kingSquare) :
    b.MoveFits m := by
  obtain ⟨_, hdl, hdr⟩ := defaults_directions b.currentPlayerAlliance
  have hP := hc.range b.currentPlayerAlliance .Pawn
  -- the four sets of pawns are sets of own pawns
  have s1 : ∀ (g pm : Nat) (i : Nat),
      (b.pieces b.currentPlayerAlliance .Pawn &&& g &&& pm).testBit i = true →
      (b.pieces b.currentPlayerAlliance .Pawn).testBit i = true := by
    intro g pm i h
    rw [Nat.testBit_and, Nat.testBit_and, Bool.and_eq_true, Bool.and_eq_true] at h
    exact h.1.1
  have b1 : ∀ (g pm : Nat), b.pieces b.currentPlayerAlliance .Pawn &&& g &&& pm < 2 ^ 64 :=
    fun g pm => and_lt_left (and_lt_left hP)
  unfold makePawnMoves at hm
  simp only [List.mem_append, Board.getPiecesOf, Board.getAllPieces, Board.getPieces] at hm
  rcases hm with ((((h | h) | h) | h) | h) | h
  · -- pushes of free low pawns
    rcases List.mem_append.mp (mem_of_mem_ite h) with h | h
    · exact b.pushLoop_fits hc _ (b1 _ _) (s1 _ _) _ _ m
        (fun y d h => Or.inl (List.mem_singleton.mp h)) h
    · exact b.jumpLoop_fits hc _ (b1 _ _) (s1 _ _) _ _ m
        (fun y d h => Or.inr (Or.inl (List.mem_singleton.mp h))) h
  · -- captures of free low pawns
    rcases List.mem_append.mp (mem_of_mem_ite h) with h | h
    · exact b.captureLoop_fits hc _ (b1 _ _) (s1 _ _) _ _ hdl _ _ _ m
        (fun y d h => Or.inl (List.mem_singleton.mp h)) h
    · exact b.captureLoop_fits hc _ (b1 _ _) (s1 _ _) _ _ hdr _ _ _ m
        (fun y d h => Or.inl (List.mem_singleton.mp h)) h
  · -- pinned low pawns
    rcases List.mem_append.mp (mem_of_mem_ite h) with h | h
    · rcases List.mem_append.mp (mem_of_mem_ite h) with h | h
      · exact b.pushLoop_fits hc _ (b1 _ _) (s1 _ _) _ _ m
          (fun y d h => Or.inl (List.mem_singleton.mp (mem_of_mem_ite h))) h
      · exact b.jumpLoop_fits hc _ (b1 _ _) (s1 _ _) _ _ m
          (fun y d h => Or.inr (Or.inl (List.mem_singleton.mp (mem_of_mem_ite h)))) h
    · rcases List.mem_append.mp (mem_of_mem_ite h) with h | h
      · exact b.captureLoop_fits hc _ (b1 _ _) (s1 _ _) _ _ hdl _ _ _ m
          (fun y d h => Or.inl (List.mem_singleton.mp (mem_of_mem_ite h))) h
      · exact b.captureLoop_fits hc _ (b1 _ _) (s1 _ _) _ _ hdr _ _ _ m
          (fun y d h => Or.inl (List.mem_singleton.mp (mem_of_mem_ite h))) h
  · -- promotions of free high pawns
    rcases List.mem_append.mp (mem_of_mem_ite h) with h | h
    · exact b.pushLoop_fits hc _ (b1 _ _) (s1 _ _) _ _ m
        (fun y d h => Or.inr (Or.inr h)) (mem_of_mem_ite h)
    · rcases List.mem_append.mp (mem_of_mem_ite h) with h | h
      · exact b.captureLoop_fits hc _ (b1 _ _) (s1 _ _) _ _ hdl _ _ _ m
          (fun y d h => Or.inr (Or.inr h)) h
      · exact b.captureLoop_fits hc _ (b1 _ _) (s1 _ _) _ _ hdr _ _ _ m
          (fun y d h => Or.inr (Or.inr h)) h
  · -- promotions of pinned high pawns
    rcases List.mem_append.mp (mem_of_mem_ite h) with h | h
    · exact b.pushLoop_fits hc _ (b1 _ _) (s1 _ _) _ _ m
        (fun y d h => Or.inr (Or.inr (mem_of_mem_ite h))) (mem_of_mem_ite h)
    · rcases List.mem_append.mp (mem_of_mem_ite h) with h | h
      · exact b.captureLoop_fits hc _ (b1 _ _) (s1 _ _) _ _ hdl _ _ _ m
          (fun y d h => Or.inr (Or.inr (mem_of_mem_ite h))) h
      · exact b.captureLoop_fits hc _ (b1 _ _) (s1 _ _) _ _ hdr _ _ _ m
          (fun y d h => Or.inr (Or.inr (mem_of_mem_ite h))) h
  · -- en passant
    exact makeEnPassantMoves_fits L W b hc hs _ _ _ _ (b1 _ _) (b1 _ _) (s1 _ _) (s1 _ _) m
      (mem_of_mem_ite_else h)

/-- An element of a conditional list is an element of one of its branches. -/
theorem mem_ite_cases {α : Type} {c : Prop} [Decidable c] {l1 l2 : List α} {m : α}
    (h : m ∈ if c then l1 else l2) : m ∈ l1 ∨ m ∈ l2 := by
  split_ifs at h
  · exact Or.inl h
  · exact Or.inr h

/-- An element of a guarded singleton is its element, and the guard holds. -/
theorem eq_of_mem_ite_singleton {α : Type} {c : Prop} [Decidable c] {a m : α}
    (h : m ∈ if c then [a] else []) : c ∧ m = a := by
  split_ifs at h with hc
  · exact ⟨hc, List.mem_singleton.mp h⟩
  · exact absurd h (List.not_mem_nil m)

/-- A square of a mask that misses the occupancy is empty. -/
theorem testBit_of_and_eq_zero {mask all sq : Nat} (h : mask &&& all = 0)
    (hm : mask.testBit sq = true) : all.testBit sq = false := by
  cases hb : all.testBit sq
  · rfl
  · have h1 : (mask &&& all).testBit sq = true := by rw [Nat.testBit_and, hm, hb]; rfl
    rw [h] at h1
    simp at h1

/-- The castling destinations of king and rook lie in the castling masks. -/
theorem defaults_castling (A : Alliance) :
    (defaults A).kingSideMask.testBit (defaults A).kingSideDestination = true ∧
    (defaults A).kingSideMask.testBit (defaults A).kingSideRookDestination = true ∧
    (defaults A).queenSideMask.testBit (defaults A).queenSideDestination = true ∧
    (defaults A).queenSideMask.testBit (defaults A).queenSideRookDestination = true ∧
    (defaults A).kingSideDestination < 64 ∧ (defaults A).queenSideDestination < 64 := by
  cases A <;> decide

/-- The moves written by `makeMoves<A, FT>` fit a consistent board whose state
fits it. -/
theorem makeMoves_fits (L : Lines) (W : Magics) (b : Board) (hc : b.Consistent)
    (hs : b.StateFits) (FT : FilterType) (m : Move)
    (hm : m ∈ makeMoves L W b.currentPlayerAlliance FT b) : b.MoveFits m := by
  obtain ⟨hpf64, hpf⟩ := b.partialFilter_spec hc FT
  obtain ⟨hkd, hkrd, hqd, hqrd, hkd64, hqd64⟩ := defaults_castling b.currentPlayerAlliance
  have hK := hc.range b.currentPlayerAlliance .King
  obtain ⟨hking, hksq⟩ := testBit_bitScanFwd hs.king hK
  have hfull : ∀ cp d, ((if FT = .All then not64 (b.getPiecesOf b.currentPlayerAlliance)
      else if FT = .Passive then not64 b.getAllPieces
      else b.getPiecesOf b.currentPlayerAlliance.flip) &&& cp).testBit d = true →
      (b.pieces b.currentPlayerAlliance .NullPT).testBit d = false := by
    intro cp d h
    rw [Nat.testBit_and, Bool.and_eq_true] at h
    exact hpf d h.1
  have hkingMoves : m ∈ forBits
      (SquareToKingAttacks (bitScanFwd (b.getPieces b.currentPlayerAlliance .King)) &&&
        (if FT = .All then not64 (b.getPiecesOf b.currentPlayerAlliance)
          else if FT = .Passive then not64 b.getAllPieces
          else b.getPiecesOf b.currentPlayerAlliance.flip))
      (fun _ dest =>
        if attacksOn W b.currentPlayerAlliance .King b dest = 0 then
          [Move.makePlain (bitScanFwd (b.getPieces b.currentPlayerAlliance .King)) dest]
        else []) → b.MoveFits m := by
    intro h
    obtain ⟨_, d, hbd, hd, hm1⟩ := mem_forBits _ m _ (and_lt_right hpf64) h
    rw [Nat.testBit_and, Bool.and_eq_true] at hbd
    rw [List.mem_singleton.mp (mem_of_mem_ite hm1)]
    exact b.fits_plain _ d hksq hd (hc.mem_union (by decide) hking) (hpf d hbd.2)
  have hnk : ∀ (c : Prop) [Decidable c] (kg cp ksq : Nat),
      m ∈ (if c then
          makeMovesOf L W b.currentPlayerAlliance .Queen b kg
              ((if FT = .All then not64 (b.getPiecesOf b.currentPlayerAlliance)
                else if FT = .Passive then not64 b.getAllPieces
                else b.getPiecesOf b.currentPlayerAlliance.flip) &&& cp) ksq ++
            makeMovesOf L W b.currentPlayerAlliance .Knight b kg
              ((if FT = .All then not64 (b.getPiecesOf b.currentPlayerAlliance)
                else if FT = .Passive then not64 b.getAllPieces
                else b.getPiecesOf b.currentPlayerAlliance.flip) &&& cp) ksq ++
            makeMovesOf L W b.currentPlayerAlliance .Bishop b kg
              ((if FT = .All then not64 (b.getPiecesOf b.currentPlayerAlliance)
                else if FT = .Passive then not64 b.getAllPieces
                else b.getPiecesOf b.currentPlayerAlliance.flip) &&& cp) ksq ++
            makeMovesOf L W b.currentPlayerAlliance .Rook b kg
              ((if FT = .All then not64 (b.getPiecesOf b.currentPlayerAlliance)
                else if FT = .Passive then not64 b.getAllPieces
                else b.getPiecesOf b.currentPlayerAlliance.flip) &&& cp) ksq ++
            makePawnMoves L W b.currentPlayerAlliance FT b cp kg ksq
        else []) → b.MoveFits m := by
    intro c _ kg cp ksq h
    have h := mem_of_mem_ite h
    simp only [List.mem_append] at h
    rcases h with (((h | h) | h) | h) | h
    · exact makeMovesOf_fits L W b hc _ (by decide) _ _ _ (and_lt_left hpf64) (hfull _) m h
    · exact makeMovesOf_fits L W b hc _ (by decide) _ _ _ (and_lt_left hpf64) (hfull _) m h
    · exact makeMovesOf_fits L W b hc _ (by decide) _ _ _ (and_lt_left hpf64) (hfull _) m h
    · exact makeMovesOf_fits L W b hc _ (by decide) _ _ _ (and_lt_left hpf64) (hfull _) m h
    · exact makePawnMoves_fits L W b hc hs FT _ _ _ m h
  unfold makeMoves at hm
  simp only [] at hm
  rcases mem_ite_cases hm with h | h
  · rcases List.mem_append.mp h with h | h
    · exact hnk _ _ _ _ h
    · exact hkingMoves h
  · rcases List.mem_append.mp h with h | h
    · rcases List.mem_append.mp h with h | h
      · rcases List.mem_append.mp h with h | h
        · exact hnk _ _ _ _ h
        · exact hkingMoves h
      · obtain ⟨⟨hmask, hright, _⟩, he⟩ := eq_of_mem_ite_singleton h
        rw [he]
        exact b.fits_castling hc _ _ hksq hkd64 hking
          (testBit_of_and_eq_zero hmask hkd)
          (Or.inl ⟨rfl, hs.kingSide hright, testBit_of_and_eq_zero hmask hkrd⟩)
    · obtain ⟨⟨hmask, hright, _⟩, he⟩ := eq_of_mem_ite_singleton h
      rw [he]
      exact b.fits_castling hc _ _ hksq hqd64 hking
        (testBit_of_and_eq_zero hmask hqd)
        (Or.inr ⟨rfl, hs.queenSide hright, testBit_of_and_eq_zero hmask hqrd⟩)

/-- The moves written by `generateMoves<FT>` fit a consistent board whose state
fits it. -/
theorem generateMoves_fits (L : Lines) (W : Magics) (b : Board) (hc : b.Consistent)
    (hs : b.StateFits) (FT : FilterType) (m : Move)
    (hm : m ∈ generateMoves L W FT b) : b.MoveFits m := by
  unfold generateMoves Board.currentPlayer at hm
  have key : ∀ A, b.currentPlayerAlliance = A → m ∈ makeMoves L W A FT b → b.MoveFits m := by
    intro A hA h
    subst hA
    exact makeMoves_fits L W b hc hs FT m h
  cases hA : b.currentPlayerAlliance
  · rw [hA] at hm; exact key _ hA hm
  · rw [hA] at hm; exact key _ hA hm

/-! ## Boards as pictures of placements -/

/-- A consistent board is the picture of its occupants. -/
theorem Board.Consistent.placedBy {b : Board} (hc : b.Consistent) : b.PlacedBy b.occupant := by
  have hkind : ∀ c k sq, k ≠ PieceType.NullPT →
      ((b.pieces c k).testBit sq = true ↔ b.occupant sq = some (c, k)) := by
    intro c k sq hk
    constructor
    · intro h
      have hsq : sq < 64 := lt_of_testBit (hc.range c k) h
      have hmb : b.mailbox sq = k := (hc.mailbox sq hsq k hk).mpr ⟨c, h⟩
      have hu := hc.mem_union hk h
      unfold Board.occupant
      rw [if_pos hsq, hmb, if_neg hk]
      cases c
      · rw [if_pos hu]
      · have hw : (b.pieces .White .NullPT).testBit sq = false :=
          hc.union_disjoint (c := .White) hu
        rw [hw, hu]
        rfl
    · intro h
      unfold Board.occupant at h
      split_ifs at h with h1 h2 h3 h4
      · cases h
        obtain ⟨c2, hc2⟩ := (hc.mailbox sq h1 _ h2).mp rfl
        have hu := hc.mem_union h2 hc2
        cases c2
        · exact hc2
        · have := hc.union_disjoint (c := .White) hu
          rw [this] at h3
          exact Bool.noConfusion h3
      · cases h
        obtain ⟨c2, hc2⟩ := (hc.mailbox sq h1 _ h2).mp rfl
        have hu := hc.mem_union h2 hc2
        cases c2
        · exact absurd hu h3
        · exact hc2
  have hnone : ∀ sq, b.occupant sq = none ↔ b.allPieces.testBit sq = false := by
    intro sq
    constructor
    · intro h
      cases hb : b.allPieces.testBit sq
      · rfl
      · rw [hc.testBit_all .White sq, Bool.or_eq_true] at hb
        have : ∃ c, (b.pieces c .NullPT).testBit sq = true := by
          rcases hb with hb | hb
          · exact ⟨.White, hb⟩
          · exact ⟨.Black, hb⟩
        obtain ⟨c, hcb⟩ := this
        rw [hc.union c] at hcb
        obtain ⟨k, hk, hkb⟩ := (testBit_sandwich b.pieces c sq).mp hcb
        rw [(hkind c k sq hk).mp hkb] at h
        exact Option.noConfusion h
    · intro h
      cases ho : b.occupant sq with
      | none => rfl
      | some ck =>
        obtain ⟨c, k⟩ := ck
        have hk : k ≠ .NullPT := by
          intro hk
          subst hk
          unfold Board.occupant at ho
          split_ifs at ho with h1 h2 h3 h4 <;> exact h2 (Prod.mk.inj (Option.some.inj ho)).2
        have h1 := hc.not_mem_of_empty c h
        rw [hc.mem_union hk ((hkind c k sq hk).mpr ho)] at h1
        exact Bool.noConfusion h1
  have hnoNull : ∀ sq c, b.occupant sq ≠ some (c, .NullPT) := by
    intro sq c ho
    unfold Board.occupant at ho
    split_ifs at ho with h1 h2 h3 h4 <;> exact h2 (Prod.mk.inj (Option.some.inj ho)).2
  refine ⟨hnoNull, ?_, hkind, ?_, ?_, ?_⟩
  · intro sq hsq
    unfold Board.occupant
    rw [if_neg (by omega)]
  · intro c sq
    rw [hc.union c, testBit_sandwich]
    constructor
    · rintro ⟨k, hk, h⟩
      exact ⟨k, (hkind c k sq hk).mp h⟩
    · rintro ⟨k, h⟩
      have hk : k ≠ .NullPT := fun hk => hnoNull sq c (hk ▸ h)
      exact ⟨k, hk, (hkind c k sq hk).mpr h⟩
  · intro sq
    constructor
    · intro h ho
      rw [(hnone sq).mp ho] at h
      exact Bool.noConfusion h
    · intro h
      cases hb : b.allPieces.testBit sq
      · exact absurd ((hnone sq).mpr hb) h
      · rfl
  · intro sq hsq
    unfold Board.occupant
    rw [if_pos hsq]
    split_ifs with h2 h3 h4
    · exact h2
    · rfl
    · rfl
    · -- a kind in the mailbox without a piece on the square cannot be
      obtain ⟨c2, hc2⟩ := (hc.mailbox sq hsq _ h2).mp rfl
      have hu := hc.mem_union h2 hc2
      cases c2
      · exact absurd hu h3
      · exact absurd hu h4

/-- The picture of a placement is a consistent board. -/
theorem Board.PlacedBy.consistent {b : Board} {f : Nat → Option (Alliance × PieceType)}
    (hp : b.PlacedBy f) : b.Consistent := by
  refine ⟨?_, ?_, ?_, ?_, ?_⟩
  · intro c k
    apply Nat.lt_pow_two_of_testBit
    intro i hi
    cases hb : (b.pieces c k).testBit i
    · rfl
    · by_cases hk : k = .NullPT
      · subst hk
        obtain ⟨k2, h2⟩ := (hp.union c i).mp hb
        rw [hp.bound i hi] at h2
        exact Option.noConfusion h2
      · have h2 := (hp.kind c k i hk).mp hb
        rw [hp.bound i hi] at h2
        exact Option.noConfusion h2
  · intro c
    apply Nat.eq_of_testBit_eq
    intro i
    apply Bool.eq_iff_iff.mpr
    rw [hp.union c i, testBit_sandwich]
    constructor
    · rintro ⟨k, h⟩
      have hk : k ≠ .NullPT := fun hk => hp.noNull i c (hk ▸ h)
      exact ⟨k, hk, (hp.kind c k i hk).mpr h⟩
    · rintro ⟨k, hk, h⟩
      exact ⟨k, (hp.kind c k i hk).mp h⟩
  · apply Nat.eq_of_testBit_eq
    intro i
    apply Bool.eq_iff_iff.mpr
    rw [hp.all i, Nat.testBit_or, Bool.or_eq_true, hp.union, hp.union]
    constructor
    · intro h
      cases hf : f i with
      | none => exact absurd hf h
      | some ck =>
        obtain ⟨c, k⟩ := ck
        cases c
        · exact Or.inl ⟨k, rfl⟩
        · exact Or.inr ⟨k, rfl⟩
    · rintro (⟨k, h⟩ | ⟨k, h⟩) hn <;> rw [hn] at h <;> exact Option.noConfusion h
  · intro sq c k c2 k2 hk hk2 h1 h2
    have e1 := (hp.kind c k sq hk).mp h1
    have e2 := (hp.kind c2 k2 sq hk2).mp h2
    rw [e1] at e2
    cases e2
    exact ⟨rfl, rfl⟩
  · intro sq hsq k hk
    rw [hp.mailbox sq hsq]
    constructor
    · intro h
      cases hf : f sq with
      | none => rw [hf] at h; exact absurd h.symm hk
      | some ck =>
        obtain ⟨c, k2⟩ := ck
        rw [hf] at h
        simp only at h
        subst h
        exact ⟨c, (hp.kind c k2 sq hk).mpr hf⟩
    · rintro ⟨c, h⟩
      rw [(hp.kind c k sq hk).mp h]

section

open Board

/-! ## `applyMove` on a placed board -/

/-- Reading a slot after an assignment. -/
theorem Board.setPieces_apply (p : Alliance → PieceType → Nat) (A : Alliance) (PT : PieceType)
    (v : Nat) (c : Alliance) (k : PieceType) :
    setPieces p A PT v c k = if c = A ∧ k = PT then v else p c k := rfl

/-- The bits of a slot after `pieces[A][PT] ^= M`. -/
theorem Board.testBit_setPieces_xor (p : Alliance → PieceType → Nat) (A : Alliance)
    (PT : PieceType) (M : Nat) (c : Alliance) (k : PieceType) (sq : Nat) :
    (setPieces p A PT (p A PT ^^^ M) c k).testBit sq =
      ((p c k).testBit sq ^^ (decide (A = c ∧ PT = k) && M.testBit sq)) := by
  rw [setPieces_apply]
  by_cases h : c = A ∧ k = PT
  · rw [if_pos h, Nat.testBit_xor, h.1, h.2]
    simp
  · rw [if_neg h]
    have h2 : ¬ (A = c ∧ PT = k) := fun hh => h ⟨hh.1.symm, hh.2.symm⟩
    simp [h2]

/-- The bits of a slot after `pieces[A][PT] |= M`. -/
theorem Board.testBit_setPieces_or (p : Alliance → PieceType → Nat) (A : Alliance)
    (PT : PieceType) (M : Nat) (c : Alliance) (k : PieceType) (sq : Nat) :
    (setPieces p A PT (p A PT ||| M) c k).testBit sq =
      ((p c k).testBit sq || (decide (A = c ∧ PT = k) && M.testBit sq)) := by
  rw [setPieces_apply]
  by_cases h : c = A ∧ k = PT
  · rw [if_pos h, Nat.testBit_or, h.1, h.2]
    simp
  · rw [if_neg h]
    have h2 : ¬ (A = c ∧ PT = k) := fun hh => h ⟨hh.1.symm, hh.2.symm⟩
    simp [h2]

/-- An alliance differs from its complement. -/
theorem Alliance.flip_ne (c : Alliance) : c.flip ≠ c := by
  cases c <;> decide

/-- What a fitting move finds on its origin and its destination, on the
picture of a placement: the mover on the origin, and on the destination
nothing or an enemy piece, which the mailbox names. -/
theorem Board.MoveFits.squares {b : Board} {f : Nat → Option (Alliance × PieceType)}
    (hp : b.PlacedBy f) {m : Move} (hfits : b.MoveFits m) :
    f m.origin = some (b.currentPlayerAlliance, b.mailbox m.origin) ∧
    b.mailbox m.origin ≠ .NullPT ∧ m.origin ≠ m.destination ∧
    ((f m.destination = none ∧ b.mailbox m.destination = .NullPT) ∨
      (f m.destination = some (b.currentPlayerAlliance.flip, b.mailbox m.destination) ∧
        b.mailbox m.destination ≠ .NullPT)) := by
  obtain ⟨k, hk⟩ := (hp.union _ _).mp hfits.own
  have hmo : b.mailbox m.origin = k := by rw [hp.mailbox _ hfits.origin_lt, hk]
  have hkn : k ≠ .NullPT := fun h => hp.noNull _ _ (h ▸ hk)
  have hnot : ∀ k2, f m.destination ≠ some (b.currentPlayerAlliance, k2) := by
    intro k2 h
    have := (hp.union _ _).mpr ⟨k2, h⟩
    rw [hfits.notOwn] at this
    exact Bool.noConfusion this
  refine ⟨by rw [hmo]; exact hk, by rw [hmo]; exact hkn, ?_, ?_⟩
  · intro h
    rw [h] at hk
    exact hnot k hk
  · have hmd := hp.mailbox _ hfits.destination_lt
    cases hf : f m.destination with
    | none => rw [hf] at hmd; exact Or.inl ⟨rfl, hmd⟩
    | some ck =>
      obtain ⟨c, k2⟩ := ck
      rw [hf] at hmd
      simp only at hmd
      have hc : c = b.currentPlayerAlliance.flip := by
        cases c <;> cases hA : b.currentPlayerAlliance <;> first
          | rfl
          | exact absurd (hA ▸ hf) (hnot k2)
      subst hc
      refine Or.inr ⟨by rw [hmd], ?_⟩
      rw [hmd]
      exact fun h => hp.noNull _ _ (h ▸ hf)

/-- The picture of a placement, from its parts: the kind slots, the union
slots, `allPieces` as the union of the two union slots, and the mailbox. -/
theorem Board.PlacedBy.of_parts (b : Board) (f : Nat → Option (Alliance × PieceType))
    (A : Alliance)
    (noNull : ∀ sq c, f sq ≠ some (c, .NullPT))
    (bound : ∀ sq, 64 ≤ sq → f sq = none)
    (kind : ∀ c k sq, k ≠ .NullPT → ((b.pieces c k).testBit sq = true ↔ f sq = some (c, k)))
    (union : ∀ c sq, (b.pieces c .NullPT).testBit sq = true ↔ ∃ k, f sq = some (c, k))
    (all : b.allPieces = b.pieces A .NullPT ||| b.pieces A.flip .NullPT)
    (mailbox : ∀ sq, sq < 64 →
      b.mailbox sq = (match f sq with
        | some (_, k) => k
        | none => .NullPT)) : b.PlacedBy f := by
  refine ⟨noNull, bound, kind, union, ?_, mailbox⟩
  intro sq
  rw [all, Nat.testBit_or, Bool.or_eq_true, union, union]
  constructor
  · rintro (⟨k, h⟩ | ⟨k, h⟩) hn <;> rw [hn] at h <;> exact Option.noConfusion h
  · intro h
    cases hf : f sq with
    | none => exact absurd hf h
    | some ck =>
      obtain ⟨c, k⟩ := ck
      by_cases hc : c = A
      · subst hc; exact Or.inl ⟨k, rfl⟩
      · have : c = A.flip := by cases c <;> cases A <;> first | rfl | exact absurd rfl hc
        subst this; exact Or.inr ⟨k, rfl⟩

/-- A kind slot of a placed board, bit by bit. -/
theorem Board.PlacedBy.testBit_kind {b : Board} {f : Nat → Option (Alliance × PieceType)}
    (hp : b.PlacedBy f) (c : Alliance) (k : PieceType) (sq : Nat) (hk : k ≠ .NullPT) :
    (b.pieces c k).testBit sq = decide (f sq = some (c, k)) := by
  apply Bool.eq_iff_iff.mpr
  rw [hp.kind c k sq hk, decide_eq_true_iff]

/-- A union slot of a placed board on an occupied square. -/
theorem Board.PlacedBy.testBit_union_some {b : Board} {f : Nat → Option (Alliance × PieceType)}
    (hp : b.PlacedBy f) {sq : Nat} {c0 : Alliance} {k0 : PieceType} (h : f sq = some (c0, k0))
    (c : Alliance) : (b.pieces c .NullPT).testBit sq = decide (c0 = c) := by
  apply Bool.eq_iff_iff.mpr
  rw [hp.union, h, decide_eq_true_iff]
  constructor
  · rintro ⟨k, hk⟩; exact (Prod.mk.inj (Option.some.inj hk)).1
  · intro hc; exact ⟨k0, by rw [hc]⟩

/-- A union slot of a placed board on an empty square. -/
theorem Board.PlacedBy.testBit_union_none {b : Board} {f : Nat → Option (Alliance × PieceType)}
    (hp : b.PlacedBy f) {sq : Nat} (h : f sq = none)
    (c : Alliance) : (b.pieces c .NullPT).testBit sq = false := by
  apply Bool.eq_false_iff.mpr
  rw [Ne, hp.union, h]
  rintro ⟨k, hk⟩
  exact Option.noConfusion hk

/-- The occupant of a square of a placed board, from a set bit of a kind slot. -/
theorem Board.PlacedBy.of_testBit {b : Board} {f : Nat → Option (Alliance × PieceType)}
    (hp : b.PlacedBy f) {c : Alliance} {k : PieceType} {sq : Nat}
    (h : (b.pieces c k).testBit sq = true) : ∃ k2, f sq = some (c, k2) ∧ (k ≠ .NullPT → k2 = k) := by
  by_cases hk : k = .NullPT
  · subst hk
    obtain ⟨k2, h2⟩ := (hp.union c sq).mp h
    exact ⟨k2, h2, fun h => absurd rfl h⟩
  · exact ⟨k, (hp.kind c k sq hk).mp h, fun _ => rfl⟩

/-- An empty square of a placed board, from a clear bit of `allPieces`. -/
theorem Board.PlacedBy.none_of_all {b : Board} {f : Nat → Option (Alliance × PieceType)}
    (hp : b.PlacedBy f) {sq : Nat} (h : b.allPieces.testBit sq = false) : f sq = none := by
  by_contra hn
  rw [(hp.all sq).mpr hn] at h
  exact Bool.noConfusion h

/-- The promotion piece of a move is a rook, a knight, a bishop or a queen. -/
theorem Move.promotion_kind (m : Move) :
    PieceType.cast m.promotionPiece = .Rook ∨ PieceType.cast m.promotionPiece = .Knight ∨
    PieceType.cast m.promotionPiece = .Bishop ∨ PieceType.cast m.promotionPiece = .Queen := by
  have h : m.promotionPiece = m.manifest / 2 ^ 12 % 2 ^ 2 + 1 := by
    unfold Move.promotionPiece
    have key : (m.manifest &&& Move.PromoPiece) >>> 12 = m.manifest / 2 ^ 12 % 2 ^ 2 :=
      and_shiftLeft_mask m.manifest 12 2
    rw [key]
    rfl
  have h4 : m.manifest / 2 ^ 12 % 2 ^ 2 < 4 := Nat.mod_lt _ (by norm_num)
  rw [h]
  generalize m.manifest / 2 ^ 12 % 2 ^ 2 = r at h4
  interval_cases r
  · exact Or.inl rfl
  · exact Or.inr (Or.inl rfl)
  · exact Or.inr (Or.inr (Or.inl rfl))
  · exact Or.inr (Or.inr (Or.inr rfl))

/-- The board after a plain move or a pawn jump is the picture of the placement
with the mover taken from the origin and put on the destination. -/
theorem Board.applyMoveFor_placed_plain (Z : Randoms) (b : Board)
    (f : Nat → Option (Alliance × PieceType))
    (hp : b.PlacedBy f) (m : Move) (s : State) (hfits : b.MoveFits m)
    (hprom : m.isPromotion = false)
    (hmt : m.moveType = MoveType.FreeForm.toNat ∨ m.moveType = MoveType.PawnJump.toNat) :
    (applyMoveFor Z b.currentPlayerAlliance b m s).PlacedBy
      (fun sq => if sq = m.destination then some (b.currentPlayerAlliance, b.mailbox m.origin)
        else if sq = m.origin then none else f sq) := by
  obtain ⟨hfo, ha, hod, hfd⟩ := hfits.squares hp
  have ho := hfits.origin_lt
  have hd := hfits.destination_lt
  have hflip := Alliance.flip_ne b.currentPlayerAlliance
  have hdo : m.destination ≠ m.origin := Ne.symm hod
  apply Board.PlacedBy.of_parts _ _ b.currentPlayerAlliance
  · intro sq c
    beta_reduce
    split_ifs
    · intro h; exact ha (Prod.mk.inj (Option.some.inj h)).2
    · exact fun h => Option.noConfusion h
    · exact hp.noNull sq c
  · intro sq hsq
    beta_reduce
    rw [if_neg (by omega), if_neg (by omega)]
    exact hp.bound sq hsq
  · intro c k sq hk
    have hk2 : PieceType.NullPT ≠ k := Ne.symm hk
    unfold applyMoveFor
    simp only [hprom, Bool.false_eq_true, if_false, if_pos hmt]
    rcases hfd with ⟨hfd, hcap⟩ | ⟨hfd, hcap⟩
    · simp only [hcap, ne_eq, not_true_eq_false, if_false]
      simp only [testBit_setPieces_xor, Nat.testBit_or, testBit_SquareToBitBoard _ _ ho,
        testBit_SquareToBitBoard _ _ hd, hp.testBit_kind c k sq hk]
      by_cases h1 : sq = m.destination
      · subst h1
        simp [hfd, hod, hk, Ne.symm hod, Ne.symm hk]
      · by_cases h2 : sq = m.origin
        · subst h2
          simp [hfo, h1, hk, Ne.symm hk, hdo]
        · simp [h1, h2, Ne.symm h1, Ne.symm h2]
    · simp only [hcap, ne_eq, not_false_eq_true, if_true]
      simp only [testBit_setPieces_xor, Nat.testBit_or, testBit_SquareToBitBoard _ _ ho,
        testBit_SquareToBitBoard _ _ hd, hp.testBit_kind c k sq hk]
      by_cases h1 : sq = m.destination
      · subst h1
        by_cases e1 : b.currentPlayerAlliance = c <;>
          by_cases e2 : b.mailbox m.origin = k <;>
          by_cases e3 : b.currentPlayerAlliance.flip = c <;>
          by_cases e4 : b.mailbox m.destination = k <;>
          simp_all
      · by_cases h2 : sq = m.origin
        · subst h2
          simp [hfo, h1, hk, Ne.symm hk, hdo]
        · simp [h1, h2, Ne.symm h1, Ne.symm h2]
  · intro c sq
    unfold applyMoveFor
    simp only [hprom, Bool.false_eq_true, if_false, if_pos hmt]
    rcases hfd with ⟨hfd, hcap⟩ | ⟨hfd, hcap⟩
    · simp only [hcap, ne_eq, not_true_eq_false, if_false]
      simp only [testBit_setPieces_xor, Nat.testBit_or, testBit_SquareToBitBoard _ _ ho,
        testBit_SquareToBitBoard _ _ hd]
      by_cases h1 : sq = m.destination
      · subst h1
        simp [hp.testBit_union_none hfd, ha]
      · by_cases h2 : sq = m.origin
        · subst h2
          simp [hp.testBit_union_some hfo, h1, ha, hdo]
        · simp [h1, h2, Ne.symm h1, Ne.symm h2, hp.union]
    · simp only [hcap, ne_eq, not_false_eq_true, if_true]
      simp only [testBit_setPieces_xor, Nat.testBit_or, testBit_SquareToBitBoard _ _ ho,
        testBit_SquareToBitBoard _ _ hd]
      by_cases h1 : sq = m.destination
      · subst h1
        by_cases e1 : b.currentPlayerAlliance = c <;>
          by_cases e3 : b.currentPlayerAlliance.flip = c <;>
          simp_all [hp.testBit_union_some hfd]
      · by_cases h2 : sq = m.origin
        · subst h2
          simp [hp.testBit_union_some hfo, h1, ha, hdo]
        · simp [h1, h2, Ne.symm h1, Ne.symm h2, hp.union]
  · unfold applyMoveFor
    simp only [hprom, Bool.false_eq_true, if_false, if_pos hmt]
  · intro sq hsq
    unfold applyMoveFor
    simp only [hprom, Bool.false_eq_true, if_false, if_pos hmt, setMailbox]
    by_cases h1 : sq = m.destination
    · simp [h1]
    · by_cases h2 : sq = m.origin
      · simp [h1, h2, hod]
      · simp only [h1, h2, if_false]
        exact hp.mailbox sq hsq

/-- The board after a promotion is the picture of the placement with the pawn
taken from the origin and the promotion piece put on the destination. -/
theorem Board.applyMoveFor_placed_promotion (Z : Randoms) (b : Board)
    (f : Nat → Option (Alliance × PieceType))
    (hp : b.PlacedBy f) (m : Move) (s : State) (hfits : b.MoveFits m)
    (hprom : m.isPromotion = true) :
    (applyMoveFor Z b.currentPlayerAlliance b m s).PlacedBy
      (fun sq => if sq = m.destination then
          some (b.currentPlayerAlliance, PieceType.cast m.promotionPiece)
        else if sq = m.origin then none else f sq) := by
  obtain ⟨hfo, ha, hod, hfd⟩ := hfits.squares hp
  have ho := hfits.origin_lt
  have hd := hfits.destination_lt
  have hflip := Alliance.flip_ne b.currentPlayerAlliance
  have hdo : m.destination ≠ m.origin := Ne.symm hod
  have hpawn : b.mailbox m.origin = .Pawn := by
    have h := (hp.kind _ _ _ (by decide)).mp (hfits.promotion hprom)
    rw [hfo] at h
    exact (Prod.mk.inj (Option.some.inj h)).2
  rw [hpawn] at hfo
  have hq : PieceType.cast m.promotionPiece ≠ .NullPT ∧
      PieceType.cast m.promotionPiece ≠ .Pawn := by
    rcases m.promotion_kind with h | h | h | h <;> rw [h] <;> decide
  generalize hqe : PieceType.cast m.promotionPiece = q at hq
  obtain ⟨hq1, hq2⟩ := hq
  have hq3 := Ne.symm hq1
  have hq4 := Ne.symm hq2
  apply Board.PlacedBy.of_parts _ _ b.currentPlayerAlliance
  · intro sq c
    beta_reduce
    split_ifs
    · intro h; exact hq1 (Prod.mk.inj (Option.some.inj h)).2
    · exact fun h => Option.noConfusion h
    · exact hp.noNull sq c
  · intro sq hsq
    beta_reduce
    rw [if_neg (by omega), if_neg (by omega)]
    exact hp.bound sq hsq
  · intro c k sq hk
    have hk2 : PieceType.NullPT ≠ k := Ne.symm hk
    unfold applyMoveFor
    simp only [hprom, if_true, hqe]
    rcases hfd with ⟨hfd, hcap⟩ | ⟨hfd, hcap⟩
    · simp only [hcap, ne_eq, not_true_eq_false, if_false]
      simp only [testBit_setPieces_xor, testBit_setPieces_or, Nat.testBit_or,
        testBit_SquareToBitBoard _ _ ho,
        testBit_SquareToBitBoard _ _ hd, hp.testBit_kind c k sq hk]
      by_cases h1 : sq = m.destination
      · subst h1
        by_cases e1 : b.currentPlayerAlliance = c <;>
          by_cases e2 : q = k <;>
          by_cases e3 : PieceType.Pawn = k <;>
          simp_all
      · by_cases h2 : sq = m.origin
        · subst h2
          by_cases e1 : b.currentPlayerAlliance = c <;>
            by_cases e2 : q = k <;>
            by_cases e3 : PieceType.Pawn = k <;>
            simp_all
        · simp [h1, h2, Ne.symm h1, Ne.symm h2]
    · simp only [hcap, ne_eq, not_false_eq_true, if_true]
      simp only [testBit_setPieces_xor, testBit_setPieces_or, Nat.testBit_or,
        testBit_SquareToBitBoard _ _ ho,
        testBit_SquareToBitBoard _ _ hd, hp.testBit_kind c k sq hk]
      by_cases h1 : sq = m.destination
      · subst h1
        by_cases e1 : b.currentPlayerAlliance = c <;>
          by_cases e2 : q = k <;>
          by_cases e3 : b.currentPlayerAlliance.flip = c <;>
          by_cases e4 : b.mailbox m.destination = k <;>
          by_cases e5 : PieceType.Pawn = k <;>
          simp_all
      · by_cases h2 : sq = m.origin
        · subst h2
          by_cases e1 : b.currentPlayerAlliance = c <;>
            by_cases e2 : q = k <;>
            by_cases e3 : PieceType.Pawn = k <;>
            simp_all
        · simp [h1, h2, Ne.symm h1, Ne.symm h2]
  · intro c sq
    unfold applyMoveFor
    simp only [hprom, if_true, hqe]
    rcases hfd with ⟨hfd, hcap⟩ | ⟨hfd, hcap⟩
    · simp only [hcap, ne_eq, not_true_eq_false, if_false]
      simp only [testBit_setPieces_xor, testBit_setPieces_or, Nat.testBit_or,
        testBit_SquareToBitBoard _ _ ho,
        testBit_SquareToBitBoard _ _ hd]
      by_cases h1 : sq = m.destination
      · subst h1
        simp [hp.testBit_union_none hfd, hq1, hod]
      · by_cases h2 : sq = m.origin
        · subst h2
          simp [hp.testBit_union_some hfo, h1, hq1, hdo]
        · simp [h1, h2, Ne.symm h1, Ne.symm h2, hp.union]
    · simp only [hcap, ne_eq, not_false_eq_true, if_true]
      simp only [testBit_setPieces_xor, testBit_setPieces_or, Nat.testBit_or,
        testBit_SquareToBitBoard _ _ ho,
        testBit_SquareToBitBoard _ _ hd]
      by_cases h1 : sq = m.destination
      · subst h1
        by_cases e1 : b.currentPlayerAlliance = c <;>
          by_cases e3 : b.currentPlayerAlliance.flip = c <;>
          simp_all [hp.testBit_union_some hfd]
      · by_cases h2 : sq = m.origin
        · subst h2
          simp [hp.testBit_union_some hfo, h1, hq1, hdo]
        · simp [h1, h2, Ne.symm h1, Ne.symm h2, hp.union]
  · unfold applyMoveFor
    simp only [hprom, if_true, hqe]
  · intro sq hsq
    unfold applyMoveFor
    simp only [hprom, if_true, setMailbox, hqe]
    by_cases h1 : sq = m.destination
    · simp [h1]
    · by_cases h2 : sq = m.origin
      · simp [h1, h2, hod]
      · simp only [h1, h2, if_false]
        exact hp.mailbox sq hsq

/-- The board after an en-passant capture is the picture of the placement with
the pawn taken from the origin and put on the destination, and the pawn on the
en-passant square removed. -/
theorem Board.applyMoveFor_placed_enPassant (Z : Randoms) (b : Board)
    (f : Nat → Option (Alliance × PieceType))
    (hp : b.PlacedBy f) (m : Move) (s : State) (hfits : b.MoveFits m)
    (hprom : m.isPromotion = false) (hmt : m.moveType = MoveType.EnPassant.toNat) :
    (applyMoveFor Z b.currentPlayerAlliance b m s).PlacedBy
      (fun sq => if sq = m.destination then some (b.currentPlayerAlliance, PieceType.Pawn)
        else if sq = m.origin then none
        else if sq = b.currentState.epSquare then none else f sq) := by
  obtain ⟨hfo, ha, hod, -⟩ := hfits.squares hp
  obtain ⟨hpo, hde, he, hpe⟩ := hfits.enPassant hprom hmt
  have ho := hfits.origin_lt
  have hd := hfits.destination_lt
  have hflip := Alliance.flip_ne b.currentPlayerAlliance
  have hflip2 := Ne.symm hflip
  have hdo : m.destination ≠ m.origin := Ne.symm hod
  have hpawn : b.mailbox m.origin = .Pawn := by
    have h := (hp.kind _ _ _ (by decide)).mp hpo
    rw [hfo] at h
    exact (Prod.mk.inj (Option.some.inj h)).2
  rw [hpawn] at hfo
  have hfd : f m.destination = none := hp.none_of_all hde
  have hfe : f b.currentState.epSquare = some (b.currentPlayerAlliance.flip, .Pawn) :=
    (hp.kind _ _ _ (by decide)).mp hpe
  have heo : b.currentState.epSquare ≠ m.origin := by
    intro h; rw [h, hfo] at hfe
    exact hflip2 (Prod.mk.inj (Option.some.inj hfe)).1
  have hed : b.currentState.epSquare ≠ m.destination := by
    intro h; rw [h, hfd] at hfe
    exact Option.noConfusion hfe
  have hoe := Ne.symm heo
  have hde2 := Ne.symm hed
  have hm1 : ¬ (m.moveType = MoveType.FreeForm.toNat ∨ m.moveType = MoveType.PawnJump.toNat) := by
    rw [hmt]; decide
  have hm2 : ¬ m.moveType = MoveType.Castling.toNat := by
    rw [hmt]; decide
  apply Board.PlacedBy.of_parts _ _ b.currentPlayerAlliance
  · intro sq c
    beta_reduce
    split_ifs
    · intro h; exact absurd (Prod.mk.inj (Option.some.inj h)).2 (by decide)
    · exact fun h => Option.noConfusion h
    · exact fun h => Option.noConfusion h
    · exact hp.noNull sq c
  · intro sq hsq
    beta_reduce
    rw [if_neg (by omega), if_neg (by omega), if_neg (by omega)]
    exact hp.bound sq hsq
  · intro c k sq hk
    have hk2 : PieceType.NullPT ≠ k := Ne.symm hk
    unfold applyMoveFor
    simp only [hprom, Bool.false_eq_true, if_false, if_neg hm1, if_neg hm2]
    simp only [testBit_setPieces_xor, Nat.testBit_or, testBit_SquareToBitBoard _ _ ho,
      testBit_SquareToBitBoard _ _ hd, testBit_SquareToBitBoard _ _ he,
      hp.testBit_kind c k sq hk]
    by_cases h1 : sq = m.destination
    · subst h1
      by_cases e1 : b.currentPlayerAlliance = c <;>
        by_cases e3 : PieceType.Pawn = k <;>
        simp_all
    · by_cases h2 : sq = m.origin
      · subst h2
        by_cases e1 : b.currentPlayerAlliance = c <;>
          by_cases e3 : PieceType.Pawn = k <;>
          simp_all
      · by_cases h3 : sq = b.currentState.epSquare
        · subst h3
          by_cases e1 : b.currentPlayerAlliance.flip = c <;>
            by_cases e3 : PieceType.Pawn = k <;>
            simp_all
        · simp [h1, h2, h3, Ne.symm h1, Ne.symm h2, Ne.symm h3]
  · intro c sq
    unfold applyMoveFor
    simp only [hprom, Bool.false_eq_true, if_false, if_neg hm1, if_neg hm2]
    simp only [testBit_setPieces_xor, Nat.testBit_or, testBit_SquareToBitBoard _ _ ho,
      testBit_SquareToBitBoard _ _ hd, testBit_SquareToBitBoard _ _ he]
    by_cases h1 : sq = m.destination
    · subst h1
      simp [hp.testBit_union_none hfd, hod, hed]
    · by_cases h2 : sq = m.origin
      · subst h2
        simp [hp.testBit_union_some hfo, h1, hdo, heo]
      · by_cases h3 : sq = b.currentState.epSquare
        · subst h3
          simp [hp.testBit_union_some hfe, h1, h2, hdo, hoe, hde2]
        · simp [h1, h2, h3, Ne.symm h1, Ne.symm h2, Ne.symm h3, hp.union]
  · unfold applyMoveFor
    simp only [hprom, Bool.false_eq_true, if_false, if_neg hm1, if_neg hm2]
  · intro sq hsq
    unfold applyMoveFor
    simp only [hprom, Bool.false_eq_true, if_false, if_neg hm1, if_neg hm2, setMailbox]
    by_cases h1 : sq = m.destination
    · simp [h1, hde2, hpawn]
    · by_cases h2 : sq = m.origin
      · simp [h1, h2, hod, hoe]
      · by_cases h3 : sq = b.currentState.epSquare
        · simp [h1, h2, h3, hed, heo]
        · simp only [h1, h2, h3, if_false]
          exact hp.mailbox sq hsq

/-- On a placed board `allPieces` is the union of the two union slots. -/
theorem Board.PlacedBy.allPieces_eq {b : Board} {f : Nat → Option (Alliance × PieceType)}
    (hp : b.PlacedBy f) (A : Alliance) :
    b.allPieces = b.pieces A .NullPT ||| b.pieces A.flip .NullPT := by
  apply Nat.eq_of_testBit_eq
  intro i
  rw [Nat.testBit_or]
  apply Bool.eq_iff_iff.mpr
  rw [hp.all, Bool.or_eq_true, hp.union, hp.union]
  constructor
  · intro h
    cases hf : f i with
    | none => exact absurd hf h
    | some ck =>
      obtain ⟨c, k⟩ := ck
      by_cases hc : c = A
      · subst hc; exact Or.inl ⟨k, rfl⟩
      · have : c = A.flip := by cases c <;> cases A <;> first | rfl | exact absurd rfl hc
        subst this; exact Or.inr ⟨k, rfl⟩
  · rintro (⟨k, h⟩ | ⟨k, h⟩) hn <;> rw [hn] at h <;> exact Option.noConfusion h

/-- The rook squares of a fitting castling move: the squares and the mask that
`applyMove` and `retractMove` select from the destination, with the rook on the
first and nothing on the second. -/
theorem Board.MoveFits.castling_squares {b : Board} {m : Move} (hfits : b.MoveFits m)
    (hprom : m.isPromotion = false) (hmt : m.moveType = MoveType.Castling.toNat) :
    ∃ rO rD, rO < 64 ∧ rD < 64 ∧ rO ≠ rD ∧ m.destination ≠ rO ∧ m.destination ≠ rD ∧
      (if (defaults b.currentPlayerAlliance).kingSideMask &&& SquareToBitBoard m.destination ≠ 0
        then (defaults b.currentPlayerAlliance).kingSideRookMoveMask
        else (defaults b.currentPlayerAlliance).queenSideRookMoveMask) =
          SquareToBitBoard rO ||| SquareToBitBoard rD ∧
      (if (defaults b.currentPlayerAlliance).kingSideMask &&& SquareToBitBoard m.destination ≠ 0
        then (defaults b.currentPlayerAlliance).kingSideRookOrigin
        else (defaults b.currentPlayerAlliance).queenSideRookOrigin) = rO ∧
      (if (defaults b.currentPlayerAlliance).kingSideMask &&& SquareToBitBoard m.destination ≠ 0
        then (defaults b.currentPlayerAlliance).kingSideRookDestination
        else (defaults b.currentPlayerAlliance).queenSideRookDestination) = rD ∧
      (b.pieces b.currentPlayerAlliance .Rook).testBit rO = true ∧
      b.allPieces.testBit rD = false ∧
      (b.pieces b.currentPlayerAlliance .King).testBit m.origin = true ∧
      b.allPieces.testBit m.destination = false := by
  obtain ⟨hk, hde, hside⟩ := hfits.castling hprom hmt
  revert hside hk
  generalize m.destination = d at *
  cases b.currentPlayerAlliance <;> intro hk <;> rintro (⟨rfl, hr, he⟩ | ⟨rfl, hr, he⟩)
  · exact ⟨_, _, by decide, by decide, by decide, by decide, by decide, by decide, rfl, rfl,
      hr, he, hk, hde⟩
  · exact ⟨_, _, by decide, by decide, by decide, by decide, by decide, by decide, rfl, rfl,
      hr, he, hk, hde⟩
  · exact ⟨_, _, by decide, by decide, by decide, by decide, by decide, by decide, rfl, rfl,
      hr, he, hk, hde⟩
  · exact ⟨_, _, by decide, by decide, by decide, by decide, by decide, by decide, rfl, rfl,
      hr, he, hk, hde⟩

/-- The board after a castling move is the picture of a placement: the king
taken from the origin and put on the destination, the rook taken from its
corner and put beside the king. -/
theorem Board.applyMoveFor_placed_castling (Z : Randoms) (b : Board)
    (f : Nat → Option (Alliance × PieceType))
    (hp : b.PlacedBy f) (m : Move) (s : State) (hfits : b.MoveFits m)
    (hprom : m.isPromotion = false) (hmt : m.moveType = MoveType.Castling.toNat) :
    ∃ g, (applyMoveFor Z b.currentPlayerAlliance b m s).PlacedBy g := by
  obtain ⟨hfo, ha, hod, -⟩ := hfits.squares hp
  obtain ⟨rO, rD, hrO, hrD, hOD, hdO, hdD, hmask, hsO, hsD, hrook, hempty, hking, hde⟩ :=
    hfits.castling_squares hprom hmt
  refine ⟨fun sq => if sq = m.destination then some (b.currentPlayerAlliance, PieceType.King)
        else if sq = m.origin then none
        else if sq = rD then some (b.currentPlayerAlliance, PieceType.Rook)
        else if sq = rO then none else f sq, ?_⟩
  have ho := hfits.origin_lt
  have hd := hfits.destination_lt
  have hflip := Alliance.flip_ne b.currentPlayerAlliance
  have hflip2 := Ne.symm hflip
  have hdo : m.destination ≠ m.origin := Ne.symm hod
  have hkg : b.mailbox m.origin = .King := by
    have h := (hp.kind _ _ _ (by decide)).mp hking
    rw [hfo] at h
    exact (Prod.mk.inj (Option.some.inj h)).2
  rw [hkg] at hfo
  have hfd : f m.destination = none := hp.none_of_all hde
  have hfD : f rD = none := hp.none_of_all hempty
  have hfO : f rO = some (b.currentPlayerAlliance, .Rook) :=
    (hp.kind _ _ _ (by decide)).mp hrook
  have hoO : m.origin ≠ rO := by
    intro h; rw [h, hfO] at hfo
    exact absurd (Prod.mk.inj (Option.some.inj hfo)).2 (by decide)
  have hoD : m.origin ≠ rD := by
    intro h; rw [h, hfD] at hfo
    exact Option.noConfusion hfo
  have hOo := Ne.symm hoO
  have hDo := Ne.symm hoD
  have hDO := Ne.symm hOD
  have hOd := Ne.symm hdO
  have hDd := Ne.symm hdD
  have hm1 : ¬ (m.moveType = MoveType.FreeForm.toNat ∨ m.moveType = MoveType.PawnJump.toNat) := by
    rw [hmt]; decide
  refine ⟨?_, ?_, ?_, ?_, ?_, ?_⟩
  · intro sq c
    beta_reduce
    split_ifs
    · intro h; exact absurd (Prod.mk.inj (Option.some.inj h)).2 (by decide)
    · exact fun h => Option.noConfusion h
    · intro h; exact absurd (Prod.mk.inj (Option.some.inj h)).2 (by decide)
    · exact fun h => Option.noConfusion h
    · exact hp.noNull sq c
  · intro sq hsq
    beta_reduce
    rw [if_neg (by omega), if_neg (by omega), if_neg (by omega), if_neg (by omega)]
    exact hp.bound sq hsq
  · intro c k sq hk
    have hk2 : PieceType.NullPT ≠ k := Ne.symm hk
    unfold applyMoveFor
    simp only [hprom, Bool.false_eq_true, if_false, if_neg hm1, if_pos hmt, hmask, hsO, hsD]
    simp only [testBit_setPieces_xor, Nat.testBit_or, testBit_SquareToBitBoard _ _ ho,
      testBit_SquareToBitBoard _ _ hd, testBit_SquareToBitBoard _ _ hrO,
      testBit_SquareToBitBoard _ _ hrD, hp.testBit_kind c k sq hk]
    by_cases h1 : sq = m.destination
    · subst h1
      by_cases e1 : b.currentPlayerAlliance = c <;>
        by_cases e3 : PieceType.King = k <;>
        by_cases e4 : PieceType.Rook = k <;>
        simp_all
    · by_cases h2 : sq = m.origin
      · subst h2
        by_cases e1 : b.currentPlayerAlliance = c <;>
          by_cases e3 : PieceType.King = k <;>
          by_cases e4 : PieceType.Rook = k <;>
          simp_all
      · by_cases h3 : sq = rD
        · subst h3
          by_cases e1 : b.currentPlayerAlliance = c <;>
            by_cases e3 : PieceType.King = k <;>
            by_cases e4 : PieceType.Rook = k <;>
            simp_all
        · by_cases h4 : sq = rO
          · subst h4
            by_cases e1 : b.currentPlayerAlliance = c <;>
              by_cases e3 : PieceType.King = k <;>
              by_cases e4 : PieceType.Rook = k <;>
              simp_all
          · simp [h1, h2, h3, h4, Ne.symm h1, Ne.symm h2, Ne.symm h3, Ne.symm h4]
  · intro c sq
    unfold applyMoveFor
    simp only [hprom, Bool.false_eq_true, if_false, if_neg hm1, if_pos hmt, hmask, hsO, hsD]
    simp only [testBit_setPieces_xor, Nat.testBit_or, testBit_SquareToBitBoard _ _ ho,
      testBit_SquareToBitBoard _ _ hd, testBit_SquareToBitBoard _ _ hrO,
      testBit_SquareToBitBoard _ _ hrD]
    by_cases h1 : sq = m.destination
    · subst h1
      simp [hp.testBit_union_none hfd, hod, hOd, hDd]
    · by_cases h2 : sq = m.origin
      · subst h2
        simp [hp.testBit_union_some hfo, h1, hdo, hOo, hDo]
      · by_cases h3 : sq = rD
        · subst h3
          simp [hp.testBit_union_none hfD, h1, h2, hdo, hOD, hDO]
        · by_cases h4 : sq = rO
          · subst h4
            simp [hp.testBit_union_some hfO, h1, h2, h3, hdo, hOD, hDO]
          · simp [h1, h2, h3, h4, Ne.symm h1, Ne.symm h2, Ne.symm h3, Ne.symm h4, hp.union]
  · intro sq
    unfold applyMoveFor
    simp only [hprom, Bool.false_eq_true, if_false, if_neg hm1, if_pos hmt, hmask, hsO, hsD]
    rw [hp.allPieces_eq b.currentPlayerAlliance]
    simp only [Nat.testBit_xor, Nat.testBit_or, testBit_SquareToBitBoard _ _ ho,
      testBit_SquareToBitBoard _ _ hd, testBit_SquareToBitBoard _ _ hrO,
      testBit_SquareToBitBoard _ _ hrD]
    by_cases h1 : sq = m.destination
    · subst h1
      simp [hp.testBit_union_none hfd, hod, hOd, hDd]
    · by_cases h2 : sq = m.origin
      · subst h2
        simp [hp.testBit_union_some hfo, h1, hdo, hOo, hDo, hflip2]
      · by_cases h3 : sq = rD
        · subst h3
          simp [hp.testBit_union_none hfD, h1, h2, hdo, hOD, hDO]
        · by_cases h4 : sq = rO
          · subst h4
            simp [hp.testBit_union_some hfO, h1, h2, h3, hdo, hOD, hDO, hflip2]
          · have hall := hp.all sq
            rw [hp.allPieces_eq b.currentPlayerAlliance, Nat.testBit_or] at hall
            simp [h1, h2, h3, h4, Ne.symm h1, Ne.symm h2, Ne.symm h3, Ne.symm h4]
            simpa using hall
  · intro sq hsq
    unfold applyMoveFor
    simp only [hprom, Bool.false_eq_true, if_false, if_neg hm1, if_pos hmt, hmask, hsO, hsD,
      setMailbox]
    by_cases h1 : sq = m.destination
    · simp [h1, hdO, hdD, hkg]
    · by_cases h2 : sq = m.origin
      · simp [h1, h2, hod, hoO, hoD]
      · by_cases h3 : sq = rD
        · simp [h1, h2, h3, hDd, hDo]
        · by_cases h4 : sq = rO
          · simp [h1, h2, h3, h4, hOD, hOd, hOo]
          · simp only [h1, h2, h3, h4, if_false]
            exact hp.mailbox sq hsq

/-- The public `applyMove` runs the instance of the side to move. -/
theorem Board.applyMove_eq (Z : Randoms) (b : Board) (m : Move) (s : State) :
    b.applyMove Z m s = applyMoveFor Z b.currentPlayerAlliance b m s := by
  unfold Board.applyMove
  cases b.currentPlayerAlliance <;> rfl

/-- The four values of the move-type field. -/
theorem Move.moveType_cases (m : Move) :
    (m.moveType = MoveType.FreeForm.toNat ∨ m.moveType = MoveType.PawnJump.toNat) ∨
    m.moveType = MoveType.Castling.toNat ∨ m.moveType = MoveType.EnPassant.toNat := by
  have h := Move.moveType_eq m
  have h4 : m.manifest / 4096 % 4 < 4 := Nat.mod_lt _ (by norm_num)
  simp only [MoveType.toNat]
  omega

/-- A fitting move takes a placed board to a placed board. -/
theorem Board.applyMoveFor_placed (Z : Randoms) (b : Board)
    (f : Nat → Option (Alliance × PieceType))
    (hp : b.PlacedBy f) (m : Move) (s : State) (hfits : b.MoveFits m) :
    ∃ g, (applyMoveFor Z b.currentPlayerAlliance b m s).PlacedBy g := by
  cases hprom : m.isPromotion with
  | true => exact ⟨_, applyMoveFor_placed_promotion Z b f hp m s hfits hprom⟩
  | false =>
    rcases m.moveType_cases with h | h | h
    · exact ⟨_, applyMoveFor_placed_plain Z b f hp m s hfits hprom h⟩
    · exact applyMoveFor_placed_castling Z b f hp m s hfits hprom h
    · exact ⟨_, applyMoveFor_placed_enPassant Z b f hp m s hfits hprom h⟩

/-- A fitting move takes a consistent board to a consistent board. -/
theorem Board.applyMove_consistent_of_fits (Z : Randoms) (b : Board) (m : Move) (s : State)
    (hc : b.Consistent) (hfits : b.MoveFits m) : (b.applyMove Z m s).Consistent := by
  rw [Board.applyMove_eq]
  obtain ⟨g, hg⟩ := applyMoveFor_placed Z b _ hc.placedBy m s hfits
  exact hg.consistent

/-! ## `retractMove` after `applyMove` -/

/-- After `applyMove<A>` the state records the kind found on the destination. -/
theorem Board.applyMoveFor_capturedPiece (Z : Randoms) (A : Alliance) (b : Board)
    (m : Move) (s : State) :
    (applyMoveFor Z A b m s).currentState.capturedPiece = b.mailbox m.destination := by
  cases hprom : m.isPromotion with
  | true =>
    unfold applyMoveFor
    simp only [hprom, if_true]
  | false =>
    by_cases h1 : m.moveType = MoveType.FreeForm.toNat ∨ m.moveType = MoveType.PawnJump.toNat
    · by_cases h3 : m.moveType = MoveType.PawnJump.toNat
      · unfold applyMoveFor
        simp only [hprom, Bool.false_eq_true, if_false, if_pos h1, if_pos h3]
      · unfold applyMoveFor
        simp only [hprom, Bool.false_eq_true, if_false, if_pos h1, if_neg h3]
    · by_cases h2 : m.moveType = MoveType.Castling.toNat
      · unfold applyMoveFor
        simp only [hprom, Bool.false_eq_true, if_false, if_neg h1, if_pos h2]
      · unfold applyMoveFor
        simp only [hprom, Bool.false_eq_true, if_false, if_neg h1, if_neg h2]

end

/-! ## Evaluations at concrete positions -/

set_option maxRecDepth 1000000 in
/-- C3, on the initial position built by `Builder<Default>` over a
default-constructed `State`, with the randoms of seed 1: the generator offers
the double push e2 to e4; after `applyMove` the hash recomputed by `Board::hash`
is the hash the specification defines, and the incrementally maintained key
differs from it by the stray en-passant random `ByEnPassant[H1]`. -/
theorem Board.key_differs_after_first_move :
    ∃ b, Board.build RandomsAtOne (Board.Builder.ofDefault State.default) = some b ∧
      b.Consistent ∧
      b.currentState.key = scratchHash RandomsAtOne { b with
        currentState := { b.currentState with epSquare := NullSQ } } ∧
      Move.make .PawnJump 11 27 ∈ generateMoves PathsAndRays Witchcraft .All b ∧
      Board.hash RandomsAtOne
          (b.applyMove RandomsAtOne (Move.make .PawnJump 11 27) State.default) .Black =
        some (scratchHash RandomsAtOne
          (b.applyMove RandomsAtOne (Move.make .PawnJump 11 27) State.default)) ∧
      (b.applyMove RandomsAtOne (Move.make .PawnJump 11 27) State.default).currentState.key ≠
        scratchHash RandomsAtOne
          (b.applyMove RandomsAtOne (Move.make .PawnJump 11 27) State.default) ∧
      (b.applyMove RandomsAtOne (Move.make .PawnJump 11 27) State.default).currentState.key ^^^
        scratchHash RandomsAtOne
          (b.applyMove RandomsAtOne (Move.make .PawnJump 11 27) State.default) =
        RandomsAtOne.getEnPassant 0 := by
  have h : Option.Holds (Board.build RandomsAtOne (Board.Builder.ofDefault State.default))
      (fun b => b.consistentB = true ∧
        b.currentState.key = scratchHash RandomsAtOne { b with
          currentState := { b.currentState with epSquare := NullSQ } } ∧
        Move.make .PawnJump 11 27 ∈ generateMoves PathsAndRays Witchcraft .All b ∧
        Board.hash RandomsAtOne
            (b.applyMove RandomsAtOne (Move.make .PawnJump 11 27) State.default) .Black =
          some (scratchHash RandomsAtOne
            (b.applyMove RandomsAtOne (Move.make .PawnJump 11 27) State.default)) ∧
        (b.applyMove RandomsAtOne (Move.make .PawnJump 11 27) State.default).currentState.key ≠
          scratchHash RandomsAtOne
            (b.applyMove RandomsAtOne (Move.make .PawnJump 11 27) State.default) ∧
        (b.applyMove RandomsAtOne (Move.make .PawnJump 11 27) State.default).currentState.key ^^^
          scratchHash RandomsAtOne
            (b.applyMove RandomsAtOne (Move.make .PawnJump 11 27) State.default) =
          RandomsAtOne.getEnPassant 0) := by
    decide!
  obtain ⟨b, hb, hc, hrest⟩ := h.exists
  exact ⟨b, hb, Board.consistent_of_consistentB b hc, hrest⟩

set_option maxRecDepth 1000000 in
/-- C4, on the position `7k/8/4K3/3pP3/8/1b6/8/8 w - d6` (one king a side,
consistent board, White not in check): `generateMoves<All>` writes the
en-passant capture e5 takes d6, and after `applyMove` the white king on e6 is
attacked by the bishop on b3 (bit 22), so the move is not in the brute-force
legal set. -/
theorem generateMoves_enPassant_exposes_king :
    ∃ b, FenUtility.parseBoard RandomsAtOne "7k/8/4K3/3pP3/8/1b6/8/8 w - d6" State.default =
        some b ∧
      b.Consistent ∧
      highBitCount (b.pieces .White .King) = 1 ∧ highBitCount (b.pieces .Black .King) = 1 ∧
      b.currentPlayer = .White ∧ b.getEpSquare = 36 ∧
      bitScanFwd (b.pieces .White .King) = 43 ∧
      attacksOn Witchcraft .White .King b 43 = 0 ∧
      Move.make .EnPassant 35 44 ∈ generateMoves PathsAndRays Witchcraft .All b ∧
      bitScanFwd ((b.applyMove RandomsAtOne (Move.make .EnPassant 35 44) State.default).pieces
        .White .King) = 43 ∧
      attacksOn Witchcraft .White .King
        (b.applyMove RandomsAtOne (Move.make .EnPassant 35 44) State.default) 43 = 2 ^ 22 := by
  have h : Option.Holds
      (FenUtility.parseBoard RandomsAtOne "7k/8/4K3/3pP3/8/1b6/8/8 w - d6" State.default)
      (fun b => b.consistentB = true ∧
        highBitCount (b.pieces .White .King) = 1 ∧ highBitCount (b.pieces .Black .King) = 1 ∧
        b.currentPlayer = .White ∧ b.getEpSquare = 36 ∧
        bitScanFwd (b.pieces .White .King) = 43 ∧
        attacksOn Witchcraft .White .King b 43 = 0 ∧
        Move.make .EnPassant 35 44 ∈ generateMoves PathsAndRays Witchcraft .All b ∧
        bitScanFwd ((b.applyMove RandomsAtOne (Move.make .EnPassant 35 44) State.default).pieces
          .White .King) = 43 ∧
        attacksOn Witchcraft .White .King
          (b.applyMove RandomsAtOne (Move.make .EnPassant 35 44) State.default) 43 = 2 ^ 22) := by
    decide!
  obtain ⟨b, hb, hc, hrest⟩ := h.exists
  exact ⟨b, hb, Board.consistent_of_consistentB b hc, hrest⟩

set_option maxRecDepth 1000000 in
/-- C2 fails on the position `4k3/8/8/8/8/8/8/4K3 w K -`: the board is
consistent, `generateMoves<All>` writes the king-side castling move e1 to g1
although no rook stands on h1, and after `applyMove` the white rook bitboard
has bit h1 set while the mailbox entry of h1 is `NullPT`: the board is no
longer consistent. -/
theorem Board.castling_consistency_counterexample :
    ∃ b, FenUtility.parseBoard RandomsAtOne "4k3/8/8/8/8/8/8/4K3 w K -" State.default = some b ∧
      b.Consistent ∧
      Move.make .Castling 3 1 ∈ generateMoves PathsAndRays Witchcraft .All b ∧
      ((b.applyMove RandomsAtOne (Move.make .Castling 3 1) State.default).pieces
        .White .Rook).testBit 0 = true ∧
      (b.applyMove RandomsAtOne (Move.make .Castling 3 1) State.default).mailbox 0 = .NullPT ∧
      ¬ (b.applyMove RandomsAtOne (Move.make .Castling 3 1) State.default).Consistent := by
  have h : Option.Holds
      (FenUtility.parseBoard RandomsAtOne "4k3/8/8/8/8/8/8/4K3 w K -" State.default)
      (fun b => b.consistentB = true ∧
        Move.make .Castling 3 1 ∈ generateMoves PathsAndRays Witchcraft .All b ∧
        ((b.applyMove RandomsAtOne (Move.make .Castling 3 1) State.default).pieces
          .White .Rook).testBit 0 = true ∧
        (b.applyMove RandomsAtOne (Move.make .Castling 3 1) State.default).mailbox 0 =
          .NullPT) := by
    decide!
  obtain ⟨b, hb, hc, hm, h1, h2⟩ := h.exists
  refine ⟨b, hb, Board.consistent_of_consistentB b hc, hm, h1, h2, ?_⟩
  intro hcons
  have h3 := (hcons.mailbox 0 (by decide) .Rook (by decide)).mpr ⟨.White, h1⟩
  rw [h2] at h3
  exact absurd h3 (by decide)

set_option maxRecDepth 1000000 in
/-- The king-and-rook position is consistent. -/
theorem Board.kingAndRook_consistent : Board.kingAndRook.Consistent :=
  Board.consistent_of_consistentB _ (by decide!)

set_option maxRecDepth 1000000 in
/-- The state of the king-and-rook position fits its pieces. -/
theorem Board.kingAndRook_stateFits : Board.kingAndRook.StateFits :=
  ⟨by decide!, by decide!, by decide!, by decide!⟩

set_option maxRecDepth 1000000 in
/-- The generator offers king-side castling on the king-and-rook position. -/
theorem Board.kingAndRook_castling :
    Move.make .Castling 3 1 ∈ generateMoves PathsAndRays Witchcraft .All Board.kingAndRook := by
  decide!

/-! ## Make and unmake, and the consistency invariant -/

/-- C2 (amended): board consistency is kept by `applyMove(m, s)` for every move
`m` written by `generateMoves<All>`, of every kind, on a consistent board whose
state fits its pieces (the side to move has a king, a castling right it holds
comes with the rook on its corner, and a set en-passant square that a pawn of
the side to move stands beside holds an enemy pawn with the empty square behind
it). -/
theorem Board.applyMove_consistent (Z : Randoms) (L : Lines) (W : Magics) (b : Board)
    (m : Move) (s : State) (hc : b.Consistent) (hs : b.StateFits)
    (hm : m ∈ generateMoves L W .All b) :
    (b.applyMove Z m s).Consistent :=
  Board.applyMove_consistent_of_fits Z b m s hc (generateMoves_fits L W b hc hs .All m hm)

/-- The invariant of C2 on the king-and-rook position, for king-side castling. -/
theorem Board.applyMove_consistent_witness :
    Board.kingAndRook.Consistent ∧ Board.kingAndRook.StateFits ∧
      Move.make .Castling 3 1 ∈ generateMoves PathsAndRays Witchcraft .All Board.kingAndRook ∧
      (Board.kingAndRook.applyMove RandomsAtOne (Move.make .Castling 3 1)
        State.default).Consistent :=
  ⟨Board.kingAndRook_consistent, Board.kingAndRook_stateFits, Board.kingAndRook_castling,
    Board.applyMove_consistent RandomsAtOne PathsAndRays Witchcraft Board.kingAndRook
      (Move.make .Castling 3 1) State.default Board.kingAndRook_consistent
      Board.kingAndRook_stateFits Board.kingAndRook_castling⟩

/-! ## Null moves, castling, en-passant square, shifts and stand-pat -/

section

open Board

/-- The en-passant square that `applyMove<A>` leaves in the new state. -/
theorem Board.applyMoveFor_epSquare (Z : Randoms) (A : Alliance) (b : Board) (m : Move)
    (s : State) :
    (applyMoveFor Z A b m s).currentState.epSquare =
      if m.isPromotion = false ∧ m.moveType = MoveType.PawnJump.toNat then m.destination
      else NullSQ := by
  cases hprom : m.isPromotion with
  | true =>
    unfold applyMoveFor
    simp only [hprom, if_true]
    simp
  | false =>
    by_cases h1 : m.moveType = MoveType.FreeForm.toNat ∨ m.moveType = MoveType.PawnJump.toNat
    · by_cases h3 : m.moveType = MoveType.PawnJump.toNat
      · unfold applyMoveFor
        simp only [hprom, Bool.false_eq_true, if_false, if_pos h1, if_pos h3]
        simp [h3]
      · unfold applyMoveFor
        simp only [hprom, Bool.false_eq_true, if_false, if_pos h1, if_neg h3]
        simp [h3]
    · have h3 : ¬ m.moveType = MoveType.PawnJump.toNat := fun h => h1 (Or.inr h)
      by_cases h2 : m.moveType = MoveType.Castling.toNat
      · unfold applyMoveFor
        simp only [hprom, Bool.false_eq_true, if_false, if_neg h1, if_pos h2]
        simp [h3]
      · unfold applyMoveFor
        simp only [hprom, Bool.false_eq_true, if_false, if_neg h1, if_neg h2]
        simp [h3]

/-- C17: after `applyMove(m, s)` the en-passant square of the new state is the
destination of `m` when `m` is a pawn jump (not a promotion, type field
`PawnJump`), the square of the pawn that just double-pushed, and `NullSQ` for
every other move: FreeForm, Castling, EnPassant and every promotion; this for
every board, every move and every state object. -/
theorem Board.applyMove_epSquare (Z : Randoms) (b : Board) (m : Move) (s : State) :
    (b.applyMove Z m s).currentState.epSquare =
      if m.isPawnJump then m.destination else NullSQ := by
  rw [Board.applyMove_eq, Board.applyMoveFor_epSquare]
  rfl

/-- C19: for every board and every state object `s`, `applyNullMove(s)` leaves
the piece bitboards, `allPieces` and the mailbox as they are, gives the move to
the other alliance, and pushes `s` with `capturedPiece = NullPT`,
`move = NullMove`, the castling rights of the state before and its version
plus one (as a `uint8_t`); a `retractNullMove()` that follows returns the board
as it was before the null move, with the side to move and the state chain, so
that key, castling rights and en-passant square read through the current state
are those before. -/
theorem Board.retractNullMove_applyNullMove (Z : Randoms) (b : Board) (s : State) :
    (b.applyNullMove Z s).pieces = b.pieces ∧
    (b.applyNullMove Z s).allPieces = b.allPieces ∧
    (b.applyNullMove Z s).mailbox = b.mailbox ∧
    (b.applyNullMove Z s).currentPlayerAlliance = b.currentPlayerAlliance.flip ∧
    (b.applyNullMove Z s).currentState.capturedPiece = .NullPT ∧
    (b.applyNullMove Z s).currentState.move = NullMove ∧
    (b.applyNullMove Z s).currentState.castlingRights = b.currentState.castlingRights ∧
    (b.applyNullMove Z s).currentState.version = (b.currentState.version + 1) % 256 ∧
    (b.applyNullMove Z s).prevStates = b.currentState :: b.prevStates ∧
    (b.applyNullMove Z s).retractNullMove = some b := by
  unfold Board.applyNullMove Board.retractNullMove
  cases h : b.currentPlayerAlliance <;>
    simp only [Board.applyNullFor, Board.retractNullFor, Alliance.flip, and_self, true_and]
  · rw [← h]
  · rw [← h]

/-- Clearing the rights of an alliance leaves it neither right and leaves the
other alliance the rights it had. -/
theorem castlingOff_rights (A : Alliance) (b b2 : Board)
    (h2 : b2.currentState.castlingRights = b.currentState.castlingRights &&&
      CastlingOffByAlliance A) :
    b2.hasCastlingRightsKingSide A = false ∧ b2.hasCastlingRightsQueenSide A = false ∧
    b2.hasCastlingRightsKingSide A.flip = b.hasCastlingRightsKingSide A.flip ∧
    b2.hasCastlingRightsQueenSide A.flip = b.hasCastlingRightsQueenSide A.flip := by
  have e1 : ∀ x : Nat, x &&& 0x0C &&& 0x02 = 0 := by
    intro x; rw [Nat.and_assoc]; exact Nat.and_zero x
  have e2 : ∀ x : Nat, x &&& 0x0C &&& 0x01 = 0 := by
    intro x; rw [Nat.and_assoc]; exact Nat.and_zero x
  have e3 : ∀ x : Nat, x &&& 0x0C &&& 0x08 = x &&& 0x08 := by
    intro x; rw [Nat.and_assoc]; rfl
  have e4 : ∀ x : Nat, x &&& 0x0C &&& 0x04 = x &&& 0x04 := by
    intro x; rw [Nat.and_assoc]; rfl
  have f1 : ∀ x : Nat, x &&& 0x03 &&& 0x08 = 0 := by
    intro x; rw [Nat.and_assoc]; exact Nat.and_zero x
  have f2 : ∀ x : Nat, x &&& 0x03 &&& 0x04 = 0 := by
    intro x; rw [Nat.and_assoc]; exact Nat.and_zero x
  have f3 : ∀ x : Nat, x &&& 0x03 &&& 0x02 = x &&& 0x02 := by
    intro x; rw [Nat.and_assoc]; rfl
  have f4 : ∀ x : Nat, x &&& 0x03 &&& 0x01 = x &&& 0x01 := by
    intro x; rw [Nat.and_assoc]; rfl
  cases A <;>
    simp only [Board.hasCastlingRightsKingSide, Board.hasCastlingRightsQueenSide, Alliance.flip,
      h2, CastlingOffByAlliance, e1, e2, e3, e4, f1, f2, f3, f4] <;> simp

/-- What `applyMove<A>` does with a fitting castling move of the side to move:
rights, king, rook, and en-passant square. -/
theorem Board.applyMoveFor_castling_effect (Z : Randoms) (b : Board)
    (f : Nat → Option (Alliance × PieceType))
    (hp : b.PlacedBy f) (m : Move) (s : State) (hfits : b.MoveFits m)
    (hprom : m.isPromotion = false) (hmt : m.moveType = MoveType.Castling.toNat) :
    (applyMoveFor Z b.currentPlayerAlliance b m s).currentState.castlingRights =
      b.currentState.castlingRights &&& CastlingOffByAlliance b.currentPlayerAlliance ∧
    (applyMoveFor Z b.currentPlayerAlliance b m s).pieces b.currentPlayerAlliance .King =
      b.pieces b.currentPlayerAlliance .King ^^^
        (SquareToBitBoard m.origin ||| SquareToBitBoard m.destination) ∧
    (b.pieces b.currentPlayerAlliance .King).testBit m.origin = true ∧
    ((applyMoveFor Z b.currentPlayerAlliance b m s).pieces b.currentPlayerAlliance
      .King).testBit m.origin = false ∧
    ((applyMoveFor Z b.currentPlayerAlliance b m s).pieces b.currentPlayerAlliance
      .King).testBit m.destination = true ∧
    (applyMoveFor Z b.currentPlayerAlliance b m s).mailbox m.origin = .NullPT ∧
    (applyMoveFor Z b.currentPlayerAlliance b m s).mailbox m.destination = .King ∧
    (b.pieces b.currentPlayerAlliance .Rook).testBit
      (if (defaults b.currentPlayerAlliance).kingSideMask &&& SquareToBitBoard m.destination ≠ 0
        then (defaults b.currentPlayerAlliance).kingSideRookOrigin
        else (defaults b.currentPlayerAlliance).queenSideRookOrigin) = true ∧
    ((applyMoveFor Z b.currentPlayerAlliance b m s).pieces b.currentPlayerAlliance
      .Rook).testBit
      (if (defaults b.currentPlayerAlliance).kingSideMask &&& SquareToBitBoard m.destination ≠ 0
        then (defaults b.currentPlayerAlliance).kingSideRookOrigin
        else (defaults b.currentPlayerAlliance).queenSideRookOrigin) = false ∧
    ((applyMoveFor Z b.currentPlayerAlliance b m s).pieces b.currentPlayerAlliance
      .Rook).testBit
      (if (defaults b.currentPlayerAlliance).kingSideMask &&& SquareToBitBoard m.destination ≠ 0
        then (defaults b.currentPlayerAlliance).kingSideRookDestination
        else (defaults b.currentPlayerAlliance).queenSideRookDestination) = true ∧
    (applyMoveFor Z b.currentPlayerAlliance b m s).mailbox
      (if (defaults b.currentPlayerAlliance).kingSideMask &&& SquareToBitBoard m.destination ≠ 0
        then (defaults b.currentPlayerAlliance).kingSideRookOrigin
        else (defaults b.currentPlayerAlliance).queenSideRookOrigin) = .NullPT ∧
    (applyMoveFor Z b.currentPlayerAlliance b m s).mailbox
      (if (defaults b.currentPlayerAlliance).kingSideMask &&& SquareToBitBoard m.destination ≠ 0
        then (defaults b.currentPlayerAlliance).kingSideRookDestination
        else (defaults b.currentPlayerAlliance).queenSideRookDestination) = .Rook := by
  obtain ⟨hfo, ha, hod, -⟩ := hfits.squares hp
  obtain ⟨rO, rD, hrO, hrD, hOD, hdO, hdD, hmask, hsO, hsD, hrook, hempty, hking, hde⟩ :=
    hfits.castling_squares hprom hmt
  have ho := hfits.origin_lt
  have hd := hfits.destination_lt
  have hdo : m.destination ≠ m.origin := Ne.symm hod
  have hkg : b.mailbox m.origin = .King := by
    have h := (hp.kind _ _ _ (by decide)).mp hking
    rw [hfo] at h
    exact (Prod.mk.inj (Option.some.inj h)).2
  rw [hkg] at hfo
  have hfd : f m.destination = none := hp.none_of_all hde
  have hfD : f rD = none := hp.none_of_all hempty
  have hfO : f rO = some (b.currentPlayerAlliance, .Rook) :=
    (hp.kind _ _ _ (by decide)).mp hrook
  have hoO : m.origin ≠ rO := by
    intro h; rw [h, hfO] at hfo
    exact absurd (Prod.mk.inj (Option.some.inj hfo)).2 (by decide)
  have hoD : m.origin ≠ rD := by
    intro h; rw [h, hfD] at hfo
    exact Option.noConfusion hfo
  have hOo := Ne.symm hoO
  have hDo := Ne.symm hoD
  have hDO := Ne.symm hOD
  have hOd := Ne.symm hdO
  have hDd := Ne.symm hdD
  have hm1 : ¬ (m.moveType = MoveType.FreeForm.toNat ∨ m.moveType = MoveType.PawnJump.toNat) := by
    rw [hmt]; decide
  have hmd : b.mailbox m.destination = .NullPT := by
    rw [hp.mailbox _ hd, hfd]
  have hmdR : ¬ b.mailbox m.destination = .Rook := by
    rw [hmd]; decide
  have hKD := hp.testBit_kind b.currentPlayerAlliance .King m.destination (by decide)
  have hRD := hp.testBit_kind b.currentPlayerAlliance .Rook rD (by decide)
  rw [hsO, hsD]
  refine ⟨?_, ?_, hking, ?_, ?_, ?_, ?_, hrook, ?_, ?_, ?_, ?_⟩
  · unfold applyMoveFor
    simp only [hprom, Bool.false_eq_true, if_false, if_neg hm1, if_pos hmt, if_neg hmdR]
  · unfold applyMoveFor
    simp only [hprom, Bool.false_eq_true, if_false, if_neg hm1, if_pos hmt, hmask]
    simp [setPieces]
  · unfold applyMoveFor
    simp only [hprom, Bool.false_eq_true, if_false, if_neg hm1, if_pos hmt, hmask]
    simp only [testBit_setPieces_xor, Nat.testBit_or, testBit_SquareToBitBoard _ _ ho,
      testBit_SquareToBitBoard _ _ hd, testBit_SquareToBitBoard _ _ hrO,
      testBit_SquareToBitBoard _ _ hrD]
    simp [hking, hOo, hDo]
  · unfold applyMoveFor
    simp only [hprom, Bool.false_eq_true, if_false, if_neg hm1, if_pos hmt, hmask]
    simp only [testBit_setPieces_xor, Nat.testBit_or, testBit_SquareToBitBoard _ _ ho,
      testBit_SquareToBitBoard _ _ hd, testBit_SquareToBitBoard _ _ hrO,
      testBit_SquareToBitBoard _ _ hrD]
    simp [hKD, hfd, hOd, hDd]
  · unfold applyMoveFor
    simp only [hprom, Bool.false_eq_true, if_false, if_neg hm1, if_pos hmt, hsO, hsD,
      setMailbox]
    simp [hoO, hoD, hod]
  · unfold applyMoveFor
    simp only [hprom, Bool.false_eq_true, if_false, if_neg hm1, if_pos hmt, hsO, hsD,
      setMailbox]
    simp [hdO, hdD, hkg]
  · unfold applyMoveFor
    simp only [hprom, Bool.false_eq_true, if_false, if_neg hm1, if_pos hmt, hmask]
    simp only [testBit_setPieces_xor, Nat.testBit_or, testBit_SquareToBitBoard _ _ ho,
      testBit_SquareToBitBoard _ _ hd, testBit_SquareToBitBoard _ _ hrO,
      testBit_SquareToBitBoard _ _ hrD]
    simp [hrook]
  · unfold applyMoveFor
    simp only [hprom, Bool.false_eq_true, if_false, if_neg hm1, if_pos hmt, hmask]
    simp only [testBit_setPieces_xor, Nat.testBit_or, testBit_SquareToBitBoard _ _ ho,
      testBit_SquareToBitBoard _ _ hd, testBit_SquareToBitBoard _ _ hrO,
      testBit_SquareToBitBoard _ _ hrD]
    simp [hRD, hfD, hOD]
  · unfold applyMoveFor
    simp only [hprom, Bool.false_eq_true, if_false, if_neg hm1, if_pos hmt, hsO, hsD,
      setMailbox]
    simp [hOD]
  · unfold applyMoveFor
    simp only [hprom, Bool.false_eq_true, if_false, if_neg hm1, if_pos hmt, hsO, hsD,
      setMailbox]
    simp

/-- A fitting castling move applied to a consistent board has the effect the
specification gives it. -/
theorem Board.applyMove_castling_of_fits (Z : Randoms) (b : Board) (m : Move) (s : State)
    (hc : b.Consistent) (hfits : b.MoveFits m) (hcas : m.isCastling) :
    b.CastlingEffect (b.applyMove Z m s) m := by
  obtain ⟨hprom, hmt⟩ := hcas
  have hep := Board.applyMoveFor_epSquare Z b.currentPlayerAlliance b m s
  rw [if_neg (fun h => absurd (hmt.symm.trans h.2) (by decide))] at hep
  obtain ⟨h1, h2, h3, h4, h5, h6, h7, h8, h9, h10, h11, h12⟩ :=
    Board.applyMoveFor_castling_effect Z b _ hc.placedBy m s hfits hprom hmt
  obtain ⟨r1, r2, r3, r4⟩ := castlingOff_rights b.currentPlayerAlliance b _ h1
  rw [Board.applyMove_eq]
  exact ⟨h1, r1, r2, r3, r4, h2, h3, h4, h5, h6, h7, h8, h9, h10, h11, h12, hep⟩

/-- C16: for every castling move `m` (not a promotion, type field `Castling`)
that `generateMoves<All>` writes on a consistent board whose state fits its
pieces, `applyMove(m, s)` leaves the castling rights of the state before with
both bits of the mover cleared and both bits of the opponent unchanged, the
king moved from the origin to the destination of the move, the rook moved from
`kingSideRookOrigin` to `kingSideRookDestination` when the destination lies in
`kingSideMask` and from `queenSideRookOrigin` to `queenSideRookDestination`
otherwise, in bitboards and mailbox alike, and the en-passant square
`NullSQ`. -/
theorem Board.applyMove_castling (Z : Randoms) (L : Lines) (W : Magics) (b : Board)
    (m : Move) (s : State) (hc : b.Consistent) (hs : b.StateFits)
    (hm : m ∈ generateMoves L W .All b) (hcas : m.isCastling) :
    b.CastlingEffect (b.applyMove Z m s) m :=
  Board.applyMove_castling_of_fits Z b m s hc (generateMoves_fits L W b hc hs .All m hm) hcas

/-- The effect of C16 on the king-and-rook position, for king-side castling. -/
theorem Board.applyMove_castling_witness :
    Board.kingAndRook.Consistent ∧ Board.kingAndRook.StateFits ∧
      Move.make .Castling 3 1 ∈ generateMoves PathsAndRays Witchcraft .All Board.kingAndRook ∧
      (Move.make .Castling 3 1).isCastling ∧
      Board.kingAndRook.CastlingEffect
        (Board.kingAndRook.applyMove RandomsAtOne (Move.make .Castling 3 1) State.default)
        (Move.make .Castling 3 1) :=
  ⟨Board.kingAndRook_consistent, Board.kingAndRook_stateFits, Board.kingAndRook_castling,
    by decide,
    Board.applyMove_castling RandomsAtOne PathsAndRays Witchcraft Board.kingAndRook
      (Move.make .Castling 3 1) State.default Board.kingAndRook_consistent
      Board.kingAndRook_stateFits Board.kingAndRook_castling (by decide)⟩

set_option maxRecDepth 1000000 in
/-- Claim C18 (counterexample). On the position `4k3/8/8/3pP3/8/8/8/4K3 w - d6`
the generator writes the en-passant capture e5 takes d6; `applyMove` removes
the black pawn from d5 (the only black pawn), and the new state has
`capturedPiece = NullPT`, the kind found on the empty destination, so that
`hasAttack()` is false after a capturing move. -/
theorem Board.enPassant_capturedPiece_null :
    ∃ b, FenUtility.parseBoard RandomsAtOne "4k3/8/8/3pP3/8/8/8/4K3 w - d6" State.default =
        some b ∧
      b.Consistent ∧ b.StateFits ∧
      Move.make .EnPassant 35 44 ∈ generateMoves PathsAndRays Witchcraft .All b ∧
      b.pieces .Black .Pawn = 2 ^ 36 ∧ b.mailbox 36 = .Pawn ∧
      (b.applyMove RandomsAtOne (Move.make .EnPassant 35 44) State.default).pieces
        .Black .Pawn = 0 ∧
      (b.applyMove RandomsAtOne (Move.make .EnPassant 35 44) State.default).mailbox 36 =
        .NullPT ∧
      (b.applyMove RandomsAtOne (Move.make .EnPassant 35 44)
        State.default).currentState.capturedPiece = .NullPT ∧
      (b.applyMove RandomsAtOne (Move.make .EnPassant 35 44) State.default).hasAttack =
        false := by
  have h : Option.Holds
      (FenUtility.parseBoard RandomsAtOne "4k3/8/8/3pP3/8/8/8/4K3 w - d6" State.default)
      (fun b => b.consistentB = true ∧
        (b.pieces b.currentPlayerAlliance .King ≠ 0 ∧
          (b.hasCastlingRightsKingSide b.currentPlayerAlliance = false ∧
           b.hasCastlingRightsQueenSide b.currentPlayerAlliance = false) ∧
          (b.currentState.epSquare < 64 ∧
            (b.pieces b.currentPlayerAlliance.flip .Pawn).testBit b.currentState.epSquare
              = true ∧
            0 ≤ (b.currentState.epSquare : Int) + (defaults b.currentPlayerAlliance).up ∧
            (b.currentState.epSquare : Int) + (defaults b.currentPlayerAlliance).up < 64 ∧
            b.allPieces.testBit
              ((b.currentState.epSquare : Int) +
                (defaults b.currentPlayerAlliance).up).toNat = false)) ∧
        Move.make .EnPassant 35 44 ∈ generateMoves PathsAndRays Witchcraft .All b ∧
        b.pieces .Black .Pawn = 2 ^ 36 ∧ b.mailbox 36 = .Pawn ∧
        (b.applyMove RandomsAtOne (Move.make .EnPassant 35 44) State.default).pieces
          .Black .Pawn = 0 ∧
        (b.applyMove RandomsAtOne (Move.make .EnPassant 35 44) State.default).mailbox 36 =
          .NullPT ∧
        (b.applyMove RandomsAtOne (Move.make .EnPassant 35 44)
          State.default).currentState.capturedPiece = .NullPT ∧
        (b.applyMove RandomsAtOne (Move.make .EnPassant 35 44) State.default).hasAttack =
          false) := by
    decide!
  obtain ⟨b, hb, hc, ⟨hk, ⟨hks, hqs⟩, hep⟩, hrest⟩ := h.exists
  refine ⟨b, hb, Board.consistent_of_consistentB b hc, ⟨hk, ?_, ?_, Or.inr (Or.inr hep)⟩, hrest⟩
  · intro h; rw [hks] at h; exact Bool.noConfusion h
  · intro h; rw [hqs] at h; exact Bool.noConfusion h

/-- The bits of a board gathered by a loop that sets one bit per pass. -/
theorem testBit_foldl_set (g : Nat → Option Nat) (t : Nat) :
    ∀ (l : List Nat) (acc : Nat),
      (l.foldl (fun acc s =>
        match g s with
        | some u => acc ||| 2 ^ u
        | none => acc) acc).testBit t = true ↔
      (acc.testBit t = true ∨ ∃ s ∈ l, g s = some t)
  | [], acc => by simp
  | s :: l, acc => by
    rw [List.foldl_cons, testBit_foldl_set g t l]
    cases hg : g s with
    | none =>
      simp only [List.mem_cons, exists_eq_or_imp, hg]
      simp
    | some u =>
      simp only [List.mem_cons, exists_eq_or_imp, hg, Nat.testBit_or, Bool.or_eq_true,
        Nat.testBit_two_pow, decide_eq_true_eq, Option.some.injEq]
      tauto

/-- The bits of `stepBoard`. -/
theorem testBit_stepBoard (D : Int) (b t : Nat) :
    (stepBoard D b).testBit t = true ↔
      ∃ s, s < 64 ∧ b.testBit s = true ∧ stepSquare D s = some t := by
  unfold stepBoard
  rw [testBit_foldl_set (fun s => if b.testBit s then stepSquare D s else none)]
  simp only [Nat.zero_testBit, Bool.false_eq_true, false_or, List.mem_range]
  constructor
  · rintro ⟨s, hs, h⟩
    by_cases hb : b.testBit s = true
    · rw [if_pos hb] at h
      exact ⟨s, hs, hb, h⟩
    · rw [if_neg hb] at h
      exact Option.noConfusion h
  · rintro ⟨s, hs, hb, h⟩
    exact ⟨s, hs, by rw [if_pos hb]; exact h⟩

set_option maxRecDepth 100000 in
/-- The step of the specification, square by square: it is the square `s + D`
when `s` is not on the edge the direction leaves the board from and `s + D` is
a square, and there is none otherwise. -/
theorem stepSquare_eq : ∀ D ∈ CompassDirections, ∀ s, s < 64 →
    stepSquare D s =
      if (edgeMask D).testBit s = true ∧ 0 ≤ (s : Int) + D ∧ (s : Int) + D < 64 then
        some ((s : Int) + D).toNat
      else none := by
  decide

/-- A compass direction is not zero and is at most nine squares long. -/
theorem compass_bounds : ∀ D ∈ CompassDirections, D ≠ 0 ∧ -9 ≤ D ∧ D ≤ 9 := by
  decide

/-- The edge masks are 64-bit values. -/
theorem edgeMask_lt (D : Int) : edgeMask D < 2 ^ 64 := by
  unfold edgeMask FullBoard
  split_ifs <;> norm_num

/-- The bits of a shifted 64-bit board. -/
theorem testBit_shift_iff {D : Int} {x : Nat} (hx : x < 2 ^ 64) (t : Nat) :
    (shift D x).testBit t = true ↔
      t < 64 ∧ 0 ≤ (t : Int) - D ∧ x.testBit ((t : Int) - D).toNat = true := by
  constructor
  · exact testBit_shift hx
  · rintro ⟨h1, h2, h3⟩
    unfold shift
    by_cases hD : D > 0
    · rw [if_pos hD]
      have hU : U64 = 2 ^ 64 := rfl
      rw [hU, Nat.testBit_mod_two_pow, Nat.testBit_shiftLeft]
      simp only [Bool.and_eq_true, decide_eq_true_eq]
      have : ((t : Int) - D).toNat = t - D.toNat := by omega
      rw [this] at h3
      exact ⟨h1, by omega, h3⟩
    · rw [if_neg hD, Nat.testBit_shiftRight]
      have : ((t : Int) - D).toNat = (-D).toNat + t := by omega
      rw [this] at h3
      exact h3

/-- With the squares of the edge file masked off first, as the callers of
`shift` do, the shifted board is the board of the specification. -/
theorem shift_edgeMask (D : Int) (hD : D ∈ CompassDirections) (b : Nat) :
    shift D (b &&& edgeMask D) = stepBoard D b := by
  apply Nat.eq_of_testBit_eq
  intro t
  apply Bool.eq_iff_iff.mpr
  rw [testBit_shift_iff (and_lt_right (edgeMask_lt D)), testBit_stepBoard]
  obtain ⟨hD0, hD1, hD2⟩ := compass_bounds D hD
  constructor
  · rintro ⟨h1, h2, h3⟩
    rw [Nat.testBit_and, Bool.and_eq_true] at h3
    have hs : ((t : Int) - D).toNat < 64 := lt_of_testBit (edgeMask_lt D) h3.2
    refine ⟨_, hs, h3.1, ?_⟩
    rw [stepSquare_eq D hD _ hs]
    have e : (((t : Int) - D).toNat : Int) + D = t := by omega
    rw [if_pos ⟨h3.2, by omega, by omega⟩, e]
    rfl
  · rintro ⟨s, hs, hb, hstep⟩
    rw [stepSquare_eq D hD s hs] at hstep
    by_cases hc : (edgeMask D).testBit s = true ∧ 0 ≤ (s : Int) + D ∧ (s : Int) + D < 64
    · rw [if_pos hc] at hstep
      have ht : t = ((s : Int) + D).toNat := (Option.some.inj hstep).symm
      have e : ((t : Int) - D).toNat = s := by omega
      refine ⟨by omega, by omega, ?_⟩
      rw [e, Nat.testBit_and, hb, hc.1]
      rfl
    · rw [if_neg hc] at hstep
      exact Option.noConfusion hstep

/-- C12 (amended): for every direction `D` among the eight compass directions
and every bitboard `b`, `shift<D>` applied to `b` with the squares of the edge
file masked off (the east-most file for an eastward direction, the west-most
for a westward one, as the callers in the move generator do with `notRightCol`
and `notLeftCol`) is exactly the set of on-board squares one step in direction
`D` from a set square of `b`; `shift<D>` itself masks nothing. -/
theorem shift_masked (D : Int) (hD : D ∈ CompassDirections) (b : Nat) :
    shift D (b &&& edgeMask D) = stepBoard D b :=
  shift_edgeMask D hD b

/-- The amended C12 for the direction East and the board with only square 7. -/
theorem shift_masked_witness :
    East ∈ CompassDirections ∧ shift East (2 ^ 7 &&& edgeMask East) = stepBoard East (2 ^ 7) :=
  ⟨by decide, shift_masked East (by decide) (2 ^ 7)⟩

/-- C12 fails for the direction East and the bitboard containing only square 7
(the east-most file of the first rank): `shift<East>` yields the board
containing square 8, on the west-most file of the second rank, where no square
is one step east of square 7. -/
theorem shift_wraps :
    East ∈ CompassDirections ∧ stepBoard East (SquareToBitBoard 7) = 0 ∧
      shift East (SquareToBitBoard 7) = SquareToBitBoard 8 ∧
      shift East (SquareToBitBoard 7) ≠ stepBoard East (SquareToBitBoard 7) := by
  decide

set_option maxRecDepth 1000000 in
/-- C14 fails: in the position `8/8/8/k2pP2Q/8/8/8/7K w - d6` (black king a5,
black pawn d5, white pawn e5, white queen h5, white king h1) the generator
writes the en-passant capture e5 takes d6. The king on the rank is the black
one and the queen is white, so the capture exposes no white king: after it the
white king on h1 is not attacked, and the move is legal. -/
theorem generateMoves_enPassant_rank_written :
    ∃ b, FenUtility.parseBoard RandomsAtOne "8/8/8/k2pP2Q/8/8/8/7K w - d6" State.default =
        some b ∧
      b.Consistent ∧ b.currentPlayer = .White ∧ b.getEpSquare = 36 ∧
      b.pieces .Black .King = 2 ^ 39 ∧ b.pieces .White .Queen = 2 ^ 32 ∧
      b.pieces .White .King = 2 ^ 0 ∧
      Move.make .EnPassant 35 44 ∈ generateMoves PathsAndRays Witchcraft .All b ∧
      attacksOn Witchcraft .White .King
        (b.applyMove RandomsAtOne (Move.make .EnPassant 35 44) State.default) 0 = 0 := by
  have h : Option.Holds
      (FenUtility.parseBoard RandomsAtOne "8/8/8/k2pP2Q/8/8/8/7K w - d6" State.default)
      (fun b => b.consistentB = true ∧ b.currentPlayer = .White ∧ b.getEpSquare = 36 ∧
        b.pieces .Black .King = 2 ^ 39 ∧ b.pieces .White .Queen = 2 ^ 32 ∧
        b.pieces .White .King = 2 ^ 0 ∧
        Move.make .EnPassant 35 44 ∈ generateMoves PathsAndRays Witchcraft .All b ∧
        attacksOn Witchcraft .White .King
          (b.applyMove RandomsAtOne (Move.make .EnPassant 35 44) State.default) 0 = 0) := by
    decide!
  obtain ⟨b, hb, hc, hrest⟩ := h.exists
  exact ⟨b, hb, Board.consistent_of_consistentB b hc, hrest⟩

set_option maxRecDepth 1000000 in
/-- C14 (amended): in the position `8/8/8/K2pP2q/8/8/8/7k w - d6`, the position
of the claim with the colours of the kings and of the queen exchanged (white
king a5, black pawn d5, white pawn e5, black queen h5, black king h1), White to
move and the en-passant pawn on d5, the en-passant capture e5 takes d6 would
expose the white king along the rank, and `generateMoves<All>` does not
contain it. -/
theorem generateMoves_enPassant_rank_omitted :
    ∃ b, FenUtility.parseBoard RandomsAtOne "8/8/8/K2pP2q/8/8/8/7k w - d6" State.default =
        some b ∧
      b.Consistent ∧ b.currentPlayer = .White ∧ b.getEpSquare = 36 ∧
      b.pieces .White .King = 2 ^ 39 ∧ b.pieces .Black .Queen = 2 ^ 32 ∧
      b.pieces .White .Pawn = 2 ^ 35 ∧ b.pieces .Black .Pawn = 2 ^ 36 ∧
      Move.make .EnPassant 35 44 ∉ generateMoves PathsAndRays Witchcraft .All b ∧
      (∀ m ∈ generateMoves PathsAndRays Witchcraft .All b, ¬ m.isEnPassant) := by
  have h : Option.Holds
      (FenUtility.parseBoard RandomsAtOne "8/8/8/K2pP2q/8/8/8/7k w - d6" State.default)
      (fun b => b.consistentB = true ∧ b.currentPlayer = .White ∧ b.getEpSquare = 36 ∧
        b.pieces .White .King = 2 ^ 39 ∧ b.pieces .Black .Queen = 2 ^ 32 ∧
        b.pieces .White .Pawn = 2 ^ 35 ∧ b.pieces .Black .Pawn = 2 ^ 36 ∧
        Move.make .EnPassant 35 44 ∉ generateMoves PathsAndRays Witchcraft .All b ∧
        (∀ m ∈ generateMoves PathsAndRays Witchcraft .All b, ¬ m.isEnPassant)) := by
    decide!
  obtain ⟨b, hb, hc, hrest⟩ := h.exists
  exact ⟨b, hb, Board.consistent_of_consistentB b hc, hrest⟩

/-- The value `quiescence<A>` returns at a position where the side to move is
not in check and the generator writes no attack: the evaluation when the depth
limit is reached, and otherwise the stand-pat score held to the window. -/
theorem quiescence_no_attacks (O : Oracle) (Z : Randoms) (L : Lines) (W : Magics)
    (fuel : Nat) (A : Alliance) (b : Board) (d r a o : Int) (c : Search)
    (htime : O.expired c.clockReads = false)
    (hmate : O.isMatePossible b = true) (hrep : O.repeating b d = false)
    (hcheck : attacksOn W A .King b (bitScanFwd (b.getPieces A .King)) = 0)
    (hnone : generateMoves L W .Aggressive b = []) :
    ∃ c2, quiescence O Z L W (fuel + 1) A b d r a o c =
      some (if r ≤ -c.control.Q_PLY then O.eval A b
        else if O.eval A b ≥ o then o
        else if a < O.eval A b then O.eval A b else a, b, c2) := by
  unfold quiescence
  simp only [htime, hmate, hrep, hcheck, Bool.false_eq_true, if_false, Bool.not_true,
    Bool.or_self, ne_eq, not_true_eq_false, moveListQ, hnone, List.length_nil,
    gt_iff_lt, Nat.not_lt_zero, not_lt_zero']
  by_cases h1 : r ≤ -c.control.Q_PLY
  · simp only [h1, if_true]
    exact ⟨_, rfl⟩
  · simp only [h1, if_false]
    by_cases h2 : O.eval A b ≥ o
    · simp only [h2, if_true]
      exact ⟨_, rfl⟩
    · simp only [h2, if_false, searchMoves]
      exact ⟨_, rfl⟩

set_option maxRecDepth 1000000 in
/-- On the stalemate position Black is not in check and the generator writes
no move, for any filter. -/
theorem Board.stalemate_facts :
    Board.stalemate.currentPlayer = .Black ∧
    attacksOn Witchcraft .Black .King Board.stalemate
      (bitScanFwd (Board.stalemate.getPieces .Black .King)) = 0 ∧
    generateMoves PathsAndRays Witchcraft .All Board.stalemate = [] ∧
    generateMoves PathsAndRays Witchcraft .Aggressive Board.stalemate = [] := by
  decide!

/-- C15 (amended): for every evaluation function and every window, a call of
`quiescence` made before the deadline at a position that is no draw by material
or repetition, where the side to move is not in check and the generator writes
no attack (as on a stalemate position, where it writes no move at all), returns
the stand-pat score held to the window: beta when the evaluation is at least
beta, else the evaluation when it is above alpha, else alpha; and the
evaluation itself when the remaining depth is at or below `-Q_PLY`. It
returns 0 only when that value is 0. -/
theorem quiescence_stand_pat (O : Oracle) (Z : Randoms) (L : Lines) (W : Magics)
    (fuel : Nat) (A : Alliance) (b : Board) (d r a o : Int) (c : Search)
    (htime : O.expired c.clockReads = false)
    (hmate : O.isMatePossible b = true) (hrep : O.repeating b d = false)
    (hcheck : attacksOn W A .King b (bitScanFwd (b.getPieces A .King)) = 0)
    (hnone : generateMoves L W .Aggressive b = []) :
    ∃ c2, quiescence O Z L W (fuel + 1) A b d r a o c =
      some (if r ≤ -c.control.Q_PLY then O.eval A b
        else if O.eval A b ≥ o then o
        else if a < O.eval A b then O.eval A b else a, b, c2) :=
  quiescence_no_attacks O Z L W fuel A b d r a o c htime hmate hrep hcheck hnone

/-- The amended C15 on the stalemate position `7k/5Q2/6K1/8/8/8/8/8` with Black
to move, for the evaluation 5 and the window from -10 to 10: the value is 5. -/
theorem quiescence_stand_pat_witness :
    (Oracle.constant 5).expired (Search.mk (Control.cleared 8) 0).clockReads = false ∧
    (Oracle.constant 5).isMatePossible Board.stalemate = true ∧
    (Oracle.constant 5).repeating Board.stalemate 0 = false ∧
    attacksOn Witchcraft .Black .King Board.stalemate
      (bitScanFwd (Board.stalemate.getPieces .Black .King)) = 0 ∧
    generateMoves PathsAndRays Witchcraft .Aggressive Board.stalemate = [] ∧
    ∃ c2, quiescence (Oracle.constant 5) RandomsAtOne PathsAndRays Witchcraft (0 + 1) .Black
        Board.stalemate 0 0 (-10) 10 (Search.mk (Control.cleared 8) 0) =
      some (5, Board.stalemate, c2) :=
  ⟨rfl, rfl, rfl, Board.stalemate_facts.2.1, Board.stalemate_facts.2.2.2,
    quiescence_stand_pat (Oracle.constant 5) RandomsAtOne PathsAndRays Witchcraft 0 .Black
      Board.stalemate 0 0 (-10) 10 (Search.mk (Control.cleared 8) 0) rfl rfl rfl
      Board.stalemate_facts.2.1 Board.stalemate_facts.2.2.2⟩

/-- C15 fails on the stalemate position `7k/5Q2/6K1/8/8/8/8/8` with Black to
move (not in check, no move written by `generateMoves<All>`, mate possible, no
repetition, clock not expired): with an evaluation of -900 for the side to move
and the window from -50 to 50, `quiescence` stands pat and returns alpha, -50,
not 0. -/
theorem quiescence_stalemate_not_zero :
    Board.stalemate.currentPlayer = .Black ∧
    attacksOn Witchcraft .Black .King Board.stalemate
      (bitScanFwd (Board.stalemate.getPieces .Black .King)) = 0 ∧
    generateMoves PathsAndRays Witchcraft .All Board.stalemate = [] ∧
    ∃ c2, quiescence (Oracle.constant (-900)) RandomsAtOne PathsAndRays Witchcraft 1 .Black
        Board.stalemate 0 0 (-50) 50 (Search.mk (Control.cleared 8) 0) =
      some (-50, Board.stalemate, c2) := by
  refine ⟨Board.stalemate_facts.1, Board.stalemate_facts.2.1, Board.stalemate_facts.2.2.1, ?_⟩
  obtain ⟨c2, h⟩ := quiescence_no_attacks (Oracle.constant (-900)) RandomsAtOne PathsAndRays
    Witchcraft 0 .Black Board.stalemate 0 0 (-50) 50 (Search.mk (Control.cleared 8) 0)
    rfl rfl rfl Board.stalemate_facts.2.1 Board.stalemate_facts.2.2.2
  exact ⟨c2, h⟩

end

/-! ## Provenance of generated moves, castling and filters -/

section

open Board

/-- An element of a guarded list is an element of the list, and the guard
holds. -/
theorem mem_ite_guard {α : Type} {c : Prop} [Decidable c] {l : List α} {m : α}
    (h : m ∈ if c then l else []) : c ∧ m ∈ l := by
  split_ifs at h with hc
  · exact ⟨hc, h⟩
  · exact absurd h (List.not_mem_nil m)

/-- An element of a list guarded by the negation of a condition is an element
of the list, and the condition fails. -/
theorem mem_ite_guard_else {α : Type} {c : Prop} [Decidable c] {l : List α} {m : α}
    (h : m ∈ if c then [] else l) : ¬ c ∧ m ∈ l := by
  split_ifs at h with hc
  · exact absurd h (List.not_mem_nil m)
  · exact ⟨hc, h⟩

/-- An empty destination is a target of every filter but `Aggressive`. -/
theorem Board.target_of_empty {b : Board} (hc : b.Consistent) {FT : FilterType} {d : Nat}
    (hFT : FT ≠ .Aggressive) (h : b.allPieces.testBit d = false) : b.Target FT d := by
  cases FT
  · exact absurd rfl hFT
  · exact h
  · exact hc.not_mem_of_empty _ h

/-- A destination holding an enemy piece is a target of every filter but
`Passive`. -/
theorem Board.target_of_enemy {b : Board} (hc : b.Consistent) {FT : FilterType} {d : Nat}
    (hFT : FT ≠ .Passive)
    (h : (b.pieces b.currentPlayerAlliance.flip .NullPT).testBit d = true) :
    b.Target FT d := by
  cases FT
  · exact h
  · exact absurd rfl hFT
  · exact hc.union_disjoint h

/-- A square of the partial filter of `makeMoves<A, FT>` is a target. -/
theorem Board.target_of_filter {b : Board} (hc : b.Consistent) {FT : FilterType} {d : Nat}
    (h : (if FT = .All then not64 (b.getPiecesOf b.currentPlayerAlliance)
      else if FT = .Passive then not64 b.getAllPieces
      else b.getPiecesOf b.currentPlayerAlliance.flip).testBit d = true) :
    b.Target FT d := by
  unfold Board.getPiecesOf Board.getAllPieces at h
  cases FT
  · simpa using h
  · simp only [reduceCtorEq, if_false, if_true] at h
    exact ((testBit_not64_iff hc.all_lt).mp h).2
  · simp only [if_true] at h
    exact ((testBit_not64_iff (hc.range _ _)).mp h).2

/-- The moves of a loop over the pieces of a kind and their targets are
written moves. -/
theorem Board.pieceLoop_written (W : Magics) (b : Board) (FT : FilterType)
    (PT : PieceType) (hPT : PT ≠ .NullPT) (hK : PT ≠ .King)
    (hchk : calculateCheck (attacksOn W b.currentPlayerAlliance .King b
      (bitScanFwd (b.getPieces b.currentPlayerAlliance .King))) ≠ .DoubleCheck)
    (origins : Nat) (ho64 : origins < 2 ^ 64)
    (horig : ∀ o, origins.testBit o = true →
      (b.pieces b.currentPlayerAlliance PT).testBit o = true)
    (targets : Nat → Nat) (ht64 : ∀ o, targets o < 2 ^ 64)
    (ht : ∀ o d, (targets o).testBit d = true → b.Target FT d)
    (m : Move)
    (hm : m ∈ forBits origins (fun _ origin =>
      forBits (targets origin) (fun _ d => [Move.makePlain origin d]))) :
    b.Written W FT m := by
  obtain ⟨_, o, hbo, ho, hm1⟩ := mem_forBits _ m origins ho64 hm
  obtain ⟨_, d, hbd, hd, hm2⟩ := mem_forBits _ m (targets o) (ht64 o) hm1
  rw [List.mem_singleton] at hm2
  subst hm2
  exact Board.Written.plain PT o d hPT ho hd (horig o hbo) (ht o d hbd)
    (fun h => absurd h hK) (fun _ => hchk)

/-- The moves written by `makeMoves<A, PT>` are written moves, when the filter
admits targets only. -/
theorem makeMovesOf_written (L : Lines) (W : Magics) (b : Board) (hc : b.Consistent)
    (FT : FilterType) (PT : PieceType) (hPT : PT ≠ .NullPT) (hK : PT ≠ .King)
    (hchk : calculateCheck (attacksOn W b.currentPlayerAlliance .King b
      (bitScanFwd (b.getPieces b.currentPlayerAlliance .King))) ≠ .DoubleCheck)
    (kingGuard filter kingSquare : Nat)
    (hf : filter < 2 ^ 64)
    (hfilter : ∀ d, filter.testBit d = true → b.Target FT d)
    (m : Move)
    (hm : m ∈ makeMovesOf L W b.currentPlayerAlliance PT b kingGuard filter kingSquare) :
    b.Written W FT m := by
  have hfree : ∀ m, m ∈ forBits (b.getPieces b.currentPlayerAlliance PT &&& not64 kingGuard)
      (fun _ origin => forBits (attackBoard W PT b.getAllPieces origin &&& filter)
        (fun _ d => [Move.makePlain origin d])) → b.Written W FT m := by
    intro m hm
    refine b.pieceLoop_written W FT PT hPT hK hchk _ (and_lt_left (hc.range _ _)) ?_
      (fun origin => attackBoard W PT b.getAllPieces origin &&& filter)
      (fun _ => and_lt_right hf) ?_ m hm
    · intro o h
      rw [Nat.testBit_and] at h
      exact (Bool.and_eq_true _ _ |>.mp h).1
    · intro o d h
      rw [Nat.testBit_and] at h
      exact hfilter d (Bool.and_eq_true _ _ |>.mp h).2
  have hpinned : ∀ m, m ∈ forBits (b.getPieces b.currentPlayerAlliance PT &&& kingGuard)
      (fun _ origin => forBits
        (attackBoard W PT b.getAllPieces origin &&& filter &&& L.rayBoard kingSquare origin)
        (fun _ d => [Move.makePlain origin d])) → b.Written W FT m := by
    intro m hm
    refine b.pieceLoop_written W FT PT hPT hK hchk _ (and_lt_left (hc.range _ _)) ?_
      (fun origin =>
        attackBoard W PT b.getAllPieces origin &&& filter &&& L.rayBoard kingSquare origin)
      (fun _ => and_lt_left (and_lt_right hf)) ?_ m hm
    · intro o h
      rw [Nat.testBit_and] at h
      exact (Bool.and_eq_true _ _ |>.mp h).1
    · intro o d h
      rw [Nat.testBit_and, Nat.testBit_and] at h
      exact hfilter d (Bool.and_eq_true _ _ |>.mp (Bool.and_eq_true _ _ |>.mp h).1).2
  unfold makeMovesOf at hm
  simp only [] at hm
  split_ifs at hm with h1 h2
  · exact hfree m hm
  · rcases List.mem_append.mp hm with h | h
    · exact hfree m h
    · exact hpinned m h
  · rcases List.mem_append.mp hm with h | h
    · exact hfree m h
    · exact absurd h (List.not_mem_nil m)

/-- The moves of a loop over pawn targets are written moves, when every
target is a target of the filter with an own pawn on the origin computed from
it, and the loop writes a plain move or the promotions. -/
theorem Board.pawnLoop_written (W : Magics) (b : Board) (hc : b.Consistent) (FT : FilterType)
    (hchk : calculateCheck (attacksOn W b.currentPlayerAlliance .King b
      (bitScanFwd (b.getPieces b.currentPlayerAlliance .King))) ≠ .DoubleCheck)
    (targets : Nat) (ht64 : targets < 2 ^ 64) (org : Nat → Int)
    (ht : ∀ d, targets.testBit d = true →
      b.Target FT d ∧ 0 ≤ org d ∧
      (b.pieces b.currentPlayerAlliance .Pawn).testBit (org d).toNat = true)
    (body : Nat → Nat → List Move) (m : Move)
    (hbody : ∀ y d, m ∈ body y d →
      m = Move.makePlain (toUInt32 (org d)) d ∨ m = Move.make .PawnJump (toUInt32 (org d)) d ∨
      m ∈ makePromotions (toUInt32 (org d)) d)
    (hjump : ∀ y d, m ∈ body y d → m = Move.make .PawnJump (toUInt32 (org d)) d →
      targets.testBit d = true → FT ≠ .Aggressive ∧ b.allPieces.testBit d = false)
    (hm : m ∈ forBits targets body) : b.Written W FT m := by
  obtain ⟨y, d, hbd, hd, hm1⟩ := mem_forBits body m targets ht64 hm
  obtain ⟨htg, h0, hp⟩ := ht d hbd
  have ho : (org d).toNat < 64 := lt_of_testBit (hc.range _ _) hp
  have hu : toUInt32 (org d) = (org d).toNat := toUInt32_of_nat _ h0 (by omega)
  rcases hbody y d hm1 with h | h | h
  · rw [h, hu]
    exact Board.Written.plain .Pawn _ d (by decide) ho hd hp htg
      (fun h => absurd h (by decide)) (fun _ => hchk)
  · obtain ⟨hFT, hempty⟩ := hjump y d hm1 h hbd
    rw [h, hu]
    exact Board.Written.jump _ d ho hd hp hFT hempty hchk
  · rw [hu] at h
    exact Board.Written.promotion _ d m ho hd hp htg hchk h

/-- The moves of a loop over single-push targets are written moves. -/
theorem Board.pushLoop_written (W : Magics) (b : Board) (hc : b.Consistent) (FT : FilterType)
    (hFT : FT ≠ .Aggressive)
    (hchk : calculateCheck (attacksOn W b.currentPlayerAlliance .King b
      (bitScanFwd (b.getPieces b.currentPlayerAlliance .King))) ≠ .DoubleCheck)
    (src : Nat) (hsrc : src < 2 ^ 64)
    (hsub : ∀ i, src.testBit i = true →
      (b.pieces b.currentPlayerAlliance .Pawn).testBit i = true)
    (cp : Nat) (body : Nat → Nat → List Move) (m : Move)
    (hbody : ∀ y d, m ∈ body y d →
      m = Move.makePlain (toUInt32 ((d : Int) + (defaults b.currentPlayerAlliance).down)) d ∨
      m = Move.make .PawnJump
        (toUInt32 ((d : Int) + (defaults b.currentPlayerAlliance).down)) d ∨
      m ∈ makePromotions (toUInt32 ((d : Int) + (defaults b.currentPlayerAlliance).down)) d)
    (hm : m ∈ forBits
      (shift (defaults b.currentPlayerAlliance).up src &&& not64 b.allPieces &&& cp) body) :
    b.Written W FT m := by
  have hdn := (defaults_directions b.currentPlayerAlliance).1
  have hempty : ∀ d, (shift (defaults b.currentPlayerAlliance).up src &&& not64 b.allPieces &&&
      cp).testBit d = true → b.allPieces.testBit d = false := by
    intro d hd
    rw [Nat.testBit_and, Nat.testBit_and, Bool.and_eq_true, Bool.and_eq_true] at hd
    exact ((testBit_not64_iff hc.all_lt).mp hd.1.2).2
  refine b.pawnLoop_written W hc FT hchk _ (and_lt_left (and_lt_right (not64_lt hc.all_lt)))
    (fun d => (d : Int) + (defaults b.currentPlayerAlliance).down) ?_ body m hbody
    (fun y d _ _ hb => ⟨hFT, hempty d hb⟩) hm
  intro d hd
  have he := hempty d hd
  rw [Nat.testBit_and, Bool.and_eq_true] at hd
  obtain ⟨_, h2, h3⟩ := b.pushTarget_spec hc b.currentPlayerAlliance src hsrc _ d hd.1
  have e : (d : Int) + (defaults b.currentPlayerAlliance).down =
      (d : Int) - (defaults b.currentPlayerAlliance).up := by rw [hdn]; ring
  simp only [e]
  exact ⟨Board.target_of_empty hc hFT he, h2, hsub _ h3⟩

/-- The moves of a loop over double-push targets are written moves. -/
theorem Board.jumpLoop_written (W : Magics) (b : Board) (hc : b.Consistent) (FT : FilterType)
    (hFT : FT ≠ .Aggressive)
    (hchk : calculateCheck (attacksOn W b.currentPlayerAlliance .King b
      (bitScanFwd (b.getPieces b.currentPlayerAlliance .King))) ≠ .DoubleCheck)
    (src : Nat) (hsrc : src < 2 ^ 64)
    (hsub : ∀ i, src.testBit i = true →
      (b.pieces b.currentPlayerAlliance .Pawn).testBit i = true)
    (cp : Nat) (body : Nat → Nat → List Move) (m : Move)
    (hbody : ∀ y d, m ∈ body y d →
      m = Move.makePlain (toUInt32 ((d : Int) + (defaults b.currentPlayerAlliance).down +
        (defaults b.currentPlayerAlliance).down)) d ∨
      m = Move.make .PawnJump (toUInt32 ((d : Int) + (defaults b.currentPlayerAlliance).down +
        (defaults b.currentPlayerAlliance).down)) d ∨
      m ∈ makePromotions (toUInt32 ((d : Int) + (defaults b.currentPlayerAlliance).down +
        (defaults b.currentPlayerAlliance).down)) d)
    (hm : m ∈ forBits
      (shift (defaults b.currentPlayerAlliance).up
        (shift (defaults b.currentPlayerAlliance).up src &&& not64 b.allPieces &&&
          (defaults b.currentPlayerAlliance).pawnJumpSquares) &&&
        not64 b.allPieces &&& cp) body) :
    b.Written W FT m := by
  have hdn := (defaults_directions b.currentPlayerAlliance).1
  have hempty : ∀ d, (shift (defaults b.currentPlayerAlliance).up
        (shift (defaults b.currentPlayerAlliance).up src &&& not64 b.allPieces &&&
          (defaults b.currentPlayerAlliance).pawnJumpSquares) &&&
        not64 b.allPieces &&& cp).testBit d = true → b.allPieces.testBit d = false := by
    intro d hd
    rw [Nat.testBit_and, Nat.testBit_and, Bool.and_eq_true, Bool.and_eq_true] at hd
    exact ((testBit_not64_iff hc.all_lt).mp hd.1.2).2
  refine b.pawnLoop_written W hc FT hchk _ (and_lt_left (and_lt_right (not64_lt hc.all_lt)))
    (fun d => (d : Int) + (defaults b.currentPlayerAlliance).down +
      (defaults b.currentPlayerAlliance).down) ?_ body m hbody
    (fun y d _ _ hb => ⟨hFT, hempty d hb⟩) hm
  intro d hd
  have he := hempty d hd
  rw [Nat.testBit_and, Bool.and_eq_true] at hd
  obtain ⟨_, h2, h3⟩ := b.pushTarget_spec hc b.currentPlayerAlliance _
    (and_lt_left (and_lt_right (not64_lt hc.all_lt))) _ d hd.1
  rw [Nat.testBit_and, Bool.and_eq_true] at h3
  obtain ⟨_, h5, h6⟩ := b.pushTarget_spec hc b.currentPlayerAlliance src hsrc _ _ h3.1
  have e : ((d : Int) + (defaults b.currentPlayerAlliance).down +
      (defaults b.currentPlayerAlliance).down).toNat =
      ((((d : Int) - (defaults b.currentPlayerAlliance).up).toNat : Int) -
        (defaults b.currentPlayerAlliance).up).toNat := by
    rw [hdn]; omega
  simp only [e]
  refine ⟨Board.target_of_empty hc hFT he, ?_, hsub _ h6⟩
  rw [hdn]; omega

/-- The moves of a loop over capture targets are written moves. -/
theorem Board.captureLoop_written (W : Magics) (b : Board) (hc : b.Consistent)
    (FT : FilterType) (hFT : FT ≠ .Passive)
    (hchk : calculateCheck (attacksOn W b.currentPlayerAlliance .King b
      (bitScanFwd (b.getPieces b.currentPlayerAlliance .King))) ≠ .DoubleCheck)
    (src : Nat) (hsrc : src < 2 ^ 64)
    (hsub : ∀ i, src.testBit i = true →
      (b.pieces b.currentPlayerAlliance .Pawn).testBit i = true)
    (dir back : Int) (hback : back = -dir)
    (col cp : Nat) (body : Nat → Nat → List Move) (m : Move)
    (hbody : ∀ y d, m ∈ body y d →
      m = Move.makePlain (toUInt32 ((d : Int) + back)) d ∨
      m ∈ makePromotions (toUInt32 ((d : Int) + back)) d)
    (hm : m ∈ forBits
      (shift dir (src &&& col) &&& (b.pieces b.currentPlayerAlliance.flip .NullPT &&& cp))
      body) :
    b.Written W FT m := by
  refine b.pawnLoop_written W hc FT hchk _ (and_lt_right (and_lt_left (hc.range _ _)))
    (fun d => (d : Int) + back) ?_ body m
    (fun y d h => (hbody y d h).elim Or.inl (fun h => Or.inr (Or.inr h))) ?_ hm
  · intro d hd
    obtain ⟨_, h2, h3⟩ := b.captureTarget_spec hc b.currentPlayerAlliance (src &&& col)
      (and_lt_left hsrc) dir cp d hd
    rw [Nat.testBit_and, Nat.testBit_and, Bool.and_eq_true, Bool.and_eq_true] at hd
    rw [Nat.testBit_and, Bool.and_eq_true] at h3
    have e : (d : Int) + back = (d : Int) - dir := by rw [hback]; ring
    simp only [e]
    exact ⟨Board.target_of_enemy hc hFT hd.2.1, h2, hsub _ h3.1⟩
  · intro y d hmem hj hb
    exfalso
    obtain ⟨_, h2, h3⟩ := b.captureTarget_spec hc b.currentPlayerAlliance (src &&& col)
      (and_lt_left hsrc) dir cp d hb
    rw [Nat.testBit_and, Bool.and_eq_true] at h3
    have hp := hsub _ h3.1
    have ho : ((d : Int) - dir).toNat < 64 := lt_of_testBit (hc.range _ _) hp
    have hd64 : d < 64 := by
      have := lt_of_testBit (and_lt_right (and_lt_left (hc.range b.currentPlayerAlliance.flip
        .NullPT))) hb
      exact this
    have e : (d : Int) + back = (d : Int) - dir := by rw [hback]; ring
    have hu : toUInt32 ((d : Int) + back) = ((d : Int) - dir).toNat := by
      rw [e]; exact toUInt32_of_nat _ h2 (by omega)
    rw [hu] at hj
    rcases hbody y d hmem with h | h
    · rw [hu] at h
      have t1 := (Move.make_fields .PawnJump _ d ho hd64).2.2.1
      have t2 := (Move.makePlain_fields _ d ho hd64).2.2.1
      rw [← hj, h, t2] at t1
      exact absurd t1 (by decide)
    · rw [hu] at h
      have t1 := (Move.make_fields .PawnJump _ d ho hd64).2.2.2
      rw [← hj] at t1
      unfold makePromotions at h
      simp only [List.mem_cons, List.mem_singleton, List.not_mem_nil, or_false] at h
      rcases h with h | h | h | h
      · have t2 := (Move.makePromotion_fields .Rook _ d ho hd64 (Or.inl rfl)).2.2.1
        rw [← h, t1] at t2; exact Bool.noConfusion t2
      · have t2 := (Move.makePromotion_fields .Knight _ d ho hd64 (Or.inr (Or.inl rfl))).2.2.1
        rw [← h, t1] at t2; exact Bool.noConfusion t2
      · have t2 := (Move.makePromotion_fields .Bishop _ d ho hd64
          (Or.inr (Or.inr (Or.inl rfl)))).2.2.1
        rw [← h, t1] at t2; exact Bool.noConfusion t2
      · have t2 := (Move.makePromotion_fields .Queen _ d ho hd64
          (Or.inr (Or.inr (Or.inr rfl)))).2.2.1
        rw [← h, t1] at t2; exact Bool.noConfusion t2

/-- The moves written by the en-passant part of `makePawnMoves` are written
moves, when the state fits the board. -/
theorem makeEnPassantMoves_written (L : Lines) (W : Magics) (b : Board) (_ : b.Consistent)
    (hs : b.StateFits) (FT : FilterType) (hFT : FT ≠ .Passive)
    (hchk : calculateCheck (attacksOn W b.currentPlayerAlliance .King b
      (bitScanFwd (b.getPieces b.currentPlayerAlliance .King))) ≠ .DoubleCheck)
    (checkPath kingSquare freeLowPawns pinnedLowPawns : Nat)
    (hf64 : freeLowPawns < 2 ^ 64) (hp64 : pinnedLowPawns < 2 ^ 64)
    (hfree : ∀ i, freeLowPawns.testBit i = true →
      (b.pieces b.currentPlayerAlliance .Pawn).testBit i = true)
    (hpinned : ∀ i, pinnedLowPawns.testBit i = true →
      (b.pieces b.currentPlayerAlliance .Pawn).testBit i = true)
    (m : Move)
    (hm : m ∈ makeEnPassantMoves L W b.currentPlayerAlliance b checkPath kingSquare
      freeLowPawns pinnedLowPawns) : b.Written W FT m := by
  unfold makeEnPassantMoves at hm
  simp only [Board.getEpSquare] at hm
  have hne : b.currentState.epSquare ≠ NullSQ := by
    intro hh
    rw [if_pos hh] at hm
    exact absurd hm (List.not_mem_nil m)
  have hm := mem_of_mem_ite_else hm
  have hm := mem_of_mem_ite_else hm
  have hm := mem_of_mem_ite_else hm
  have hm := mem_of_mem_ite_else hm
  have key : ∀ passers : Nat, passers < 2 ^ 64 →
      (∀ i, passers.testBit i = true →
        (b.pieces b.currentPlayerAlliance .Pawn).testBit i = true) →
      ∀ body : Nat → Nat → List Move,
      (∀ y o, m ∈ body y o → m = Move.make .EnPassant o
        (toUInt32 ((b.currentState.epSquare : Int) + (defaults b.currentPlayerAlliance).up))) →
      m ∈ forBits
        ((shift (defaults b.currentPlayerAlliance).right
            (SquareToBitBoard b.currentState.epSquare &&&
              (defaults b.currentPlayerAlliance).notRightCol) |||
          shift (defaults b.currentPlayerAlliance).left
            (SquareToBitBoard b.currentState.epSquare &&&
              (defaults b.currentPlayerAlliance).notLeftCol)) &&& passers) body →
      b.Written W FT m := by
    intro passers hp64 hsub body hbody hmem
    obtain ⟨y, o, hbo, ho, hm1⟩ := mem_forBits body m _ (and_lt_right hp64) hmem
    rw [Nat.testBit_and, Bool.and_eq_true] at hbo
    have hpawn := hsub o hbo.2
    rcases hs.enPassant with h | h | h
    · exact absurd h hne
    · have h1 : ((shift (defaults b.currentPlayerAlliance).right
            (SquareToBitBoard b.currentState.epSquare &&&
              (defaults b.currentPlayerAlliance).notRightCol) |||
          shift (defaults b.currentPlayerAlliance).left
            (SquareToBitBoard b.currentState.epSquare &&&
              (defaults b.currentPlayerAlliance).notLeftCol)) &&&
          b.pieces b.currentPlayerAlliance .Pawn).testBit o = true := by
        rw [Nat.testBit_and, hbo.1, hpawn]; rfl
      rw [h] at h1
      simp at h1
    · obtain ⟨hep, htheir, h0, h64, hempty⟩ := h
      have hu := toUInt32_of_nat _ h0 h64
      rw [hbody y o hm1, hu]
      exact Board.Written.enPassant o _ ho (by omega) hpawn hFT hempty hchk
  rcases List.mem_append.mp hm with h | h
  · exact key freeLowPawns hf64 hfree _ (fun y o h => List.mem_singleton.mp h) h
  · exact key pinnedLowPawns hp64 hpinned _
      (fun y o h => List.mem_singleton.mp (mem_of_mem_ite h)) h

/-- The moves written by `makePawnMoves<A, FT>` are written moves, when the
state fits the board. -/
theorem makePawnMoves_written (L : Lines) (W : Magics) (b : Board) (hc : b.Consistent)
    (hs : b.StateFits) (FT : FilterType)
    (hchk : calculateCheck (attacksOn W b.currentPlayerAlliance .King b
      (bitScanFwd (b.getPieces b.currentPlayerAlliance .King))) ≠ .DoubleCheck)
    (checkPath kingGuard kingSquare : Nat) (m : Move)
    (hm : m ∈ makePawnMoves L W b.currentPlayerAlliance FT b checkPath kingGuard kingSquare) :
    b.Written W FT m := by
  obtain ⟨_, hdl, hdr⟩ := defaults_directions b.currentPlayerAlliance
  have hP := hc.range b.currentPlayerAlliance .Pawn
  have s1 : ∀ (g pm : Nat) (i : Nat),
      (b.pieces b.currentPlayerAlliance .Pawn &&& g &&& pm).testBit i = true →
      (b.pieces b.currentPlayerAlliance .Pawn).testBit i = true := by
    intro g pm i h
    rw [Nat.testBit_and, Nat.testBit_and, Bool.and_eq_true, Bool.and_eq_true] at h
    exact h.1.1
  have b1 : ∀ (g pm : Nat), b.pieces b.currentPlayerAlliance .Pawn &&& g &&& pm < 2 ^ 64 :=
    fun g pm => and_lt_left (and_lt_left hP)
  unfold makePawnMoves at hm
  simp only [List.mem_append, Board.getPiecesOf, Board.getAllPieces, Board.getPieces] at hm
  rcases hm with ((((h | h) | h) | h) | h) | h
  · -- pushes of free low pawns
    obtain ⟨hFT, h⟩ := mem_ite_guard h
    rcases List.mem_append.mp h with h | h
    · exact b.pushLoop_written W hc FT hFT hchk _ (b1 _ _) (s1 _ _) _ _ m
        (fun y d h => Or.inl (List.mem_singleton.mp h)) h
    · exact b.jumpLoop_written W hc FT hFT hchk _ (b1 _ _) (s1 _ _) _ _ m
        (fun y d h => Or.inr (Or.inl (List.mem_singleton.mp h))) h
  · -- captures of free low pawns
    obtain ⟨hFT, h⟩ := mem_ite_guard h
    rcases List.mem_append.mp h with h | h
    · exact b.captureLoop_written W hc FT hFT hchk _ (b1 _ _) (s1 _ _) _ _ hdl _ _ _ m
        (fun y d h => Or.inl (List.mem_singleton.mp h)) h
    · exact b.captureLoop_written W hc FT hFT hchk _ (b1 _ _) (s1 _ _) _ _ hdr _ _ _ m
        (fun y d h => Or.inl (List.mem_singleton.mp h)) h
  · -- pinned low pawns
    rcases List.mem_append.mp (mem_of_mem_ite h) with h | h
    · obtain ⟨hFT, h⟩ := mem_ite_guard h
      rcases List.mem_append.mp h with h | h
      · exact b.pushLoop_written W hc FT hFT hchk _ (b1 _ _) (s1 _ _) _ _ m
          (fun y d h => Or.inl (List.mem_singleton.mp (mem_of_mem_ite h))) h
      · exact b.jumpLoop_written W hc FT hFT hchk _ (b1 _ _) (s1 _ _) _ _ m
          (fun y d h => Or.inr (Or.inl (List.mem_singleton.mp (mem_of_mem_ite h)))) h
    · obtain ⟨hFT, h⟩ := mem_ite_guard h
      rcases List.mem_append.mp h with h | h
      · exact b.captureLoop_written W hc FT hFT hchk _ (b1 _ _) (s1 _ _) _ _ hdl _ _ _ m
          (fun y d h => Or.inl (List.mem_singleton.mp (mem_of_mem_ite h))) h
      · exact b.captureLoop_written W hc FT hFT hchk _ (b1 _ _) (s1 _ _) _ _ hdr _ _ _ m
          (fun y d h => Or.inl (List.mem_singleton.mp (mem_of_mem_ite h))) h
  · -- promotions of free high pawns
    rcases List.mem_append.mp (mem_of_mem_ite h) with h | h
    · obtain ⟨hFT, h⟩ := mem_ite_guard h
      exact b.pushLoop_written W hc FT hFT hchk _ (b1 _ _) (s1 _ _) _ _ m
        (fun y d h => Or.inr (Or.inr h)) h
    · obtain ⟨hFT, h⟩ := mem_ite_guard h
      rcases List.mem_append.mp h with h | h
      · exact b.captureLoop_written W hc FT hFT hchk _ (b1 _ _) (s1 _ _) _ _ hdl _ _ _ m
          (fun y d h => Or.inr h) h
      · exact b.captureLoop_written W hc FT hFT hchk _ (b1 _ _) (s1 _ _) _ _ hdr _ _ _ m
          (fun y d h => Or.inr h) h
  · -- promotions of pinned high pawns
    rcases List.mem_append.mp (mem_of_mem_ite h) with h | h
    · obtain ⟨hFT, h⟩ := mem_ite_guard h
      exact b.pushLoop_written W hc FT hFT hchk _ (b1 _ _) (s1 _ _) _ _ m
        (fun y d h => Or.inr (Or.inr (mem_of_mem_ite h))) h
    · obtain ⟨hFT, h⟩ := mem_ite_guard h
      rcases List.mem_append.mp h with h | h
      · exact b.captureLoop_written W hc FT hFT hchk _ (b1 _ _) (s1 _ _) _ _ hdl _ _ _ m
          (fun y d h => Or.inr (mem_of_mem_ite h)) h
      · exact b.captureLoop_written W hc FT hFT hchk _ (b1 _ _) (s1 _ _) _ _ hdr _ _ _ m
          (fun y d h => Or.inr (mem_of_mem_ite h)) h
  · -- en passant
    obtain ⟨hFT, h⟩ := mem_ite_guard_else h
    exact makeEnPassantMoves_written L W b hc hs FT hFT hchk _ _ _ _ (b1 _ _) (b1 _ _)
      (s1 _ _) (s1 _ _) m h

/-- The moves written by `makeMoves<A, FT>` are written moves, on a consistent
board whose state fits it. -/
theorem makeMoves_written (L : Lines) (W : Magics) (b : Board) (hc : b.Consistent)
    (hs : b.StateFits) (FT : FilterType) (m : Move)
    (hm : m ∈ makeMoves L W b.currentPlayerAlliance FT b) : b.Written W FT m := by
  obtain ⟨hpf64, -⟩ := b.partialFilter_spec hc FT
  have hK := hc.range b.currentPlayerAlliance .King
  obtain ⟨hking, hksq⟩ := testBit_bitScanFwd hs.king hK
  have hfull : ∀ cp d, ((if FT = .All then not64 (b.getPiecesOf b.currentPlayerAlliance)
      else if FT = .Passive then not64 b.getAllPieces
      else b.getPiecesOf b.currentPlayerAlliance.flip) &&& cp).testBit d = true →
      b.Target FT d := by
    intro cp d h
    rw [Nat.testBit_and, Bool.and_eq_true] at h
    exact Board.target_of_filter hc h.1
  have hkingMoves : m ∈ forBits
      (SquareToKingAttacks (bitScanFwd (b.getPieces b.currentPlayerAlliance .King)) &&&
        (if FT = .All then not64 (b.getPiecesOf b.currentPlayerAlliance)
          else if FT = .Passive then not64 b.getAllPieces
          else b.getPiecesOf b.currentPlayerAlliance.flip))
      (fun _ dest =>
        if attacksOn W b.currentPlayerAlliance .King b dest = 0 then
          [Move.makePlain (bitScanFwd (b.getPieces b.currentPlayerAlliance .King)) dest]
        else []) → b.Written W FT m := by
    intro h
    obtain ⟨_, d, hbd, hd, hm1⟩ := mem_forBits _ m _ (and_lt_right hpf64) h
    rw [Nat.testBit_and, Bool.and_eq_true] at hbd
    obtain ⟨hsafe, hm2⟩ := mem_ite_guard hm1
    rw [List.mem_singleton.mp hm2]
    exact Board.Written.plain .King _ d (by decide) hksq hd hking
      (Board.target_of_filter hc hbd.2) (fun _ => ⟨rfl, hsafe⟩) (fun h => absurd rfl h)
  have hnk : ∀ (kg cp ksq : Nat),
      m ∈ (if calculateCheck (attacksOn W b.currentPlayerAlliance .King b
            (bitScanFwd (b.getPieces b.currentPlayerAlliance .King))) ≠ .DoubleCheck then
          makeMovesOf L W b.currentPlayerAlliance .Queen b kg
              ((if FT = .All then not64 (b.getPiecesOf b.currentPlayerAlliance)
                else if FT = .Passive then not64 b.getAllPieces
                else b.getPiecesOf b.currentPlayerAlliance.flip) &&& cp) ksq ++
            makeMovesOf L W b.currentPlayerAlliance .Knight b kg
              ((if FT = .All then not64 (b.getPiecesOf b.currentPlayerAlliance)
                else if FT = .Passive then not64 b.getAllPieces
                else b.getPiecesOf b.currentPlayerAlliance.flip) &&& cp) ksq ++
            makeMovesOf L W b.currentPlayerAlliance .Bishop b kg
              ((if FT = .All then not64 (b.getPiecesOf b.currentPlayerAlliance)
                else if FT = .Passive then not64 b.getAllPieces
                else b.getPiecesOf b.currentPlayerAlliance.flip) &&& cp) ksq ++
            makeMovesOf L W b.currentPlayerAlliance .Rook b kg
              ((if FT = .All then not64 (b.getPiecesOf b.currentPlayerAlliance)
                else if FT = .Passive then not64 b.getAllPieces
                else b.getPiecesOf b.currentPlayerAlliance.flip) &&& cp) ksq ++
            makePawnMoves L W b.currentPlayerAlliance FT b cp kg ksq
        else []) → b.Written W FT m := by
    intro kg cp ksq h
    obtain ⟨hchk, h⟩ := mem_ite_guard h
    simp only [List.mem_append] at h
    rcases h with (((h | h) | h) | h) | h
    · exact makeMovesOf_written L W b hc FT _ (by decide) (by decide) hchk _ _ _
        (and_lt_left hpf64) (hfull _) m h
    · exact makeMovesOf_written L W b hc FT _ (by decide) (by decide) hchk _ _ _
        (and_lt_left hpf64) (hfull _) m h
    · exact makeMovesOf_written L W b hc FT _ (by decide) (by decide) hchk _ _ _
        (and_lt_left hpf64) (hfull _) m h
    · exact makeMovesOf_written L W b hc FT _ (by decide) (by decide) hchk _ _ _
        (and_lt_left hpf64) (hfull _) m h
    · exact makePawnMoves_written L W b hc hs FT hchk _ _ _ m h
  unfold makeMoves at hm
  simp only [] at hm
  by_cases hcond : FT = .Aggressive ∨
      calculateCheck (attacksOn W b.currentPlayerAlliance .King b
        (bitScanFwd (b.getPieces b.currentPlayerAlliance .King))) ≠ .None
  · rw [if_pos hcond] at hm
    rcases List.mem_append.mp hm with h | h
    · exact hnk _ _ _ h
    · exact hkingMoves h
  · rw [if_neg hcond] at hm
    have hFT : FT ≠ .Aggressive := fun h => hcond (Or.inl h)
    have hnone : attacksOn W b.currentPlayerAlliance .King b
        (bitScanFwd (b.getPieces b.currentPlayerAlliance .King)) = 0 := by
      by_contra h0
      apply hcond
      right
      unfold calculateCheck
      rw [if_neg h0]
      split_ifs <;> simp
    rcases List.mem_append.mp hm with h | h
    · rcases List.mem_append.mp h with h | h
      · rcases List.mem_append.mp h with h | h
        · exact hnk _ _ _ h
        · exact hkingMoves h
      · obtain ⟨⟨hmask, hright, hsafe⟩, he⟩ := eq_of_mem_ite_singleton h
        rw [he]
        exact Board.Written.castling _ hFT hnone (Or.inl ⟨rfl, hmask, hright, hsafe⟩)
    · obtain ⟨⟨hmask, hright, hsafe⟩, he⟩ := eq_of_mem_ite_singleton h
      rw [he]
      exact Board.Written.castling _ hFT hnone (Or.inr ⟨rfl, hmask, hright, hsafe⟩)

/-- The moves written by `generateMoves<FT>` are written moves, on a
consistent board whose state fits it. -/
theorem generateMoves_written (L : Lines) (W : Magics) (b : Board) (hc : b.Consistent)
    (hs : b.StateFits) (FT : FilterType) (m : Move)
    (hm : m ∈ generateMoves L W FT b) : b.Written W FT m := by
  unfold generateMoves Board.currentPlayer at hm
  have key : ∀ A, b.currentPlayerAlliance = A → m ∈ makeMoves L W A FT b →
      b.Written W FT m := by
    intro A hA h
    subst hA
    exact makeMoves_written L W b hc hs FT m h
  cases hA : b.currentPlayerAlliance
  · rw [hA] at hm; exact key _ hA hm
  · rw [hA] at hm; exact key _ hA hm

/-- The public `generateMoves<FT>` runs the generator of the side to move. -/
theorem generateMoves_eq (L : Lines) (W : Magics) (FT : FilterType) (b : Board) :
    generateMoves L W FT b = makeMoves L W b.currentPlayerAlliance FT b := by
  unfold generateMoves Board.currentPlayer
  cases b.currentPlayerAlliance <;> rfl

/-- The scan finds the lowest set bit: the bits below it are clear. -/
theorem bitScanFwdAux_low : ∀ (n l i : Nat), l ≠ 0 → l < 2 ^ n →
    ∀ k, i + k < bitScanFwdAux n l i → l.testBit k = false
  | 0, l, i, h0, hl => by
    have : l = 0 := by simpa using hl
    exact absurd this h0
  | n + 1, l, i, h0, hl => by
    intro k hk
    unfold bitScanFwdAux at hk
    by_cases h1 : l % 2 = 1
    · rw [if_pos h1] at hk
      omega
    · rw [if_neg h1] at hk
      have hl2 : l / 2 ≠ 0 := by omega
      have hlt : l / 2 < 2 ^ n := by
        rw [Nat.div_lt_iff_lt_mul (by decide)]
        rw [pow_succ] at hl
        exact hl
      cases k with
      | zero =>
        rw [Nat.testBit_zero]
        simp only [decide_eq_false_iff_not]
        exact h1
      | succ k =>
        rw [Nat.testBit_succ]
        exact bitScanFwdAux_low n (l / 2) (i + 1) hl2 hlt k (by omega)

/-- The bits below the scanned bit are clear. -/
theorem testBit_lt_bitScanFwd {l : Nat} (h0 : l ≠ 0) (hl : l < 2 ^ 64) {k : Nat}
    (hk : k < bitScanFwd l) : l.testBit k = false :=
  bitScanFwdAux_low 64 l 0 h0 hl k (by unfold bitScanFwd at hk; omega)

/-- The step `x &= x - 1` clears the lowest set bit and keeps the others. -/
theorem testBit_and_pred {x : Nat} (h0 : x ≠ 0) (hx : x < 2 ^ 64) (i : Nat) :
    (x &&& (x - 1)).testBit i = (x.testBit i && decide (i ≠ bitScanFwd x)) := by
  obtain ⟨hj, _⟩ := testBit_bitScanFwd h0 hx
  have hlow : ∀ k, k < bitScanFwd x → x.testBit k = false :=
    fun k hk => testBit_lt_bitScanFwd h0 hx hk
  generalize bitScanFwd x = j at hj hlow
  have hmod : x % 2 ^ (j + 1) = 2 ^ j := by
    apply Nat.eq_of_testBit_eq
    intro k
    rw [Nat.testBit_mod_two_pow, Nat.testBit_two_pow]
    by_cases h1 : k < j
    · rw [hlow k h1]
      simp
      omega
    · by_cases h2 : k = j
      · subst h2
        rw [hj]
        simp
      · have : ¬ k < j + 1 := by omega
        simp [this]
        omega
  have hx2 : x = 2 ^ (j + 1) * (x / 2 ^ (j + 1)) + 2 ^ j := by
    conv_lhs => rw [← Nat.div_add_mod x (2 ^ (j + 1)), hmod]
  have hpos : 0 < 2 ^ j := Nat.two_pow_pos j
  have hx1 : x - 1 = 2 ^ (j + 1) * (x / 2 ^ (j + 1)) + (2 ^ j - 1) := by
    omega
  have hlt1 : 2 ^ j < 2 ^ (j + 1) := Nat.pow_lt_pow_right (by decide) (by omega)
  have hlt2 : 2 ^ j - 1 < 2 ^ (j + 1) := by omega
  rw [Nat.testBit_and]
  have e1 : x.testBit i = if i < j + 1 then (2 ^ j).testBit i
      else (x / 2 ^ (j + 1)).testBit (i - (j + 1)) := by
    conv_lhs => rw [hx2]
    exact Nat.testBit_mul_pow_two_add _ hlt1 i
  have e2 : (x - 1).testBit i = if i < j + 1 then (2 ^ j - 1).testBit i
      else (x / 2 ^ (j + 1)).testBit (i - (j + 1)) := by
    rw [hx1]
    exact Nat.testBit_mul_pow_two_add _ hlt2 i
  rw [e2, e1]
  by_cases h1 : i < j + 1
  · simp only [h1, if_true, Nat.testBit_two_pow, Nat.testBit_two_pow_sub_one]
    by_cases h2 : i = j
    · subst h2; simp
    · have : ¬ j = i := fun h => h2 h.symm
      simp [this, h2]
  · have : i ≠ j := by omega
    simp [h1, this]

/-- The loop over the set bits of a board visits every set bit: the list of
the squares visited holds exactly the set bits, when the fuel covers the bits
that may be set. -/
theorem mem_forBitsAux_squares : ∀ (n x : Nat), x < 2 ^ 64 → x % 2 ^ (64 - n) = 0 → n ≤ 64 →
    ∀ d, d ∈ forBitsAux n x (fun _ d => [d]) ↔ x.testBit d = true
  | 0, x, hx, hmod, _ => by
    intro d
    have h0 : x = 0 := by
      have := Nat.mod_eq_of_lt hx
      simp only [Nat.sub_zero] at hmod
      omega
    subst h0
    simp [forBitsAux]
  | n + 1, x, hx, hmod, hn => by
    intro d
    unfold forBitsAux
    by_cases h0 : x = 0
    · subst h0
      simp
    · rw [if_neg h0]
      obtain ⟨hj, hj64⟩ := testBit_bitScanFwd h0 hx
      have hjlow : 64 - (n + 1) ≤ bitScanFwd x := by
        by_contra hlt
        have h1 : (x % 2 ^ (64 - (n + 1))).testBit (bitScanFwd x) = true := by
          rw [Nat.testBit_mod_two_pow, hj]
          simp
          omega
        rw [hmod] at h1
        simp at h1
      have hmod2 : (x &&& (x - 1)) % 2 ^ (64 - n) = 0 := by
        apply Nat.eq_of_testBit_eq
        intro k
        rw [Nat.testBit_mod_two_pow, testBit_and_pred h0 hx, Nat.zero_testBit]
        by_cases hk : k < 64 - n
        · by_cases hk2 : k = bitScanFwd x
          · simp [hk2]
          · have hk3 : k < bitScanFwd x ∨ bitScanFwd x < k := by omega
            rcases hk3 with hk3 | hk3
            · rw [testBit_lt_bitScanFwd h0 hx hk3]
              simp
            · have : (x % 2 ^ (64 - (n + 1))).testBit k = false := by
                rw [hmod]; simp
              omega
        · simp [hk]
      rw [List.mem_append, List.mem_singleton,
        mem_forBitsAux_squares n (x &&& (x - 1)) (and_lt_left hx) hmod2 (by omega) d,
        testBit_and_pred h0 hx]
      by_cases hd : d = bitScanFwd x
      · subst hd
        simp [hj]
      · simp [hd]

/-- The squares visited by `for (; x; x &= x - 1)` are the set bits of `x`. -/
theorem mem_forBits_squares {x : Nat} (hx : x < 2 ^ 64) (d : Nat) :
    d ∈ forBits x (fun _ d => [d]) ↔ x.testBit d = true :=
  mem_forBitsAux_squares 64 x hx (Nat.mod_one x) (le_refl _) d

/-- The fields of the four promotions. -/
theorem makePromotions_fields (o d : Nat) (ho : o < 64) (hd : d < 64) (m : Move)
    (hm : m ∈ makePromotions o d) :
    m.origin = o ∧ m.destination = d ∧ m.isPromotion = true := by
  unfold makePromotions at hm
  simp only [List.mem_cons, List.mem_singleton, List.not_mem_nil, or_false] at hm
  rcases hm with h | h | h | h
  · obtain ⟨h1, h2, h3, -⟩ := Move.makePromotion_fields .Rook o d ho hd (Or.inl rfl)
    rw [h]; exact ⟨h1, h2, h3⟩
  · obtain ⟨h1, h2, h3, -⟩ := Move.makePromotion_fields .Knight o d ho hd (Or.inr (Or.inl rfl))
    rw [h]; exact ⟨h1, h2, h3⟩
  · obtain ⟨h1, h2, h3, -⟩ :=
      Move.makePromotion_fields .Bishop o d ho hd (Or.inr (Or.inr (Or.inl rfl)))
    rw [h]; exact ⟨h1, h2, h3⟩
  · obtain ⟨h1, h2, h3, -⟩ :=
      Move.makePromotion_fields .Queen o d ho hd (Or.inr (Or.inr (Or.inr rfl)))
    rw [h]; exact ⟨h1, h2, h3⟩

/-- The king square of a board whose side to move has a king. -/
theorem Board.kingSquare_lt {b : Board} (hc : b.Consistent) (hs : b.StateFits) :
    bitScanFwd (b.getPieces b.currentPlayerAlliance .King) < 64 :=
  (testBit_bitScanFwd hs.king (hc.range b.currentPlayerAlliance .King)).2

/-- A move written under the filter `Aggressive` is a capture: an enemy piece
stands on its destination, or it reads as an en-passant capture. -/
theorem Board.Written.aggressive {W : Magics} {b : Board} {m : Move}
    (h : b.Written W .Aggressive m) :
    (b.pieces b.currentPlayerAlliance.flip .NullPT).testBit m.destination = true ∨
      m.isEnPassant := by
  cases h with
  | plain PT o d hPT ho hd hown ht hking hchk =>
    rw [(Move.makePlain_fields o d ho hd).2.1]
    exact Or.inl ht
  | promotion o d _ ho hd hown ht hchk hm =>
    rw [(makePromotions_fields o d ho hd m hm).2.1]
    exact Or.inl ht
  | jump o d ho hd hown hFT hempty hchk => exact absurd rfl hFT
  | enPassant o d ho hd hown hFT hempty hchk =>
    obtain ⟨-, -, f3, f4⟩ := Move.make_fields .EnPassant o d ho hd
    exact Or.inr ⟨f4, f3⟩
  | castling d hFT hchk hside => exact absurd rfl hFT

/-- A move written under the filter `Passive` is no capture: its destination
is empty and it does not read as an en-passant capture. -/
theorem Board.Written.passive {W : Magics} {b : Board} {m : Move}
    (h : b.Written W .Passive m) (hc : b.Consistent) (hs : b.StateFits) :
    b.allPieces.testBit m.destination = false ∧ ¬ m.isEnPassant := by
  cases h with
  | plain PT o d hPT ho hd hown ht hking hchk =>
    obtain ⟨-, f2, f3, -⟩ := Move.makePlain_fields o d ho hd
    rw [f2]
    refine ⟨ht, fun h => ?_⟩
    rw [h.2] at f3
    exact absurd f3 (by decide)
  | promotion o d _ ho hd hown ht hchk hm =>
    obtain ⟨-, f2, f3⟩ := makePromotions_fields o d ho hd m hm
    rw [f2]
    refine ⟨ht, fun h => ?_⟩
    rw [h.1] at f3
    exact Bool.noConfusion f3
  | jump o d ho hd hown hFT hempty hchk =>
    obtain ⟨-, f2, f3, -⟩ := Move.make_fields .PawnJump o d ho hd
    rw [f2]
    refine ⟨hempty, fun h => ?_⟩
    rw [h.2] at f3
    exact absurd f3 (by decide)
  | enPassant o d ho hd hown hFT hempty hchk => exact absurd rfl hFT
  | castling d hFT hchk hside =>
    have hk := Board.kingSquare_lt hc hs
    obtain ⟨hkd, -, hqd, -, hkd64, hqd64⟩ := defaults_castling b.currentPlayerAlliance
    have hd : d < 64 := by
      rcases hside with h | h
      · rw [h.1]; exact hkd64
      · rw [h.1]; exact hqd64
    obtain ⟨-, f2, f3, -⟩ := Move.make_fields .Castling _ d hk hd
    rw [f2]
    refine ⟨?_, fun h => ?_⟩
    · rcases hside with h | h
      · rw [h.1]; exact testBit_of_and_eq_zero h.2.1 hkd
      · rw [h.1]; exact testBit_of_and_eq_zero h.2.1 hqd
    · rw [h.2] at f3
      exact absurd f3 (by decide)

/-- C20: on a consistent board whose state fits its pieces, every move written
by `generateMoves<Aggressive>` is a capture (an enemy piece stands on its
destination, or it is an en-passant capture: not a promotion, type field
`EnPassant`), and every move written by `generateMoves<Passive>` is no capture
(its destination is empty and it is no en-passant capture). -/
theorem generateMoves_filter (L : Lines) (W : Magics) (b : Board) (hc : b.Consistent)
    (hs : b.StateFits) :
    (∀ m ∈ generateMoves L W .Aggressive b,
      (b.pieces b.currentPlayerAlliance.flip .NullPT).testBit m.destination = true ∨
        m.isEnPassant) ∧
    (∀ m ∈ generateMoves L W .Passive b,
      b.allPieces.testBit m.destination = false ∧ ¬ m.isEnPassant) :=
  ⟨fun m hm => (generateMoves_written L W b hc hs .Aggressive m hm).aggressive,
    fun m hm => (generateMoves_written L W b hc hs .Passive m hm).passive hc hs⟩

set_option maxRecDepth 1000000 in
/-- The position with kings and rooks is consistent. -/
theorem Board.castles_consistent : Board.castles.Consistent :=
  Board.consistent_of_consistentB _ (by decide!)

set_option maxRecDepth 1000000 in
/-- The state of the position with kings and rooks fits its pieces. -/
theorem Board.castles_stateFits : Board.castles.StateFits :=
  ⟨by decide!, by decide!, by decide!, by decide!⟩

set_option maxRecDepth 1000000 in
/-- The moves the generator writes on the position with kings and rooks: the
two captures of a rook by a rook under `Aggressive`, and both castling moves of
White under `All`. -/
theorem Board.castles_moves :
    generateMoves PathsAndRays Witchcraft .Aggressive Board.castles =
      [Move.makePlain 0 56, Move.makePlain 7 63] ∧
    bitScanFwd (Board.castles.getPieces Board.castles.currentPlayerAlliance .King) = 3 ∧
    Move.make .Castling 3 1 ∈ generateMoves PathsAndRays Witchcraft .All Board.castles ∧
    Move.make .Castling 3 5 ∈ generateMoves PathsAndRays Witchcraft .All Board.castles := by
  decide!

/-- C20 on the position `r3k2r/8/8/8/8/8/8/R3K2R`, where `Aggressive` writes the
two captures of a rook by a rook. -/
theorem generateMoves_filter_witness :
    Board.castles.Consistent ∧ Board.castles.StateFits ∧
    generateMoves PathsAndRays Witchcraft .Aggressive Board.castles =
      [Move.makePlain 0 56, Move.makePlain 7 63] ∧
    (∀ m ∈ generateMoves PathsAndRays Witchcraft .Aggressive Board.castles,
      (Board.castles.pieces Board.castles.currentPlayerAlliance.flip .NullPT).testBit
          m.destination = true ∨ m.isEnPassant) ∧
    (∀ m ∈ generateMoves PathsAndRays Witchcraft .Passive Board.castles,
      Board.castles.allPieces.testBit m.destination = false ∧ ¬ m.isEnPassant) :=
  ⟨Board.castles_consistent, Board.castles_stateFits, Board.castles_moves.1,
    generateMoves_filter PathsAndRays Witchcraft Board.castles Board.castles_consistent
      Board.castles_stateFits⟩

end

/-! ## Magic attack tables -/

section

open Board

/-- The lowest bit of an intersection. -/
theorem and_mod_two (a b : Nat) : (a &&& b) % 2 = (a % 2) * (b % 2) := by
  have h := Nat.testBit_and a b 0
  simp only [Nat.testBit_zero] at h
  rcases Nat.mod_two_eq_zero_or_one a with ha | ha <;>
    rcases Nat.mod_two_eq_zero_or_one b with hb | hb <;>
    rcases Nat.mod_two_eq_zero_or_one (a &&& b) with hab | hab <;>
    simp_all

/-- The higher bits of an intersection. -/
theorem and_div_two (a b : Nat) : (a &&& b) / 2 = (a / 2) &&& (b / 2) := by
  apply Nat.eq_of_testBit_eq
  intro i
  rw [Nat.testBit_and, ← Nat.testBit_succ, ← Nat.testBit_succ, ← Nat.testBit_succ,
    Nat.testBit_and]

/-- An extracted index is below two to the number of mask bits. -/
theorem pextAux_lt : ∀ (n bb m : Nat), pextAux n bb m < 2 ^ highBitCountAux n m
  | 0, _, _ => by simp [pextAux, highBitCountAux]
  | n + 1, bb, m => by
    have ih := pextAux_lt n (bb / 2) (m / 2)
    unfold pextAux highBitCountAux
    split_ifs with h
    · rw [h, Nat.pow_add, Nat.pow_one]
      have := Nat.mod_lt bb (by decide : 2 > 0)
      omega
    · have h0 : m % 2 = 0 := by omega
      rw [h0, Nat.zero_add]
      exact ih

/-- Depositing index 0 gives the empty board. -/
theorem pdepAux_zero : ∀ (n m : Nat), pdepAux n 0 m = 0
  | 0, _ => rfl
  | n + 1, m => by
    unfold pdepAux
    split_ifs <;> simp [pdepAux_zero n]

/-- Depositing an extracted index gives back the masked board. -/
theorem pdepAux_pextAux : ∀ (n bb m : Nat), m < 2 ^ n →
    pdepAux n (pextAux n bb m) m = bb &&& m
  | 0, bb, m, hm => by
    have : m = 0 := by simpa using hm
    subst this
    simp [pdepAux]
  | n + 1, bb, m, hm => by
    have hm2 : m / 2 < 2 ^ n := by
      rw [Nat.pow_succ] at hm
      omega
    have ih := pdepAux_pextAux n (bb / 2) (m / 2) hm2
    have h1 := and_mod_two bb m
    have h2 := and_div_two bb m
    have hb := Nat.mod_lt bb (by decide : 2 > 0)
    unfold pextAux pdepAux
    split_ifs with h
    · have e1 : (bb % 2 + 2 * pextAux n (bb / 2) (m / 2)) % 2 = bb % 2 := by omega
      have e2 : (bb % 2 + 2 * pextAux n (bb / 2) (m / 2)) / 2 = pextAux n (bb / 2) (m / 2) := by
        omega
      rw [e1, e2, ih, ← h2]
      rw [h, Nat.mul_one] at h1
      omega
    · have h0 : m % 2 = 0 := by omega
      rw [ih, ← h2]
      rw [h0, Nat.mul_zero] at h1
      omega

/-- Adding the complement of the mask to a subset of the mask and cutting
with the mask leaves the subset. -/
theorem add_compl_and : ∀ (n S m : Nat), m < 2 ^ n → S &&& m = S →
    (S + (2 ^ n - 1 - m)) &&& m = S
  | 0, S, m, hm, hS => by
    have : m = 0 := by simpa using hm
    subst this
    have h0 : S = 0 := by simpa using hS.symm
    subst h0
    simp
  | n + 1, S, m, hm, hS => by
    have hp : 2 ^ (n + 1) = 2 * 2 ^ n := by rw [Nat.pow_succ, Nat.mul_comm]
    have hpos : 0 < 2 ^ n := Nat.two_pow_pos n
    rw [hp] at hm
    have hm2 : m / 2 < 2 ^ n := by omega
    have s1 := and_mod_two S m
    have s2 := and_div_two S m
    rw [hS] at s1 s2
    have ih := add_compl_and n (S / 2) (m / 2) hm2 s2.symm
    have hle : S ≤ m := hS ▸ Nat.and_le_right
    have t1 := and_mod_two (S + (2 ^ (n + 1) - 1 - m)) m
    have t2 := and_div_two (S + (2 ^ (n + 1) - 1 - m)) m
    rw [hp] at t1 t2 ⊢
    rcases Nat.mod_two_eq_zero_or_one S with hs | hs <;>
      rcases Nat.mod_two_eq_zero_or_one m with hb | hb
    · have e : (S + (2 * 2 ^ n - 1 - m)) / 2 = S / 2 + (2 ^ n - 1 - m / 2) := by omega
      rw [e, ih] at t2
      rw [hb, Nat.mul_zero] at t1
      omega
    · have e : (S + (2 * 2 ^ n - 1 - m)) / 2 = S / 2 + (2 ^ n - 1 - m / 2) := by omega
      have e0 : (S + (2 * 2 ^ n - 1 - m)) % 2 = 0 := by omega
      rw [e, ih] at t2
      rw [e0, Nat.zero_mul] at t1
      omega
    · rw [hs, hb] at s1
      exact absurd s1 (by decide)
    · have e : (S + (2 * 2 ^ n - 1 - m)) / 2 = S / 2 + (2 ^ n - 1 - m / 2) := by omega
      have e0 : (S + (2 * 2 ^ n - 1 - m)) % 2 = 1 := by omega
      rw [e, ih] at t2
      rw [e0, hb] at t1
      omega

/-- The carry rippler on `n` bits: the step `(S - m) & m` from a subset `S` of
the mask `m` reaches the subset whose extracted index is one higher, and the
empty subset after the last. -/
theorem pextAux_carry : ∀ (n S m : Nat), m < 2 ^ n → S &&& m = S →
    pextAux n (((S + (2 ^ n - m)) % 2 ^ n) &&& m) m =
      (pextAux n S m + 1) % 2 ^ highBitCountAux n m
  | 0, S, m, hm, hS => by
    simp [pextAux, highBitCountAux]
  | n + 1, S, m, hm, hS => by
    have hp : 2 ^ (n + 1) = 2 * 2 ^ n := by rw [Nat.pow_succ, Nat.mul_comm]
    have hpos : 0 < 2 ^ n := Nat.two_pow_pos n
    rw [hp] at hm
    have hm2 : m / 2 < 2 ^ n := by omega
    have s1 := and_mod_two S m
    have s2 := and_div_two S m
    rw [hS] at s1 s2
    have hle : S ≤ m := hS ▸ Nat.and_le_right
    have hle2 : S / 2 ≤ m / 2 := by omega
    have ih := pextAux_carry n (S / 2) (m / 2) hm2 s2.symm
    have hlt := pextAux_lt n (S / 2) (m / 2)
    -- the wrapped difference on n + 1 bits
    have hX : ∀ (P a b : Nat), 0 < P → a ≤ b → b < P →
        (a + (P - b)) % P = if a = b then 0 else a + P - b := by
      intro P a b hP hab hb
      split_ifs with h
      · subst h
        rw [show a + (P - a) = P by omega, Nat.mod_self]
      · rw [Nat.mod_eq_of_lt (by omega)]
        omega
    rw [hX _ _ _ (by omega) hle2 hm2] at ih
    rw [hp, hX _ _ _ (by omega) hle hm]
    generalize hXq : (if S / 2 = m / 2 then 0 else S / 2 + 2 ^ n - m / 2) = X2 at ih
    generalize hXp : (if S = m then 0 else S + 2 * 2 ^ n - m) = X
    generalize hq : pextAux n (S / 2) (m / 2) = p at ih hlt
    generalize hh : highBitCountAux n (m / 2) = c at ih hlt
    have a1 := and_mod_two X m
    have a2 := and_div_two X m
    rcases Nat.mod_two_eq_zero_or_one S with hs | hs <;>
      rcases Nat.mod_two_eq_zero_or_one m with hb | hb
    · -- both low bits are 0
      have hd : X / 2 = X2 := by
        rw [← hXp, ← hXq]
        split_ifs <;> omega
      unfold pextAux highBitCountAux
      rw [if_neg (show ¬ m % 2 = 1 by omega), if_neg (show ¬ m % 2 = 1 by omega), hb,
        Nat.zero_add, a2, hd, hh, ih, hq]
    · -- the low bit of the mask is free: no carry
      have he : S ≠ m := by omega
      have hd : X / 2 = S / 2 + (2 ^ n - 1 - m / 2) := by
        rw [← hXp, if_neg he]
        omega
      have h1 : X % 2 = 1 := by
        rw [← hXp, if_neg he]
        omega
      have hk := add_compl_and n (S / 2) (m / 2) hm2 s2.symm
      unfold pextAux highBitCountAux
      rw [if_pos hb, if_pos hb, hb, hs, Nat.zero_add, a2, a1, hd, hk, h1, hb, hh, hq,
        Nat.pow_add, Nat.pow_one, Nat.mod_eq_of_lt (by omega)]
      omega
    · rw [hs, hb] at s1
      exact absurd s1 (by decide)
    · -- the low bit is taken: carry
      have hd : X / 2 = X2 := by
        rw [← hXp, ← hXq]
        split_ifs <;> omega
      have h0 : X % 2 = 0 := by
        rw [← hXp]
        split_ifs <;> omega
      unfold pextAux highBitCountAux
      rw [if_pos hb, if_pos hb, hb, hs, a2, a1, hd, h0, hh, ih, hq, Nat.zero_mul, Nat.zero_add,
        show 1 + 2 * p + 1 = 2 * (p + 1) by omega, Nat.pow_add, Nat.pow_one,
        Nat.mul_mod_mul_left]

set_option maxRecDepth 1000000 in
/-- The ray checks hold on all 64 squares. -/
theorem rayChecks_all : ∀ sq, sq < 64 → rayChecks sq = true := by
  decide!

/-- The squares of a ray are on the board. -/
theorem raySquares_lt : ∀ (n : Nat) (o d : Int) (s : Nat), s ∈ raySquares n o d → s < 64
  | 0, _, _, _, h => by simp [raySquares] at h
  | n + 1, o, d, s, h => by
    unfold raySquares at h
    split_ifs at h with hw
    · rcases List.mem_cons.mp h with h | h
      · unfold withinBounds at hw
        simp only [Bool.and_eq_true, decide_eq_true_eq] at hw
        omega
      · exact raySquares_lt n _ d s h
    · simp at h

/-- A square board meets a board exactly when the square is set in it. -/
theorem SquareToBitBoard_and_eq_zero (s occ : Nat) (hs : s < 64) :
    SquareToBitBoard s &&& occ = 0 ↔ occ.testBit s = false := by
  constructor
  · intro h
    have := congrArg (fun x => x.testBit s) h
    simp only [Nat.testBit_and, testBit_SquareToBitBoard s s hs, Nat.zero_testBit] at this
    simpa using this
  · intro h
    apply Nat.eq_of_testBit_eq
    intro i
    rw [Nat.testBit_and, testBit_SquareToBitBoard s i hs, Nat.zero_testBit]
    by_cases hi : s = i
    · subst hi; simp [h]
    · simp [hi]

/-- The loop of one direction gathers the squares of the ray up to and
including the first blocker. -/
theorem castRay_eq : ∀ (n : Nat) (o d : Int) (occ acc : Nat),
    castRay n o d occ acc =
      (stopAt occ (raySquares n o d)).foldl (fun a s => a ||| SquareToBitBoard s) acc
  | 0, _, _, _, _ => rfl
  | n + 1, o, d, occ, acc => by
    unfold castRay raySquares
    by_cases hw : withinBounds o d = true
    · have hs : (o + d).toNat < 64 := by
        unfold withinBounds at hw
        simp only [Bool.and_eq_true, decide_eq_true_eq] at hw
        omega
      rw [if_pos hw, if_pos hw]
      simp only [stopAt]
      by_cases hb : occ.testBit (o + d).toNat = true
      · rw [if_neg (fun h => by
          rw [(SquareToBitBoard_and_eq_zero _ occ hs).mp h] at hb
          exact Bool.noConfusion hb), if_pos hb]
        rfl
      · have hb2 : occ.testBit (o + d).toNat = false := by simpa using hb
        rw [if_pos ((SquareToBitBoard_and_eq_zero _ occ hs).mpr hb2), if_neg hb,
          castRay_eq n, List.foldl_cons]
    · rw [if_neg hw, if_neg hw]
      rfl

/-- The bits of a board gathered square by square. -/
theorem testBit_foldl_squares (t : Nat) : ∀ (l : List Nat) (acc : Nat),
    (∀ s ∈ l, s < 64) →
    ((l.foldl (fun a s => a ||| SquareToBitBoard s) acc).testBit t = true ↔
      (acc.testBit t = true ∨ t ∈ l))
  | [], acc, _ => by simp
  | s :: l, acc, h => by
    rw [List.foldl_cons, testBit_foldl_squares t l _ (fun x hx => h x (List.mem_cons_of_mem _ hx)),
      Nat.testBit_or, testBit_SquareToBitBoard s t (h s (List.mem_cons_self _ _))]
    simp only [Bool.or_eq_true, decide_eq_true_eq, List.mem_cons]
    constructor
    · rintro ((h1 | h1) | h1)
      · exact Or.inl h1
      · exact Or.inr (Or.inl h1.symm)
      · exact Or.inr (Or.inr h1)
    · rintro (h1 | h1 | h1)
      · exact Or.inl (Or.inl h1)
      · exact Or.inl (Or.inr h1.symm)
      · exact Or.inr h1

/-- The squares kept by `stopAt` are squares of the walk. -/
theorem mem_of_mem_stopAt (occ : Nat) : ∀ (l : List Nat) (s : Nat), s ∈ stopAt occ l → s ∈ l
  | [], _, h => by simp [stopAt] at h
  | x :: l, s, h => by
    unfold stopAt at h
    split_ifs at h
    · rcases List.mem_singleton.mp h with rfl
      exact List.mem_cons_self _ _
    · rcases List.mem_cons.mp h with h | h
      · exact h ▸ List.mem_cons_self _ _
      · exact List.mem_cons_of_mem _ (mem_of_mem_stopAt occ l s h)

/-- The bits of the attack board that the loop over the directions builds. -/
theorem testBit_castRays (sq occ t : Nat) : ∀ (directions : List Int) (acc : Nat),
    ((directions.foldl (fun attackBoard d => castRay 8 (sq : Int) d occ attackBoard) acc).testBit t
        = true ↔
      (acc.testBit t = true ∨ ∃ d ∈ directions, t ∈ stopAt occ (raySquares 8 sq d)))
  | [], acc => by simp
  | d :: l, acc => by
    rw [List.foldl_cons, testBit_castRays sq occ t l, castRay_eq,
      testBit_foldl_squares t _ _ (fun s hs =>
        raySquares_lt 8 sq d s (mem_of_mem_stopAt occ _ s hs))]
    simp only [List.mem_cons, exists_eq_or_imp]
    tauto

/-- Bits of the occupancy outside the mask do not change where a walk stops,
when all squares of the walk but the last are in the mask. -/
theorem stopAt_and (occ mask : Nat) : ∀ (l : List Nat), innerIn mask l = true →
    stopAt (occ &&& mask) l = stopAt occ l
  | [], _ => rfl
  | [s], _ => by
    unfold stopAt
    split_ifs <;> rfl
  | s :: t :: l, h => by
    unfold innerIn at h
    rw [Bool.and_eq_true] at h
    unfold stopAt
    rw [Nat.testBit_and, h.1, Bool.and_true, stopAt_and occ mask (t :: l) h.2]

/-- One step of the reference walk on the empty board. -/
theorem lineRef_succ (n : Nat) (file rank df dr : Int) :
    lineRef (n + 1) file rank df dr =
      if 0 ≤ file + df ∧ file + df ≤ 7 ∧ 0 ≤ rank + dr ∧ rank + dr ≤ 7 then
        (8 * (rank + dr) + (file + df)).toNat :: lineRef n (file + df) (rank + dr) df dr
      else [] := by
  unfold lineRef
  rw [walkRef]
  simp only [Nat.zero_testBit, Bool.false_eq_true, if_false]

/-- The reference walk stops the walk on the empty board at the first
occupied square. -/
theorem walkRef_eq_stopAt (occ : Nat) : ∀ (n : Nat) (file rank df dr : Int),
    walkRef n file rank df dr occ = stopAt occ (lineRef n file rank df dr)
  | 0, _, _, _, _ => rfl
  | n + 1, file, rank, df, dr => by
    rw [lineRef_succ, walkRef]
    split_ifs with h1 h2
    · simp only [stopAt, h2, if_true]
    · simp only [stopAt, h2, walkRef_eq_stopAt occ n]
      rfl
    · rfl

/-- A ray that ends before its bound on the passes is the same with any
higher bound. -/
theorem raySquares_fuel : ∀ (n k : Nat) (o d : Int), (raySquares n o d).length < n →
    raySquares (n + k) o d = raySquares n o d
  | 0, _, _, _, h => absurd h (Nat.not_lt_zero _)
  | n + 1, k, o, d, h => by
    rw [show n + 1 + k = (n + k) + 1 by omega]
    unfold raySquares at h ⊢
    split_ifs at h ⊢ with hw
    · rw [raySquares_fuel n k (o + d) d (by simpa using h)]
    · rfl

/-- The rook and bishop directions are the eight directions of `rayChecks`. -/
theorem rayChecks_dir {sq : Nat} (hsq : sq < 64) {d : Int}
    (hd : d ∈ RookDirections ++ BishopDirections) :
    raySquares 8 sq d =
        lineRef 8 ((sq % 8 : Nat) : Int) ((sq / 8 : Nat) : Int) (stepOf d).1 (stepOf d).2 ∧
      (raySquares 8 sq d).length < 8 := by
  have h := rayChecks_all sq hsq
  unfold rayChecks at h
  simp only [Bool.and_eq_true, List.all_eq_true, decide_eq_true_eq] at h
  exact h.1.1 d hd

/-- With 8 passes or more, the loop of one direction builds the same board:
8 passes are enough on the board. -/
theorem castRay_fuel {sq : Nat} (hsq : sq < 64) {d : Int}
    (hd : d ∈ RookDirections ++ BishopDirections) (k occ acc : Nat) :
    castRay (8 + k) sq d occ acc = castRay 8 sq d occ acc := by
  rw [castRay_eq, castRay_eq, raySquares_fuel 8 k sq d (rayChecks_dir hsq hd).2]

/-- The steps in files and ranks of the eight directions. -/
theorem stepOf_values :
    stepOf North = (0, 1) ∧ stepOf West = (-1, 0) ∧ stepOf South = (0, -1) ∧
      stepOf East = (1, 0) ∧ stepOf NorthWest = (-1, 1) ∧ stepOf SouthWest = (-1, -1) ∧
      stepOf SouthEast = (1, -1) ∧ stepOf NorthEast = (1, 1) := by
  decide

/-- The attack board of the rook directions, built for the occupancy cut to
the rook blocker mask, holds the squares of the reference walks. -/
theorem castRays_rook_reached {sq : Nat} (hsq : sq < 64) (occ t : Nat) :
    (castRays RookDirections sq (occ &&& SquareToRookBlockerMask sq)).testBit t = true ↔
      t ∈ reachedRef rookStepsRef occ sq := by
  have h := rayChecks_all sq hsq
  unfold rayChecks at h
  simp only [Bool.and_eq_true, List.all_eq_true, decide_eq_true_eq] at h
  unfold castRays
  rw [testBit_castRays]
  simp only [Nat.zero_testBit, Bool.false_eq_true, false_or]
  have key : ∀ d ∈ RookDirections,
      stopAt (occ &&& SquareToRookBlockerMask sq) (raySquares 8 sq d) =
        walkRef 8 ((sq % 8 : Nat) : Int) ((sq / 8 : Nat) : Int) (stepOf d).1 (stepOf d).2 occ := by
    intro d hd
    rw [stopAt_and occ _ _ (h.1.2 d hd), walkRef_eq_stopAt,
      (rayChecks_dir hsq (List.mem_append_left _ hd)).1]
  unfold reachedRef rookStepsRef
  simp only [RookDirections, List.mem_cons, List.mem_singleton, List.not_mem_nil, or_false,
    exists_eq_or_imp, exists_eq_left, List.flatMap_cons, List.flatMap_nil, List.append_nil,
    List.mem_append] at key ⊢
  rw [key North (Or.inl rfl), key West (Or.inr (Or.inl rfl)),
    key South (Or.inr (Or.inr (Or.inl rfl))), key East (Or.inr (Or.inr (Or.inr rfl)))]
  obtain ⟨e1, e2, e3, e4, -⟩ := stepOf_values
  rw [e1, e2, e3, e4]

/-- The attack board of the bishop directions, built for the occupancy cut to
the bishop blocker mask, holds the squares of the reference walks. -/
theorem castRays_bishop_reached {sq : Nat} (hsq : sq < 64) (occ t : Nat) :
    (castRays BishopDirections sq (occ &&& SquareToBishopBlockerMask sq)).testBit t = true ↔
      t ∈ reachedRef bishopStepsRef occ sq := by
  have h := rayChecks_all sq hsq
  unfold rayChecks at h
  simp only [Bool.and_eq_true, List.all_eq_true, decide_eq_true_eq] at h
  unfold castRays
  rw [testBit_castRays]
  simp only [Nat.zero_testBit, Bool.false_eq_true, false_or]
  have key : ∀ d ∈ BishopDirections,
      stopAt (occ &&& SquareToBishopBlockerMask sq) (raySquares 8 sq d) =
        walkRef 8 ((sq % 8 : Nat) : Int) ((sq / 8 : Nat) : Int) (stepOf d).1 (stepOf d).2 occ := by
    intro d hd
    rw [stopAt_and occ _ _ (h.2 d hd), walkRef_eq_stopAt,
      (rayChecks_dir hsq (List.mem_append_right _ hd)).1]
  unfold reachedRef bishopStepsRef
  simp only [BishopDirections, List.mem_cons, List.mem_singleton, List.not_mem_nil, or_false,
    exists_eq_or_imp, exists_eq_left, List.flatMap_cons, List.flatMap_nil, List.append_nil,
    List.mem_append] at key ⊢
  rw [key NorthWest (Or.inl rfl), key SouthWest (Or.inr (Or.inl rfl)),
    key SouthEast (Or.inr (Or.inr (Or.inl rfl))), key NorthEast (Or.inr (Or.inr (Or.inr rfl)))]
  obtain ⟨-, -, -, -, e1, e2, e3, e4⟩ := stepOf_values
  rw [e1, e2, e3, e4]

set_option maxRecDepth 1000000 in
/-- The segment checks hold for the rook and bishop tables on all 64 squares,
and the segments fill the attack tables. -/
theorem segmentChecks_all :
    (∀ sq, sq < 64 → segmentChecks SquareToRookBlockerMask FancyRookSizes sq = true) ∧
    (∀ sq, sq < 64 → segmentChecks SquareToBishopBlockerMask FancyBishopSizes sq = true) ∧
    segmentStart FancyRookSizes 64 = RookAttacksLength ∧
    segmentStart FancyBishopSizes 64 = BishopAttacksLength := by
  decide!

/-- Extracting from the empty board gives index 0. -/
theorem pextAux_zero : ∀ (n m : Nat), pextAux n 0 m = 0
  | 0, _ => rfl
  | n + 1, m => by
    unfold pextAux
    split_ifs <;> simp [pextAux_zero n]

/-- A population count over `n` bits is at most `n`. -/
theorem highBitCountAux_le : ∀ (n x : Nat), highBitCountAux n x ≤ n
  | 0, _ => Nat.le_refl _
  | n + 1, x => by
    unfold highBitCountAux
    have := highBitCountAux_le n (x / 2)
    have := Nat.mod_lt x (by decide : 2 > 0)
    omega

/-- The segment starts grow with the square. -/
theorem segmentStart_mono (sizes : Nat → Nat) (a : Nat) : ∀ (k : Nat),
    segmentStart sizes a ≤ segmentStart sizes (a + k)
  | 0 => Nat.le_refl _
  | k + 1 => by
    have := segmentStart_mono sizes a k
    rw [show a + (k + 1) = (a + k) + 1 by omega, segmentStart]
    omega

/-- The carry-rippler loop, started at a subset `b` of the mask with enough
passes left, ends with a table: it has written the attack board of every
subset with an extracted index from that of `b` on, each at its index in the
segment, and nothing else. -/
theorem fillAttacks_spec (directions : List Int) (size attacks mask sq : Nat)
    (hm : mask < 2 ^ 64) (hsz : attacks + 2 ^ highBitCount mask ≤ size) :
    ∀ (n b : Nat) (table : Nat → Nat), b &&& mask = b →
      2 ^ highBitCount mask - pext b mask ≤ n →
      ∃ filled, fillAttacks directions size attacks mask sq n b table = some filled ∧
        ∀ j, filled j =
          if attacks + pext b mask ≤ j ∧ j < attacks + 2 ^ highBitCount mask then
            castRays directions sq (pdep (j - attacks) mask)
          else table j
  | 0, b, table, _, hn => by
    have := pextAux_lt 64 b mask
    unfold highBitCount pext at hn
    omega
  | n + 1, b, table, hb, hn => by
    have hlt : pext b mask < 2 ^ highBitCount mask := pextAux_lt 64 b mask
    have hnext : sub64 b mask = (b + (2 ^ 64 - mask)) % 2 ^ 64 := by
      unfold sub64 U64
      rw [Nat.mod_eq_of_lt hm]
    have hcar : pext (sub64 b mask &&& mask) mask = (pext b mask + 1) % 2 ^ highBitCount mask := by
      rw [hnext]
      exact pextAux_carry 64 b mask hm hb
    have hback : ∀ x, pdep (pext x mask) mask = x &&& mask := fun x =>
      pdepAux_pextAux 64 x mask hm
    have hbb : pdep (pext b mask) mask = b := by rw [hback, hb]
    unfold fillAttacks placeAttacks
    rw [if_pos (by omega)]
    simp only []
    by_cases hz : sub64 b mask &&& mask > 0
    · rw [if_pos hz]
      have hne : (pext b mask + 1) % 2 ^ highBitCount mask ≠ 0 := by
        intro h0
        rw [h0] at hcar
        have h1 := hback (sub64 b mask &&& mask)
        rw [hcar, Nat.and_assoc, Nat.and_self] at h1
        unfold pdep at h1
        rw [pdepAux_zero] at h1
        omega
      have hk : pext b mask + 1 < 2 ^ highBitCount mask := by
        rcases Nat.lt_or_ge (pext b mask + 1) (2 ^ highBitCount mask) with h | h
        · exact h
        · have : pext b mask + 1 = 2 ^ highBitCount mask := by omega
          rw [this, Nat.mod_self] at hne
          exact absurd rfl hne
      rw [Nat.mod_eq_of_lt hk] at hcar
      obtain ⟨filled, hf, hval⟩ := fillAttacks_spec directions size attacks mask sq hm hsz n
        (sub64 b mask &&& mask) _ (by rw [Nat.and_assoc, Nat.and_self]) (by omega)
      refine ⟨filled, hf, fun j => ?_⟩
      rw [hval j, hcar]
      by_cases h1 : j = attacks + pext b mask
      · subst h1
        rw [if_neg (by omega), if_pos rfl, if_pos ⟨Nat.le_refl _, by omega⟩,
          Nat.add_sub_cancel_left, hbb]
      · rw [if_neg h1]
        by_cases h2 : attacks + (pext b mask + 1) ≤ j ∧ j < attacks + 2 ^ highBitCount mask
        · rw [if_pos h2, if_pos ⟨by omega, h2.2⟩]
        · rw [if_neg h2, if_neg (by omega)]
    · rw [if_neg hz]
      have h0 : sub64 b mask &&& mask = 0 := by omega
      have hp0 : pext 0 mask = 0 := pextAux_zero 64 mask
      rw [h0, hp0] at hcar
      have hk : pext b mask + 1 = 2 ^ highBitCount mask := by
        rcases Nat.lt_or_ge (pext b mask + 1) (2 ^ highBitCount mask) with h | h
        · rw [Nat.mod_eq_of_lt h] at hcar
          exact absurd hcar.symm (Nat.succ_ne_zero _)
        · omega
      refine ⟨_, rfl, fun j => ?_⟩
      by_cases h1 : j = attacks + pext b mask
      · subst h1
        rw [if_pos rfl, if_pos ⟨Nat.le_refl _, by omega⟩, Nat.add_sub_cancel_left, hbb]
      · rw [if_neg h1, if_neg (by omega)]

/-- The loop over the squares ends with the magics and a table: the magic of
each square holds the start of its segment and its mask, the segment holds the
attack board of every subset of the mask at its extracted index, and the table
below the first segment is as before. -/
theorem initSquares_spec (directions : List Int) (blockerMask sizes : Nat → Nat) (size : Nat)
    (hchk : ∀ sq, sq < 64 → segmentChecks blockerMask sizes sq = true)
    (hsize : segmentStart sizes 64 ≤ size) :
    ∀ (count sq : Nat) (table : Nat → Nat), sq + count = 64 →
      ∃ incantations attackTable,
        initSquares directions blockerMask sizes size count sq (segmentStart sizes sq) table =
          some (incantations, attackTable) ∧
        (∀ s, sq ≤ s → s < 64 →
          incantations.get? (s - sq) = some ⟨segmentStart sizes s, blockerMask s⟩ ∧
          ∀ j, j < 2 ^ highBitCount (blockerMask s) →
            attackTable (segmentStart sizes s + j) =
              castRays directions s (pdep j (blockerMask s))) ∧
        ∀ j, j < segmentStart sizes sq → attackTable j = table j
  | 0, sq, table, h => by
    refine ⟨[], table, rfl, fun s h1 h2 => ?_, fun j _ => rfl⟩
    omega
  | count + 1, sq, table, h => by
    have hsq : sq < 64 := by omega
    have hc := hchk sq hsq
    unfold segmentChecks at hc
    simp only [Bool.and_eq_true, decide_eq_true_eq] at hc
    have hmono := segmentStart_mono sizes (sq + 1) (64 - (sq + 1))
    rw [show sq + 1 + (64 - (sq + 1)) = 64 by omega] at hmono
    have hnext : segmentStart sizes (sq + 1) = segmentStart sizes sq + sizes sq := rfl
    have hpc : highBitCount (blockerMask sq) ≤ 64 := highBitCountAux_le 64 _
    have hfuel : 2 ^ highBitCount (blockerMask sq) - pext 0 (blockerMask sq) ≤ U64 := by
      unfold U64
      have := Nat.pow_le_pow_right (by decide : 2 > 0) hpc
      omega
    obtain ⟨filled, hf, hval⟩ := fillAttacks_spec directions size (segmentStart sizes sq)
      (blockerMask sq) sq hc.1 (by omega) U64 0 table (Nat.zero_and _) hfuel
    obtain ⟨incantations, attackTable, hi, hseg, hlow⟩ :=
      initSquares_spec directions blockerMask sizes size hchk hsize count (sq + 1) filled
        (by omega)
    have hp0 : pext 0 (blockerMask sq) = 0 := pextAux_zero 64 _
    rw [hp0] at hval
    unfold initSquares
    rw [hf]
    simp only []
    rw [← hnext, hi]
    refine ⟨_, attackTable, rfl, fun s h1 h2 => ?_, fun j hj => ?_⟩
    · rcases Nat.eq_or_lt_of_le h1 with h3 | h3
      · subst h3
        refine ⟨by rw [Nat.sub_self]; rfl, fun j hj => ?_⟩
        rw [hlow _ (by omega), hval, if_pos ⟨by omega, by omega⟩, Nat.add_sub_cancel_left]
      · obtain ⟨g1, g2⟩ := hseg s (by omega) h2
        refine ⟨?_, g2⟩
        rw [show s - sq = (s - (sq + 1)) + 1 by omega]
        exact g1
    · rw [hlow j (by omega), hval, if_neg (by omega)]

/-- After `initFancyMagics`, the magic of every square reads, for every
occupancy, the attack board built for the occupancy cut to the blocker mask of
the square; no write and no read leaves the table. -/
theorem initFancyMagics_spec (directions : List Int) (blockerMask sizes : Nat → Nat) (size : Nat)
    (hchk : ∀ sq, sq < 64 → segmentChecks blockerMask sizes sq = true)
    (hsize : segmentStart sizes 64 ≤ size) :
    ∃ incantations attackTable,
      initFancyMagics directions blockerMask sizes size = some (incantations, attackTable) ∧
      ∀ sq, sq < 64 → ∀ occ, ∃ fm, incantations.get? sq = some fm ∧
        fm.getAttacks size attackTable occ =
          some (castRays directions sq (occ &&& blockerMask sq)) := by
  obtain ⟨incantations, attackTable, hi, hseg, -⟩ :=
    initSquares_spec directions blockerMask sizes size hchk hsize 64 0 (fun _ => 0) rfl
  refine ⟨incantations, attackTable, hi, fun sq hsq occ => ?_⟩
  obtain ⟨g1, g2⟩ := hseg sq (Nat.zero_le _) hsq
  have hc := hchk sq hsq
  unfold segmentChecks at hc
  simp only [Bool.and_eq_true, decide_eq_true_eq] at hc
  have hmono := segmentStart_mono sizes (sq + 1) (64 - (sq + 1))
  rw [show sq + 1 + (64 - (sq + 1)) = 64 by omega] at hmono
  have hnext : segmentStart sizes (sq + 1) = segmentStart sizes sq + sizes sq := rfl
  have hlt : pext occ (blockerMask sq) < 2 ^ highBitCount (blockerMask sq) := pextAux_lt 64 _ _
  refine ⟨_, g1, ?_⟩
  unfold FancyMagic.getAttacks
  simp only []
  rw [if_pos (by omega), g2 _ hlt]
  unfold pdep pext
  rw [pdepAux_pextAux 64 occ _ hc.1]

/-- The lookup by extracted index, as the move generator uses it, reads the
attack board built for the occupancy cut to the blocker mask. -/
theorem getAttacks_eq (directions : List Int) (mask : Nat → Nat) (sq occ : Nat)
    (hm : mask sq < 2 ^ 64) :
    getAttacks directions mask sq occ = castRays directions sq (occ &&& mask sq) := by
  unfold getAttacks attackTableEntry pdep pext
  rw [pdepAux_pextAux 64 occ _ hm]

/-- After `Witchcraft::init`, the lookups of the rook, bishop and queen attack
boards have a result on every square, and it is the attack board the move
generator works with. -/
theorem Witchcraft.init_spec :
    ∃ C, Witchcraft.init = some C ∧ ∀ sq, sq < 64 → ∀ occ,
      C.attackBoard .Rook occ sq = some (Witchcraft.rook occ sq) ∧
      C.attackBoard .Bishop occ sq = some (Witchcraft.bishop occ sq) ∧
      C.attackBoard .Queen occ sq = some (Witchcraft.rook occ sq ||| Witchcraft.bishop occ sq) := by
  obtain ⟨c1, c2, c3, c4⟩ := segmentChecks_all
  obtain ⟨rooks, rookAttacks, hr, hrv⟩ := initFancyMagics_spec RookDirections
    SquareToRookBlockerMask FancyRookSizes RookAttacksLength c1 (Nat.le_of_eq c3)
  obtain ⟨bishops, bishopAttacks, hb, hbv⟩ := initFancyMagics_spec BishopDirections
    SquareToBishopBlockerMask FancyBishopSizes BishopAttacksLength c2 (Nat.le_of_eq c4)
  refine ⟨⟨rooks, bishops, rookAttacks, bishopAttacks⟩, ?_, fun sq hsq occ => ?_⟩
  · delta Witchcraft.init
    rw [hr, hb]
    rfl
  · obtain ⟨fr, hfr, hfrv⟩ := hrv sq hsq occ
    obtain ⟨fb, hfb, hfbv⟩ := hbv sq hsq occ
    have m1 := c1 sq hsq
    have m2 := c2 sq hsq
    unfold segmentChecks at m1 m2
    simp only [Bool.and_eq_true, decide_eq_true_eq] at m1 m2
    have e1 : Witchcraft.rook occ sq =
        castRays RookDirections sq (occ &&& SquareToRookBlockerMask sq) :=
      getAttacks_eq RookDirections SquareToRookBlockerMask sq occ m1.1
    have e2 : Witchcraft.bishop occ sq =
        castRays BishopDirections sq (occ &&& SquareToBishopBlockerMask sq) :=
      getAttacks_eq BishopDirections SquareToBishopBlockerMask sq occ m2.1
    rw [e1, e2]
    unfold Cauldron.attackBoard
    simp only [hfr, hfb, Option.some_bind, hfrv, hfbv, and_self]

/-- The attack boards the move generator works with depend on the occupancy
only through its bits in the blocker mask of the square. -/
theorem Witchcraft.masked (sq : Nat) (hsq : sq < 64) (occ : Nat) :
    Witchcraft.rook occ sq =
        castRays RookDirections sq (occ &&& SquareToRookBlockerMask sq) ∧
      Witchcraft.bishop occ sq =
        castRays BishopDirections sq (occ &&& SquareToBishopBlockerMask sq) := by
  obtain ⟨c1, c2, -, -⟩ := segmentChecks_all
  have m1 := c1 sq hsq
  have m2 := c2 sq hsq
  unfold segmentChecks at m1 m2
  simp only [Bool.and_eq_true, decide_eq_true_eq] at m1 m2
  exact ⟨getAttacks_eq RookDirections SquareToRookBlockerMask sq occ m1.1,
    getAttacks_eq BishopDirections SquareToBishopBlockerMask sq occ m2.1⟩

/-- Two occupancies that agree on a union of masks agree on each mask. -/
theorem and_eq_of_and_or_eq {x y a b : Nat} (h : x &&& (a ||| b) = y &&& (a ||| b)) :
    x &&& a = y &&& a ∧ x &&& b = y &&& b := by
  constructor
  · apply Nat.eq_of_testBit_eq
    intro i
    have := congrArg (fun z => z.testBit i) h
    simp only [Nat.testBit_and, Nat.testBit_or] at this ⊢
    cases hx : x.testBit i <;> cases hy : y.testBit i <;> cases ha : a.testBit i <;>
      cases hb : b.testBit i <;> simp_all
  · apply Nat.eq_of_testBit_eq
    intro i
    have := congrArg (fun z => z.testBit i) h
    simp only [Nat.testBit_and, Nat.testBit_or] at this ⊢
    cases hx : x.testBit i <;> cases hy : y.testBit i <;> cases ha : a.testBit i <;>
      cases hb : b.testBit i <;> simp_all

/-- C11: `Witchcraft::init` ends with filled tables, and after it, for every
square `sq` below 64 and every occupancy `occ`, the lookups
`attackBoard<Rook>(occ, sq)`, `attackBoard<Bishop>(occ, sq)` and
`attackBoard<Queen>(occ, sq)` have results `rook`, `bishop` and
`rook | bishop`; the squares set in `rook` are the squares reached by walking
from `sq` in the four rook directions, staying on the board without a wrap
between files, up to and including the first square set in `occ`; the same
for `bishop` and the four diagonal directions; and an occupancy with the same
bits inside the blocker mask of the square (both masks for the queen) has the
same result. The lookups take the occupancy only, so the colour of a blocker
does not enter. -/
theorem Witchcraft.init_attackBoard (sq : Nat) (hsq : sq < 64) (occ : Nat) :
    ∃ C rook bishop, Witchcraft.init = some C ∧
      C.attackBoard .Rook occ sq = some rook ∧
      C.attackBoard .Bishop occ sq = some bishop ∧
      C.attackBoard .Queen occ sq = some (rook ||| bishop) ∧
      (∀ t, rook.testBit t = true ↔ t ∈ reachedRef rookStepsRef occ sq) ∧
      (∀ t, bishop.testBit t = true ↔ t ∈ reachedRef bishopStepsRef occ sq) ∧
      (∀ t, (rook ||| bishop).testBit t = true ↔
        t ∈ reachedRef rookStepsRef occ sq ∨ t ∈ reachedRef bishopStepsRef occ sq) ∧
      (∀ occ2, occ2 &&& SquareToRookBlockerMask sq = occ &&& SquareToRookBlockerMask sq →
        C.attackBoard .Rook occ2 sq = some rook) ∧
      (∀ occ2, occ2 &&& SquareToBishopBlockerMask sq = occ &&& SquareToBishopBlockerMask sq →
        C.attackBoard .Bishop occ2 sq = some bishop) ∧
      (∀ occ2, occ2 &&& (SquareToRookBlockerMask sq ||| SquareToBishopBlockerMask sq) =
          occ &&& (SquareToRookBlockerMask sq ||| SquareToBishopBlockerMask sq) →
        C.attackBoard .Queen occ2 sq = some (rook ||| bishop)) := by
  obtain ⟨C, hC, hv⟩ := Witchcraft.init_spec
  obtain ⟨h1, h2, h3⟩ := hv sq hsq occ
  obtain ⟨e1, e2⟩ := Witchcraft.masked sq hsq occ
  have r1 : ∀ t, (Witchcraft.rook occ sq).testBit t = true ↔
      t ∈ reachedRef rookStepsRef occ sq := fun t => by
    rw [e1]
    exact castRays_rook_reached hsq occ t
  have r2 : ∀ t, (Witchcraft.bishop occ sq).testBit t = true ↔
      t ∈ reachedRef bishopStepsRef occ sq := fun t => by
    rw [e2]
    exact castRays_bishop_reached hsq occ t
  have i1 : ∀ occ2, occ2 &&& SquareToRookBlockerMask sq = occ &&& SquareToRookBlockerMask sq →
      Witchcraft.rook occ2 sq = Witchcraft.rook occ sq := fun occ2 h => by
    rw [e1, (Witchcraft.masked sq hsq occ2).1, h]
  have i2 : ∀ occ2,
      occ2 &&& SquareToBishopBlockerMask sq = occ &&& SquareToBishopBlockerMask sq →
      Witchcraft.bishop occ2 sq = Witchcraft.bishop occ sq := fun occ2 h => by
    rw [e2, (Witchcraft.masked sq hsq occ2).2, h]
  refine ⟨C, Witchcraft.rook occ sq, Witchcraft.bishop occ sq, hC, h1, h2, h3, r1, r2,
    fun t => ?_, fun occ2 h => ?_, fun occ2 h => ?_, fun occ2 h => ?_⟩
  · rw [Nat.testBit_or, Bool.or_eq_true, r1, r2]
  · rw [(hv sq hsq occ2).1, i1 occ2 h]
  · rw [(hv sq hsq occ2).2.1, i2 occ2 h]
  · obtain ⟨g1, g2⟩ := and_eq_of_and_or_eq h
    rw [(hv sq hsq occ2).2.2, i1 occ2 g1, i2 occ2 g2]

set_option maxRecDepth 100000 in
/-- The reference walks of a rook and a bishop on square 27 with blockers on
the squares 29, 43 and 9: the walks end on the blockers. -/
theorem reachedRef_example :
    reachedRef rookStepsRef (2 ^ 29 ||| 2 ^ 43 ||| 2 ^ 9) 27 =
      [35, 43, 26, 25, 24, 19, 11, 3, 28, 29] ∧
    reachedRef bishopStepsRef (2 ^ 29 ||| 2 ^ 43 ||| 2 ^ 9) 27 =
      [34, 41, 48, 18, 9, 20, 13, 6, 36, 45, 54, 63] := by
  decide!

/-- C11 on square 27 with blockers on the squares 29, 43 and 9. -/
theorem Witchcraft.init_attackBoard_witness :
    27 < 64 ∧
    ∃ C rook bishop, Witchcraft.init = some C ∧
      C.attackBoard .Rook (2 ^ 29 ||| 2 ^ 43 ||| 2 ^ 9) 27 = some rook ∧
      C.attackBoard .Bishop (2 ^ 29 ||| 2 ^ 43 ||| 2 ^ 9) 27 = some bishop ∧
      C.attackBoard .Queen (2 ^ 29 ||| 2 ^ 43 ||| 2 ^ 9) 27 = some (rook ||| bishop) ∧
      (∀ t, rook.testBit t = true ↔ t ∈ [35, 43, 26, 25, 24, 19, 11, 3, 28, 29]) ∧
      (∀ t, bishop.testBit t = true ↔ t ∈ [34, 41, 48, 18, 9, 20, 13, 6, 36, 45, 54, 63]) := by
  obtain ⟨C, rook, bishop, h1, h2, h3, h4, h5, h6, -⟩ :=
    Witchcraft.init_attackBoard 27 (by decide) (2 ^ 29 ||| 2 ^ 43 ||| 2 ^ 9)
  rw [reachedRef_example.1] at h5
  rw [reachedRef_example.2] at h6
  exact ⟨by decide, C, rook, bishop, h1, h2, h3, h4, h5, h6⟩

end

/-! ## Bounds on the passes of the reference walk -/

section

open Board

/-- A reference walk on the empty board that ends before its bound on the
steps is the same with any higher bound. -/
theorem lineRef_fuel : ∀ (n k : Nat) (file rank df dr : Int),
    (lineRef n file rank df dr).length < n →
    lineRef (n + k) file rank df dr = lineRef n file rank df dr
  | 0, _, _, _, _, _, h => absurd h (Nat.not_lt_zero _)
  | n + 1, k, file, rank, df, dr, h => by
    rw [show n + 1 + k = (n + k) + 1 by omega, lineRef_succ]
    rw [lineRef_succ] at h ⊢
    split_ifs at h ⊢ with hw
    · rw [lineRef_fuel n k _ _ df dr (by simpa using h)]
    · rfl

/-- The reference walk from a square of the board in one of the eight
directions is the same with 8 steps or more: 8 steps are enough on the
board. -/
theorem walkRef_fuel {sq : Nat} (hsq : sq < 64) {d : Int}
    (hd : d ∈ RookDirections ++ BishopDirections) (k occ : Nat) :
    walkRef (8 + k) ((sq % 8 : Nat) : Int) ((sq / 8 : Nat) : Int) (stepOf d).1 (stepOf d).2 occ =
      walkRef 8 ((sq % 8 : Nat) : Int) ((sq / 8 : Nat) : Int) (stepOf d).1 (stepOf d).2 occ := by
  obtain ⟨h1, h2⟩ := rayChecks_dir hsq hd
  rw [h1] at h2
  rw [walkRef_eq_stopAt, walkRef_eq_stopAt, lineRef_fuel 8 k _ _ _ _ h2]

end

/-! ## The capture order and the bounds of quiescence -/

section

open Board

/-- C25 (amended): in the table `val[victim][attacker]`, by which
`_sort_attacks` puts the capture with the greater value first, every capture
of a Rook or Queen has a greater value than every capture of a Knight or
Bishop, which has a greater value than every capture of a Pawn; and for each
victim kind among Pawn, Rook, Knight, Bishop and Queen the attackers are
preferred in the order Pawn, then Knight = Bishop (tied), then Rook, then
Queen, then King (the least valuable attacker first). -/
theorem val_order (a1 a2 victim : PieceType) (h1 : a1 ≠ .NullPT) (h2 : a2 ≠ .NullPT)
    (hv : victim ≠ .King ∧ victim ≠ .NullPT) :
    val PieceType.Rook.toNat a1.toNat > val PieceType.Knight.toNat a2.toNat ∧
    val PieceType.Rook.toNat a1.toNat > val PieceType.Bishop.toNat a2.toNat ∧
    val PieceType.Queen.toNat a1.toNat > val PieceType.Knight.toNat a2.toNat ∧
    val PieceType.Queen.toNat a1.toNat > val PieceType.Bishop.toNat a2.toNat ∧
    val PieceType.Knight.toNat a1.toNat > val PieceType.Pawn.toNat a2.toNat ∧
    val PieceType.Bishop.toNat a1.toNat > val PieceType.Pawn.toNat a2.toNat ∧
    val victim.toNat PieceType.Pawn.toNat > val victim.toNat PieceType.Knight.toNat ∧
    val victim.toNat PieceType.Knight.toNat = val victim.toNat PieceType.Bishop.toNat ∧
    val victim.toNat PieceType.Bishop.toNat > val victim.toNat PieceType.Rook.toNat ∧
    val victim.toNat PieceType.Rook.toNat > val victim.toNat PieceType.Queen.toNat ∧
    val victim.toNat PieceType.Queen.toNat > val victim.toNat PieceType.King.toNat := by
  obtain ⟨hv1, hv2⟩ := hv
  cases a1 <;> cases a2 <;> cases victim <;> first | contradiction | decide

/-- The amended C25 for a capture by a Rook, a capture by a Queen and the
victim Knight. -/
theorem val_order_witness :
    PieceType.Rook ≠ .NullPT ∧ PieceType.Queen ≠ .NullPT ∧
    (PieceType.Knight ≠ .King ∧ PieceType.Knight ≠ .NullPT) ∧
    val PieceType.Rook.toNat PieceType.Rook.toNat >
      val PieceType.Knight.toNat PieceType.Queen.toNat ∧
    val PieceType.Knight.toNat PieceType.Rook.toNat >
      val PieceType.Knight.toNat PieceType.Queen.toNat :=
  ⟨by decide, by decide, by decide,
    (val_order .Rook .Queen .Knight (by decide) (by decide) (by decide)).1,
    (val_order .Rook .Queen .Knight (by decide) (by decide) (by decide)).2.2.2.2.2.2.2.2.2.1⟩

/-- C25 fails in its order of the attackers: for each victim kind among Pawn,
Rook, Knight, Bishop and Queen the value of a capture by a Queen is below that
of a capture by a Rook, which is below that of a capture by a Knight or
Bishop, so that a Queen is preferred after Knight, Bishop and Rook, not before
them. -/
theorem val_queen_after_rook :
    val PieceType.Pawn.toNat PieceType.Queen.toNat < val PieceType.Pawn.toNat PieceType.Rook.toNat ∧
    val PieceType.Pawn.toNat PieceType.Rook.toNat < val PieceType.Pawn.toNat PieceType.Knight.toNat ∧
    val PieceType.Pawn.toNat PieceType.Rook.toNat < val PieceType.Pawn.toNat PieceType.Bishop.toNat ∧
    val PieceType.Rook.toNat PieceType.Queen.toNat < val PieceType.Rook.toNat PieceType.Rook.toNat ∧
    val PieceType.Rook.toNat PieceType.Rook.toNat < val PieceType.Rook.toNat PieceType.Knight.toNat ∧
    val PieceType.Rook.toNat PieceType.Rook.toNat < val PieceType.Rook.toNat PieceType.Bishop.toNat ∧
    val PieceType.Knight.toNat PieceType.Queen.toNat < val PieceType.Knight.toNat PieceType.Rook.toNat ∧
    val PieceType.Knight.toNat PieceType.Rook.toNat < val PieceType.Knight.toNat PieceType.Knight.toNat ∧
    val PieceType.Knight.toNat PieceType.Rook.toNat < val PieceType.Knight.toNat PieceType.Bishop.toNat ∧
    val PieceType.Bishop.toNat PieceType.Queen.toNat < val PieceType.Bishop.toNat PieceType.Rook.toNat ∧
    val PieceType.Bishop.toNat PieceType.Rook.toNat < val PieceType.Bishop.toNat PieceType.Knight.toNat ∧
    val PieceType.Bishop.toNat PieceType.Rook.toNat < val PieceType.Bishop.toNat PieceType.Bishop.toNat ∧
    val PieceType.Queen.toNat PieceType.Queen.toNat < val PieceType.Queen.toNat PieceType.Rook.toNat ∧
    val PieceType.Queen.toNat PieceType.Rook.toNat < val PieceType.Queen.toNat PieceType.Knight.toNat ∧
    val PieceType.Queen.toNat PieceType.Rook.toNat < val PieceType.Queen.toNat PieceType.Bishop.toNat := by
  decide

/-- The value of `quiescence<A>` at a call made before the deadline at a
position that is no draw, by the branches of the function: in check the mate
score or the loop over all moves; out of check the evaluation at the depth
limit, beta when the stand-pat score reaches it, or the loop over the
attacks. -/
theorem quiescence_eq (O : Oracle) (Z : Randoms) (L : Lines) (W : Magics)
    (fuel : Nat) (A : Alliance) (b : Board) (d r a o : Int) (c : Search)
    (htime : O.expired c.clockReads = false)
    (hmate : O.isMatePossible b = true) (hrep : O.repeating b d = false) :
    quiescence O Z L W (fuel + 1) A b d r a o c =
      if attacksOn W A .King b (bitScanFwd (b.getPieces A .King)) ≠ 0 then
        if (moveListAB L W b c.entered.withoutPv.control d).length ≤ 0 then
          some (-O.mateEval d, b, c.entered.withoutPv)
        else
          searchMoves Z
            (fun b2 a2 o2 c2 => quiescence O Z L W fuel A.flip b2 (d + 1) (r - 1) a2 o2 c2)
            (moveListAB L W b c.entered.withoutPv.control d) b a o c.entered.withoutPv
      else if r ≤ -c.control.Q_PLY then some (O.eval A b, b, c.entered)
      else if O.eval A b ≥ o then some (o, b, c.entered)
      else
        searchMoves Z
          (fun b2 a2 o2 c2 => quiescence O Z L W fuel A.flip b2 (d + 1) (r - 1) a2 o2 c2)
          (moveListQ L W b) b (if a < O.eval A b then O.eval A b else a) o
          c.entered.withoutPv := by
  rw [quiescence]
  simp only [htime, hmate, hrep, Bool.false_eq_true, if_false, Bool.not_true, Bool.or_self]
  rfl

/-- C28 (amended): when the side to move is not in check and the position is
no draw, a call of `quiescence` made before the deadline returns `eval(b)`
directly, whatever the window and without generating a move, exactly when
`r <= -Q_PLY`; when `r > -Q_PLY` it stands pat (it returns beta when the
evaluation is at least beta) and searches the attacks from the raised alpha.
At `r = -Q_PLY` it returns the evaluation directly. -/
theorem quiescence_depth_limit (O : Oracle) (Z : Randoms) (L : Lines) (W : Magics)
    (fuel : Nat) (A : Alliance) (b : Board) (d r a o : Int) (c : Search)
    (htime : O.expired c.clockReads = false)
    (hmate : O.isMatePossible b = true) (hrep : O.repeating b d = false)
    (hcheck : attacksOn W A .King b (bitScanFwd (b.getPieces A .King)) = 0) :
    (r ≤ -c.control.Q_PLY →
      quiescence O Z L W (fuel + 1) A b d r a o c = some (O.eval A b, b, c.entered)) ∧
    (-c.control.Q_PLY < r →
      quiescence O Z L W (fuel + 1) A b d r a o c =
        if O.eval A b ≥ o then some (o, b, c.entered)
        else
          searchMoves Z
            (fun b2 a2 o2 c2 => quiescence O Z L W fuel A.flip b2 (d + 1) (r - 1) a2 o2 c2)
            (moveListQ L W b) b (if a < O.eval A b then O.eval A b else a) o
            c.entered.withoutPv) := by
  rw [quiescence_eq O Z L W fuel A b d r a o c htime hmate hrep,
    if_neg (fun h => h hcheck)]
  constructor
  · intro h
    rw [if_pos h]
  · intro h
    rw [if_neg (by omega)]

/-- The amended C28 on the stalemate position `7k/5Q2/6K1/8/8/8/8/8` with
Black to move, `Q_PLY = 8`, the evaluation 100 and the window from -10 to 10:
at `r = -8` the value is the evaluation, 100. -/
theorem quiescence_depth_limit_witness :
    (Oracle.constant 100).expired (Search.mk (Control.cleared 8) 0).clockReads = false ∧
    (Oracle.constant 100).isMatePossible Board.stalemate = true ∧
    (Oracle.constant 100).repeating Board.stalemate 0 = false ∧
    attacksOn Witchcraft .Black .King Board.stalemate
      (bitScanFwd (Board.stalemate.getPieces .Black .King)) = 0 ∧
    quiescence (Oracle.constant 100) RandomsAtOne PathsAndRays Witchcraft (0 + 1) .Black
        Board.stalemate 0 (-8) (-10) 10 (Search.mk (Control.cleared 8) 0) =
      some (100, Board.stalemate, (Search.mk (Control.cleared 8) 0).entered) :=
  ⟨rfl, rfl, rfl, Board.stalemate_facts.2.1,
    (quiescence_depth_limit (Oracle.constant 100) RandomsAtOne PathsAndRays Witchcraft 0 .Black
      Board.stalemate 0 (-8) (-10) 10 (Search.mk (Control.cleared 8) 0) rfl rfl rfl
      Board.stalemate_facts.2.1).1 (by decide)⟩

/-- C28 fails at `r = -Q_PLY`: on the stalemate position
`7k/5Q2/6K1/8/8/8/8/8` with Black to move (not in check, no draw), with
`Q_PLY = 8`, the evaluation 100 and the window from -10 to 10, the call with
`r = -8` returns the evaluation 100, above beta: it has made no stand-pat test,
which would have returned beta, 10; the call with `r = -7` returns 10. -/
theorem quiescence_at_limit_returns_eval :
    attacksOn Witchcraft .Black .King Board.stalemate
      (bitScanFwd (Board.stalemate.getPieces .Black .King)) = 0 ∧
    (Control.cleared 8).Q_PLY = 8 ∧
    (∃ c2, quiescence (Oracle.constant 100) RandomsAtOne PathsAndRays Witchcraft 1 .Black
        Board.stalemate 0 (-8) (-10) 10 (Search.mk (Control.cleared 8) 0) =
      some (100, Board.stalemate, c2)) ∧
    (∃ c2, quiescence (Oracle.constant 100) RandomsAtOne PathsAndRays Witchcraft 1 .Black
        Board.stalemate 0 (-7) (-10) 10 (Search.mk (Control.cleared 8) 0) =
      some (10, Board.stalemate, c2)) := by
  refine ⟨Board.stalemate_facts.2.1, rfl, ?_, ?_⟩
  · obtain ⟨c2, h⟩ := quiescence_no_attacks (Oracle.constant 100) RandomsAtOne PathsAndRays
      Witchcraft 0 .Black Board.stalemate 0 (-8) (-10) 10 (Search.mk (Control.cleared 8) 0)
      rfl rfl rfl Board.stalemate_facts.2.1 Board.stalemate_facts.2.2.2
    exact ⟨c2, h⟩
  · obtain ⟨c2, h⟩ := quiescence_no_attacks (Oracle.constant 100) RandomsAtOne PathsAndRays
      Witchcraft 0 .Black Board.stalemate 0 (-7) (-10) 10 (Search.mk (Control.cleared 8) 0)
      rfl rfl rfl Board.stalemate_facts.2.1 Board.stalemate_facts.2.2.2
    exact ⟨c2, h⟩

end

/-! ## Double check and the key after a null move -/

section

open Board

/-- Every entry of the table of king attacks is a 64-bit value. -/
theorem SquareToKingAttacks_lt (sq : Nat) : SquareToKingAttacks sq < 2 ^ 64 := by
  have h : ∀ x ∈ SquareToKingAttacksTable, x < 2 ^ 64 := by decide
  unfold SquareToKingAttacks
  rcases Nat.lt_or_ge sq SquareToKingAttacksTable.length with hlt | hge
  · rw [List.getD_eq_getElem _ _ hlt]
    exact h _ (List.getElem_mem _)
  · rw [List.getD_eq_default _ _ hge]
    exact Nat.two_pow_pos 64

/-- C24: when the king of the side to move stands on a square of the board and
is attacked by two or more enemy pieces (`calculateCheck` of the attackers of
the king square returns `DoubleCheck`), every move written by
`generateMoves<FT>`, for every filter type `FT`, has the king square as its
origin and is no castling move. -/
theorem generateMoves_doubleCheck (L : Lines) (W : Magics) (FT : FilterType) (b : Board)
    (hking : bitScanFwd (b.getPieces b.currentPlayerAlliance .King) < 64)
    (hdc : calculateCheck (attacksOn W b.currentPlayerAlliance .King b
      (bitScanFwd (b.getPieces b.currentPlayerAlliance .King))) = .DoubleCheck) :
    ∀ m ∈ generateMoves L W FT b,
      m.origin = bitScanFwd (b.getPieces b.currentPlayerAlliance .King) ∧ ¬ m.isCastling := by
  intro m hm
  rw [generateMoves_eq] at hm
  unfold makeMoves at hm
  simp only [hdc, ne_eq, not_true_eq_false, if_false, List.nil_append, reduceCtorEq,
    not_false_eq_true, or_true, if_true] at hm
  obtain ⟨_, d, -, hd, hm1⟩ := mem_forBits _ m _ (and_lt_left (SquareToKingAttacks_lt _)) hm
  rw [List.mem_singleton.mp (mem_of_mem_ite hm1)]
  obtain ⟨f1, -, f3, -⟩ := Move.makePlain_fields _ d hking hd
  refine ⟨f1, fun h => ?_⟩
  rw [h.2] at f3
  exact absurd f3 (by decide)

set_option maxRecDepth 1000000 in
/-- On the double-check position the white king stands on e1, two pieces
attack it, and the generator writes the three moves of the king to d1, f1 and
f2. -/
theorem Board.doubleCheck_facts :
    bitScanFwd (Board.doubleCheck.getPieces Board.doubleCheck.currentPlayerAlliance .King) = 3 ∧
    calculateCheck (attacksOn Witchcraft Board.doubleCheck.currentPlayerAlliance .King
      Board.doubleCheck 3) = .DoubleCheck ∧
    generateMoves PathsAndRays Witchcraft .All Board.doubleCheck =
      [Move.makePlain 3 2, Move.makePlain 3 4, Move.makePlain 3 10] := by
  decide!

/-- C24 on the position `4r2k/8/8/8/8/5n2/8/4K3` with White to move. -/
theorem generateMoves_doubleCheck_witness :
    bitScanFwd (Board.doubleCheck.getPieces Board.doubleCheck.currentPlayerAlliance .King)
      < 64 ∧
    calculateCheck (attacksOn Witchcraft Board.doubleCheck.currentPlayerAlliance .King
      Board.doubleCheck
      (bitScanFwd (Board.doubleCheck.getPieces Board.doubleCheck.currentPlayerAlliance .King)))
      = .DoubleCheck ∧
    generateMoves PathsAndRays Witchcraft .All Board.doubleCheck =
      [Move.makePlain 3 2, Move.makePlain 3 4, Move.makePlain 3 10] ∧
    ∀ m ∈ generateMoves PathsAndRays Witchcraft .All Board.doubleCheck,
      m.origin =
        bitScanFwd (Board.doubleCheck.getPieces Board.doubleCheck.currentPlayerAlliance .King) ∧
      ¬ m.isCastling := by
  have h1 : bitScanFwd
      (Board.doubleCheck.getPieces Board.doubleCheck.currentPlayerAlliance .King) < 64 := by
    rw [Board.doubleCheck_facts.1]
    decide
  have h2 : calculateCheck (attacksOn Witchcraft Board.doubleCheck.currentPlayerAlliance .King
      Board.doubleCheck
      (bitScanFwd (Board.doubleCheck.getPieces Board.doubleCheck.currentPlayerAlliance .King)))
      = .DoubleCheck := by
    rw [Board.doubleCheck_facts.1]
    exact Board.doubleCheck_facts.2.1
  exact ⟨h1, h2, Board.doubleCheck_facts.2.2,
    generateMoves_doubleCheck PathsAndRays Witchcraft .All Board.doubleCheck h1 h2⟩

set_option maxRecDepth 1000000 in
/-- C23 fails on the position `4k3/8/8/3pP3/8/8/8/4K3 w - d6` with the randoms
of seed 1: before the null move the key is the hash of the position (with the
en-passant random of d5, the en-passant square of the state); `applyNullMove`
with a default-constructed `State` takes the en-passant random out of the key
but leaves the field `epSquare` of the new state as the `State` object had it,
H1 (0), which is not `NullSQ`; the key of the new state is then not the hash of
the position with the en-passant square the new state reports, from which it
differs by the en-passant random of H1. -/
theorem Board.applyNullMove_key_differs :
    ∃ b, FenUtility.parseBoard RandomsAtOne "4k3/8/8/3pP3/8/8/8/4K3 w - d6" State.default =
        some b ∧
      b.Consistent ∧
      b.currentState.epSquare = 36 ∧
      b.currentState.key = scratchHash RandomsAtOne b ∧
      (b.applyNullMove RandomsAtOne State.default).currentState.epSquare = 0 ∧
      NullSQ = 64 ∧
      (b.applyNullMove RandomsAtOne State.default).currentState.key ≠
        scratchHash RandomsAtOne (b.applyNullMove RandomsAtOne State.default) ∧
      (b.applyNullMove RandomsAtOne State.default).currentState.key ^^^
        scratchHash RandomsAtOne (b.applyNullMove RandomsAtOne State.default) =
        RandomsAtOne.getEnPassant 0 := by
  have h : Option.Holds
      (FenUtility.parseBoard RandomsAtOne "4k3/8/8/3pP3/8/8/8/4K3 w - d6" State.default)
      (fun b => b.consistentB = true ∧
        b.currentState.epSquare = 36 ∧
        b.currentState.key = scratchHash RandomsAtOne b ∧
        (b.applyNullMove RandomsAtOne State.default).currentState.epSquare = 0 ∧
        NullSQ = 64 ∧
        (b.applyNullMove RandomsAtOne State.default).currentState.key ≠
          scratchHash RandomsAtOne (b.applyNullMove RandomsAtOne State.default) ∧
        (b.applyNullMove RandomsAtOne State.default).currentState.key ^^^
          scratchHash RandomsAtOne (b.applyNullMove RandomsAtOne State.default) =
          RandomsAtOne.getEnPassant 0) := by
    decide!
  obtain ⟨b, hb, hc, hrest⟩ := h.exists
  exact ⟨b, hb, Board.consistent_of_consistentB b hc, hrest⟩

/-- The loop of the hash over the squares, started from `s`, gives `s` XOR the
value of the loop started from 0. -/
theorem scratchHash_fold (Z : Randoms) (mailbox : Nat → PieceType) (white : Nat) :
    ∀ (l : List Nat) (s : Nat),
      l.foldl (fun h sq =>
        if mailbox sq = .NullPT then h
        else if white.testBit sq then h ^^^ Z.get .White (mailbox sq) sq
        else h ^^^ Z.get .Black (mailbox sq) sq) s =
      s ^^^ l.foldl (fun h sq =>
        if mailbox sq = .NullPT then h
        else if white.testBit sq then h ^^^ Z.get .White (mailbox sq) sq
        else h ^^^ Z.get .Black (mailbox sq) sq) 0
  | [], s => by simp
  | sq :: l, s => by
    rw [List.foldl_cons, List.foldl_cons, scratchHash_fold Z mailbox white l,
      scratchHash_fold Z mailbox white l (if mailbox sq = .NullPT then 0
        else if white.testBit sq then 0 ^^^ Z.get .White (mailbox sq) sq
        else 0 ^^^ Z.get .Black (mailbox sq) sq)]
    split_ifs <;> simp [Nat.xor_assoc]

/-- What `applyNullMove` does to the key: when the key is the hash of the
position before, the key of the new state is the hash of the new position
taken without an en-passant square, whatever the `State` object held; the
field `epSquare` of the new state is the one the `State` object came with. -/
theorem Board.applyNullMove_key (Z : Randoms) (b : Board) (s : State)
    (hkey : b.currentState.key = scratchHash Z b) :
    (b.applyNullMove Z s).currentState.key =
      scratchHash Z { b.applyNullMove Z s with
        currentState := { (b.applyNullMove Z s).currentState with epSquare := NullSQ } } ∧
    (b.applyNullMove Z s).currentState.epSquare = s.epSquare := by
  unfold Board.applyNullMove
  cases hcpa : b.currentPlayerAlliance <;>
    simp only [Board.applyNullFor, hkey, and_true] <;>
    unfold scratchHash <;>
    simp only [hcpa, ne_eq, not_true_eq_false, if_false, Alliance.flip] <;>
    rw [scratchHash_fold Z b.mailbox (b.pieces .White .NullPT) (List.range 64)
        (Z.sideOf .White),
      scratchHash_fold Z b.mailbox (b.pieces .White .NullPT) (List.range 64)
        (Z.sideOf .Black)] <;>
    apply Nat.eq_of_testBit_eq <;>
    intro i <;>
    split_ifs <;>
    simp only [Nat.testBit_xor] <;>
    cases (Z.sideOf .White).testBit i <;>
    cases (Z.sideOf .Black).testBit i <;>
    cases (Z.getEnPassant b.currentState.epSquare).testBit i <;>
    simp

end

/-! ## The sorts of the move list on the array -/

section

open Board

/-- An assignment keeps the length of the array. -/
theorem length_setMove (arr : List Move) (i : Nat) (v : Move) :
    (setMove arr i v).length = arr.length := by
  unfold setMove
  exact List.length_set _ _ _

/-- Reading after an assignment inside the array. -/
theorem getMove_setMove (arr : List Move) (i j : Nat) (v : Move) (hi : i < arr.length) :
    getMove (setMove arr i v) j = if j = i then v else getMove arr j := by
  unfold getMove setMove
  by_cases h : j = i
  · subst h
    rw [if_pos rfl, List.get?_eq_getElem?, List.getElem?_set_self hi]
    rfl
  · rw [if_neg h, List.get?_eq_getElem?, List.get?_eq_getElem?,
      List.getElem?_set_ne (fun h2 => h h2.symm)]

/-- A segment with one move more at its end. -/
theorem segment_succ (arr : List Move) (l n : Nat) :
    segment arr l (n + 1) = segment arr l n ++ [getMove arr (l + n)] := by
  unfold segment
  rw [List.range_succ, List.map_append]
  rfl

/-- A segment with one move more at its start. -/
theorem segment_cons (arr : List Move) (l n : Nat) :
    segment arr l (n + 1) = getMove arr l :: segment arr (l + 1) n := by
  unfold segment
  rw [List.range_succ_eq_map, List.map_cons, List.map_map]
  refine congrArg₂ _ rfl (List.map_congr_left (fun i _ => ?_))
  simp only [Function.comp, Nat.succ_eq_add_one]
  rw [Nat.add_assoc, Nat.add_comm 1 i]

/-- Segments of two arrays that agree on them. -/
theorem segment_congr (a a2 : List Move) (l n : Nat)
    (h : ∀ i, i < n → getMove a (l + i) = getMove a2 (l + i)) :
    segment a l n = segment a2 l n := by
  unfold segment
  exact List.map_congr_left (fun i hi => h i (List.mem_range.mp hi))

/-- The length of a segment. -/
theorem length_segment (arr : List Move) (l n : Nat) : (segment arr l n).length = n := by
  unfold segment
  rw [List.length_map, List.length_range]

/-- A segment in two parts. -/
theorem segment_add (arr : List Move) (l : Nat) : ∀ (a b : Nat),
    segment arr l (a + b) = segment arr l a ++ segment arr (l + a) b
  | a, 0 => by simp [segment]
  | a, b + 1 => by
    rw [← Nat.add_assoc, segment_succ, segment_add arr l a b, segment_succ, List.append_assoc,
      Nat.add_assoc]

/-- One pass of the insertion sort on the empty list. -/
theorem insertByKey_nil (key : Move → Nat) (t : Move) : insertByKey key t [] = [t] := rfl

/-- One pass of the insertion sort on a list with a last move `x`: `t` goes
before `x` when its key is greater, and to the end otherwise. -/
theorem insertByKey_concat (key : Move → Nat) (t x : Move) (s : List Move) :
    insertByKey key t (s ++ [x]) =
      if key t > key x then insertByKey key t s ++ [x] else s ++ [x] ++ [t] := by
  unfold insertByKey
  rw [List.reverse_append, List.reverse_singleton, List.singleton_append]
  by_cases h : key t > key x
  · rw [if_pos h, List.dropWhile_cons_of_pos (by simpa using h),
      List.takeWhile_cons_of_pos (by simpa using h), List.reverse_cons, List.append_assoc]
    rfl
  · rw [if_neg h, List.dropWhile_cons_of_neg (by simpa using h),
      List.takeWhile_cons_of_neg (by simpa using h), List.reverse_cons, List.reverse_reverse]
    rfl

/-- One pass of the insertion sort keeps the moves. -/
theorem insertByKey_perm (key : Move → Nat) (t : Move) (s : List Move) :
    (insertByKey key t s).Perm (s ++ [t]) := by
  induction s using List.reverseRecOn with
  | nil => exact List.Perm.refl _
  | append_singleton s x ih =>
    rw [insertByKey_concat]
    split_ifs
    · refine (List.Perm.append_right [x] ih).trans ?_
      rw [List.append_assoc, List.append_assoc]
      exact List.Perm.append_left s (List.Perm.swap x t [])
    · exact List.Perm.refl _

/-- One pass of the insertion sort keeps a list in non-increasing order of
the key. -/
theorem insertByKey_sorted (key : Move → Nat) (t : Move) (s : List Move)
    (hs : s.Pairwise (fun x y => key x ≥ key y)) :
    (insertByKey key t s).Pairwise (fun x y => key x ≥ key y) := by
  induction s using List.reverseRecOn with
  | nil => exact List.pairwise_singleton _ _
  | append_singleton s x ih =>
    rw [List.pairwise_append] at hs
    obtain ⟨h1, -, h3⟩ := hs
    rw [insertByKey_concat]
    split_ifs with h
    · rw [List.pairwise_append]
      refine ⟨ih h1, List.pairwise_singleton _ _, fun y hy z hz => ?_⟩
      rw [List.mem_singleton.mp hz]
      rcases List.mem_append.mp ((insertByKey_perm key t s).mem_iff.mp hy) with hy1 | hy1
      · exact h3 y hy1 x (List.mem_singleton_self x)
      · rw [List.mem_singleton.mp hy1]
        exact le_of_lt h
    · rw [List.pairwise_append]
      refine ⟨?_, List.pairwise_singleton _ _, fun y hy z hz => ?_⟩
      · rw [List.pairwise_append]
        exact ⟨h1, List.pairwise_singleton _ _, h3⟩
      · rw [List.mem_singleton.mp hz]
        rcases List.mem_append.mp hy with hy1 | hy1
        · have := h3 y hy1 x (List.mem_singleton_self x)
          omega
        · rw [List.mem_singleton.mp hy1]
          omega

/-- One pass of the insertion sort keeps the order of the moves of each key
value, with `t` after the moves of its key value. -/
theorem insertByKey_filter (key : Move → Nat) (v : Nat) (t : Move) (s : List Move) :
    (insertByKey key t s).filter (fun m => decide (key m = v)) =
      (s ++ [t]).filter (fun m => decide (key m = v)) := by
  induction s using List.reverseRecOn with
  | nil => rfl
  | append_singleton s x ih =>
    rw [insertByKey_concat]
    split_ifs with h
    · rw [List.filter_append, ih, List.filter_append, List.filter_append, List.filter_append,
        List.append_assoc, List.append_assoc]
      congr 1
      by_cases hx : key x = v
      · have ht : ¬ key t = v := by omega
        simp [List.filter, hx, ht]
      · simp [List.filter, hx]
    · rfl

/-- The insertion sort, started on a sorted list, keeps the moves, ends with a
list in non-increasing order of the key, and keeps the order of the moves of
each key value. -/
theorem foldl_insertByKey (key : Move → Nat) : ∀ (l init : List Move),
    (l.foldl (fun sorted t => insertByKey key t sorted) init).Perm (init ++ l) ∧
    (init.Pairwise (fun x y => key x ≥ key y) →
      (l.foldl (fun sorted t => insertByKey key t sorted) init).Pairwise
        (fun x y => key x ≥ key y)) ∧
    ∀ v, (l.foldl (fun sorted t => insertByKey key t sorted) init).filter
        (fun m => decide (key m = v)) =
      (init ++ l).filter (fun m => decide (key m = v))
  | [], init => by simp
  | t :: l, init => by
    obtain ⟨h1, h2, h3⟩ := foldl_insertByKey key l (insertByKey key t init)
    rw [List.foldl_cons]
    refine ⟨?_, fun hs => h2 (insertByKey_sorted key t init hs), fun v => ?_⟩
    · refine h1.trans ?_
      have := List.Perm.append_right l (insertByKey_perm key t init)
      rw [List.append_assoc] at this
      exact this
    · rw [h3 v, List.filter_append, insertByKey_filter, ← List.filter_append, List.append_assoc]
      rfl

/-- The insertion sort keeps the moves, sorts them in non-increasing order of
the key, and is stable. -/
theorem sortByKey_spec (key : Move → Nat) (l : List Move) :
    (sortByKey key l).Perm l ∧
    (sortByKey key l).Pairwise (fun x y => key x ≥ key y) ∧
    ∀ v, (sortByKey key l).filter (fun m => decide (key m = v)) =
      l.filter (fun m => decide (key m = v)) := by
  obtain ⟨h1, h2, h3⟩ := foldl_insertByKey key l []
  exact ⟨h1, h2 List.Pairwise.nil, h3⟩

/-- The inner loop of the insertion sort on an array: the `k` moves from `l`
on and the move `t` become one pass of the sort of the list, and the rest of
the array stays. -/
theorem shiftInsert_spec (key : Move → Nat) (l : Nat) (t : Move) :
    ∀ (k : Nat) (arr : List Move), l + k < arr.length →
      (shiftInsert key l t k arr).length = arr.length ∧
      segment (shiftInsert key l t k arr) l (k + 1) = insertByKey key t (segment arr l k) ∧
      ∀ j, j < l ∨ l + k < j → getMove (shiftInsert key l t k arr) j = getMove arr j
  | 0, arr, h => by
    unfold shiftInsert
    refine ⟨length_setMove _ _ _, ?_, fun j hj => ?_⟩
    · rw [segment_succ, Nat.add_zero, getMove_setMove arr l l t (by omega), if_pos rfl]
      rfl
    · rw [getMove_setMove arr l j t (by omega), if_neg (by omega)]
  | k + 1, arr, h => by
    unfold shiftInsert
    rw [segment_succ arr l k, insertByKey_concat]
    by_cases hk : key t > key (getMove arr (l + k))
    · rw [if_pos hk, if_pos hk]
      obtain ⟨h1, h2, h3⟩ := shiftInsert_spec key l t k
        (setMove arr (l + k + 1) (getMove arr (l + k)))
        (by rw [length_setMove]; omega)
      rw [length_setMove] at h1
      refine ⟨h1, ?_, fun j hj => ?_⟩
      · rw [segment_succ, h2, h3 (l + (k + 1)) (Or.inr (by omega)),
          getMove_setMove arr _ _ _ (by omega), if_pos (by omega)]
        congr 2
        exact segment_congr _ _ _ _ (fun i hi => by
          rw [getMove_setMove arr _ _ _ (by omega), if_neg (by omega)])
      · rw [h3 j (by omega), getMove_setMove arr _ _ _ (by omega), if_neg (by omega)]
    · rw [if_neg hk, if_neg hk]
      refine ⟨length_setMove _ _ _, ?_, fun j hj => ?_⟩
      · rw [segment_succ, getMove_setMove arr _ _ _ (by omega), if_pos (by omega),
          segment_succ]
        congr 2
        · exact segment_congr _ _ _ _ (fun i hi => by
            rw [getMove_setMove arr _ _ _ (by omega), if_neg (by omega)])
        · rw [getMove_setMove arr _ _ _ (by omega), if_neg (by omega)]
      · rw [getMove_setMove arr _ _ _ (by omega), if_neg (by omega)]

/-- The outer loop of the insertion sort on an array: the moves from `l` on
become the insertion sort of the list, started on the `k` moves already
sorted, and the rest of the array stays. -/
theorem sortLoop_spec (key : Move → Nat) (l : Nat) :
    ∀ (n k : Nat) (arr : List Move), l + k + n ≤ arr.length →
      (sortLoop key l n k arr).length = arr.length ∧
      segment (sortLoop key l n k arr) l (k + n) =
        (segment arr (l + k) n).foldl (fun sorted t => insertByKey key t sorted)
          (segment arr l k) ∧
      ∀ j, j < l ∨ l + k + n ≤ j → getMove (sortLoop key l n k arr) j = getMove arr j
  | 0, k, arr, h => by
    unfold sortLoop
    exact ⟨rfl, by simp [segment], fun _ _ => rfl⟩
  | n + 1, k, arr, h => by
    unfold sortLoop
    obtain ⟨s1, s2, s3⟩ := shiftInsert_spec key l (getMove arr (l + k)) k arr (by omega)
    obtain ⟨h1, h2, h3⟩ := sortLoop_spec key l n (k + 1)
      (shiftInsert key l (getMove arr (l + k)) k arr) (by rw [s1]; omega)
    rw [s1] at h1
    refine ⟨h1, ?_, fun j hj => ?_⟩
    · rw [show k + (n + 1) = k + 1 + n by omega, h2, s2, segment_cons, List.foldl_cons]
      congr 1
      exact segment_congr _ _ _ _ (fun i hi => s3 _ (Or.inr (by omega)))
    · rw [h3 j (by omega), s3 j (by omega)]

/-- The loop that moves a segment up by one place. -/
theorem shiftUp_spec (l : Nat) : ∀ (n : Nat) (arr : List Move), l + n < arr.length →
    (shiftUp l n arr).length = arr.length ∧
    segment (shiftUp l n arr) (l + 1) n = segment arr l n ∧
    ∀ j, j ≤ l ∨ l + n < j → getMove (shiftUp l n arr) j = getMove arr j
  | 0, arr, _ => by
    unfold shiftUp
    exact ⟨rfl, rfl, fun _ _ => rfl⟩
  | n + 1, arr, h => by
    unfold shiftUp
    obtain ⟨h1, h2, h3⟩ := shiftUp_spec l n (setMove arr (l + n + 1) (getMove arr (l + n)))
      (by rw [length_setMove]; omega)
    rw [length_setMove] at h1
    refine ⟨h1, ?_, fun j hj => ?_⟩
    · rw [segment_succ, h2, segment_succ, h3 _ (Or.inr (by omega)),
        getMove_setMove arr _ _ _ (by omega), if_pos (by omega)]
      congr 1
      exact segment_congr _ _ _ _ (fun i hi => by
        rw [getMove_setMove arr _ _ _ (by omega), if_neg (by omega)])
    · rw [h3 j (by omega), getMove_setMove arr _ _ _ (by omega), if_neg (by omega)]

/-- The moves written to an array by the generator. -/
theorem writeMoves_spec : ∀ (moves arr : List Move) (base : Nat),
    base + moves.length ≤ arr.length →
    (writeMoves arr base moves).length = arr.length ∧
    segment (writeMoves arr base moves) base moves.length = moves ∧
    ∀ j, j < base ∨ base + moves.length ≤ j →
      getMove (writeMoves arr base moves) j = getMove arr j
  | [], arr, base, _ => by
    unfold writeMoves
    exact ⟨rfl, rfl, fun _ _ => rfl⟩
  | k :: ks, arr, base, h => by
    unfold writeMoves
    rw [List.length_cons] at h
    obtain ⟨h1, h2, h3⟩ := writeMoves_spec ks (setMove arr base k) (base + 1)
      (by rw [length_setMove]; omega)
    rw [length_setMove] at h1
    refine ⟨h1, ?_, fun j hj => ?_⟩
    · rw [List.length_cons, segment_cons, h2, h3 base (Or.inl (by omega)),
        getMove_setMove arr _ _ _ (by omega), if_pos rfl]
    · rw [List.length_cons] at hj
      rw [h3 j (by omega), getMove_setMove arr _ _ _ (by omega), if_neg (by omega)]

/-- The array after `_sort_attacks` or `_sort_quiets` on a segment inside it:
the segment holds the insertion sort of its moves and the rest stays. -/
theorem sortLoop_segment (key : Move → Nat) (arr : List Move) (l n : Nat)
    (h : l + n ≤ arr.length) :
    (sortLoop key l n 0 arr).length = arr.length ∧
    segment (sortLoop key l n 0 arr) l n = sortByKey key (segment arr l n) ∧
    ∀ j, j < l ∨ l + n ≤ j → getMove (sortLoop key l n 0 arr) j = getMove arr j := by
  obtain ⟨h1, h2, h3⟩ := sortLoop_spec key l n 0 arr (by omega)
  rw [Nat.zero_add, Nat.add_zero] at h2
  exact ⟨h1, h2, fun j hj => h3 j (by omega)⟩

/-- The loop of `_sort_killers` on an array does what the loop on the list of
its moves does: with the killers placed so far before `l`, the moves passed
over from `l` to `k - 1` and the moves still to come from `k` on, it ends with
the placed killers at the start of the segment, the pointer it returns behind
them, and the other moves from there on. -/
theorem sortKillersLoop_spec (q : Control) (d : Int) (base : Nat) :
    ∀ (rest placed skipped arr : List Move) (l k : Nat),
      l = base + placed.length → k = l + skipped.length → k + rest.length ≤ arr.length →
      segment arr base placed.length = placed → segment arr l skipped.length = skipped →
      segment arr k rest.length = rest →
      (sortKillersLoop q d (base + 2) rest.length l k arr).1 =
          base + (sortKillersAux q d placed skipped rest).1.length ∧
        (sortKillersLoop q d (base + 2) rest.length l k arr).2.length = arr.length ∧
        segment (sortKillersLoop q d (base + 2) rest.length l k arr).2 base
            (sortKillersAux q d placed skipped rest).1.length =
          (sortKillersAux q d placed skipped rest).1 ∧
        segment (sortKillersLoop q d (base + 2) rest.length l k arr).2
            (sortKillersLoop q d (base + 2) rest.length l k arr).1
            (sortKillersAux q d placed skipped rest).2.length =
          (sortKillersAux q d placed skipped rest).2 ∧
        (sortKillersAux q d placed skipped rest).1.length +
            (sortKillersAux q d placed skipped rest).2.length =
          placed.length + skipped.length + rest.length ∧
        ∀ j, j < base ∨ k + rest.length ≤ j →
          getMove (sortKillersLoop q d (base + 2) rest.length l k arr).2 j = getMove arr j
  | [], placed, skipped, arr, l, k, hl, hk, hlen, hp, hs, hr => by
    rw [List.length_nil, sortKillersLoop, sortKillersAux]
    exact ⟨hl, rfl, hp, hs, rfl, fun _ _ => rfl⟩
  | x :: rest, placed, skipped, arr, l, k, hl, hk, hlen, hp, hs, hr => by
    rw [List.length_cons] at hlen hr ⊢
    rw [segment_cons] at hr
    have hx : getMove arr k = x := (List.cons.inj hr).1
    have hrest : segment arr (k + 1) rest.length = rest := (List.cons.inj hr).2
    rw [sortKillersLoop, sortKillersAux]
    by_cases h2 : placed.length < 2
    · rw [if_pos (by omega), if_pos h2, hx]
      by_cases hkill : q.isKiller d x = true
      · rw [if_pos hkill, if_pos hkill, show k - l = skipped.length by omega]
        obtain ⟨u1, u2, u3⟩ := shiftUp_spec l skipped.length arr (by omega)
        have hset : ∀ j, getMove (setMove (shiftUp l skipped.length arr) l x) j =
            if j = l then x else getMove (shiftUp l skipped.length arr) j := fun j =>
          getMove_setMove _ _ _ _ (by rw [u1]; omega)
        have e1 : segment (setMove (shiftUp l skipped.length arr) l x) base
            (placed ++ [x]).length = placed ++ [x] := by
          rw [List.length_append, List.length_singleton, segment_succ, hset, if_pos hl.symm]
          congr 1
          refine Eq.trans (segment_congr _ _ _ _ (fun i hi => ?_)) hp
          rw [hset, if_neg (by omega), u3 _ (Or.inl (by omega))]
        have e2 : segment (setMove (shiftUp l skipped.length arr) l x) (l + 1)
            skipped.length = skipped := by
          refine Eq.trans (Eq.trans (segment_congr _ _ _ _ (fun i hi => ?_)) u2) hs
          rw [hset, if_neg (by omega)]
        have e3 : segment (setMove (shiftUp l skipped.length arr) l x) (k + 1)
            rest.length = rest := by
          refine Eq.trans (segment_congr _ _ _ _ (fun i hi => ?_)) hrest
          rw [hset, if_neg (by omega), u3 _ (Or.inr (by omega))]
        obtain ⟨r1, r2, r3, r4, r5, r6⟩ := sortKillersLoop_spec q d base rest (placed ++ [x])
          skipped (setMove (shiftUp l skipped.length arr) l x) (l + 1) (k + 1)
          (by rw [List.length_append, List.length_singleton]; omega) (by omega)
          (by rw [length_setMove, u1]; omega) e1 e2 e3
        rw [length_setMove, u1] at r2
        refine ⟨r1, r2, r3, r4, ?_, fun j hj => ?_⟩
        · rw [r5, List.length_append, List.length_singleton]
          omega
        · rw [r6 j (by omega), hset, if_neg (by omega), u3 j (by omega)]
      · rw [if_neg hkill, if_neg hkill]
        obtain ⟨r1, r2, r3, r4, r5, r6⟩ := sortKillersLoop_spec q d base rest placed
          (skipped ++ [x]) arr l (k + 1) hl
          (by rw [List.length_append, List.length_singleton]; omega) (by omega) hp
          (by rw [List.length_append, List.length_singleton, segment_succ, hs, ← hk, hx])
          hrest
        refine ⟨r1, r2, r3, r4, ?_, fun j hj => r6 j (by omega)⟩
        rw [r5, List.length_append, List.length_singleton]
        omega
    · rw [if_neg (by omega), if_neg h2]
      refine ⟨hl, rfl, hp, ?_, ?_, fun _ _ => rfl⟩
      · simp only []
        rw [List.length_append, List.length_cons, segment_add, hs, ← hk, segment_cons, hx,
          hrest]
      · simp only [List.length_append, List.length_cons]
        omega

/-- The list without the first move equal to `x`, by the moves before it and
the moves after it. -/
theorem takeWhile_append_drop_eq_erase (x : Move) : ∀ (l : List Move), x ∈ l →
    l.takeWhile (fun k => decide (k ≠ x)) ++ (l.dropWhile (fun k => decide (k ≠ x))).drop 1 =
      l.erase x
  | [], h => absurd h (List.not_mem_nil x)
  | y :: l, h => by
    by_cases hy : y = x
    · subst hy
      simp
    · rw [List.takeWhile_cons_of_pos (by simpa using hy),
        List.dropWhile_cons_of_pos (by simpa using hy), List.cons_append,
        takeWhile_append_drop_eq_erase x l (by
          rcases List.mem_cons.mp h with h1 | h1
          · exact absurd h1.symm hy
          · exact h1),
        List.erase_cons_tail (by simpa using hy)]

/-- The list-level `_sort_pvmove`: the move, when it is in the list, goes to
the front and the other moves keep their order. -/
theorem sortPvmove_eq (q : Control) (moves : List Move) :
    sortPvmove q moves =
      if q.pvMove ∈ moves then q.pvMove :: moves.erase q.pvMove else moves := by
  unfold sortPvmove
  split_ifs with h
  · rw [takeWhile_append_drop_eq_erase q.pvMove moves h]
  · rfl

/-- The loop of `_sort_pvmove` on an array: with the moves passed over from `l`
to `k - 1`, none of them the principal-variation move, it brings the first
such move from `k` on to `l` and moves the moves before it up by one place, or
leaves the array when there is none. -/
theorem sortPvmoveLoop_spec (q : Control) (l : Nat) :
    ∀ (rest passed arr : List Move) (k : Nat),
      k = l + passed.length → k + rest.length ≤ arr.length →
      segment arr l passed.length = passed → segment arr k rest.length = rest →
      (∀ x ∈ passed, x ≠ q.pvMove) →
      (sortPvmoveLoop q l rest.length k arr).length = arr.length ∧
        segment (sortPvmoveLoop q l rest.length k arr) l (passed.length + rest.length) =
          (if q.pvMove ∈ rest then q.pvMove :: (passed ++ rest.erase q.pvMove)
            else passed ++ rest) ∧
        ∀ j, j < l ∨ k + rest.length ≤ j →
          getMove (sortPvmoveLoop q l rest.length k arr) j = getMove arr j
  | [], passed, arr, k, hk, hlen, hp, hr, hne => by
    rw [List.length_nil, sortPvmoveLoop, Nat.add_zero, if_neg (List.not_mem_nil _),
      List.append_nil]
    exact ⟨rfl, hp, fun _ _ => rfl⟩
  | x :: rest, passed, arr, k, hk, hlen, hp, hr, hne => by
    rw [List.length_cons] at hlen hr ⊢
    rw [segment_cons] at hr
    have hx : getMove arr k = x := (List.cons.inj hr).1
    have hrest : segment arr (k + 1) rest.length = rest := (List.cons.inj hr).2
    rw [sortPvmoveLoop, hx]
    by_cases hpv : x = q.pvMove
    · rw [if_neg (fun h => h hpv), show k - l = passed.length by omega]
      obtain ⟨u1, u2, u3⟩ := shiftUp_spec l passed.length arr (by omega)
      have hset : ∀ j, getMove (setMove (shiftUp l passed.length arr) l x) j =
          if j = l then x else getMove (shiftUp l passed.length arr) j := fun j =>
        getMove_setMove _ _ _ _ (by rw [u1]; omega)
      have e2 : segment (setMove (shiftUp l passed.length arr) l x) (l + 1)
          passed.length = passed := by
        refine Eq.trans (Eq.trans (segment_congr _ _ _ _ (fun i hi => ?_)) u2) hp
        rw [hset, if_neg (by omega)]
      have e3 : segment (setMove (shiftUp l passed.length arr) l x) (l + 1 + passed.length)
          rest.length = rest := by
        rw [show l + 1 + passed.length = k + 1 by omega]
        refine Eq.trans (segment_congr _ _ _ _ (fun i hi => ?_)) hrest
        rw [hset, if_neg (by omega), u3 _ (Or.inr (by omega))]
      refine ⟨by rw [length_setMove, u1], ?_, fun j hj => ?_⟩
      · rw [if_pos (by rw [hpv]; exact List.mem_cons_self _ _), ← hpv,
          List.erase_cons_head, show passed.length + (rest.length + 1) =
            (passed.length + rest.length) + 1 by omega,
          segment_cons, hset, if_pos rfl, segment_add, e2, e3]
      · rw [hset, if_neg (by omega), u3 j (by omega)]
    · rw [if_pos hpv]
      obtain ⟨r1, r2, r3⟩ := sortPvmoveLoop_spec q l rest (passed ++ [x]) arr (k + 1)
        (by rw [List.length_append, List.length_singleton]; omega) (by omega)
        (by rw [List.length_append, List.length_singleton, segment_succ, hp, ← hk, hx])
        hrest
        (fun y hy => by
          rcases List.mem_append.mp hy with h1 | h1
          · exact hne y h1
          · rw [List.mem_singleton.mp h1]; exact hpv)
      refine ⟨r1, ?_, fun j hj => r3 j (by omega)⟩
      rw [List.length_append, List.length_singleton] at r2
      rw [show passed.length + (rest.length + 1) = passed.length + 1 + rest.length by omega, r2]
      have hmem : q.pvMove ∈ x :: rest ↔ q.pvMove ∈ rest := by
        rw [List.mem_cons]
        constructor
        · rintro (h | h)
          · exact absurd h.symm hpv
          · exact h
        · exact Or.inr
      by_cases hin : q.pvMove ∈ rest
      · rw [if_pos hin, if_pos (hmem.mpr hin), List.erase_cons_tail (by simpa using hpv),
          List.append_assoc]
        rfl
      · rw [if_neg hin, if_neg (fun h => hin (hmem.mp h)), List.append_assoc]
        rfl

/-- The array after `_sort_attacks(b, l, r)` on a segment inside it: the
length of the array stays, the segment holds the insertion sort of its moves
by the table value, and the moves outside the segment stay. -/
theorem sortAttacksArray_spec (b : Board) (arr : List Move) (l n : Nat) (r : Int)
    (hr : r = (l : Int) + (n : Int) - 1) (h : l + n ≤ arr.length) :
    (sortAttacksArray b arr l r).length = arr.length ∧
    segment (sortAttacksArray b arr l r) l n = sortAttacks b (segment arr l n) ∧
    ∀ j, j < l ∨ l + n ≤ j → getMove (sortAttacksArray b arr l r) j = getMove arr j := by
  unfold sortAttacksArray sortAttacks
  rw [show (r - (l : Int) + 1).toNat = n by omega]
  exact sortLoop_segment _ arr l n h

/-- The array after `_sort_quiets(b, l, r, q)` on a segment inside it. -/
theorem sortQuietsArray_spec (b : Board) (q : Control) (arr : List Move) (l n : Nat) (r : Int)
    (hr : r = (l : Int) + (n : Int) - 1) (h : l + n ≤ arr.length) :
    (sortQuietsArray b arr l r q).length = arr.length ∧
    segment (sortQuietsArray b arr l r q) l n = sortQuiets b q (segment arr l n) ∧
    ∀ j, j < l ∨ l + n ≤ j → getMove (sortQuietsArray b arr l r q) j = getMove arr j := by
  unfold sortQuietsArray sortQuiets
  rw [show (r - (l : Int) + 1).toNat = n by omega]
  exact sortLoop_segment _ arr l n h

/-- The array after `_sort_killers(l, r, q, d)` on a segment inside it, and
the pointer returned: the killers found (at most two) stand at the start of the
segment in the order they were found, the pointer is behind them, and the
other moves follow in their order. -/
theorem sortKillersArray_spec (q : Control) (d : Int) (arr : List Move) (l n : Nat) (r : Int)
    (hr : r = (l : Int) + (n : Int) - 1) (h : l + n ≤ arr.length) :
    (sortKillersArray arr l r q d).1 = l + (sortKillers q d (segment arr l n)).1.length ∧
    (sortKillersArray arr l r q d).2.length = arr.length ∧
    segment (sortKillersArray arr l r q d).2 l (sortKillers q d (segment arr l n)).1.length =
      (sortKillers q d (segment arr l n)).1 ∧
    segment (sortKillersArray arr l r q d).2 (sortKillersArray arr l r q d).1
        (sortKillers q d (segment arr l n)).2.length =
      (sortKillers q d (segment arr l n)).2 ∧
    (sortKillers q d (segment arr l n)).1.length +
      (sortKillers q d (segment arr l n)).2.length = n ∧
    ∀ j, j < l ∨ l + n ≤ j → getMove (sortKillersArray arr l r q d).2 j = getMove arr j := by
  unfold sortKillersArray sortKillers
  rw [show (r - (l : Int) + 1).toNat = n by omega]
  have hn : (segment arr l n).length = n := length_segment arr l n
  obtain ⟨r1, r2, r3, r4, r5, r6⟩ := sortKillersLoop_spec q d l (segment arr l n) [] [] arr l l
    rfl rfl (by rw [hn]; exact h) rfl rfl (by rw [hn])
  rw [hn] at r1 r2 r3 r4 r5 r6
  refine ⟨r1, r2, r3, r4, ?_, r6⟩
  rw [r5]
  simp

/-- The array after `_sort_pvmove(l, r, q)` on a segment inside it: when the
principal-variation move is in the segment it stands first and the other moves
follow in their order, else the segment stays; the rest of the array stays. -/
theorem sortPvmoveArray_spec (q : Control) (arr : List Move) (l n : Nat) (r : Int)
    (hr : r = (l : Int) + (n : Int) - 1) (h : l + n ≤ arr.length) :
    (sortPvmoveArray arr l r q).length = arr.length ∧
    segment (sortPvmoveArray arr l r q) l n = sortPvmove q (segment arr l n) ∧
    ∀ j, j < l ∨ l + n ≤ j → getMove (sortPvmoveArray arr l r q) j = getMove arr j := by
  unfold sortPvmoveArray
  rw [show (r - (l : Int) + 1).toNat = n by omega, sortPvmove_eq]
  have hn : (segment arr l n).length = n := length_segment arr l n
  obtain ⟨r1, r2, r3⟩ := sortPvmoveLoop_spec q l (segment arr l n) [] arr l
    rfl (by rw [hn]; exact h) rfl (by rw [hn]) (fun x hx => absurd hx (List.not_mem_nil x))
  rw [hn] at r1 r2 r3
  refine ⟨r1, ?_, r3⟩
  rw [List.length_nil, Nat.zero_add] at r2
  rw [r2]
  simp

/-- The move list `MoveList<Q>` holds the moves of the list-level constructor;
its array keeps its length. -/
theorem MoveList.ofQ_spec (L : Lines) (W : Magics) (b : Board) (m0 : List Move)
    (hcap : (generateMoves L W .Aggressive b).length ≤ m0.length) :
    (MoveList.ofQ L W b m0).toList = moveListQ L W b ∧
    (MoveList.ofQ L W b m0).size = (generateMoves L W .Aggressive b).length ∧
    (MoveList.ofQ L W b m0).m.length = m0.length ∧
    ∀ j, (generateMoves L W .Aggressive b).length ≤ j →
      getMove (MoveList.ofQ L W b m0).m j = getMove m0 j := by
  obtain ⟨w1, w2, w3⟩ := writeMoves_spec (generateMoves L W .Aggressive b) m0 0 (by omega)
  unfold MoveList.ofQ MoveList.toList moveListQ
  simp only []
  by_cases h1 : (generateMoves L W .Aggressive b).length > 1
  · rw [if_pos h1, if_pos h1]
    obtain ⟨s1, s2, s3⟩ := sortAttacksArray_spec b
      (writeMoves m0 0 (generateMoves L W .Aggressive b)) 0
      (generateMoves L W .Aggressive b).length
      ((0 : Int) + (((generateMoves L W .Aggressive b).length : Int) - 1)) (by omega)
      (by rw [w1]; omega)
    rw [w2] at s2
    exact ⟨s2, trivial, by rw [s1, w1], fun j hj => by rw [s3 j (by omega), w3 j (by omega)]⟩
  · rw [if_neg h1, if_neg h1]
    exact ⟨w2, trivial, w1, fun j hj => w3 j (by omega)⟩

/-- The move list `MoveList<AB>` holds the moves of the list-level
constructor, when the array has room for the generated moves. -/
theorem MoveList.ofAB_spec (L : Lines) (W : Magics) (b : Board) (q : Control) (d : Int)
    (m0 : List Move)
    (hcap : (generateMoves L W .Aggressive b).length +
      (generateMoves L W .Passive b).length ≤ m0.length) :
    (MoveList.ofAB L W b q d m0).toList = moveListAB L W b q d ∧
    (MoveList.ofAB L W b q d m0).size =
      (generateMoves L W .Aggressive b).length + (generateMoves L W .Passive b).length := by
  obtain ⟨q1, q2, q3, -⟩ := MoveList.ofQ_spec L W b m0 (by omega)
  unfold MoveList.toList at q1
  have hqlen : (moveListQ L W b).length = (generateMoves L W .Aggressive b).length := by
    rw [← q1, length_segment, q2]
  unfold MoveList.ofAB moveListAB
  simp only []
  generalize MoveList.ofQ L W b m0 = ml at q1 q2 q3
  generalize generateMoves L W .Passive b = quiets at hcap
  generalize generateMoves L W .Aggressive b = attacks at hcap q2 hqlen
  generalize moveListQ L W b = sortedAttacks at q1 hqlen
  rw [Nat.zero_add]
  obtain ⟨w1, w2, w3⟩ := writeMoves_spec quiets ml.m ml.size (by rw [q3, q2]; exact hcap)
  obtain ⟨k1, k2, k3, k4, k5, k6⟩ := sortKillersArray_spec q d (writeMoves ml.m ml.size quiets)
    ml.size quiets.length ((0 : Int) + ((ml.size + quiets.length : Nat) : Int) - 1)
    (by push_cast; omega) (by rw [w1, q3, q2]; exact hcap)
  rw [w2] at k1 k3 k4 k5
  generalize hks : sortKillers q d quiets = ks at k1 k3 k4 k5
  generalize hsk : sortKillersArray (writeMoves ml.m ml.size quiets) ml.size
    ((0 : Int) + ((ml.size + quiets.length : Nat) : Int) - 1) q d = sk at k1 k2 k3 k4 k6
  have hA : ∀ arr : List Move, (∀ j, j < ml.size → getMove arr j = getMove ml.m j) →
      segment arr 0 ml.size = sortedAttacks := fun arr h =>
    (segment_congr _ _ _ _ (fun i hi => by rw [Nat.zero_add]; exact h i hi)).trans q1
  have hfinal : ∀ arr : List Move, arr.length = m0.length →
      (∀ j, j < ml.size → getMove arr j = getMove ml.m j) →
      segment arr ml.size ks.1.length = ks.1 →
      ∀ rest, segment arr sk.1 ks.2.length = rest → rest.length = ks.2.length →
      (if q.pvMove = NullMove then (⟨arr, ml.size + quiets.length⟩ : MoveList)
        else ⟨sortPvmoveArray arr 0 ((0 : Int) + ((ml.size + quiets.length : Nat) : Int) - 1) q,
          ml.size + quiets.length⟩).toList =
        (if q.pvMove = NullMove then sortedAttacks ++ ks.1 ++ rest
          else sortPvmove q (sortedAttacks ++ ks.1 ++ rest)) ∧
      (if q.pvMove = NullMove then (⟨arr, ml.size + quiets.length⟩ : MoveList)
        else ⟨sortPvmoveArray arr 0 ((0 : Int) + ((ml.size + quiets.length : Nat) : Int) - 1) q,
          ml.size + quiets.length⟩).size = attacks.length + quiets.length := by
    intro arr hlen hlow hk rest hrest hrl
    have hall : segment arr 0 (ml.size + quiets.length) = sortedAttacks ++ ks.1 ++ rest := by
      rw [show ml.size + quiets.length = ml.size + (ks.1.length + ks.2.length) by omega,
        segment_add, segment_add, hA arr hlow, Nat.zero_add, hk, ← k1, hrest,
        List.append_assoc]
    by_cases hpv : q.pvMove = NullMove
    · rw [if_pos hpv, if_pos hpv]
      exact ⟨hall, by simp only []; omega⟩
    · rw [if_neg hpv, if_neg hpv]
      obtain ⟨p1, p2, -⟩ := sortPvmoveArray_spec q arr 0 (ml.size + quiets.length)
        ((0 : Int) + ((ml.size + quiets.length : Nat) : Int) - 1) (by push_cast; omega)
        (by rw [hlen]; omega)
      unfold MoveList.toList
      simp only []
      rw [p2, hall]
      exact ⟨rfl, by omega⟩
  by_cases hgt : (0 : Int) + ((ml.size + quiets.length : Nat) : Int) - 1 > (sk.1 : Int)
  · have hgt2 : ks.2.length > 1 := by
      push_cast at hgt
      omega
    rw [if_pos hgt, if_pos hgt2]
    obtain ⟨s1, s2, s3⟩ := sortQuietsArray_spec b q sk.2 sk.1 ks.2.length
      ((0 : Int) + ((ml.size + quiets.length : Nat) : Int) - 1) (by push_cast; omega)
      (by rw [k2, w1, q3]; omega)
    rw [k4] at s2
    refine hfinal _ (by rw [s1, k2, w1, q3]) (fun j hj => ?_) ?_ _ s2 ?_
    · rw [s3 j (by omega), k6 j (by omega), w3 j (by omega)]
    · refine Eq.trans (segment_congr _ _ _ _ (fun i hi => ?_)) k3
      rw [s3 _ (Or.inl (by omega))]
    · exact (sortByKey_spec _ ks.2).1.length_eq
  · have hgt2 : ¬ ks.2.length > 1 := by
      push_cast at hgt
      omega
    rw [if_neg hgt, if_neg hgt2]
    exact hfinal _ (by rw [k2, w1, q3]) (fun j hj => by rw [k6 j (by omega), w3 j (by omega)])
      k3 _ k4 rfl

/-- The loop of `_sort_killers` on a list keeps the moves. -/
theorem sortKillersAux_perm (q : Control) (d : Int) :
    ∀ (rest placed skipped : List Move),
      ((sortKillersAux q d placed skipped rest).1 ++
        (sortKillersAux q d placed skipped rest).2).Perm (placed ++ skipped ++ rest)
  | [], placed, skipped => by
    rw [sortKillersAux, List.append_nil]
  | x :: rest, placed, skipped => by
    rw [sortKillersAux]
    split_ifs with h1 h2
    · refine (sortKillersAux_perm q d rest (placed ++ [x]) skipped).trans ?_
      rw [List.append_assoc, List.append_assoc, List.append_assoc]
      refine List.Perm.append_left placed ?_
      rw [List.singleton_append]
      exact List.perm_middle.symm
    · refine (sortKillersAux_perm q d rest placed (skipped ++ [x])).trans ?_
      rw [show placed ++ (skipped ++ [x]) ++ rest = placed ++ skipped ++ x :: rest by simp]
    · rw [List.append_assoc]

/-- The list-level move list of the alpha-beta search is a permutation of the
attacks followed by the quiets, before the principal-variation move is
sorted. -/
theorem moveListAB_perm (L : Lines) (W : Magics) (b : Board) (q : Control) (d : Int) :
    (moveListAB L W b { q with pvMove := NullMove } d).Perm
      (generateMoves L W .Aggressive b ++ generateMoves L W .Passive b) := by
  unfold moveListAB
  simp only [if_true]
  have h1 : (moveListQ L W b).Perm (generateMoves L W .Aggressive b) := by
    unfold moveListQ
    simp only []
    split_ifs
    · exact (sortByKey_spec _ _).1
    · exact List.Perm.refl _
  have h2 := sortKillersAux_perm { q with pvMove := NullMove } d
    (generateMoves L W .Passive b) [] []
  rw [List.nil_append, List.nil_append] at h2
  rw [List.append_assoc]
  refine List.Perm.append h1 (List.Perm.trans ?_ h2)
  refine List.Perm.append_left _ ?_
  unfold sortKillers
  split_ifs
  · exact (sortByKey_spec _ _).1
  · exact List.Perm.refl _

/-- The list-level move list of the alpha-beta search, by the list before the
principal-variation move is sorted. -/
theorem moveListAB_pvMove (L : Lines) (W : Magics) (b : Board) (q : Control) (d : Int) :
    moveListAB L W b q d =
      if q.pvMove ≠ NullMove ∧ q.pvMove ∈ moveListAB L W b { q with pvMove := NullMove } d then
        q.pvMove :: (moveListAB L W b { q with pvMove := NullMove } d).erase q.pvMove
      else moveListAB L W b { q with pvMove := NullMove } d := by
  have hk : ∀ m, Control.isKiller { q with pvMove := NullMove } d m = q.isKiller d m :=
    fun _ => rfl
  have hks : ∀ (rest placed skipped : List Move),
      sortKillersAux { q with pvMove := NullMove } d placed skipped rest =
        sortKillersAux q d placed skipped rest := by
    intro rest
    induction rest with
    | nil => intro _ _; rfl
    | cons x rest ih =>
      intro placed skipped
      rw [sortKillersAux, sortKillersAux, hk, ih, ih]
  unfold moveListAB sortKillers
  simp only [if_true, hks]
  have hq : ∀ l, sortQuiets b { q with pvMove := NullMove } l = sortQuiets b q l := fun _ => rfl
  simp only [hq]
  generalize moveListQ L W b ++
    (sortKillersAux q d [] [] (generateMoves L W .Passive b)).1 ++
    (if (sortKillersAux q d [] [] (generateMoves L W .Passive b)).2.length > 1 then
      sortQuiets b q (sortKillersAux q d [] [] (generateMoves L W .Passive b)).2
    else (sortKillersAux q d [] [] (generateMoves L W .Passive b)).2) = all
  by_cases hpv : q.pvMove = NullMove
  · rw [if_pos hpv, if_neg (fun h => h.1 hpv)]
  · rw [if_neg hpv, sortPvmove_eq]
    by_cases hin : q.pvMove ∈ all
    · rw [if_pos hin, if_pos ⟨hpv, hin⟩]
    · rw [if_neg hin, if_neg (fun h => hin h.2)]

/-- C26: for every board `b`, every array of moves and every segment
`[l, r]` inside it (of `n` moves, `r = l + n - 1`), `_sort_attacks(b, l, r)`
leaves the segment a permutation of its input, sorted in non-increasing order
of `val[b->getPiece(destination)][b->getPiece(origin)]`, with the moves of
equal table value in the order they had (stable); the length of the array and
the moves outside the segment stay. Hence the moves of a `MoveList<Q>`, built
on an array with room for the attacks, are the moves of
`generateMoves<Aggressive>` in that order: a permutation of them, sorted by the
table value, stable. -/
theorem sortAttacksArray_sorted (L : Lines) (W : Magics) (b : Board) (arr : List Move)
    (l n : Nat) (r : Int) (hr : r = (l : Int) + (n : Int) - 1) (h : l + n ≤ arr.length)
    (m0 : List Move) (hcap : (generateMoves L W .Aggressive b).length ≤ m0.length) :
    (segment (sortAttacksArray b arr l r) l n).Perm (segment arr l n) ∧
    (segment (sortAttacksArray b arr l r) l n).Pairwise (fun x y =>
      val (b.getPiece x.destination).toNat (b.getPiece x.origin).toNat ≥
        val (b.getPiece y.destination).toNat (b.getPiece y.origin).toNat) ∧
    (∀ v, (segment (sortAttacksArray b arr l r) l n).filter (fun m =>
        decide (val (b.getPiece m.destination).toNat (b.getPiece m.origin).toNat = v)) =
      (segment arr l n).filter (fun m =>
        decide (val (b.getPiece m.destination).toNat (b.getPiece m.origin).toNat = v))) ∧
    (sortAttacksArray b arr l r).length = arr.length ∧
    (∀ j, j < l ∨ l + n ≤ j → getMove (sortAttacksArray b arr l r) j = getMove arr j) ∧
    (MoveList.ofQ L W b m0).toList.Perm (generateMoves L W .Aggressive b) ∧
    (MoveList.ofQ L W b m0).toList.Pairwise (fun x y =>
      val (b.getPiece x.destination).toNat (b.getPiece x.origin).toNat ≥
        val (b.getPiece y.destination).toNat (b.getPiece y.origin).toNat) ∧
    (∀ v, (MoveList.ofQ L W b m0).toList.filter (fun m =>
        decide (val (b.getPiece m.destination).toNat (b.getPiece m.origin).toNat = v)) =
      (generateMoves L W .Aggressive b).filter (fun m =>
        decide (val (b.getPiece m.destination).toNat (b.getPiece m.origin).toNat = v))) := by
  obtain ⟨s1, s2, s3⟩ := sortAttacksArray_spec b arr l n r hr h
  obtain ⟨t1, t2, t3⟩ := sortByKey_spec
    (fun m => val (b.getPiece m.destination).toNat (b.getPiece m.origin).toNat)
    (segment arr l n)
  obtain ⟨q1, -, -, -⟩ := MoveList.ofQ_spec L W b m0 hcap
  obtain ⟨u1, u2, u3⟩ := sortByKey_spec
    (fun m => val (b.getPiece m.destination).toNat (b.getPiece m.origin).toNat)
    (generateMoves L W .Aggressive b)
  rw [s2, q1]
  refine ⟨t1, t2, t3, s1, s3, ?_, ?_, ?_⟩
  · unfold moveListQ
    simp only []
    split_ifs
    · exact u1
    · exact List.Perm.refl _
  · unfold moveListQ
    simp only []
    split_ifs with hlen
    · exact u2
    · have h1 : (generateMoves L W .Aggressive b).length ≤ 1 := by omega
      match hg : generateMoves L W .Aggressive b, h1 with
      | [], _ => exact List.Pairwise.nil
      | [x], _ => exact List.pairwise_singleton _ _
  · intro v
    unfold moveListQ
    simp only []
    split_ifs
    · exact u3 v
    · rfl

set_option maxRecDepth 1000000 in
/-- On the position `r3k2r/8/8/8/8/8/8/R3K2R`, the segment of the move of the
king to d1, the capture of the rook on a8 and the capture of the rook on h8:
`_sort_attacks` puts the two captures first, in the order they had. -/
theorem sortAttacksArray_example :
    sortAttacksArray Board.castles
        [Move.makePlain 3 4, Move.makePlain 7 63, Move.makePlain 0 56, NullMove] 0 2 =
      [Move.makePlain 7 63, Move.makePlain 0 56, Move.makePlain 3 4, NullMove] ∧
    (generateMoves PathsAndRays Witchcraft .Aggressive Board.castles).length ≤
      (List.replicate 256 NullMove).length := by
  decide!

/-- C26 on the position `r3k2r/8/8/8/8/8/8/R3K2R` and the segment `[0, 2]` of
an array of four moves. -/
theorem sortAttacksArray_sorted_witness :
    ((2 : Int) = ((0 : Nat) : Int) + ((3 : Nat) : Int) - 1) ∧
    0 + 3 ≤ [Move.makePlain 3 4, Move.makePlain 7 63, Move.makePlain 0 56, NullMove].length ∧
    sortAttacksArray Board.castles
        [Move.makePlain 3 4, Move.makePlain 7 63, Move.makePlain 0 56, NullMove] 0 2 =
      [Move.makePlain 7 63, Move.makePlain 0 56, Move.makePlain 3 4, NullMove] ∧
    (segment (sortAttacksArray Board.castles
        [Move.makePlain 3 4, Move.makePlain 7 63, Move.makePlain 0 56, NullMove] 0 2) 0 3).Perm
      (segment [Move.makePlain 3 4, Move.makePlain 7 63, Move.makePlain 0 56, NullMove] 0 3) :=
  ⟨by decide, by decide, sortAttacksArray_example.1,
    (sortAttacksArray_sorted PathsAndRays Witchcraft Board.castles
      [Move.makePlain 3 4, Move.makePlain 7 63, Move.makePlain 0 56, NullMove] 0 3 2
      (by decide) (by decide) (List.replicate 256 NullMove) sortAttacksArray_example.2).1⟩

/-- C27: in the construction of a `MoveList<AB>` on an array with room for the
generated moves, when `control.pvMove` is not `NullMove` and occurs in the
list as the ordering of captures, killers and history leaves it (the list
built with no principal-variation move), the resulting list has `pvMove` at
index 0 and all other moves behind it in the order they had; when `pvMove` is
`NullMove` or does not occur in the list, the list is that list. In both cases
the list is a permutation of the moves of `generateMoves<Aggressive>` followed
by those of `generateMoves<Passive>`. -/
theorem MoveList.ofAB_pvMove (L : Lines) (W : Magics) (b : Board) (q : Control) (d : Int)
    (m0 : List Move)
    (hcap : (generateMoves L W .Aggressive b).length +
      (generateMoves L W .Passive b).length ≤ m0.length) :
    (q.pvMove ≠ NullMove →
      q.pvMove ∈ (MoveList.ofAB L W b { q with pvMove := NullMove } d m0).toList →
      (MoveList.ofAB L W b q d m0).toList =
        q.pvMove ::
          (MoveList.ofAB L W b { q with pvMove := NullMove } d m0).toList.erase q.pvMove) ∧
    (q.pvMove = NullMove ∨
        q.pvMove ∉ (MoveList.ofAB L W b { q with pvMove := NullMove } d m0).toList →
      (MoveList.ofAB L W b q d m0).toList =
        (MoveList.ofAB L W b { q with pvMove := NullMove } d m0).toList) ∧
    (MoveList.ofAB L W b q d m0).toList.Perm
      (generateMoves L W .Aggressive b ++ generateMoves L W .Passive b) := by
  rw [(MoveList.ofAB_spec L W b q d m0 hcap).1,
    (MoveList.ofAB_spec L W b { q with pvMove := NullMove } d m0 hcap).1]
  have hpv := moveListAB_pvMove L W b q d
  have hperm := moveListAB_perm L W b q d
  refine ⟨fun h1 h2 => ?_, fun h => ?_, ?_⟩
  · rw [hpv, if_pos ⟨h1, h2⟩]
  · rw [hpv, if_neg (fun h2 => by
      rcases h with h | h
      · exact h2.1 h
      · exact h h2.2)]
  · rw [hpv]
    split_ifs with h
    · exact (List.perm_cons_erase h.2).symm.trans hperm
    · exact hperm

set_option maxRecDepth 1000000 in
/-- On the position `r3k2r/8/8/8/8/8/8/R3K2R` the generator writes 2 attacks
and 24 quiets, and the move of the king to d1 is among the moves of the move
list built with no principal-variation move. -/
theorem MoveList.ofAB_example :
    (generateMoves PathsAndRays Witchcraft .Aggressive Board.castles).length +
      (generateMoves PathsAndRays Witchcraft .Passive Board.castles).length ≤
        (List.replicate 256 NullMove).length ∧
    Move.makePlain 3 4 ≠ NullMove ∧
    Move.makePlain 3 4 ∈ (MoveList.ofAB PathsAndRays Witchcraft Board.castles
      { Control.cleared 8 with pvMove := NullMove } 0 (List.replicate 256 NullMove)).toList := by
  decide!

/-- C27 on the position `r3k2r/8/8/8/8/8/8/R3K2R` with the move of the king to
d1 as the principal-variation move. -/
theorem MoveList.ofAB_pvMove_witness :
    (generateMoves PathsAndRays Witchcraft .Aggressive Board.castles).length +
      (generateMoves PathsAndRays Witchcraft .Passive Board.castles).length ≤
        (List.replicate 256 NullMove).length ∧
    (MoveList.ofAB PathsAndRays Witchcraft Board.castles
        { Control.cleared 8 with pvMove := Move.makePlain 3 4 } 0
        (List.replicate 256 NullMove)).toList =
      Move.makePlain 3 4 ::
        (MoveList.ofAB PathsAndRays Witchcraft Board.castles
          { Control.cleared 8 with pvMove := NullMove } 0
          (List.replicate 256 NullMove)).toList.erase (Move.makePlain 3 4) :=
  ⟨MoveList.ofAB_example.1,
    (MoveList.ofAB_pvMove PathsAndRays Witchcraft Board.castles
      { Control.cleared 8 with pvMove := Move.makePlain 3 4 } 0 (List.replicate 256 NullMove)
      MoveList.ofAB_example.1).1 MoveList.ofAB_example.2.1 MoveList.ofAB_example.2.2⟩

end

/-! ## Selection and backpropagation in the search tree -/

section

open Board

/-- The negation of an `int32_t` other than `INT32_MIN` is the negation of the
integer. -/
theorem neg32_eq (x : Int) (h1 : INT32_MIN < x) (h2 : x ≤ INT32_MAX) : neg32 x = -x := by
  unfold neg32 Zobrist.toInt32
  unfold INT32_MIN at h1
  unfold INT32_MAX at h2
  rw [Int.emod_eq_of_lt (by omega) (by omega)]
  omega

/-- The loop of `Node::backprop()`: the two bounds it ends with are the maxima
of the start values and the negated bounds of the children; the score it ends
with is at least the start value and the negated score of every visited child;
and either the score and the principal-variation child are as at the start, or
the principal-variation child is a visited child whose negated score is the
score, above the start value and above the negated score of every visited
child before it. -/
theorem Node.backpropLoop_spec : ∀ (xs : List Node) (i : Nat) (mvm mvp ms : Int)
    (pv : Option Nat),
    (mvm ≤ (Node.backpropLoop xs i mvm mvp ms pv).1 ∧
      (∀ x ∈ xs, neg32 x.vplus ≤ (Node.backpropLoop xs i mvm mvp ms pv).1) ∧
      ((Node.backpropLoop xs i mvm mvp ms pv).1 = mvm ∨
        ∃ x ∈ xs, (Node.backpropLoop xs i mvm mvp ms pv).1 = neg32 x.vplus)) ∧
    (mvp ≤ (Node.backpropLoop xs i mvm mvp ms pv).2.1 ∧
      (∀ x ∈ xs, neg32 x.vminus ≤ (Node.backpropLoop xs i mvm mvp ms pv).2.1) ∧
      ((Node.backpropLoop xs i mvm mvp ms pv).2.1 = mvp ∨
        ∃ x ∈ xs, (Node.backpropLoop xs i mvm mvp ms pv).2.1 = neg32 x.vminus)) ∧
    (ms ≤ (Node.backpropLoop xs i mvm mvp ms pv).2.2.1 ∧
      (∀ x ∈ xs, x.score ≠ INT32_MIN →
        neg32 x.score ≤ (Node.backpropLoop xs i mvm mvp ms pv).2.2.1) ∧
      (((Node.backpropLoop xs i mvm mvp ms pv).2.2.1 = ms ∧
          (Node.backpropLoop xs i mvm mvp ms pv).2.2.2 = pv) ∨
        ∃ k x, xs.get? k = some x ∧
          (Node.backpropLoop xs i mvm mvp ms pv).2.2.2 = some (i + k) ∧
          x.score ≠ INT32_MIN ∧
          (Node.backpropLoop xs i mvm mvp ms pv).2.2.1 = neg32 x.score ∧
          ms < (Node.backpropLoop xs i mvm mvp ms pv).2.2.1 ∧
          ∀ j, j < k → ∀ y, xs.get? j = some y → y.score ≠ INT32_MIN →
            neg32 y.score < (Node.backpropLoop xs i mvm mvp ms pv).2.2.1))
  | [], i, mvm, mvp, ms, pv => by
    simp [Node.backpropLoop]
  | x :: xs, i, mvm, mvp, ms, pv => by
    rw [Node.backpropLoop]
    by_cases hc : x.score ≠ INT32_MIN ∧ neg32 x.score > ms
    · rw [if_pos hc]
      obtain ⟨⟨a1, a2, a3⟩, ⟨b1, b2, b3⟩, c1, c2, c3⟩ := Node.backpropLoop_spec xs (i + 1)
        (max mvm (neg32 x.vplus)) (max mvp (neg32 x.vminus)) (neg32 x.score) (some i)
      refine ⟨⟨le_trans (le_max_left _ _) a1, ?_, ?_⟩, ⟨le_trans (le_max_left _ _) b1, ?_, ?_⟩,
        le_of_lt (lt_of_lt_of_le hc.2 c1), ?_, ?_⟩
      · intro y hy
        rcases List.mem_cons.mp hy with h | h
        · rw [h]; exact le_trans (le_max_right _ _) a1
        · exact a2 y h
      · rcases a3 with h | ⟨y, hy, h⟩
        · rcases max_cases mvm (neg32 x.vplus) with hm | hm
          · exact Or.inl (by rw [h, hm.1])
          · exact Or.inr ⟨x, List.mem_cons_self _ _, by rw [h, hm.1]⟩
        · exact Or.inr ⟨y, List.mem_cons_of_mem _ hy, h⟩
      · intro y hy
        rcases List.mem_cons.mp hy with h | h
        · rw [h]; exact le_trans (le_max_right _ _) b1
        · exact b2 y h
      · rcases b3 with h | ⟨y, hy, h⟩
        · rcases max_cases mvp (neg32 x.vminus) with hm | hm
          · exact Or.inl (by rw [h, hm.1])
          · exact Or.inr ⟨x, List.mem_cons_self _ _, by rw [h, hm.1]⟩
        · exact Or.inr ⟨y, List.mem_cons_of_mem _ hy, h⟩
      · intro y hy hv
        rcases List.mem_cons.mp hy with h | h
        · rw [h]; exact c1
        · exact c2 y h hv
      · right
        rcases c3 with ⟨h1, h2⟩ | ⟨k, y, hk, hp, hv, hs, hlt, hfirst⟩
        · exact ⟨0, x, rfl, by rw [h2]; rfl, hc.1, h1, by rw [h1]; exact hc.2,
            fun j hj => absurd hj (Nat.not_lt_zero j)⟩
        · refine ⟨k + 1, y, hk, by rw [hp]; congr 1; omega, hv, hs,
            lt_trans hc.2 hlt, fun j hj z hz hzv => ?_⟩
          cases j with
          | zero =>
            have : z = x := (Option.some.inj hz).symm
            rw [this]
            exact hlt
          | succ j => exact hfirst j (by omega) z hz hzv
    · rw [if_neg hc]
      obtain ⟨⟨a1, a2, a3⟩, ⟨b1, b2, b3⟩, c1, c2, c3⟩ := Node.backpropLoop_spec xs (i + 1)
        (max mvm (neg32 x.vplus)) (max mvp (neg32 x.vminus)) ms pv
      have hx : x.score ≠ INT32_MIN → neg32 x.score ≤ ms := fun hv => by
        by_contra h
        exact hc ⟨hv, by omega⟩
      refine ⟨⟨le_trans (le_max_left _ _) a1, ?_, ?_⟩, ⟨le_trans (le_max_left _ _) b1, ?_, ?_⟩,
        c1, ?_, ?_⟩
      · intro y hy
        rcases List.mem_cons.mp hy with h | h
        · rw [h]; exact le_trans (le_max_right _ _) a1
        · exact a2 y h
      · rcases a3 with h | ⟨y, hy, h⟩
        · rcases max_cases mvm (neg32 x.vplus) with hm | hm
          · exact Or.inl (by rw [h, hm.1])
          · exact Or.inr ⟨x, List.mem_cons_self _ _, by rw [h, hm.1]⟩
        · exact Or.inr ⟨y, List.mem_cons_of_mem _ hy, h⟩
      · intro y hy
        rcases List.mem_cons.mp hy with h | h
        · rw [h]; exact le_trans (le_max_right _ _) b1
        · exact b2 y h
      · rcases b3 with h | ⟨y, hy, h⟩
        · rcases max_cases mvp (neg32 x.vminus) with hm | hm
          · exact Or.inl (by rw [h, hm.1])
          · exact Or.inr ⟨x, List.mem_cons_self _ _, by rw [h, hm.1]⟩
        · exact Or.inr ⟨y, List.mem_cons_of_mem _ hy, h⟩
      · intro y hy hv
        rcases List.mem_cons.mp hy with h | h
        · rw [h] at hv ⊢
          exact le_trans (hx hv) c1
        · exact c2 y h hv
      · rcases c3 with h | ⟨k, y, hk, hp, hv, hs, hlt, hfirst⟩
        · exact Or.inl h
        · refine Or.inr ⟨k + 1, y, hk, by rw [hp]; congr 1; omega, hv, hs, hlt,
            fun j hj z hz hzv => ?_⟩
          cases j with
          | zero =>
            have hzx : z = x := (Option.some.inj hz).symm
            rw [hzx] at hzv ⊢
            exact lt_of_le_of_lt (hx hzv) hlt
          | succ j => exact hfirst j (by omega) z hz hzv

/-- Claim C29 (as amended). For every node with a non-empty child list whose
children have bounds in [-INT32_MAX, INT32_MAX] and scores that are `int32_t`
values, `Node::backprop` sets `vminus` to the maximum over the children of
`-c.vplus`, `vplus` to the maximum over the children of `-c.vminus`, and
`score` to the maximum of `-INT32_MAX` and of `-c.score` over the visited
children (those with `c.score != INT32_MIN`). The pointer `pvNode` is null
exactly when that score is `-INT32_MAX`, which is so when no child is visited;
otherwise it is the first visited child `c` with `-c.score` equal to the score.
The fields `alpha`, `beta`, `move`, `flags`, `parent` and the children are
unchanged. -/
theorem Node.backprop_spec (n : Node) (hne : n.children ≠ [])
    (hvm : ∀ c ∈ n.children, -INT32_MAX ≤ c.vminus ∧ c.vminus ≤ INT32_MAX)
    (hvp : ∀ c ∈ n.children, -INT32_MAX ≤ c.vplus ∧ c.vplus ≤ INT32_MAX)
    (hsc : ∀ c ∈ n.children, INT32_MIN ≤ c.score ∧ c.score ≤ INT32_MAX) :
    ((∀ c ∈ n.children, -c.vplus ≤ n.backprop.vminus) ∧
      ∃ c ∈ n.children, n.backprop.vminus = -c.vplus) ∧
    ((∀ c ∈ n.children, -c.vminus ≤ n.backprop.vplus) ∧
      ∃ c ∈ n.children, n.backprop.vplus = -c.vminus) ∧
    (-INT32_MAX ≤ n.backprop.score ∧
      ∀ c ∈ n.children, c.score ≠ INT32_MIN → -c.score ≤ n.backprop.score) ∧
    (n.backprop.pvNode = none ↔ n.backprop.score = -INT32_MAX) ∧
    ((∀ c ∈ n.children, c.score = INT32_MIN) → n.backprop.pvNode = none) ∧
    (∀ k, n.backprop.pvNode = some k → ∃ c, n.children.get? k = some c ∧
      c.score ≠ INT32_MIN ∧ n.backprop.score = -c.score ∧
      ∀ j, j < k → ∀ y, n.children.get? j = some y → y.score ≠ INT32_MIN →
        -y.score < n.backprop.score) ∧
    (n.backprop.alpha = n.alpha ∧ n.backprop.beta = n.beta ∧ n.backprop.move = n.move ∧
      n.backprop.flags = n.flags ∧ n.backprop.parent = n.parent ∧
      n.backprop.children = n.children) := by
  obtain ⟨⟨a1, a2, a3⟩, ⟨b1, b2, b3⟩, c1, c2, c3⟩ :=
    Node.backpropLoop_spec n.children 0 (-INT32_MAX) (-INT32_MAX) (-INT32_MAX) none
  have hmax : INT32_MIN < -INT32_MAX ∧ -INT32_MAX ≤ INT32_MAX := by decide
  have hnp : ∀ c ∈ n.children, neg32 c.vplus = -c.vplus := fun c hc =>
    neg32_eq _ (lt_of_lt_of_le hmax.1 (hvp c hc).1) (hvp c hc).2
  have hnm : ∀ c ∈ n.children, neg32 c.vminus = -c.vminus := fun c hc =>
    neg32_eq _ (lt_of_lt_of_le hmax.1 (hvm c hc).1) (hvm c hc).2
  have hns : ∀ c ∈ n.children, c.score ≠ INT32_MIN → neg32 c.score = -c.score :=
    fun c hc hv => neg32_eq _ (lt_of_le_of_ne (hsc c hc).1 (Ne.symm hv)) (hsc c hc).2
  obtain ⟨c0, hc0⟩ := List.exists_mem_of_ne_nil _ hne
  have hmem : ∀ k y, n.children.get? k = some y → y ∈ n.children := fun k y h =>
    List.get?_mem h
  refine ⟨⟨fun c hc => ?_, ?_⟩, ⟨fun c hc => ?_, ?_⟩, ⟨c1, fun c hc hv => ?_⟩, ⟨?_, ?_⟩, ?_, ?_,
    rfl, rfl, rfl, rfl, rfl, rfl⟩
  · rw [← hnp c hc]
    exact a2 c hc
  · rcases a3 with h | ⟨c, hc, h⟩
    · refine ⟨c0, hc0, ?_⟩
      have h1 := a2 c0 hc0
      rw [hnp c0 hc0] at h1
      have h2 := (hvp c0 hc0).2
      show (Node.backpropLoop n.children 0 (-INT32_MAX) (-INT32_MAX) (-INT32_MAX) none).1 = _
      omega
    · exact ⟨c, hc, by rw [← hnp c hc]; exact h⟩
  · rw [← hnm c hc]
    exact b2 c hc
  · rcases b3 with h | ⟨c, hc, h⟩
    · refine ⟨c0, hc0, ?_⟩
      have h1 := b2 c0 hc0
      rw [hnm c0 hc0] at h1
      have h2 := (hvm c0 hc0).2
      show (Node.backpropLoop n.children 0 (-INT32_MAX) (-INT32_MAX) (-INT32_MAX) none).2.1 = _
      omega
    · exact ⟨c, hc, by rw [← hnm c hc]; exact h⟩
  · rw [← hns c hc hv]
    exact c2 c hc hv
  · intro hp
    rcases c3 with h | ⟨k, x, _, hk, _⟩
    · exact h.1
    · exact absurd (hp.symm.trans hk) (by simp)
  · intro hs
    rcases c3 with h | ⟨k, x, _, _, _, _, hlt, _⟩
    · exact h.2
    · exact absurd hs (ne_of_gt hlt)
  · intro hall
    rcases c3 with h | ⟨k, x, hk, _, hv, _⟩
    · exact h.2
    · exact absurd (hall x (hmem k x hk)) hv
  · intro k hp
    rcases c3 with h | ⟨k2, x, hk, hk2, hv, hs, hlt, hfirst⟩
    · exact absurd (h.2.symm.trans hp) (by simp)
    · have hkk : k = k2 := by
        have := hk2.symm.trans hp
        simpa using this.symm
      rw [hkk]
      refine ⟨x, hk, hv, hs.trans (hns x (hmem k2 x hk) hv), fun j hj y hy hyv => ?_⟩
      rw [← hns y (hmem j y hy) hyv]
      exact hfirst j hj y hy hyv

/-- A node with three children: bounds (-10, 10), (-3, 7) and (2, 9), the first
unvisited, the others with the scores 4 and -6. -/
theorem Node.backprop_example :
    ({ Node.create NullMove 0 0 with children :=
        [{ Node.create NullMove 0 INT32_MIN with vminus := -10, vplus := 10 },
         { Node.create NullMove 0 4 with vminus := -3, vplus := 7 },
         { Node.create NullMove 0 (-6) with vminus := 2, vplus := 9 }] } : Node).backprop.vminus = -7 ∧
    ({ Node.create NullMove 0 0 with children :=
        [{ Node.create NullMove 0 INT32_MIN with vminus := -10, vplus := 10 },
         { Node.create NullMove 0 4 with vminus := -3, vplus := 7 },
         { Node.create NullMove 0 (-6) with vminus := 2, vplus := 9 }] } : Node).backprop.vplus = 10 ∧
    ({ Node.create NullMove 0 0 with children :=
        [{ Node.create NullMove 0 INT32_MIN with vminus := -10, vplus := 10 },
         { Node.create NullMove 0 4 with vminus := -3, vplus := 7 },
         { Node.create NullMove 0 (-6) with vminus := 2, vplus := 9 }] } : Node).backprop.score = 6 ∧
    ({ Node.create NullMove 0 0 with children :=
        [{ Node.create NullMove 0 INT32_MIN with vminus := -10, vplus := 10 },
         { Node.create NullMove 0 4 with vminus := -3, vplus := 7 },
         { Node.create NullMove 0 (-6) with vminus := 2, vplus := 9 }] } : Node).backprop.pvNode = some 2 := by
  decide

/-- Witness for `Node.backprop_spec`: the node of `Node.backprop_example`. -/
theorem Node.backprop_spec_witness :
    ({ Node.create NullMove 0 0 with children :=
        [{ Node.create NullMove 0 INT32_MIN with vminus := -10, vplus := 10 },
         { Node.create NullMove 0 4 with vminus := -3, vplus := 7 },
         { Node.create NullMove 0 (-6) with vminus := 2, vplus := 9 }] } : Node).backprop.pvNode = none ↔
    ({ Node.create NullMove 0 0 with children :=
        [{ Node.create NullMove 0 INT32_MIN with vminus := -10, vplus := 10 },
         { Node.create NullMove 0 4 with vminus := -3, vplus := 7 },
         { Node.create NullMove 0 (-6) with vminus := 2, vplus := 9 }] } : Node).backprop.score = -INT32_MAX :=
  (Node.backprop_spec
    { Node.create NullMove 0 0 with children :=
        [{ Node.create NullMove 0 INT32_MIN with vminus := -10, vplus := 10 },
         { Node.create NullMove 0 4 with vminus := -3, vplus := 7 },
         { Node.create NullMove 0 (-6) with vminus := 2, vplus := 9 }] }
    (by simp) (by decide) (by decide) (by decide)).2.2.2.1

/-- Claim C29 (counterexample). A node whose two children, as `Node::expand`
creates them, are both unvisited: the child list is not empty and the bounds of
the children lie in [-INT32_MAX, INT32_MAX], no child has a score other than
`INT32_MIN`, and `Node::backprop` sets `pvNode` to null and `score` to
`-INT32_MAX`. A node whose only child has the score `INT32_MAX`: the child is
visited and the maximum of `-c.score` is `-INT32_MAX`, attained by that child,
and `pvNode` is null. -/
theorem Node.backprop_unvisited :
    (({ Node.create NullMove 0 0 with children :=
        [Node.create NullMove 0 INT32_MIN, Node.create NullMove 0 INT32_MIN] } : Node).backprop.pvNode
        = none ∧
      ({ Node.create NullMove 0 0 with children :=
        [Node.create NullMove 0 INT32_MIN, Node.create NullMove 0 INT32_MIN] } : Node).backprop.score
        = -INT32_MAX ∧
      ∀ c ∈ [Node.create NullMove 0 INT32_MIN, Node.create NullMove 0 INT32_MIN],
        c.score = INT32_MIN ∧ -INT32_MAX ≤ c.vminus ∧ c.vminus ≤ INT32_MAX ∧
          -INT32_MAX ≤ c.vplus ∧ c.vplus ≤ INT32_MAX) ∧
    (({ Node.create NullMove 0 0 with children :=
        [Node.create NullMove 0 INT32_MAX] } : Node).backprop.pvNode = none ∧
      ({ Node.create NullMove 0 0 with children :=
        [Node.create NullMove 0 INT32_MAX] } : Node).backprop.score
        = -(Node.create NullMove 0 INT32_MAX).score ∧
      (Node.create NullMove 0 INT32_MAX).score ≠ INT32_MIN) := by
  decide

/-- The method `NodeList::push_back` keeps the order of insertion: the new node
comes last in the order `foreach_node` follows. -/
theorem NodeList.push_back_eq (list : List Node) (n : Node) :
    NodeList.push_back list n = list ++ [n] := by
  cases list <;> rfl

/-- The loop of `Node::select`, from the child in place `i` on, when the child
`k` places further is the first one that is not skipped and meets the test of
the leftmost policy: that child is returned, `i` is its place, and the bounds
are written to the children up to it. -/
theorem Node.selectLoop_leftmost (alpha beta : Int) (parent : Bool) (margin : Nat) :
    ∀ (xs : List Node) (i : Nat) (done : List Node) (choice : Option Nat) (ms : Int)
      (k : Nat) (x : Node), xs.get? k = some x →
      (¬ (Node.window alpha beta x).alpha ≥ (Node.window alpha beta x).beta ∧
        (!parent || decide (i + k < margin) || decide (x.score = INT32_MIN)) = true) →
      (∀ j, j < k → ∀ y, xs.get? j = some y →
        ¬ (¬ (Node.window alpha beta y).alpha ≥ (Node.window alpha beta y).beta ∧
          (!parent || decide (i + j < margin) || decide (y.score = INT32_MIN)) = true)) →
      Node.selectLoop alpha beta parent margin xs i done choice ms =
        (some (i + k), i + k,
          done ++ ((xs.take (k + 1)).map (Node.window alpha beta) ++ xs.drop (k + 1)))
  | [], i, done, choice, ms, k, x, hk, _, _ => by simp at hk
  | x0 :: xs, i, done, choice, ms, 0, x, hk, hx, _ => by
    have hx0 : x0 = x := Option.some.inj hk
    subst hx0
    rw [Node.selectLoop]
    show (if (Node.window alpha beta x0).alpha ≥ (Node.window alpha beta x0).beta then _
      else if (!parent || decide (i < margin) || decide (x0.score = INT32_MIN)) = true then _
      else _) = _
    rw [Nat.add_zero] at hx
    rw [if_neg hx.1, if_pos hx.2]
    simp
  | x0 :: xs, i, done, choice, ms, k + 1, x, hk, hx, hfirst => by
    have ih : ∀ c m, Node.selectLoop alpha beta parent margin xs (i + 1)
        (done ++ [Node.window alpha beta x0]) c m = (some (i + (k + 1)), i + (k + 1),
          done ++ (((x0 :: xs).take (k + 1 + 1)).map (Node.window alpha beta) ++
            (x0 :: xs).drop (k + 1 + 1))) := fun c m => by
      have h := Node.selectLoop_leftmost alpha beta parent margin xs (i + 1)
        (done ++ [Node.window alpha beta x0]) c m k x hk
        (by rw [show i + 1 + k = i + (k + 1) by omega]; exact hx)
        (fun j hj y hy => by
          rw [show i + 1 + j = i + (j + 1) by omega]
          exact hfirst (j + 1) (by omega) y hy)
      rw [h, show i + 1 + k = i + (k + 1) by omega]
      simp
    have h0 := hfirst 0 (by omega) x0 rfl
    rw [Nat.add_zero] at h0
    rw [Node.selectLoop]
    show (if (Node.window alpha beta x0).alpha ≥ (Node.window alpha beta x0).beta then _
      else if (!parent || decide (i < margin) || decide (x0.score = INT32_MIN)) = true then _
      else if neg32 x0.score > ms then _ else _) = _
    by_cases hs : (Node.window alpha beta x0).alpha ≥ (Node.window alpha beta x0).beta
    · rw [if_pos hs]
      exact ih _ _
    · rw [if_neg hs, if_neg (fun h => h0 ⟨hs, h⟩)]
      by_cases hg : neg32 x0.score > ms
      · rw [if_pos hg]
        exact ih _ _
      · rw [if_neg hg]
        exact ih _ _

/-- The loop of `Node::select`, from the child in place `i` on, when no child
is both not skipped and meets the test of the leftmost policy: `i` ends as the
number of children, the bounds are written to every child, and the choice is
the greedy one: with `m` the maximum of the start value and the negated scores
of the children not skipped, either the choice is as at the start and `m` is
the start value, or the choice is the first child not skipped whose negated
score is `m`. -/
theorem Node.selectLoop_greedy (alpha beta : Int) (parent : Bool) (margin : Nat) :
    ∀ (xs : List Node) (i : Nat) (done : List Node) (choice : Option Nat) (ms : Int),
      (∀ j y, xs.get? j = some y →
        ¬ (¬ (Node.window alpha beta y).alpha ≥ (Node.window alpha beta y).beta ∧
          (!parent || decide (i + j < margin) || decide (y.score = INT32_MIN)) = true)) →
      (Node.selectLoop alpha beta parent margin xs i done choice ms).2.1 = i + xs.length ∧
      (Node.selectLoop alpha beta parent margin xs i done choice ms).2.2 =
        done ++ xs.map (Node.window alpha beta) ∧
      ∃ m, ms ≤ m ∧
        (∀ y ∈ xs, ¬ (Node.window alpha beta y).alpha ≥ (Node.window alpha beta y).beta →
          neg32 y.score ≤ m) ∧
        (((Node.selectLoop alpha beta parent margin xs i done choice ms).1 = choice ∧ m = ms) ∨
          ∃ k x, xs.get? k = some x ∧
            ¬ (Node.window alpha beta x).alpha ≥ (Node.window alpha beta x).beta ∧
            (Node.selectLoop alpha beta parent margin xs i done choice ms).1 = some (i + k) ∧
            m = neg32 x.score ∧ ms < m ∧
            ∀ j, j < k → ∀ y, xs.get? j = some y →
              ¬ (Node.window alpha beta y).alpha ≥ (Node.window alpha beta y).beta →
              neg32 y.score < m)
  | [], i, done, choice, ms, _ => by
    simp [Node.selectLoop]
  | x0 :: xs, i, done, choice, ms, hnone => by
    have hrest : ∀ j y, xs.get? j = some y →
        ¬ (¬ (Node.window alpha beta y).alpha ≥ (Node.window alpha beta y).beta ∧
          (!parent || decide (i + 1 + j < margin) || decide (y.score = INT32_MIN)) = true) :=
      fun j y hy => by
        rw [show i + 1 + j = i + (j + 1) by omega]
        exact hnone (j + 1) y hy
    have h0 := hnone 0 x0 rfl
    rw [Nat.add_zero] at h0
    rw [Node.selectLoop]
    show (fun res : Option Nat × Nat × List Node => res.2.1 = i + (x0 :: xs).length ∧
        res.2.2 = done ++ (x0 :: xs).map (Node.window alpha beta) ∧
        ∃ m, ms ≤ m ∧
        (∀ y ∈ x0 :: xs, ¬ (Node.window alpha beta y).alpha ≥ (Node.window alpha beta y).beta →
          neg32 y.score ≤ m) ∧
        ((res.1 = choice ∧ m = ms) ∨
          ∃ k x, (x0 :: xs).get? k = some x ∧
            ¬ (Node.window alpha beta x).alpha ≥ (Node.window alpha beta x).beta ∧
            res.1 = some (i + k) ∧ m = neg32 x.score ∧ ms < m ∧
            ∀ j, j < k → ∀ y, (x0 :: xs).get? j = some y →
              ¬ (Node.window alpha beta y).alpha ≥ (Node.window alpha beta y).beta →
              neg32 y.score < m))
      (if (Node.window alpha beta x0).alpha ≥ (Node.window alpha beta x0).beta then
          Node.selectLoop alpha beta parent margin xs (i + 1)
            (done ++ [Node.window alpha beta x0]) choice ms
        else if (!parent || decide (i < margin) || decide (x0.score = INT32_MIN)) = true then
          (some i, i, done ++ Node.window alpha beta x0 :: xs)
        else if neg32 x0.score > ms then
          Node.selectLoop alpha beta parent margin xs (i + 1)
            (done ++ [Node.window alpha beta x0]) (some i) (neg32 x0.score)
        else Node.selectLoop alpha beta parent margin xs (i + 1)
            (done ++ [Node.window alpha beta x0]) choice ms)
    by_cases hs : (Node.window alpha beta x0).alpha ≥ (Node.window alpha beta x0).beta
    · rw [if_pos hs]
      obtain ⟨e1, e2, m, m1, m2, m3⟩ := Node.selectLoop_greedy alpha beta parent margin xs (i + 1)
        (done ++ [Node.window alpha beta x0]) choice ms hrest
      refine ⟨by rw [e1, List.length_cons]; omega, by rw [e2]; simp, m, m1, ?_, ?_⟩
      · intro y hy hns
        rcases List.mem_cons.mp hy with h | h
        · rw [h] at hns
          exact absurd hs hns
        · exact m2 y h hns
      · rcases m3 with h | ⟨k, x, hk, hx, hc, hm, hlt, hfirst⟩
        · exact Or.inl h
        · refine Or.inr ⟨k + 1, x, hk, hx, by rw [hc]; congr 1; omega, hm, hlt,
            fun j hj y hy hns => ?_⟩
          cases j with
          | zero =>
            have hyx : y = x0 := (Option.some.inj hy).symm
            rw [hyx] at hns
            exact absurd hs hns
          | succ j => exact hfirst j (by omega) y hy hns
    · rw [if_neg hs, if_neg (fun h => h0 ⟨hs, h⟩)]
      by_cases hg : neg32 x0.score > ms
      · rw [if_pos hg]
        obtain ⟨e1, e2, m, m1, m2, m3⟩ := Node.selectLoop_greedy alpha beta parent margin xs
          (i + 1) (done ++ [Node.window alpha beta x0]) (some i) (neg32 x0.score) hrest
        refine ⟨by rw [e1, List.length_cons]; omega, by rw [e2]; simp, m,
          le_of_lt (lt_of_lt_of_le hg m1), ?_, Or.inr ?_⟩
        · intro y hy hns
          rcases List.mem_cons.mp hy with h | h
          · rw [h]
            exact m1
          · exact m2 y h hns
        · rcases m3 with ⟨h1, h2⟩ | ⟨k, x, hk, hx, hc, hm, hlt, hfirst⟩
          · exact ⟨0, x0, rfl, hs, h1, h2, by rw [h2]; exact hg,
              fun j hj => absurd hj (Nat.not_lt_zero j)⟩
          · refine ⟨k + 1, x, hk, hx, by rw [hc]; congr 1; omega, hm, lt_trans hg hlt,
              fun j hj y hy hns => ?_⟩
            cases j with
            | zero =>
              have hyx : y = x0 := (Option.some.inj hy).symm
              rw [hyx]
              exact hlt
            | succ j => exact hfirst j (by omega) y hy hns
      · rw [if_neg hg]
        obtain ⟨e1, e2, m, m1, m2, m3⟩ := Node.selectLoop_greedy alpha beta parent margin xs
          (i + 1) (done ++ [Node.window alpha beta x0]) choice ms hrest
        have hx0 : neg32 x0.score ≤ ms := by omega
        refine ⟨by rw [e1, List.length_cons]; omega, by rw [e2]; simp, m, m1, ?_, ?_⟩
        · intro y hy hns
          rcases List.mem_cons.mp hy with h | h
          · rw [h]
            exact le_trans hx0 m1
          · exact m2 y h hns
        · rcases m3 with h | ⟨k, x, hk, hx, hc, hm, hlt, hfirst⟩
          · exact Or.inl h
          · refine Or.inr ⟨k + 1, x, hk, hx, by rw [hc]; congr 1; omega, hm, hlt,
              fun j hj y hy hns => ?_⟩
            cases j with
            | zero =>
              have hyx : y = x0 := (Option.some.inj hy).symm
              rw [hyx]
              exact lt_of_le_of_lt hx0 hlt
            | succ j => exact hfirst j (by omega) y hy hns

/-- The child list of the examples: four children with the bounds (-5, 5),
(3, 3), (-20, 20) and (-9, 9) and the scores 4, 1, -6 and -6. -/
theorem Node.select_example :
    (({ Node.create NullMove 0 0 with alpha := -10, beta := 10, children :=
        [{ Node.create NullMove 0 4 with vminus := -5, vplus := 5 },
         { Node.create NullMove 0 1 with vminus := 3, vplus := 3 },
         { Node.create NullMove 0 (-6) with vminus := -20, vplus := 20 },
         { Node.create NullMove 0 (-6) with vminus := -9, vplus := 9 }] } : Node).select 0).1
      = some 2 ∧
    (({ Node.create NullMove 0 0 with alpha := -10, beta := 10, children :=
        [{ Node.create NullMove 0 4 with vminus := -5, vplus := 5 },
         { Node.create NullMove 0 1 with vminus := 3, vplus := 3 },
         { Node.create NullMove 0 (-6) with vminus := -20, vplus := 20 },
         { Node.create NullMove 0 (-6) with vminus := -9, vplus := 9 }] } : Node).select 0).2.1
      = 4 ∧
    (({ Node.create NullMove 0 0 with alpha := -10, beta := 10, children :=
        [{ Node.create NullMove 0 4 with vminus := -5, vplus := 5 },
         { Node.create NullMove 0 1 with vminus := 3, vplus := 3 },
         { Node.create NullMove 0 (-6) with vminus := -20, vplus := 20 },
         { Node.create NullMove 0 (-6) with vminus := -9, vplus := 9 }] } : Node).select
        0).2.2.children.map (fun c => (c.alpha, c.beta))
      = [(-5, 5), (3, 3), (-10, 10), (-9, 9)] ∧
    (({ Node.create NullMove 0 0 with alpha := -10, beta := 10, children :=
        [{ Node.create NullMove 0 4 with vminus := -5, vplus := 5 },
         { Node.create NullMove 0 1 with vminus := 3, vplus := 3 },
         { Node.create NullMove 0 (-6) with vminus := -20, vplus := 20 },
         { Node.create NullMove 0 (-6) with vminus := -9, vplus := 9 }] } : Node).select 1).1
      = some 0 ∧
    (({ Node.create NullMove 0 0 with alpha := -10, beta := 10, children :=
        [{ Node.create NullMove 0 4 with vminus := -5, vplus := 5 },
         { Node.create NullMove 0 1 with vminus := 3, vplus := 3 },
         { Node.create NullMove 0 (-6) with vminus := -20, vplus := 20 },
         { Node.create NullMove 0 (-6) with vminus := -9, vplus := 9 }] } : Node).select
        1).2.2.children.map (fun c => (c.alpha, c.beta))
      = [(-5, 5), (-2147483647, 2147483647), (-2147483647, 2147483647),
         (-2147483647, 2147483647)] := by
  decide

/-- Claim C30. For a node whose bounds `alpha` and `beta` lie in
[-INT32_MAX, INT32_MAX], whose children have `int32_t` scores, and a remaining
depth `r` below 2^31: `Node::select(i, r)` goes through the children in the
order of insertion and writes to each one it reaches the bounds
`alpha = max(-beta, c.vminus)` and `beta = min(-alpha, c.vplus)` of the node;
it returns the first child that is not skipped (not `alpha >= beta`) and for
which the node is the root or the place is below `2 * r` or the score is
`INT32_MIN`, with `i` the place of that child; when there is no such child, it
reaches every child, leaves the number of children in `i`, returns null
exactly when every child is skipped, and otherwise returns the child not
skipped with the largest `-c.score`, the earliest of them on ties. -/
theorem Node.select_spec (n : Node) (r : Nat) (hr : r < 2 ^ 31)
    (ha : -INT32_MAX ≤ n.alpha ∧ n.alpha ≤ INT32_MAX)
    (hb : -INT32_MAX ≤ n.beta ∧ n.beta ≤ INT32_MAX)
    (hsc : ∀ c ∈ n.children, INT32_MIN ≤ c.score ∧ c.score ≤ INT32_MAX) :
    (∀ list c, NodeList.push_back list c = list ++ [c]) ∧
    (∀ x, Node.window n.alpha n.beta x =
      { x with alpha := max (-n.beta) x.vminus, beta := min (-n.alpha) x.vplus }) ∧
    (∀ k x, n.children.get? k = some x →
      (¬ max (-n.beta) x.vminus ≥ min (-n.alpha) x.vplus ∧
        (n.parent = false ∨ k < 2 * r ∨ x.score = INT32_MIN)) →
      (∀ j, j < k → ∀ y, n.children.get? j = some y →
        ¬ (¬ max (-n.beta) y.vminus ≥ min (-n.alpha) y.vplus ∧
          (n.parent = false ∨ j < 2 * r ∨ y.score = INT32_MIN))) →
      n.select r = (some k, k, { n with children := ((n.children.take (k + 1)).map
        (Node.window n.alpha n.beta) ++ n.children.drop (k + 1)) })) ∧
    ((∀ j y, n.children.get? j = some y →
        ¬ (¬ max (-n.beta) y.vminus ≥ min (-n.alpha) y.vplus ∧
          (n.parent = false ∨ j < 2 * r ∨ y.score = INT32_MIN))) →
      (n.select r).2.1 = n.children.length ∧
      (n.select r).2.2 = { n with children := n.children.map (Node.window n.alpha n.beta) } ∧
      ((n.select r).1 = none ↔
        ∀ y ∈ n.children, max (-n.beta) y.vminus ≥ min (-n.alpha) y.vplus) ∧
      (∀ k, (n.select r).1 = some k → ∃ x, n.children.get? k = some x ∧
        ¬ max (-n.beta) x.vminus ≥ min (-n.alpha) x.vplus ∧
        ∀ j y, n.children.get? j = some y →
          ¬ max (-n.beta) y.vminus ≥ min (-n.alpha) y.vplus →
          -y.score ≤ -x.score ∧ (j < k → -y.score < -x.score))) := by
  have hmax : INT32_MIN < -INT32_MAX := by decide
  have hna : neg32 n.alpha = -n.alpha := neg32_eq _ (lt_of_lt_of_le hmax ha.1) ha.2
  have hnb : neg32 n.beta = -n.beta := neg32_eq _ (lt_of_lt_of_le hmax hb.1) hb.2
  have hW : ∀ x, Node.window n.alpha n.beta x =
      { x with alpha := max (-n.beta) x.vminus, beta := min (-n.alpha) x.vplus } := fun x => by
    unfold Node.window
    rw [hna, hnb]
  have hmargin : (r <<< 1) % 2 ^ 32 = 2 * r := by
    rw [Nat.shiftLeft_eq, Nat.mod_eq_of_lt (by omega)]
    omega
  have hconv : ∀ k x,
      (¬ (Node.window n.alpha n.beta x).alpha ≥ (Node.window n.alpha n.beta x).beta ∧
        (!n.parent || decide (0 + k < (r <<< 1) % 2 ^ 32) || decide (x.score = INT32_MIN)) = true) ↔
      (¬ max (-n.beta) x.vminus ≥ min (-n.alpha) x.vplus ∧
        (n.parent = false ∨ k < 2 * r ∨ x.score = INT32_MIN)) := fun k x => by
    rw [hW x, hmargin, Nat.zero_add]
    simp [or_assoc]
  have hmem : ∀ k y, n.children.get? k = some y → y ∈ n.children := fun k y h =>
    List.get?_mem h
  refine ⟨NodeList.push_back_eq, hW, fun k x hk hx hfirst => ?_, fun hnone => ?_⟩
  · have h := Node.selectLoop_leftmost n.alpha n.beta n.parent ((r <<< 1) % 2 ^ 32) n.children 0 []
      none INT32_MIN k x hk ((hconv k x).mpr hx)
      (fun j hj y hy hc => hfirst j hj y hy ((hconv j y).mp hc))
    show ((Node.selectLoop n.alpha n.beta n.parent ((r <<< 1) % 2 ^ 32) n.children 0 []
        none INT32_MIN).1, (Node.selectLoop n.alpha n.beta n.parent ((r <<< 1) % 2 ^ 32)
        n.children 0 [] none INT32_MIN).2.1, ({ n with children := (Node.selectLoop n.alpha n.beta
        n.parent ((r <<< 1) % 2 ^ 32) n.children 0 [] none INT32_MIN).2.2 } : Node)) = _
    rw [h, Nat.zero_add, List.nil_append]
  · obtain ⟨e1, e2, m, m1, m2, m3⟩ := Node.selectLoop_greedy n.alpha n.beta n.parent
      ((r <<< 1) % 2 ^ 32) n.children 0 [] none INT32_MIN
      (fun j y hy hc => hnone j y hy ((hconv j y).mp hc))
    have hskip : ∀ y, ((Node.window n.alpha n.beta y).alpha ≥ (Node.window n.alpha n.beta y).beta)
        ↔ max (-n.beta) y.vminus ≥ min (-n.alpha) y.vplus := fun y => by rw [hW y]
    have hvis : ∀ j y, n.children.get? j = some y →
        ¬ max (-n.beta) y.vminus ≥ min (-n.alpha) y.vplus →
        neg32 y.score = -y.score ∧ INT32_MIN < -y.score := fun j y hy hns => by
      have hne : y.score ≠ INT32_MIN := fun h => hnone j y hy ⟨hns, Or.inr (Or.inr h)⟩
      have hr := hsc y (hmem j y hy)
      refine ⟨neg32_eq _ (lt_of_le_of_ne hr.1 (Ne.symm hne)) hr.2, ?_⟩
      have h2 := hr.2
      unfold INT32_MAX at h2
      unfold INT32_MIN
      omega
    refine ⟨?_, ?_, ⟨fun hn y hy => ?_, fun hall => ?_⟩, fun k hk => ?_⟩
    · show (Node.selectLoop n.alpha n.beta n.parent ((r <<< 1) % 2 ^ 32) n.children 0 []
        none INT32_MIN).2.1 = _
      rw [e1, Nat.zero_add]
    · show ({ n with children := (Node.selectLoop n.alpha n.beta n.parent ((r <<< 1) % 2 ^ 32)
        n.children 0 [] none INT32_MIN).2.2 } : Node) = _
      rw [e2, List.nil_append]
    · by_contra hns
      obtain ⟨j, hj⟩ := List.get?_of_mem hy
      rcases m3 with ⟨_, hm⟩ | ⟨k, x, _, _, hc, _⟩
      · have h1 := m2 y hy (fun h => hns ((hskip y).mp h))
        have h2 := hvis j y hj hns
        rw [h2.1, hm] at h1
        exact absurd h2.2 (not_lt.mpr h1)
      · exact absurd (hn.symm.trans hc) (by simp)
    · rcases m3 with ⟨hc, _⟩ | ⟨k, x, hk, hx, _⟩
      · exact hc
      · exact absurd (hall x (hmem k x hk)) (fun h => hx ((hskip x).mpr h))
    · rcases m3 with ⟨hc, _⟩ | ⟨k2, x, hk2, hx, hc, hm, hlt, hfirst⟩
      · exact absurd (hc.symm.trans hk) (by simp)
      · have hkk : k = k2 := by
          have := hc.symm.trans hk
          simp at this
          omega
        rw [hkk]
        have hxs : ¬ max (-n.beta) x.vminus ≥ min (-n.alpha) x.vplus :=
          fun h => hx ((hskip x).mpr h)
        have hxv := (hvis k2 x hk2 hxs).1
        refine ⟨x, hk2, hxs, fun j y hy hns => ?_⟩
        have hyv := (hvis j y hy hns).1
        rw [← hxv, ← hyv, ← hm]
        exact ⟨m2 y (hmem j y hy) (fun h => hns ((hskip y).mp h)),
          fun hj => hfirst j hj y hy (fun h => hns ((hskip y).mp h))⟩

/-- Witness for `Node.select_spec`: the node of `Node.select_example` with the
remaining depth 1, where the first child is not skipped and its place is below
the margin 2: it is returned and `i` is 0. -/
theorem Node.select_spec_witness :
    (({ Node.create NullMove 0 0 with alpha := -10, beta := 10, children :=
        [{ Node.create NullMove 0 4 with vminus := -5, vplus := 5 },
         { Node.create NullMove 0 1 with vminus := 3, vplus := 3 },
         { Node.create NullMove 0 (-6) with vminus := -20, vplus := 20 },
         { Node.create NullMove 0 (-6) with vminus := -9, vplus := 9 }] } : Node).select 1).1 = some 0 ∧
    (({ Node.create NullMove 0 0 with alpha := -10, beta := 10, children :=
        [{ Node.create NullMove 0 4 with vminus := -5, vplus := 5 },
         { Node.create NullMove 0 1 with vminus := 3, vplus := 3 },
         { Node.create NullMove 0 (-6) with vminus := -20, vplus := 20 },
         { Node.create NullMove 0 (-6) with vminus := -9, vplus := 9 }] } : Node).select 1).2.1 = 0 :=
  ⟨congrArg Prod.fst ((Node.select_spec
      { Node.create NullMove 0 0 with alpha := -10, beta := 10, children :=
        [{ Node.create NullMove 0 4 with vminus := -5, vplus := 5 },
         { Node.create NullMove 0 1 with vminus := 3, vplus := 3 },
         { Node.create NullMove 0 (-6) with vminus := -20, vplus := 20 },
         { Node.create NullMove 0 (-6) with vminus := -9, vplus := 9 }] }
      1 (by decide) (by decide) (by decide) (by decide)).2.2.1 0
      { Node.create NullMove 0 4 with vminus := -5, vplus := 5 } rfl (by decide)
      (fun j hj => absurd hj (Nat.not_lt_zero j))),
    congrArg (fun p => p.2.1) ((Node.select_spec
      { Node.create NullMove 0 0 with alpha := -10, beta := 10, children :=
        [{ Node.create NullMove 0 4 with vminus := -5, vplus := 5 },
         { Node.create NullMove 0 1 with vminus := 3, vplus := 3 },
         { Node.create NullMove 0 (-6) with vminus := -20, vplus := 20 },
         { Node.create NullMove 0 (-6) with vminus := -9, vplus := 9 }] }
      1 (by decide) (by decide) (by decide) (by decide)).2.2.1 0
      { Node.create NullMove 0 4 with vminus := -5, vplus := 5 } rfl (by decide)
      (fun j hj => absurd hj (Nat.not_lt_zero j)))⟩

end

/-! ## The alphaBeta node without a move -/

section

open Board

/-- Without an attack and without a quiet move the move list of `MoveList<AB>`
is empty, whatever the controls. -/
theorem moveListAB_nil (L : Lines) (W : Magics) (b : Board) (q : Control) (d : Int)
    (hmoves : generateMoves L W .Aggressive b = [] ∧ generateMoves L W .Passive b = []) :
    moveListAB L W b q d = [] := by
  unfold moveListAB moveListQ sortKillers sortPvmove
  rw [hmoves.1, hmoves.2]
  simp [sortKillersAux]

/-- Whether `retrieve` finds an entry does not depend on the clock. -/
theorem Zobrist.retrieve_miss_clock (t : Zobrist.TransTable) (key : Nat) (c1 c2 : Int)
    (h : Zobrist.retrieve t key c1 = .miss) : Zobrist.retrieve t key c2 = .miss := by
  unfold Zobrist.retrieve at h ⊢
  dsimp only at h ⊢
  cases h1 : Zobrist.readEntry t (key % Zobrist.tt_size) with
  | none => rw [h1] at h; simp at h
  | some e =>
    rw [h1] at h
    simp only [] at h ⊢
    by_cases he : e.key = key
    · rw [if_pos he] at h; simp at h
    · rw [if_neg he] at h ⊢
      cases h2 : Zobrist.readEntry t (key % Zobrist.tt_size ^^^ 1) with
      | none => rw [h2] at h; simp at h
      | some e2 =>
        rw [h2] at h
        simp only [] at h ⊢
        by_cases he2 : e2.key = key
        · rw [if_pos he2] at h; simp at h
        · rw [if_neg he2]

/-- At a principal-variation node none of the prunings of `alphaBetaPrune` is
tried. -/
theorem alphaBetaPrune_pv (O : Oracle) (clock : Nat → Int) (Z : Randoms) (L : Lines) (W : Magics)
    (loop : (NodeType → Bool → Alliance → Board → Int → Int → Int → Int → Engine →
        Option (Int × Board × Engine)) →
      NodeType → Bool → Alliance → Board → Int → Int → Int → Int → Frame → List Move → Engine →
        Option (Int × Board × Engine))
    (fuel : Nat)
    (recur : NodeType → Bool → Alliance → Board → Int → Int → Int → Int → Engine →
      Option (Int × Board × Engine))
    (NT : NodeType) (DO_NULL : Bool) (A : Alliance) (b : Board) (d r a o : Int) (f : Frame)
    (c : Engine) (hNT : NT ≠ .NONPV) :
    alphaBetaPrune O clock Z L W loop fuel recur NT DO_NULL A b d r a o f c =
      alphaBetaMoves O L W loop recur NT DO_NULL A b d r a o f c := by
  unfold alphaBetaPrune
  simp [hNT]

/-- The end of `alphaBeta` at a node without a move: the mate score or zero is
returned with the board and the table as they were. -/
theorem alphaBetaFinish_empty (O : Oracle) (L : Lines) (W : Magics)
    (loop : (NodeType → Bool → Alliance → Board → Int → Int → Int → Int → Engine →
        Option (Int × Board × Engine)) →
      NodeType → Bool → Alliance → Board → Int → Int → Int → Int → Frame → List Move → Engine →
        Option (Int × Board × Engine))
    (recur : NodeType → Bool → Alliance → Board → Int → Int → Int → Int → Engine →
      Option (Int × Board × Engine))
    (NT : NodeType) (DO_NULL : Bool) (A : Alliance) (b : Board) (d r a o : Int) (f : Frame)
    (c : Engine)
    (hmoves : generateMoves L W .Aggressive b = [] ∧ generateMoves L W .Passive b = []) :
    ∃ c2, alphaBetaFinish O L W loop recur NT DO_NULL A b d r a o f c =
      some (if f.inCheck = true then -O.mateEval d else 0, b, c2) ∧ c2.table = c.table := by
  unfold alphaBetaFinish
  dsimp only
  rw [moveListAB_nil L W b _ d hmoves]
  rw [if_pos (by simp)]
  by_cases hc : f.inCheck = true
  · rw [if_pos hc, if_pos hc]
    exact ⟨_, rfl, rfl⟩
  · rw [if_neg hc, if_neg hc]
    exact ⟨_, rfl, rfl⟩

/-- The end of `alphaBeta` at a node without a move: when the internal
iterative deepening, if it is made, returns with the board and the table as
they were, the mate score or zero is returned with the board and the table as
they were. -/
theorem alphaBetaMoves_empty (O : Oracle) (L : Lines) (W : Magics)
    (loop : (NodeType → Bool → Alliance → Board → Int → Int → Int → Int → Engine →
        Option (Int × Board × Engine)) →
      NodeType → Bool → Alliance → Board → Int → Int → Int → Int → Frame → List Move → Engine →
        Option (Int × Board × Engine))
    (recur : NodeType → Bool → Alliance → Board → Int → Int → Int → Int → Engine →
      Option (Int × Board × Engine))
    (NT : NodeType) (DO_NULL : Bool) (A : Alliance) (b : Board) (d r a o : Int) (f : Frame)
    (c : Engine)
    (hmoves : generateMoves L W .Aggressive b = [] ∧ generateMoves L W .Passive b = [])
    (hrec : r ≥ IID_RD → ∀ c1 : Engine, c1.table = c.table →
      ∃ v c2, recur .IID true A b d (r - IID_R) a o c1 = some (v, b, c2) ∧ c2.table = c.table) :
    ∃ c2, alphaBetaMoves O L W loop recur NT DO_NULL A b d r a o f c =
      some (if f.inCheck = true then -O.mateEval d else 0, b, c2) ∧ c2.table = c.table := by
  unfold alphaBetaMoves
  dsimp only
  by_cases hi : r ≥ IID_RD ∧ decide (NT ≠ .NONPV) = true ∧ f.ttmove = NullMove
  · rw [if_pos hi]
    obtain ⟨v, c2, h1, h2⟩ := hrec hi.1
      { c with iidMoves := Function.update c.iidMoves d.toNat NullMove } rfl
    rw [h1]
    dsimp only
    obtain ⟨c3, h3, h4⟩ := alphaBetaFinish_empty O L W loop recur NT DO_NULL A b d r a o
      _ c2 hmoves
    exact ⟨c3, h3, h4.trans h2⟩
  · rw [if_neg hi]
    exact alphaBetaFinish_empty O L W loop recur NT DO_NULL A b d r a o _ c hmoves

/-- The function `alphaBeta` at a principal-variation node with remaining depth
above zero that is no draw, has no table entry and no move: with fuel for the
remaining depth it returns with the board and the table as they were, and when
the clock has not run out at the entry, the value is the mate score in check
and zero out of check. -/
theorem alphaBeta_empty (O : Oracle) (clock : Nat → Int) (contempt : Board → Int) (Z : Randoms)
    (L : Lines) (W : Magics)
    (loop : (NodeType → Bool → Alliance → Board → Int → Int → Int → Int → Engine →
        Option (Int × Board × Engine)) →
      NodeType → Bool → Alliance → Board → Int → Int → Int → Int → Frame → List Move → Engine →
        Option (Int × Board × Engine))
    (A : Alliance) (b : Board) (d : Int) (hd : 0 ≤ d ∧ d < MaxDepth)
    (hdraw : O.isMatePossible b = true ∧ O.repeating b d = false)
    (hmoves : generateMoves L W .Aggressive b = [] ∧ generateMoves L W .Passive b = []) :
    ∀ (fuel : Nat) (NT : NodeType) (DO_NULL : Bool) (r a o : Int) (c : Engine),
      NT ≠ .NONPV → 0 < r → r ≤ (fuel : Int) →
      Zobrist.retrieve c.table b.currentState.key
        (Zobrist.toInt32 (clock c.search.clockReads)) = .miss →
      ∃ v c2, alphaBeta O clock contempt Z L W loop fuel NT DO_NULL A b d r a o c =
          some (v, b, c2) ∧ c2.table = c.table ∧
        (Zobrist.toInt32 (clock c.search.clockReads) < c.time →
          v = if attacksOn W A .King b (bitScanFwd (b.getPieces A .King)) ≠ 0 then -O.mateEval d
            else 0)
  | 0, NT, DO_NULL, r, a, o, c, _, hr, hfuel, _ => by
    exfalso
    have : ((0 : Nat) : Int) = 0 := rfl
    omega
  | fuel + 1, NT, DO_NULL, r, a, o, c, hNT, hr, hfuel, htt => by
    rw [alphaBeta]
    dsimp only
    by_cases ht : Zobrist.toInt32 (clock c.search.clockReads) ≥ c.time
    · rw [if_pos ht]
      exact ⟨_, _, rfl, rfl, fun h => absurd ht (not_le.mpr h)⟩
    · rw [if_neg ht]
      rw [if_neg (by rw [hdraw.1, hdraw.2]; simp), if_neg (not_le.mpr hr), htt]
      dsimp only
      unfold alphaBetaEval
      dsimp only
      rw [if_pos hd, alphaBetaPrune_pv _ _ _ _ _ _ _ _ _ _ _ _ _ _ _ _ _ _ hNT]
      have key : ∀ (F : Frame) (E : Engine),
          F.inCheck = decide (attacksOn W A .King b (bitScanFwd (b.getPieces A .King)) ≠ 0) →
          E.table = c.table →
          ∃ v c2, alphaBetaMoves O L W loop
              (fun NT2 n2 A2 b2 d2 r2 a2 o2 c2 =>
                alphaBeta O clock contempt Z L W loop fuel NT2 n2 A2 b2 d2 r2 a2 o2 c2)
              NT DO_NULL A b d r a o F E = some (v, b, c2) ∧ c2.table = c.table ∧
            (Zobrist.toInt32 (clock c.search.clockReads) < c.time →
              v = if attacksOn W A .King b (bitScanFwd (b.getPieces A .King)) ≠ 0
                then -O.mateEval d else 0) := by
        intro F E hF hE
        obtain ⟨c2, h1, h2⟩ := alphaBetaMoves_empty O L W loop
          (fun NT2 n2 A2 b2 d2 r2 a2 o2 c2 =>
            alphaBeta O clock contempt Z L W loop fuel NT2 n2 A2 b2 d2 r2 a2 o2 c2)
          NT DO_NULL A b d r a o F E hmoves
          (fun hi c1 hc1 => by
            obtain ⟨v, c3, e1, e2, _⟩ := alphaBeta_empty O clock contempt Z L W loop A b d hd hdraw
              hmoves fuel .IID true (r - IID_R) a o c1 (by decide)
              (by unfold IID_RD at hi; unfold IID_R; omega)
              (by unfold IID_R; push_cast at hfuel; omega)
              (by
                rw [hc1, hE]
                exact Zobrist.retrieve_miss_clock _ _ _ _ htt)
            exact ⟨v, c3, e1, e2.trans hc1⟩)
        refine ⟨_, c2, h1, h2.trans hE, fun _ => ?_⟩
        rw [hF]
        simp
      exact key _ _ rfl rfl

/-- The table `clearTrans` has no entry for a key other than zero whose two
slots lie in the table. -/
theorem Zobrist.retrieve_clearTrans (key : Nat) (clock : Int) (hk : key ≠ 0)
    (h2 : key % Zobrist.tt_size ^^^ 1 < Zobrist.tt_size) :
    Zobrist.retrieve Zobrist.clearTrans key clock = .miss := by
  have h1 : key % Zobrist.tt_size < Zobrist.tt_size := Nat.mod_lt _ (by decide)
  unfold Zobrist.retrieve Zobrist.readEntry
  dsimp only
  rw [if_pos h1]
  dsimp only
  rw [if_neg (fun h => hk h.symm), if_pos h2]
  dsimp only
  rw [if_neg (fun h => hk h.symm)]

set_option maxRecDepth 1000000 in
/-- The position `Board.stalemateBuilt`: the key is not zero and its two slots
lie in the table, Black has neither an attack nor a quiet move, and the black
king is not in check. -/
theorem Board.stalemateBuilt_facts :
    Board.stalemateBuilt.currentState.key ≠ 0 ∧
    Board.stalemateBuilt.currentState.key % Zobrist.tt_size ^^^ 1 < Zobrist.tt_size ∧
    generateMoves PathsAndRays Witchcraft .Aggressive Board.stalemateBuilt = [] ∧
    generateMoves PathsAndRays Witchcraft .Passive Board.stalemateBuilt = [] ∧
    attacksOn Witchcraft .Black .King Board.stalemateBuilt
      (bitScanFwd (Board.stalemateBuilt.getPieces .Black .King)) = 0 := by
  decide!

/-- Claim C22. A call `alphaBeta<A, NT, DO_NULL>(b, d, r, a, o, c)` with `NT`
`PV` or `ROOT`, with `r > 0` and `d` a place of `evals`, made before the
deadline at a position that is no draw by material or repetition, for which
`retrieve` finds no entry and for which neither `generateMoves<Aggressive>` nor
`generateMoves<Passive>` writes a move: with fuel for the remaining depth the
call returns `-mateEval(d)` when the king of `A` is attacked and 0 when it is
not, with the board and the transposition table as they were, whatever the
loop over the moves is. -/
theorem alphaBeta_no_moves (O : Oracle) (clock : Nat → Int) (contempt : Board → Int)
    (Z : Randoms) (L : Lines) (W : Magics)
    (loop : (NodeType → Bool → Alliance → Board → Int → Int → Int → Int → Engine →
        Option (Int × Board × Engine)) →
      NodeType → Bool → Alliance → Board → Int → Int → Int → Int → Frame → List Move → Engine →
        Option (Int × Board × Engine))
    (fuel : Nat) (NT : NodeType) (DO_NULL : Bool) (A : Alliance) (b : Board) (d r a o : Int)
    (c : Engine) (hNT : NT = .PV ∨ NT = .ROOT) (hr : 0 < r) (hfuel : r ≤ (fuel : Int))
    (hd : 0 ≤ d ∧ d < MaxDepth)
    (htime : Zobrist.toInt32 (clock c.search.clockReads) < c.time)
    (hdraw : O.isMatePossible b = true ∧ O.repeating b d = false)
    (htt : Zobrist.retrieve c.table b.currentState.key
      (Zobrist.toInt32 (clock c.search.clockReads)) = .miss)
    (hmoves : generateMoves L W .Aggressive b = [] ∧ generateMoves L W .Passive b = []) :
    ∃ c2, alphaBeta O clock contempt Z L W loop fuel NT DO_NULL A b d r a o c =
        some (if attacksOn W A .King b (bitScanFwd (b.getPieces A .King)) ≠ 0
          then -O.mateEval d else 0, b, c2) ∧
      c2.table = c.table := by
  obtain ⟨v, c2, h1, h2, h3⟩ := alphaBeta_empty O clock contempt Z L W loop A b d hd hdraw hmoves
    fuel NT DO_NULL r a o c (by rcases hNT with h | h <;> rw [h] <;> decide) hr hfuel htt
  rw [h3 htime] at h1
  exact ⟨c2, h1, h2⟩

/-- Witness for `alphaBeta_no_moves`: the stalemate `Board.stalemateBuilt` at a
`PV` node of remaining depth 5 with an empty table, where the internal
iterative deepening is made: the value is 0 and the table stays empty. -/
theorem alphaBeta_no_moves_witness :
    ∃ c2, alphaBeta (Oracle.constant 5) (fun _ => 0) (fun _ => 0) RandomsAtOne PathsAndRays
        Witchcraft (fun _ _ _ _ _ _ _ _ _ _ _ _ => none) 5 .PV true .Black Board.stalemateBuilt
        0 5 (-10) 10 Engine.cleared = some (0, Board.stalemateBuilt, c2) ∧
      c2.table = Zobrist.clearTrans := by
  obtain ⟨c2, h1, h2⟩ := alphaBeta_no_moves (Oracle.constant 5) (fun _ => 0) (fun _ => 0)
    RandomsAtOne PathsAndRays Witchcraft (fun _ _ _ _ _ _ _ _ _ _ _ _ => none) 5 .PV true .Black
    Board.stalemateBuilt 0 5 (-10) 10 Engine.cleared (Or.inl rfl) (by decide) (by decide)
    (by decide) (by decide) ⟨rfl, rfl⟩
    (Zobrist.retrieve_clearTrans _ _ Board.stalemateBuilt_facts.1 Board.stalemateBuilt_facts.2.1)
    ⟨Board.stalemateBuilt_facts.2.2.1, Board.stalemateBuilt_facts.2.2.2.1⟩
  rw [if_neg (not_not.mpr Board.stalemateBuilt_facts.2.2.2.2)] at h1
  exact ⟨c2, h1, h2⟩

end

/-! ## The transposition table and the branch-free absolute value -/

section

open Board

/-- The mask of `Witchcraft::abs` is zero: the doubled value has no bit 0 and
the value shifted down by 31 has no other bit. -/
theorem abs_mask_zero (u : Nat) (hu : u < 2 ^ 32) :
    (u <<< 1) % 2 ^ 32 &&& (u >>> 31) = 0 := by
  apply Nat.eq_of_testBit_eq
  intro i
  rw [Nat.testBit_and, Nat.zero_testBit, Nat.testBit_shiftRight, Nat.testBit_mod_two_pow,
    Nat.testBit_shiftLeft]
  cases i with
  | zero => simp
  | succ i =>
    have h : u.testBit (31 + (i + 1)) = false :=
      Nat.testBit_lt_two_pow (lt_of_lt_of_le hu (Nat.pow_le_pow_right (by decide) (by omega)))
    rw [h, Bool.and_false]

/-- The function `Witchcraft::abs` returns its argument, for every `int`. -/
theorem Witchcraft.abs_eq (x : Int) (h1 : -2147483648 ≤ x) (h2 : x ≤ 2147483647) :
    Witchcraft.abs x = x := by
  have hu : toUInt32 x < 2 ^ 32 := by
    unfold toUInt32
    have := Int.emod_lt_of_pos x (by norm_num : (0 : Int) < 2 ^ 32)
    have := Int.emod_nonneg x (by norm_num : (2 : Int) ^ 32 ≠ 0)
    omega
  unfold Witchcraft.abs
  rw [abs_mask_zero _ hu]
  unfold Zobrist.toInt32
  norm_num
  omega

/-- Claim C40 fails at every negative argument: `Witchcraft::abs(-5)` is -5,
not 5, and `Witchcraft::abs(-2147483647)` is -2147483647; at 7 the value is
7. -/
theorem Witchcraft.abs_negative :
    Witchcraft.abs (-5) = -5 ∧ Witchcraft.abs (-5) ≠ 5 ∧
    Witchcraft.abs (-2147483647) = -2147483647 ∧ Witchcraft.abs 7 = 7 := by
  decide

/-- The buddy slot `slot ^ 1` lies in the table for every primary slot but the
last one, `tt_size - 1`, whose buddy is `tt_size`. -/
theorem Zobrist.buddy_lt_iff (key : Nat) :
    key % Zobrist.tt_size ^^^ 1 < Zobrist.tt_size ↔ key % Zobrist.tt_size ≠ 1000000 := by
  have h1 : key % Zobrist.tt_size < Zobrist.tt_size := Nat.mod_lt _ (by decide)
  generalize key % Zobrist.tt_size = s at h1
  unfold Zobrist.tt_size at h1 ⊢
  have hx : s ^^^ 1 = if s % 2 = 0 then s + 1 else s - 1 := by
    apply Nat.eq_of_testBit_eq
    intro i
    rw [Nat.testBit_xor]
    cases i with
    | zero =>
      simp only [Nat.testBit_zero]
      split_ifs with h
      · have : (s + 1) % 2 = 1 := by omega
        simp [h, this]
      · have h3 : s % 2 = 1 := by omega
        have : (s - 1) % 2 = 0 := by omega
        simp [h3, this]
    | succ i =>
      have h1 : (1 : Nat).testBit (i + 1) = false := by
        rw [Nat.testBit_succ]
        simp
      rw [h1, Bool.xor_false, Nat.testBit_succ]
      split_ifs with h
      · rw [Nat.testBit_succ]
        congr 1
        omega
      · rw [Nat.testBit_succ]
        congr 1
        omega
  rw [hx]
  split_ifs with h <;> omega

/-- The slot `storage` chooses for a key whose buddy slot lies in the table:
the primary slot when it holds the key, else the buddy slot when that holds
the key, else the primary slot when its depth is below that of the buddy, else
the primary slot when `depth + (age1 >> 1) > e1->depth + (age2 >> 2)`, else the
buddy slot; the ages are the differences of the clock to the clocks of the two
entries, as `int`. -/
theorem Zobrist.storage_policy (t : Zobrist.TransTable) (key depth : Nat) (clock : Int)
    (h2 : key % Zobrist.tt_size ^^^ 1 < Zobrist.tt_size) :
    Zobrist.storage t key depth clock = some
      (if (t (key % Zobrist.tt_size)).key = key then key % Zobrist.tt_size
      else if (t (key % Zobrist.tt_size ^^^ 1)).key = key then key % Zobrist.tt_size ^^^ 1
      else if (t (key % Zobrist.tt_size)).depth < (t (key % Zobrist.tt_size ^^^ 1)).depth then
        key % Zobrist.tt_size
      else if (depth : Int) +
          (Zobrist.toInt32 (clock - (t (key % Zobrist.tt_size)).clock) >>> 1) >
          ((t (key % Zobrist.tt_size)).depth : Int) +
            (Zobrist.toInt32 (clock - (t (key % Zobrist.tt_size ^^^ 1)).clock) >>> 2) then
        key % Zobrist.tt_size
      else key % Zobrist.tt_size ^^^ 1) := by
  have h1 : key % Zobrist.tt_size < Zobrist.tt_size := Nat.mod_lt _ (by decide)
  unfold Zobrist.storage Zobrist.readEntry
  dsimp only
  rw [if_pos h1]
  dsimp only
  by_cases e1 : (t (key % Zobrist.tt_size)).key = key
  · rw [if_pos e1, if_pos e1]
  · rw [if_neg e1, if_neg e1, if_pos h2]
    dsimp only
    by_cases e2 : (t (key % Zobrist.tt_size ^^^ 1)).key = key
    · rw [if_pos e2, if_pos e2]
    · rw [if_neg e2, if_neg e2]
      by_cases e3 : (t (key % Zobrist.tt_size)).depth < (t (key % Zobrist.tt_size ^^^ 1)).depth
      · rw [if_pos e3, if_pos e3]
      · rw [if_neg e3, if_neg e3]
        split_ifs <;> rfl

/-- When the primary slot holds the key, `storage` chooses it without reading
the buddy slot. -/
theorem Zobrist.storage_primary (t : Zobrist.TransTable) (key depth : Nat) (clock : Int)
    (h : (t (key % Zobrist.tt_size)).key = key) :
    Zobrist.storage t key depth clock = some (key % Zobrist.tt_size) := by
  have h1 : key % Zobrist.tt_size < Zobrist.tt_size := Nat.mod_lt _ (by decide)
  unfold Zobrist.storage Zobrist.readEntry
  dsimp only
  rw [if_pos h1]
  dsimp only
  rw [if_pos h]

/-- The conversion to `int` keeps a difference that is an `int`. -/
theorem Zobrist.toInt32_eq (x : Int) (h1 : -2147483648 ≤ x) (h2 : x ≤ 2147483647) :
    Zobrist.toInt32 x = x := by
  unfold Zobrist.toInt32
  rw [Int.emod_eq_of_lt (by omega) (by omega)]
  omega

/-- The replacement policy where both slots are entries of the table. For a
key whose primary slot `key mod tt_size` holds the key, or whose buddy slot
`primary XOR 1` lies in the table, `Zobrist::store` writes the entry to the
primary slot when that slot holds the key; otherwise to the buddy slot when the buddy holds the key; otherwise to the
primary slot when its depth is strictly smaller than that of the buddy;
otherwise to the primary slot exactly when
`depth + (age1 >> 1) > primary.depth + (age2 >> 2)`, with `age1` and `age2` the
differences of the clock to the clocks of the primary and the buddy entry (as
`int`, the differences themselves when they are `int` values), and to the
buddy slot in the remaining case. The slot written is one of the two and lies
in the table, and no other entry of the table changes. -/
theorem Zobrist.store_policy (t : Zobrist.TransTable) (key : Nat) (value : Int)
    (type : Zobrist.EntryType) (depth : Nat) (move : Move) (clock : Int)
    (h : (t (key % Zobrist.tt_size)).key = key ∨
      key % Zobrist.tt_size ^^^ 1 < Zobrist.tt_size) :
    ∃ i t2, Zobrist.store t key value type depth move clock = some t2 ∧
      i = (if (t (key % Zobrist.tt_size)).key = key then key % Zobrist.tt_size
        else if (t (key % Zobrist.tt_size ^^^ 1)).key = key then key % Zobrist.tt_size ^^^ 1
        else if (t (key % Zobrist.tt_size)).depth < (t (key % Zobrist.tt_size ^^^ 1)).depth then
          key % Zobrist.tt_size
        else if (depth : Int) +
            (Zobrist.toInt32 (clock - (t (key % Zobrist.tt_size)).clock) >>> 1) >
            ((t (key % Zobrist.tt_size)).depth : Int) +
              (Zobrist.toInt32 (clock - (t (key % Zobrist.tt_size ^^^ 1)).clock) >>> 2) then
          key % Zobrist.tt_size
        else key % Zobrist.tt_size ^^^ 1) ∧
      (i = key % Zobrist.tt_size ∨ i = key % Zobrist.tt_size ^^^ 1) ∧
      i < Zobrist.tt_size ∧
      t2 i = ⟨key, Zobrist.storedValue value, clock, type, move, depth⟩ ∧
      (∀ j, j ≠ i → t2 j = t j) ∧
      (∀ e : Zobrist.Entry, -2147483648 ≤ clock - e.clock → clock - e.clock ≤ 2147483647 →
        Zobrist.toInt32 (clock - e.clock) = clock - e.clock) := by
  have h1 : key % Zobrist.tt_size < Zobrist.tt_size := Nat.mod_lt _ (by decide)
  have hs : Zobrist.storage t key depth clock = some
      (if (t (key % Zobrist.tt_size)).key = key then key % Zobrist.tt_size
      else if (t (key % Zobrist.tt_size ^^^ 1)).key = key then key % Zobrist.tt_size ^^^ 1
      else if (t (key % Zobrist.tt_size)).depth < (t (key % Zobrist.tt_size ^^^ 1)).depth then
        key % Zobrist.tt_size
      else if (depth : Int) +
          (Zobrist.toInt32 (clock - (t (key % Zobrist.tt_size)).clock) >>> 1) >
          ((t (key % Zobrist.tt_size)).depth : Int) +
            (Zobrist.toInt32 (clock - (t (key % Zobrist.tt_size ^^^ 1)).clock) >>> 2) then
        key % Zobrist.tt_size
      else key % Zobrist.tt_size ^^^ 1) := by
    by_cases e1 : (t (key % Zobrist.tt_size)).key = key
    · rw [Zobrist.storage_primary t key depth clock e1, if_pos e1]
    · exact Zobrist.storage_policy t key depth clock (h.resolve_left e1)
  refine ⟨_, _, by unfold Zobrist.store; rw [hs], rfl, ?_, ?_, by simp, fun j hj => by simp [hj],
    fun e a b => Zobrist.toInt32_eq _ a b⟩
  · split_ifs <;> simp
  · by_cases e1 : (t (key % Zobrist.tt_size)).key = key
    · rw [if_pos e1]
      exact h1
    · have h2 := h.resolve_left e1
      rw [if_neg e1]
      split_ifs <;> assumption

/-- Witness for `Zobrist.store_policy`: on the cleared table the key 7 has the
primary slot 7 and the buddy slot 6, neither holds the key, the depths are
equal, and a store of depth 3 at the clock 5 goes to the buddy slot, since
`3 + (5 >> 1) > 255 + (5 >> 2)` is false. -/
theorem Zobrist.store_policy_witness :
    ∃ t2, Zobrist.store Zobrist.clearTrans 7 40 .exact 3 (Move.makePlain 11 27) 5 = some t2 ∧
      t2 6 = ⟨7, Zobrist.storedValue 40, 5, .exact, Move.makePlain 11 27, 3⟩ ∧
      ∀ j, j ≠ 6 → t2 j = Zobrist.clearTrans j := by
  obtain ⟨i, t2, h1, h2, -, -, h5, h6, -⟩ := Zobrist.store_policy Zobrist.clearTrans 7 40 .exact 3
    (Move.makePlain 11 27) 5 (Or.inr (by decide))
  have hi : i = 6 := by
    rw [h2]
    decide
  rw [hi] at h5 h6
  exact ⟨t2, h1, h5, h6⟩

/-- Claim C31 fails at the key 2000001. On the table as `Zobrist::init()`
leaves it, the key has the primary slot 1000000, the last entry of the table,
which holds another key, so the policy turns to the buddy slot; the buddy slot
`1000000 ^ 1` is `tt_size`, no entry of the table, the read of its key leaves
the table, and `store` has no defined result: no entry of the table is the one
the store of this key writes by the policy. -/
theorem Zobrist.store_policy_leaves_table :
    2000001 % Zobrist.tt_size = 1000000 ∧
    (Zobrist.clearTrans 1000000).key ≠ 2000001 ∧
    1000000 ^^^ 1 = Zobrist.tt_size ∧
    Zobrist.readEntry Zobrist.clearTrans (2000001 % Zobrist.tt_size ^^^ 1) = none ∧
    Zobrist.store Zobrist.clearTrans 2000001 0 .exact 0 NullMove 0 = none := by
  refine ⟨by decide, by decide, by decide, by decide, ?_⟩
  have h1 : Zobrist.storage Zobrist.clearTrans 2000001 0 0 = none := by
    unfold Zobrist.storage
    have e1 : Zobrist.readEntry Zobrist.clearTrans (2000001 % Zobrist.tt_size) =
        some ⟨0, 0, 0, .undef, NullMove, 255⟩ := by decide
    have e2 : Zobrist.readEntry Zobrist.clearTrans (2000001 % Zobrist.tt_size ^^^ 1) = none := by
      decide
    simp only [e1, e2]
    rfl
  simp only [Zobrist.store, h1]

/-- Claim C34 fails at the key 1000000, a 64-bit value: its primary slot is
1000000, the last index of the table of `tt_size = 1000001` entries, and its
buddy slot `1000000 ^ 1` is 1000001, which is not below `tt_size`. On the table
as `Zobrist::init()` leaves it the primary slot holds another key, so both
`retrieve` and `storage` read the buddy slot, outside the table. The buddy slot
lies in the table for every key with another primary slot. -/
theorem Zobrist.buddy_slot_outside :
    (1000000 : Nat) < 2 ^ 64 ∧
    1000000 % Zobrist.tt_size = 1000000 ∧
    1000000 % Zobrist.tt_size ^^^ 1 = 1000001 ∧
    ¬ (1000000 % Zobrist.tt_size ^^^ 1 < Zobrist.tt_size) ∧
    Zobrist.readEntry Zobrist.clearTrans (1000000 % Zobrist.tt_size ^^^ 1) = none ∧
    (match Zobrist.retrieve Zobrist.clearTrans 1000000 0 with
      | .outOfBounds => True
      | _ => False) ∧
    Zobrist.storage Zobrist.clearTrans 1000000 0 0 = none ∧
    ∀ key, key % Zobrist.tt_size ≠ 1000000 → key % Zobrist.tt_size ^^^ 1 < Zobrist.tt_size := by
  refine ⟨by decide, by decide, by decide, by decide, by decide, ?_, ?_,
    fun key h => (Zobrist.buddy_lt_iff key).mpr h⟩
  · have e1 : Zobrist.readEntry Zobrist.clearTrans (1000000 % Zobrist.tt_size) =
        some ⟨0, 0, 0, .undef, NullMove, 255⟩ := by decide
    have e2 : Zobrist.readEntry Zobrist.clearTrans (1000000 % Zobrist.tt_size ^^^ 1) = none := by
      decide
    unfold Zobrist.retrieve
    simp only [e1, e2]
    trivial
  · unfold Zobrist.storage
    have e1 : Zobrist.readEntry Zobrist.clearTrans (1000000 % Zobrist.tt_size) =
        some ⟨0, 0, 0, .undef, NullMove, 255⟩ := by decide
    have e2 : Zobrist.readEntry Zobrist.clearTrans (1000000 % Zobrist.tt_size ^^^ 1) = none := by
      decide
    simp only [e1, e2]
    rfl

end

/-! ## The hash of a copied board -/

section

open Board

/-- The function `Board::hash` on a state whose en-passant square is `NullSQ`:
the square is not zero, so `ByEnPassant[64]` is read, outside the table of 64
entries. -/
theorem Board.hash_nullSQ (Z : Randoms) (b : Board) (A : Alliance)
    (h : b.currentState.epSquare = NullSQ) : b.hash Z A = none := by
  unfold Board.hash
  dsimp only
  rw [h, if_pos (by decide)]

set_option maxRecDepth 1000000 in
/-- Claim C35 fails after the first move that is no double push: on the
initial position built by `Builder<Default>` over a default-constructed
`State`, with the randoms of seed 1, the generator offers the knight move g1 to
f3; `applyMove` stores `NullSQ = 64` as the en-passant square of the new state;
and `Board::hash` on that board, as the constructor `Board(Builder)` runs it
on the copy `Board::Builder<Default>(*_b).build()`, reads `ByEnPassant[64]`,
outside the table. -/
theorem Board.hash_reads_outside :
    ∃ b, Board.build RandomsAtOne (Board.Builder.ofDefault State.default) = some b ∧
      Move.makePlain 1 18 ∈ generateMoves PathsAndRays Witchcraft .All b ∧
      (b.applyMove RandomsAtOne (Move.makePlain 1 18) State.default).currentState.epSquare =
        NullSQ ∧
      NullSQ = 64 ∧
      Board.hash RandomsAtOne (b.applyMove RandomsAtOne (Move.makePlain 1 18) State.default)
        .Black = none ∧
      Board.build RandomsAtOne
        (Board.Builder.ofBoard (b.applyMove RandomsAtOne (Move.makePlain 1 18) State.default)) =
        none := by
  have h : Option.Holds (Board.build RandomsAtOne (Board.Builder.ofDefault State.default))
      (fun b =>
        Move.makePlain 1 18 ∈ generateMoves PathsAndRays Witchcraft .All b ∧
        (b.applyMove RandomsAtOne (Move.makePlain 1 18) State.default).currentState.epSquare =
          NullSQ ∧
        NullSQ = 64 ∧
        Board.hash RandomsAtOne (b.applyMove RandomsAtOne (Move.makePlain 1 18) State.default)
          .Black = none ∧
        (Board.build RandomsAtOne
          (Board.Builder.ofBoard
            (b.applyMove RandomsAtOne (Move.makePlain 1 18) State.default))).isNone = true) := by
    decide!
  obtain ⟨b, hb, h1, h2, h3, h4, h5⟩ := h.exists
  exact ⟨b, hb, h1, h2, h3, h4, Option.isNone_iff_eq_none.mp h5⟩

end

/-! ## The history counters -/

section

open Board

/-- The shared statements of `updateHistory` and `raiseHistory` for an
increment from 0 to 4096 on a table with every counter below `UINT32_MAX`:
every counter is below `UINT32_MAX` afterwards; when the increased counter
reaches `UINT32_MAX` every counter of the table, the increased one included,
is shifted right by one; otherwise only the counter of the move changes, by
the increment. -/
theorem Control.addHistory_spec (c : Control) (A : Alliance) (origin dest : Nat) (inc : Nat)
    (ho : origin < 64) (hd : dest < 64) (hinc : inc ≤ 4096)
    (hall : ∀ a j k, j < 64 → k < 64 → c.history a j k < UINT32_MAX) :
    ∃ c2, c.addHistory A (origin : Int) (dest : Int) (inc : Int) = some c2 ∧
      (∀ a j k, j < 64 → k < 64 → c2.history a j k < UINT32_MAX) ∧
      (c.history A origin dest + inc ≥ UINT32_MAX →
        ∀ a j k, j < 64 → k < 64 → c2.history a j k =
          (if a = A ∧ j = origin ∧ k = dest then c.history A origin dest + inc
            else c.history a j k) >>> 1) ∧
      (c.history A origin dest + inc < UINT32_MAX →
        ∀ a j k, c2.history a j k =
          if a = A ∧ j = origin ∧ k = dest then c.history A origin dest + inc
          else c.history a j k) ∧
      c2.NODES = c.NODES ∧ c2.Q_PLY = c.Q_PLY ∧ c2.killers = c.killers ∧
      c2.pvMove = c.pvMove := by
  have h0 := hall A origin dest ho hd
  have hmax : UINT32_MAX = 4294967295 := rfl
  have hh : ((((c.history A origin dest : Nat) : Int) + (inc : Int)) % 2 ^ 64).toNat =
      c.history A origin dest + inc := by
    rw [Int.emod_eq_of_lt (by omega) (by omega)]
    omega
  unfold Control.addHistory
  rw [if_pos ⟨by omega, by omega, by omega, by omega⟩]
  simp only [Int.toNat_ofNat, hh]
  by_cases hge : c.history A origin dest + inc ≥ UINT32_MAX
  · rw [if_pos hge]
    refine ⟨_, rfl, fun a j k hj hk => ?_, fun _ a j k hj hk => ?_,
      fun hlt => absurd hge (not_le.mpr hlt), rfl, rfl, rfl, rfl⟩
    · show (if j < 64 ∧ k < 64 then (if a = A ∧ j = origin ∧ k = dest then
        c.history A origin dest + inc else c.history a j k) >>> 1 else _) < UINT32_MAX
      rw [if_pos ⟨hj, hk⟩, Nat.shiftRight_eq_div_pow]
      have := hall a j k hj hk
      split_ifs <;> omega
    · show (if j < 64 ∧ k < 64 then (if a = A ∧ j = origin ∧ k = dest then
        c.history A origin dest + inc else c.history a j k) >>> 1 else _) = _
      rw [if_pos ⟨hj, hk⟩]
  · rw [if_neg hge]
    refine ⟨_, rfl, fun a j k hj hk => ?_, fun h => absurd h hge, fun _ a j k => rfl,
      rfl, rfl, rfl, rfl⟩
    show (if a = A ∧ j = origin ∧ k = dest then c.history A origin dest + inc
      else c.history a j k) < UINT32_MAX
    have := hall a j k hj hk
    split_ifs <;> omega

/-- Claim C32. If every counter of `control.history` is below `UINT32_MAX`,
then after `updateHistory<A>(from, to, r)` and after `raiseHistory<A>(from, to,
r)`, for squares `from` and `to` and `0 <= r < MaxDepth`, every counter is
again below `UINT32_MAX`. When the counter `history[A][from][to]`, increased by
`r*r` for `updateHistory` and by `r` for `raiseHistory`, reaches `UINT32_MAX`,
every counter of the table (both colours, all pairs of squares, the increased
counter included) is shifted right by one; otherwise only that counter
changes, by `r*r` or by `r`. The other controls stay. -/
theorem Control.history_bounded (c : Control) (A : Alliance) (origin dest r : Nat)
    (ho : origin < 64) (hd : dest < 64) (hr : (r : Int) < MaxDepth)
    (hall : ∀ a j k, j < 64 → k < 64 → c.history a j k < UINT32_MAX) :
    (∃ c2, c.updateHistory A (origin : Int) (dest : Int) (r : Int) = some c2 ∧
      (∀ a j k, j < 64 → k < 64 → c2.history a j k < UINT32_MAX) ∧
      (c.history A origin dest + r * r ≥ UINT32_MAX →
        ∀ a j k, j < 64 → k < 64 → c2.history a j k =
          (if a = A ∧ j = origin ∧ k = dest then c.history A origin dest + r * r
            else c.history a j k) >>> 1) ∧
      (c.history A origin dest + r * r < UINT32_MAX →
        ∀ a j k, c2.history a j k =
          if a = A ∧ j = origin ∧ k = dest then c.history A origin dest + r * r
          else c.history a j k) ∧
      c2.NODES = c.NODES ∧ c2.Q_PLY = c.Q_PLY ∧ c2.killers = c.killers ∧
      c2.pvMove = c.pvMove) ∧
    (∃ c2, c.raiseHistory A (origin : Int) (dest : Int) (r : Int) = some c2 ∧
      (∀ a j k, j < 64 → k < 64 → c2.history a j k < UINT32_MAX) ∧
      (c.history A origin dest + r ≥ UINT32_MAX →
        ∀ a j k, j < 64 → k < 64 → c2.history a j k =
          (if a = A ∧ j = origin ∧ k = dest then c.history A origin dest + r
            else c.history a j k) >>> 1) ∧
      (c.history A origin dest + r < UINT32_MAX →
        ∀ a j k, c2.history a j k =
          if a = A ∧ j = origin ∧ k = dest then c.history A origin dest + r
          else c.history a j k) ∧
      c2.NODES = c.NODES ∧ c2.Q_PLY = c.Q_PLY ∧ c2.killers = c.killers ∧
      c2.pvMove = c.pvMove) := by
  have hr2 : r < 65 := by
    unfold MaxDepth at hr
    omega
  have hsq : r * r ≤ 4096 := by
    have : r ≤ 64 := by omega
    calc r * r ≤ 64 * 64 := Nat.mul_le_mul this this
      _ = 4096 := rfl
  constructor
  · have h := Control.addHistory_spec c A origin dest (r * r) ho hd hsq hall
    unfold Control.updateHistory
    have hc : ((r : Int) * (r : Int)) = ((r * r : Nat) : Int) := by push_cast; rfl
    rw [hc, if_pos ⟨by omega, by omega⟩]
    exact h
  · exact Control.addHistory_spec c A origin dest r ho hd (by omega) hall

/-- Witness for `Control.history_bounded`: on the cleared controls, after
`updateHistory<White>(12, 28, 3)` the counter of the move is 9. -/
theorem Control.history_bounded_witness :
    ∃ c2, (Control.cleared 8).updateHistory .White 12 28 3 = some c2 ∧
      c2.history .White 12 28 = 9 ∧
      ∀ a j k, j < 64 → k < 64 → c2.history a j k < UINT32_MAX := by
  obtain ⟨⟨c2, h1, h2, -, h4, -⟩, -⟩ := Control.history_bounded (Control.cleared 8) .White 12 28 3
    (by decide) (by decide) (by decide) (fun _ _ _ _ _ => Nat.zero_lt_succ _)
  refine ⟨c2, h1, ?_, h2⟩
  rw [h4 (by decide)]
  decide

end

/-! ## Castling rights under moves -/

section

open Board

/-- The castling rights that `applyMove<A>` leaves in the new state: those of
the previous state, cut by `CastlingOff[them][side]` when a rook is captured on
a rook corner of the other side, then cut by `CastlingOff[us][side]` when a
rook leaves a rook corner of the side that moves, or by
`CastlingOffByAlliance[us]` when a king moves or the move is a castling
move. -/
theorem Board.applyMoveFor_castlingRights (Z : Randoms) (A : Alliance) (b : Board) (m : Move)
    (s : State) :
    (applyMoveFor Z A b m s).currentState.castlingRights =
      if m.isPromotion = true then
        (if b.mailbox m.destination = .Rook then
          if m.destination = (defaults A.flip).kingSideRookOrigin then
            b.currentState.castlingRights &&& CastlingOffKingSide A.flip
          else if m.destination = (defaults A.flip).queenSideRookOrigin then
            b.currentState.castlingRights &&& CastlingOffQueenSide A.flip
          else b.currentState.castlingRights
        else b.currentState.castlingRights)
      else if m.moveType = MoveType.FreeForm.toNat ∨ m.moveType = MoveType.PawnJump.toNat then
        (if b.mailbox m.origin = .Rook then
          if (defaults A).kingSideRookOrigin = m.origin then
            (if b.mailbox m.destination = .Rook then
              if m.destination = (defaults A.flip).kingSideRookOrigin then
                b.currentState.castlingRights &&& CastlingOffKingSide A.flip
              else if m.destination = (defaults A.flip).queenSideRookOrigin then
                b.currentState.castlingRights &&& CastlingOffQueenSide A.flip
              else b.currentState.castlingRights
            else b.currentState.castlingRights) &&& CastlingOffKingSide A
          else if (defaults A).queenSideRookOrigin = m.origin then
            (if b.mailbox m.destination = .Rook then
              if m.destination = (defaults A.flip).kingSideRookOrigin then
                b.currentState.castlingRights &&& CastlingOffKingSide A.flip
              else if m.destination = (defaults A.flip).queenSideRookOrigin then
                b.currentState.castlingRights &&& CastlingOffQueenSide A.flip
              else b.currentState.castlingRights
            else b.currentState.castlingRights) &&& CastlingOffQueenSide A
          else
            (if b.mailbox m.destination = .Rook then
              if m.destination = (defaults A.flip).kingSideRookOrigin then
                b.currentState.castlingRights &&& CastlingOffKingSide A.flip
              else if m.destination = (defaults A.flip).queenSideRookOrigin then
                b.currentState.castlingRights &&& CastlingOffQueenSide A.flip
              else b.currentState.castlingRights
            else b.currentState.castlingRights)
        else if b.mailbox m.origin = .King then
          (if b.mailbox m.destination = .Rook then
            if m.destination = (defaults A.flip).kingSideRookOrigin then
              b.currentState.castlingRights &&& CastlingOffKingSide A.flip
            else if m.destination = (defaults A.flip).queenSideRookOrigin then
              b.currentState.castlingRights &&& CastlingOffQueenSide A.flip
            else b.currentState.castlingRights
          else b.currentState.castlingRights) &&& CastlingOffByAlliance A
        else
          (if b.mailbox m.destination = .Rook then
            if m.destination = (defaults A.flip).kingSideRookOrigin then
              b.currentState.castlingRights &&& CastlingOffKingSide A.flip
            else if m.destination = (defaults A.flip).queenSideRookOrigin then
              b.currentState.castlingRights &&& CastlingOffQueenSide A.flip
            else b.currentState.castlingRights
          else b.currentState.castlingRights))
      else if m.moveType = MoveType.Castling.toNat then
        (if b.mailbox m.destination = .Rook then
          if m.destination = (defaults A.flip).kingSideRookOrigin then
            b.currentState.castlingRights &&& CastlingOffKingSide A.flip
          else if m.destination = (defaults A.flip).queenSideRookOrigin then
            b.currentState.castlingRights &&& CastlingOffQueenSide A.flip
          else b.currentState.castlingRights
        else b.currentState.castlingRights) &&& CastlingOffByAlliance A
      else
        (if b.mailbox m.destination = .Rook then
          if m.destination = (defaults A.flip).kingSideRookOrigin then
            b.currentState.castlingRights &&& CastlingOffKingSide A.flip
          else if m.destination = (defaults A.flip).queenSideRookOrigin then
            b.currentState.castlingRights &&& CastlingOffQueenSide A.flip
          else b.currentState.castlingRights
        else b.currentState.castlingRights) := by
  cases hprom : m.isPromotion with
  | true =>
    unfold applyMoveFor
    simp only [hprom, if_true]
    try simp
  | false =>
    by_cases h1 : m.moveType = MoveType.FreeForm.toNat ∨ m.moveType = MoveType.PawnJump.toNat
    · by_cases h3 : m.moveType = MoveType.PawnJump.toNat
      · unfold applyMoveFor
        simp only [hprom, Bool.false_eq_true, if_false, if_pos h1, if_pos h3]
        try simp
      · unfold applyMoveFor
        simp only [hprom, Bool.false_eq_true, if_false, if_pos h1, if_neg h3]
        try simp
    · by_cases h2 : m.moveType = MoveType.Castling.toNat
      · unfold applyMoveFor
        simp only [hprom, Bool.false_eq_true, if_false, if_neg h1, if_pos h2]
        try simp
      · unfold applyMoveFor
        simp only [hprom, Bool.false_eq_true, if_false, if_neg h1, if_neg h2]
        try simp

/-- A value cut by a mask has only bits of the value. -/
theorem testBit_of_and_mask {x m i : Nat} (h : (x &&& m).testBit i = true) :
    x.testBit i = true := by
  rw [Nat.testBit_and] at h
  exact (Bool.and_eq_true _ _ |>.mp h).1

/-- The castling rights after `applyMove<A>` have only bits of the rights
before. -/
theorem Board.applyMoveFor_rights_subset (Z : Randoms) (A : Alliance) (b : Board) (m : Move)
    (s : State) (i : Nat)
    (h : (applyMoveFor Z A b m s).currentState.castlingRights.testBit i = true) :
    b.currentState.castlingRights.testBit i = true := by
  rw [Board.applyMoveFor_castlingRights] at h
  split_ifs at h <;>
    first
    | exact h
    | exact testBit_of_and_mask h
    | exact testBit_of_and_mask (testBit_of_and_mask h)

/-- The castling rights after a king move or a castling move of `A` hold
neither right of `A`. -/
theorem Board.applyMoveFor_rights_cleared (Z : Randoms) (A : Alliance) (b : Board) (m : Move)
    (s : State) (hprom : m.isPromotion = false)
    (h : m.moveType = MoveType.Castling.toNat ∨
      ((m.moveType = MoveType.FreeForm.toNat ∨ m.moveType = MoveType.PawnJump.toNat) ∧
        b.mailbox m.origin = .King)) :
    ∃ x, (applyMoveFor Z A b m s).currentState.castlingRights = x &&& CastlingOffByAlliance A := by
  rw [Board.applyMoveFor_castlingRights, hprom]
  simp only [Bool.false_eq_true, if_false]
  rcases h with h | ⟨h1, h2⟩
  · have hn : ¬ (m.moveType = MoveType.FreeForm.toNat ∨ m.moveType = MoveType.PawnJump.toNat) := by
      rw [h]
      decide
    rw [if_neg hn, if_pos h]
    exact ⟨_, rfl⟩
  · rw [if_pos h1, h2, if_neg (by decide), if_pos rfl]
    exact ⟨_, rfl⟩

/-- Claim C39. For every move `m` and every state object `s`, the castling
rights of the state pushed by `applyMove(m, s)` are a bitwise subset of those
of the previous state; `applyNullMove(s)` copies them unchanged; and after a
castling move, or a move of the type `FreeForm` whose origin holds a king, the
side that moved holds neither castling right, while the rights of the other
side are those left by the capture rule. -/
theorem Board.applyMove_castlingRights (Z : Randoms) (b : Board) (m : Move) (s : State) :
    (b.applyMove Z m s).currentState.castlingRights &&& b.currentState.castlingRights =
      (b.applyMove Z m s).currentState.castlingRights ∧
    (∀ i, (b.applyMove Z m s).currentState.castlingRights.testBit i = true →
      b.currentState.castlingRights.testBit i = true) ∧
    (b.applyNullMove Z s).currentState.castlingRights = b.currentState.castlingRights ∧
    (m.isPromotion = false →
      (m.moveType = MoveType.Castling.toNat ∨
        ((m.moveType = MoveType.FreeForm.toNat ∨ m.moveType = MoveType.PawnJump.toNat) ∧
          b.mailbox m.origin = .King)) →
      (b.applyMove Z m s).hasCastlingRightsKingSide b.currentPlayerAlliance = false ∧
      (b.applyMove Z m s).hasCastlingRightsQueenSide b.currentPlayerAlliance = false) := by
  have hsub : ∀ i, (b.applyMove Z m s).currentState.castlingRights.testBit i = true →
      b.currentState.castlingRights.testBit i = true := fun i h => by
    rw [Board.applyMove_eq] at h
    exact Board.applyMoveFor_rights_subset Z _ b m s i h
  refine ⟨?_, hsub, ?_, fun hprom h => ?_⟩
  · apply Nat.eq_of_testBit_eq
    intro i
    rw [Nat.testBit_and]
    cases hb : (b.applyMove Z m s).currentState.castlingRights.testBit i
    · rfl
    · rw [hsub i hb]
      rfl
  · unfold Board.applyNullMove
    cases b.currentPlayerAlliance <;> rfl
  · obtain ⟨x, hx⟩ := Board.applyMoveFor_rights_cleared Z b.currentPlayerAlliance b m s hprom h
    rw [Board.applyMove_eq]
    have hx2 : (applyMoveFor Z b.currentPlayerAlliance b m s).currentState.castlingRights =
        ({ b with currentState := { b.currentState with castlingRights := x } } :
          Board).currentState.castlingRights &&& CastlingOffByAlliance b.currentPlayerAlliance := hx
    obtain ⟨c1, c2, -, -⟩ := castlingOff_rights b.currentPlayerAlliance _ _ hx2
    exact ⟨c1, c2⟩

set_option maxRecDepth 1000000 in
/-- Witness for `Board.applyMove_castlingRights`: on the position with the white
king on e1, the white rook on h1 and the black king on e8, White holding the
king-side right, after the king move e1 to e2 White holds neither right. -/
theorem Board.applyMove_castlingRights_witness :
    Board.kingAndRook.hasCastlingRightsKingSide .White = true ∧
    (Board.kingAndRook.applyMove RandomsAtOne (Move.makePlain 3 11)
      State.default).hasCastlingRightsKingSide .White = false ∧
    (Board.kingAndRook.applyMove RandomsAtOne (Move.makePlain 3 11)
      State.default).hasCastlingRightsQueenSide .White = false :=
  ⟨by decide!,
    (Board.applyMove_castlingRights RandomsAtOne Board.kingAndRook (Move.makePlain 3 11)
      State.default).2.2.2 (by decide!) (Or.inr (by decide!))⟩

end

/-! ## The segments of the attack tables -/

section

open Board

set_option maxRecDepth 1000000 in
/-- The segment sizes are the powers of two of the mask bit counts on all 64
squares. -/
theorem segmentSizes_exact :
    ∀ sq, sq < 64 →
      FancyRookSizes sq = 2 ^ highBitCount (SquareToRookBlockerMask sq) ∧
      FancyBishopSizes sq = 2 ^ highBitCount (SquareToBishopBlockerMask sq) := by
  decide!

/-- The carry-rippler loop of a square, run on the segment of the square,
ends with a table that differs from the table before only inside the
segment. -/
theorem fillAttacks_frame (directions : List Int) (blockerMask sizes : Nat → Nat) (size : Nat)
    (hchk : ∀ sq, sq < 64 → segmentChecks blockerMask sizes sq = true)
    (hexact : ∀ sq, sq < 64 → sizes sq = 2 ^ highBitCount (blockerMask sq))
    (hsize : segmentStart sizes 64 ≤ size) (sq : Nat) (hsq : sq < 64) (table : Nat → Nat) :
    ∃ filled, fillAttacks directions size (segmentStart sizes sq) (blockerMask sq) sq U64 0
        table = some filled ∧
      ∀ j, j < segmentStart sizes sq ∨ segmentStart sizes (sq + 1) ≤ j → filled j = table j := by
  have hc := hchk sq hsq
  unfold segmentChecks at hc
  simp only [Bool.and_eq_true, decide_eq_true_eq] at hc
  have hmono := segmentStart_mono sizes (sq + 1) (64 - (sq + 1))
  rw [show sq + 1 + (64 - (sq + 1)) = 64 by omega] at hmono
  have hnext : segmentStart sizes (sq + 1) = segmentStart sizes sq + sizes sq := rfl
  have hpc : highBitCount (blockerMask sq) ≤ 64 := highBitCountAux_le 64 _
  have hfuel : 2 ^ highBitCount (blockerMask sq) - pext 0 (blockerMask sq) ≤ U64 := by
    unfold U64
    have := Nat.pow_le_pow_right (by decide : 2 > 0) hpc
    omega
  have he := hexact sq hsq
  obtain ⟨filled, h1, h2⟩ := fillAttacks_spec directions size (segmentStart sizes sq)
    (blockerMask sq) sq hc.1 (by omega) U64 0 table (Nat.zero_and _) hfuel
  refine ⟨filled, h1, fun j hj => ?_⟩
  rw [h2 j, if_neg]
  omega

/-- Claim C33. For every square the segment sizes are
`FancyRookSizes[sq] = 2^popcount(SquareToRookBlockerMask[sq])` and
`FancyBishopSizes[sq] = 2^popcount(SquareToBishopBlockerMask[sq])`, so the
index extracted from any occupancy by the mask of the square is below the
segment size; the sizes sum to 102400 and 5248, the lengths of `RookAttacks`
and `BishopAttacks`; the loop of `initFancyMagics` for a square, run at the
start of the segment of the square, changes the table only inside that
segment; and after `Witchcraft::init` the magic of each square points to the
start of its segment, so that every read by `getAttacks` falls inside the
segment. -/
theorem magic_segments_tile :
    (∀ sq, sq < 64 →
      FancyRookSizes sq = 2 ^ highBitCount (SquareToRookBlockerMask sq) ∧
      FancyBishopSizes sq = 2 ^ highBitCount (SquareToBishopBlockerMask sq)) ∧
    (∀ sq, sq < 64 → ∀ occ,
      pext occ (SquareToRookBlockerMask sq) < FancyRookSizes sq ∧
      pext occ (SquareToBishopBlockerMask sq) < FancyBishopSizes sq) ∧
    (segmentStart FancyRookSizes 64 = 102400 ∧ RookAttacksLength = 102400 ∧
      segmentStart FancyBishopSizes 64 = 5248 ∧ BishopAttacksLength = 5248) ∧
    (∀ sq, sq < 64 → ∀ table, ∃ filled,
      fillAttacks RookDirections RookAttacksLength (segmentStart FancyRookSizes sq)
        (SquareToRookBlockerMask sq) sq U64 0 table = some filled ∧
      ∀ j, j < segmentStart FancyRookSizes sq ∨ segmentStart FancyRookSizes (sq + 1) ≤ j →
        filled j = table j) ∧
    (∀ sq, sq < 64 → ∀ table, ∃ filled,
      fillAttacks BishopDirections BishopAttacksLength (segmentStart FancyBishopSizes sq)
        (SquareToBishopBlockerMask sq) sq U64 0 table = some filled ∧
      ∀ j, j < segmentStart FancyBishopSizes sq ∨ segmentStart FancyBishopSizes (sq + 1) ≤ j →
        filled j = table j) ∧
    (∃ C, Witchcraft.init = some C ∧ ∀ sq, sq < 64 →
      C.RookAttackWitchcraft.get? sq =
        some ⟨segmentStart FancyRookSizes sq, SquareToRookBlockerMask sq⟩ ∧
      C.BishopAttackWitchcraft.get? sq =
        some ⟨segmentStart FancyBishopSizes sq, SquareToBishopBlockerMask sq⟩ ∧
      ∀ occ,
        segmentStart FancyRookSizes sq + pext occ (SquareToRookBlockerMask sq) <
          segmentStart FancyRookSizes (sq + 1) ∧
        segmentStart FancyRookSizes (sq + 1) ≤ RookAttacksLength ∧
        segmentStart FancyBishopSizes sq + pext occ (SquareToBishopBlockerMask sq) <
          segmentStart FancyBishopSizes (sq + 1) ∧
        segmentStart FancyBishopSizes (sq + 1) ≤ BishopAttacksLength) := by
  obtain ⟨c1, c2, c3, c4⟩ := segmentChecks_all
  have hidx : ∀ sq, sq < 64 → ∀ occ,
      pext occ (SquareToRookBlockerMask sq) < FancyRookSizes sq ∧
      pext occ (SquareToBishopBlockerMask sq) < FancyBishopSizes sq := fun sq hsq occ => by
    rw [(segmentSizes_exact sq hsq).1, (segmentSizes_exact sq hsq).2]
    exact ⟨pextAux_lt 64 _ _, pextAux_lt 64 _ _⟩
  refine ⟨segmentSizes_exact, hidx, ⟨by rw [c3]; rfl, rfl, by rw [c4]; rfl, rfl⟩,
    fun sq hsq table => fillAttacks_frame RookDirections SquareToRookBlockerMask FancyRookSizes
      RookAttacksLength c1 (fun s hs => (segmentSizes_exact s hs).1) (Nat.le_of_eq c3) sq hsq table,
    fun sq hsq table => fillAttacks_frame BishopDirections SquareToBishopBlockerMask
      FancyBishopSizes BishopAttacksLength c2 (fun s hs => (segmentSizes_exact s hs).2)
      (Nat.le_of_eq c4) sq hsq table, ?_⟩
  obtain ⟨rooks, rookAttacks, hr, hrseg, -⟩ := initSquares_spec RookDirections
    SquareToRookBlockerMask FancyRookSizes RookAttacksLength c1 (Nat.le_of_eq c3) 64 0
    (fun _ => 0) rfl
  obtain ⟨bishops, bishopAttacks, hb, hbseg, -⟩ := initSquares_spec BishopDirections
    SquareToBishopBlockerMask FancyBishopSizes BishopAttacksLength c2 (Nat.le_of_eq c4) 64 0
    (fun _ => 0) rfl
  refine ⟨⟨rooks, bishops, rookAttacks, bishopAttacks⟩, ?_, fun sq hsq => ?_⟩
  · have hr2 : initFancyMagics RookDirections SquareToRookBlockerMask FancyRookSizes
        RookAttacksLength = some (rooks, rookAttacks) := hr
    have hb2 : initFancyMagics BishopDirections SquareToBishopBlockerMask FancyBishopSizes
        BishopAttacksLength = some (bishops, bishopAttacks) := hb
    delta Witchcraft.init
    rw [hr2, hb2]
    rfl
  · have g1 := (hrseg sq (Nat.zero_le _) hsq).1
    have g2 := (hbseg sq (Nat.zero_le _) hsq).1
    rw [Nat.sub_zero] at g1 g2
    refine ⟨g1, g2, fun occ => ?_⟩
    have hm1 := segmentStart_mono FancyRookSizes (sq + 1) (64 - (sq + 1))
    have hm2 := segmentStart_mono FancyBishopSizes (sq + 1) (64 - (sq + 1))
    rw [show sq + 1 + (64 - (sq + 1)) = 64 by omega] at hm1 hm2
    have n1 : segmentStart FancyRookSizes (sq + 1) =
        segmentStart FancyRookSizes sq + FancyRookSizes sq := rfl
    have n2 : segmentStart FancyBishopSizes (sq + 1) =
        segmentStart FancyBishopSizes sq + FancyBishopSizes sq := rfl
    have := hidx sq hsq occ
    rw [c3] at hm1
    rw [c4] at hm2
    exact ⟨by omega, hm1, by omega, hm2⟩

end

/-! ## Bounds after backpropagation and selection on an open node -/

section

open Board

/-- The bounds and the score that `Node::backprop` writes, for children whose
bounds lie in [-INT32_MAX, INT32_MAX] and whose scores are `int32_t` values:
each is at least `-INT32_MAX`, at least the negated value of every child (of
every visited child for the score), and is `-INT32_MAX` or the negated value of
a child (a visited child for the score). -/
theorem Node.backprop_bounds (n : Node)
    (hvm : ∀ c ∈ n.children, -INT32_MAX ≤ c.vminus ∧ c.vminus ≤ INT32_MAX)
    (hvp : ∀ c ∈ n.children, -INT32_MAX ≤ c.vplus ∧ c.vplus ≤ INT32_MAX)
    (hsc : ∀ c ∈ n.children, INT32_MIN ≤ c.score ∧ c.score ≤ INT32_MAX) :
    (-INT32_MAX ≤ n.backprop.vminus ∧ (∀ c ∈ n.children, -c.vplus ≤ n.backprop.vminus) ∧
      (n.backprop.vminus = -INT32_MAX ∨ ∃ c ∈ n.children, n.backprop.vminus = -c.vplus)) ∧
    (-INT32_MAX ≤ n.backprop.vplus ∧ (∀ c ∈ n.children, -c.vminus ≤ n.backprop.vplus) ∧
      (n.backprop.vplus = -INT32_MAX ∨ ∃ c ∈ n.children, n.backprop.vplus = -c.vminus)) ∧
    (-INT32_MAX ≤ n.backprop.score ∧
      (∀ c ∈ n.children, c.score ≠ INT32_MIN → -c.score ≤ n.backprop.score) ∧
      (n.backprop.score = -INT32_MAX ∨
        ∃ c ∈ n.children, c.score ≠ INT32_MIN ∧ n.backprop.score = -c.score)) := by
  obtain ⟨⟨a1, a2, a3⟩, ⟨b1, b2, b3⟩, c1, c2, c3⟩ :=
    Node.backpropLoop_spec n.children 0 (-INT32_MAX) (-INT32_MAX) (-INT32_MAX) none
  have hmax : INT32_MIN < -INT32_MAX := by decide
  have hnp : ∀ c ∈ n.children, neg32 c.vplus = -c.vplus := fun c hc =>
    neg32_eq _ (lt_of_lt_of_le hmax (hvp c hc).1) (hvp c hc).2
  have hnm : ∀ c ∈ n.children, neg32 c.vminus = -c.vminus := fun c hc =>
    neg32_eq _ (lt_of_lt_of_le hmax (hvm c hc).1) (hvm c hc).2
  have hns : ∀ c ∈ n.children, c.score ≠ INT32_MIN → neg32 c.score = -c.score :=
    fun c hc hv => neg32_eq _ (lt_of_le_of_ne (hsc c hc).1 (Ne.symm hv)) (hsc c hc).2
  refine ⟨⟨a1, fun c hc => ?_, ?_⟩, ⟨b1, fun c hc => ?_, ?_⟩, c1, fun c hc hv => ?_, ?_⟩
  · rw [← hnp c hc]
    exact a2 c hc
  · rcases a3 with h | ⟨c, hc, h⟩
    · exact Or.inl h
    · exact Or.inr ⟨c, hc, by rw [← hnp c hc]; exact h⟩
  · rw [← hnm c hc]
    exact b2 c hc
  · rcases b3 with h | ⟨c, hc, h⟩
    · exact Or.inl h
    · exact Or.inr ⟨c, hc, by rw [← hnm c hc]; exact h⟩
  · rw [← hns c hc hv]
    exact c2 c hc hv
  · rcases c3 with h | ⟨k, x, hk, _, hv, hs, _, _⟩
    · exact Or.inl h.1
    · have hx : x ∈ n.children := List.get?_mem hk
      exact Or.inr ⟨x, hx, hv, by rw [← hns x hx hv]; exact hs⟩

/-- Claim C38 (as amended). If every child `c` of a node satisfies
`c.vminus <= c.vplus`, every visited child (score other than `INT32_MIN`)
satisfies `c.vminus <= c.score <= c.vplus`, the bounds lie in
[-INT32_MAX, INT32_MAX] and the scores are `int32_t` values, then after
`Node::backprop` the node satisfies `vminus <= vplus` and `score <= vplus`; and
when moreover every unvisited child has the bound `vplus = INT32_MAX` that its
constructor gave it, the node satisfies `vminus <= score`. -/
theorem Node.backprop_ordered (n : Node)
    (hvm : ∀ c ∈ n.children, -INT32_MAX ≤ c.vminus ∧ c.vminus ≤ INT32_MAX)
    (hvp : ∀ c ∈ n.children, -INT32_MAX ≤ c.vplus ∧ c.vplus ≤ INT32_MAX)
    (hsc : ∀ c ∈ n.children, INT32_MIN ≤ c.score ∧ c.score ≤ INT32_MAX)
    (hord : ∀ c ∈ n.children, c.vminus ≤ c.vplus)
    (hvis : ∀ c ∈ n.children, c.score ≠ INT32_MIN → c.vminus ≤ c.score ∧ c.score ≤ c.vplus) :
    n.backprop.vminus ≤ n.backprop.vplus ∧
    n.backprop.score ≤ n.backprop.vplus ∧
    ((∀ c ∈ n.children, c.score = INT32_MIN → c.vplus = INT32_MAX) →
      n.backprop.vminus ≤ n.backprop.score) := by
  obtain ⟨⟨a1, a2, a3⟩, ⟨b1, b2, b3⟩, c1, c2, c3⟩ := Node.backprop_bounds n hvm hvp hsc
  refine ⟨?_, ?_, fun hunv => ?_⟩
  · rcases a3 with h | ⟨c, hc, h⟩
    · rw [h]
      exact b1
    · rw [h]
      have := b2 c hc
      have := hord c hc
      omega
  · rcases c3 with h | ⟨c, hc, hv, h⟩
    · rw [h]
      exact b1
    · rw [h]
      have := b2 c hc
      have := (hvis c hc hv).1
      omega
  · rcases a3 with h | ⟨c, hc, h⟩
    · rw [h]
      exact c1
    · rw [h]
      by_cases hv : c.score = INT32_MIN
      · rw [hunv c hc hv]
        exact c1
      · have := c2 c hc hv
        have := (hvis c hc hv).2
        omega

/-- Witness for `Node.backprop_ordered`: a node with an unvisited child as its
constructor leaves it and two visited children with the bounds (-3, 7) and
(2, 9) and the scores 4 and 6. -/
theorem Node.backprop_ordered_witness :
    ({ Node.create NullMove 0 0 with children :=
        [Node.create NullMove 0 INT32_MIN,
         { Node.create NullMove 0 4 with vminus := -3, vplus := 7 },
         { Node.create NullMove 0 6 with vminus := 2, vplus := 9 }] } : Node).backprop.vminus ≤
    ({ Node.create NullMove 0 0 with children :=
        [Node.create NullMove 0 INT32_MIN,
         { Node.create NullMove 0 4 with vminus := -3, vplus := 7 },
         { Node.create NullMove 0 6 with vminus := 2, vplus := 9 }] } : Node).backprop.score :=
  (Node.backprop_ordered
    { Node.create NullMove 0 0 with children :=
        [Node.create NullMove 0 INT32_MIN,
         { Node.create NullMove 0 4 with vminus := -3, vplus := 7 },
         { Node.create NullMove 0 6 with vminus := 2, vplus := 9 }] }
    (by decide) (by decide) (by decide) (by decide) (by decide)).2.2 (by decide)

/-- Claim C38 (counterexample). A node with an unvisited child whose bounds are
both -5 and a visited child whose score and bounds are all 100: every child has
`vminus <= vplus`, the visited child has `vminus <= score <= vplus`, all bounds
and the score of the visited child lie in [-INT32_MAX, INT32_MAX]; after
`Node::backprop` the node has `vminus = 5` and `score = -100`, so `vminus <=
score` fails although a child is visited. -/
theorem Node.backprop_unordered :
    (∀ c ∈ [{ Node.create NullMove 0 INT32_MIN with vminus := -5, vplus := -5 },
        { Node.create NullMove 0 100 with vminus := 100, vplus := 100 }],
      c.vminus ≤ c.vplus ∧ -INT32_MAX ≤ c.vminus ∧ c.vplus ≤ INT32_MAX ∧
        (c.score ≠ INT32_MIN → c.vminus ≤ c.score ∧ c.score ≤ c.vplus ∧
          -INT32_MAX ≤ c.score ∧ c.score ≤ INT32_MAX)) ∧
    ({ Node.create NullMove 0 0 with children :=
        [{ Node.create NullMove 0 INT32_MIN with vminus := -5, vplus := -5 },
         { Node.create NullMove 0 100 with vminus := 100, vplus := 100 }] } :
      Node).backprop.vminus = 5 ∧
    ({ Node.create NullMove 0 0 with children :=
        [{ Node.create NullMove 0 INT32_MIN with vminus := -5, vplus := -5 },
         { Node.create NullMove 0 100 with vminus := 100, vplus := 100 }] } :
      Node).backprop.score = -100 ∧
    ¬ (({ Node.create NullMove 0 0 with children :=
        [{ Node.create NullMove 0 INT32_MIN with vminus := -5, vplus := -5 },
         { Node.create NullMove 0 100 with vminus := 100, vplus := 100 }] } :
      Node).backprop.vminus ≤
      ({ Node.create NullMove 0 0 with children :=
        [{ Node.create NullMove 0 INT32_MIN with vminus := -5, vplus := -5 },
         { Node.create NullMove 0 100 with vminus := 100, vplus := 100 }] } :
      Node).backprop.score) := by
  decide

/-- The children `Node::select` leaves when it returns the child in place `k`:
the child in place `k` has its bounds written. -/
theorem get?_map_take_append_drop {α : Type} (f : α → α) (xs : List α) (k : Nat) (x : α)
    (h : xs.get? k = some x) :
    (((xs.take (k + 1)).map f) ++ xs.drop (k + 1)).get? k = some (f x) := by
  have hk : k < xs.length := by
    by_contra hc
    rw [List.get?_eq_none.mpr (by omega)] at h
    exact Option.noConfusion h
  rw [List.get?_eq_getElem?, List.getElem?_append_left (by simp; omega), List.getElem?_map,
    List.getElem?_take_of_lt (by omega), ← List.get?_eq_getElem?, h]
  rfl

/-- Claim C37. For a node with a non-empty child list whose `vminus` and
`vplus` are the values `Node::backprop` computes from its children, with all
bounds in [-INT32_MAX, INT32_MAX], `int32_t` scores, and a window with
`max(alpha, vminus) < min(beta, vplus)`: for every remaining depth,
`Node::select` returns a child (not the null pointer), and the bounds it has
just written to that child satisfy `alpha < beta`. -/
theorem Node.select_open (n : Node) (r : Nat) (hne : n.children ≠ [])
    (ha : -INT32_MAX ≤ n.alpha ∧ n.alpha ≤ INT32_MAX)
    (hb : -INT32_MAX ≤ n.beta ∧ n.beta ≤ INT32_MAX)
    (hvm : ∀ c ∈ n.children, -INT32_MAX ≤ c.vminus ∧ c.vminus ≤ INT32_MAX)
    (hvp : ∀ c ∈ n.children, -INT32_MAX ≤ c.vplus ∧ c.vplus ≤ INT32_MAX)
    (hsc : ∀ c ∈ n.children, INT32_MIN ≤ c.score ∧ c.score ≤ INT32_MAX)
    (hback : n.vminus = n.backprop.vminus ∧ n.vplus = n.backprop.vplus)
    (hwin : max n.alpha n.vminus < min n.beta n.vplus) :
    ∃ k c0 c, (n.select r).1 = some k ∧ n.children.get? k = some c0 ∧
      (n.select r).2.2.children.get? k = some c ∧
      c = Node.window n.alpha n.beta c0 ∧
      c.alpha = max (-n.beta) c0.vminus ∧ c.beta = min (-n.alpha) c0.vplus ∧
      c.alpha < c.beta := by
  have hmax : INT32_MIN < -INT32_MAX := by decide
  have hna : neg32 n.alpha = -n.alpha := neg32_eq _ (lt_of_lt_of_le hmax ha.1) ha.2
  have hnb : neg32 n.beta = -n.beta := neg32_eq _ (lt_of_lt_of_le hmax hb.1) hb.2
  have hWa : ∀ x, (Node.window n.alpha n.beta x).alpha = max (-n.beta) x.vminus := fun x => by
    unfold Node.window
    rw [hnb]
  have hWb : ∀ x, (Node.window n.alpha n.beta x).beta = min (-n.alpha) x.vplus := fun x => by
    unfold Node.window
    rw [hna]
  -- a child that is not skipped
  obtain ⟨⟨-, a2, -⟩, ⟨-, b2, b3⟩, -⟩ := Node.backprop_bounds n hvm hvp hsc
  obtain ⟨c0, hc0⟩ := List.exists_mem_of_ne_nil _ hne
  have hstar : ∃ cs ∈ n.children, n.backprop.vplus = -cs.vminus := by
    rcases b3 with h | h
    · refine ⟨c0, hc0, ?_⟩
      have h1 := b2 c0 hc0
      have h2 := (hvm c0 hc0).2
      omega
    · exact h
  obtain ⟨cs, hcs, hcsv⟩ := hstar
  have hw := hwin
  rw [max_lt_iff, lt_min_iff, lt_min_iff] at hw
  obtain ⟨⟨w1, w2⟩, w3, w4⟩ := hw
  have hopen : ¬ (Node.window n.alpha n.beta cs).alpha ≥ (Node.window n.alpha n.beta cs).beta := by
    rw [hWa, hWb, not_le, lt_min_iff, max_lt_iff, max_lt_iff]
    have h1 := a2 cs hcs
    rw [← hback.1] at h1
    rw [← hback.2] at hcsv
    exact ⟨⟨by omega, by omega⟩, by omega, by omega⟩
  obtain ⟨ks, hks⟩ := List.get?_of_mem hcs
  -- the two cases of the loop
  by_cases hleft : ∃ k, ∃ x, n.children.get? k = some x ∧
      (¬ (Node.window n.alpha n.beta x).alpha ≥ (Node.window n.alpha n.beta x).beta ∧
        (!n.parent || decide (0 + k < (r <<< 1) % 2 ^ 32) || decide (x.score = INT32_MIN)) = true)
  · have hfirst : ∀ j, j < Nat.find hleft → ¬ ∃ x, n.children.get? j = some x ∧
        (¬ (Node.window n.alpha n.beta x).alpha ≥ (Node.window n.alpha n.beta x).beta ∧
          (!n.parent || decide (0 + j < (r <<< 1) % 2 ^ 32) || decide (x.score = INT32_MIN))
            = true) := fun j hj => Nat.find_min hleft hj
    obtain ⟨x, hx, hxl⟩ := Nat.find_spec hleft
    generalize Nat.find hleft = k at hfirst hx hxl
    have hsel := Node.selectLoop_leftmost n.alpha n.beta n.parent ((r <<< 1) % 2 ^ 32) n.children
      0 [] none INT32_MIN k x hx hxl
      (fun j hj y hy hc => hfirst j hj ⟨y, hy, hc⟩)
    refine ⟨k, x, Node.window n.alpha n.beta x, ?_, hx, ?_, rfl, hWa x, hWb x, not_le.mp hxl.1⟩
    · show (Node.selectLoop n.alpha n.beta n.parent ((r <<< 1) % 2 ^ 32) n.children 0 []
        none INT32_MIN).1 = _
      rw [hsel, Nat.zero_add]
    · show (Node.selectLoop n.alpha n.beta n.parent ((r <<< 1) % 2 ^ 32) n.children 0 []
        none INT32_MIN).2.2.get? k = _
      rw [hsel, List.nil_append]
      exact get?_map_take_append_drop _ _ _ _ hx
  · have hnone : ∀ j y, n.children.get? j = some y →
        ¬ (¬ (Node.window n.alpha n.beta y).alpha ≥ (Node.window n.alpha n.beta y).beta ∧
          (!n.parent || decide (0 + j < (r <<< 1) % 2 ^ 32) || decide (y.score = INT32_MIN))
            = true) := fun j y hy hc => hleft ⟨j, y, hy, hc⟩
    obtain ⟨-, e2, m, -, m2, m3⟩ := Node.selectLoop_greedy n.alpha n.beta n.parent
      ((r <<< 1) % 2 ^ 32) n.children 0 [] none INT32_MIN hnone
    have hvis : cs.score ≠ INT32_MIN := fun h =>
      hnone ks cs hks ⟨hopen, by rw [h]; simp⟩
    have hneg : neg32 cs.score = -cs.score :=
      neg32_eq _ (lt_of_le_of_ne (hsc cs hcs).1 (Ne.symm hvis)) (hsc cs hcs).2
    rcases m3 with ⟨-, hm⟩ | ⟨k, x, hk, hx, hc, -, -, -⟩
    · exfalso
      have h1 := m2 cs hcs hopen
      rw [hneg, hm] at h1
      have h2 := (hsc cs hcs).2
      unfold INT32_MAX at h2
      unfold INT32_MIN at h1
      omega
    · refine ⟨k, x, Node.window n.alpha n.beta x, ?_, hk, ?_, rfl, hWa x, hWb x, not_le.mp hx⟩
      · show (Node.selectLoop n.alpha n.beta n.parent ((r <<< 1) % 2 ^ 32) n.children 0 []
          none INT32_MIN).1 = _
        rw [hc, Nat.zero_add]
      · show (Node.selectLoop n.alpha n.beta n.parent ((r <<< 1) % 2 ^ 32) n.children 0 []
          none INT32_MIN).2.2.get? k = _
        rw [e2, List.nil_append, List.get?_eq_getElem?, List.getElem?_map,
          ← List.get?_eq_getElem?, hk]
        rfl

/-- Witness for `Node.select_open`: a node with the window (-10, 10) and two
visited children with the bounds (-3, 7) and (2, 9), whose own bounds, as
`Node::backprop` computes them, are (-7, 3): a child is returned. -/
theorem Node.select_open_witness :
    ∃ k c0 c,
      (({ Node.create NullMove 0 0 with alpha := -10, beta := 10, vminus := -7, vplus := 3, children :=
          [{ Node.create NullMove 0 4 with vminus := -3, vplus := 7 },
           { Node.create NullMove 0 (-6) with vminus := 2, vplus := 9 }] } : Node).select 0).1
        = some k ∧
      ({ Node.create NullMove 0 0 with alpha := -10, beta := 10, vminus := -7, vplus := 3, children :=
          [{ Node.create NullMove 0 4 with vminus := -3, vplus := 7 },
           { Node.create NullMove 0 (-6) with vminus := 2, vplus := 9 }] } :
        Node).children.get? k = some c0 ∧
      c = Node.window (-10) 10 c0 ∧ c.alpha < c.beta := by
  obtain ⟨k, c0, c, h1, h2, -, h4, -, -, h7⟩ := Node.select_open
    { Node.create NullMove 0 0 with alpha := -10, beta := 10, vminus := -7, vplus := 3, children :=
          [{ Node.create NullMove 0 4 with vminus := -3, vplus := 7 },
           { Node.create NullMove 0 (-6) with vminus := 2, vplus := 9 }] }
    0 (by simp) (by decide) (by decide) (by decide) (by decide) (by decide)
    (by decide) (by decide)
  exact ⟨k, c0, c, h1, h2, h4, h7⟩

end

/-! ## The full move list as the attacks and the quiets -/

section

open Board

/-- A loop over the set bits whose body looks at the square only writes what
the body writes for the squares visited, in their order. -/
theorem forBitsAux_flatMap {α : Type} (f : Nat → List α) : ∀ (n x : Nat),
    forBitsAux n x (fun _ d => f d) = (forBitsAux n x (fun _ d => [d])).flatMap f
  | 0, _ => rfl
  | n + 1, x => by
    unfold forBitsAux
    by_cases h0 : x = 0
    · rw [if_pos h0, if_pos h0]
      rfl
    · rw [if_neg h0, if_neg h0, List.flatMap_append, forBitsAux_flatMap f n]
      simp

/-- The loop over the set bits visits no square twice. -/
theorem forBitsAux_nodup : ∀ (n x : Nat), x < 2 ^ 64 →
    (forBitsAux n x (fun _ d => [d])).Nodup
  | 0, _, _ => List.nodup_nil
  | n + 1, x, hx => by
    unfold forBitsAux
    by_cases h0 : x = 0
    · rw [if_pos h0]
      exact List.nodup_nil
    · rw [if_neg h0]
      show (bitScanFwd x :: forBitsAux n (x &&& (x - 1)) (fun _ d => [d])).Nodup
      refine List.nodup_cons.mpr ⟨fun hmem => ?_, forBitsAux_nodup n _ (and_lt_left hx)⟩
      obtain ⟨y, d, hd, -, hm⟩ := mem_forBitsAux (fun _ d => [d]) (bitScanFwd x) n
        (x &&& (x - 1)) (and_lt_left hx) hmem
      have hdd : bitScanFwd x = d := List.mem_singleton.mp hm
      rw [testBit_and_pred h0 hx, ← hdd] at hd
      simp at hd

/-- The squares visited by the loop over a board that is the union of two
boards without a common square are those visited by the loops over the two
boards. -/
theorem forBits_squares_perm {y ya yb : Nat} (hy : y < 2 ^ 64) (hya : ya < 2 ^ 64)
    (hyb : yb < 2 ^ 64) (hor : ∀ d, y.testBit d = (ya.testBit d || yb.testBit d))
    (hdis : ∀ d, ¬ (ya.testBit d = true ∧ yb.testBit d = true)) :
    (forBits y (fun _ d => [d])).Perm
      (forBits ya (fun _ d => [d]) ++ forBits yb (fun _ d => [d])) := by
  have n1 : (forBits y (fun _ d => [d])).Nodup := forBitsAux_nodup 64 y hy
  have n2 : (forBits ya (fun _ d => [d]) ++ forBits yb (fun _ d => [d])).Nodup := by
    refine List.Nodup.append (forBitsAux_nodup 64 ya hya) (forBitsAux_nodup 64 yb hyb) ?_
    intro d h1 h2
    exact hdis d ⟨(mem_forBits_squares hya d).mp h1, (mem_forBits_squares hyb d).mp h2⟩
  refine (List.perm_ext_iff_of_nodup n1 n2).mpr (fun d => ?_)
  rw [List.mem_append, mem_forBits_squares hy, mem_forBits_squares hya, mem_forBits_squares hyb,
    hor d, Bool.or_eq_true]

/-- The moves written by a loop over the destinations in the union of two
boards without a common square: as many of each as the loops over the two
boards write together. -/
theorem count_forBits_split {α : Type} [DecidableEq α] (f : Nat → List α) (m : α)
    {y ya yb : Nat} (hy : y < 2 ^ 64) (hya : ya < 2 ^ 64) (hyb : yb < 2 ^ 64)
    (hor : ∀ d, y.testBit d = (ya.testBit d || yb.testBit d))
    (hdis : ∀ d, ¬ (ya.testBit d = true ∧ yb.testBit d = true)) :
    List.count m (forBits y (fun _ d => f d)) =
      List.count m (forBits ya (fun _ d => f d)) + List.count m (forBits yb (fun _ d => f d)) := by
  unfold forBits
  rw [forBitsAux_flatMap f 64 y, forBitsAux_flatMap f 64 ya, forBitsAux_flatMap f 64 yb,
    ← List.count_append, ← List.flatMap_append]
  exact List.Perm.count_eq (List.Perm.flatMap_right f (forBits_squares_perm hy hya hyb hor hdis)) m

/-- Counting through a list of lists: when each list of the first family has
as many of a move as the lists of the two others together, so do the
concatenations. -/
theorem count_flatMap_add {α β : Type} [DecidableEq α] (m : α) (g ga gb : β → List α) :
    ∀ (l : List β), (∀ o ∈ l, List.count m (g o) = List.count m (ga o) + List.count m (gb o)) →
      List.count m (l.flatMap g) = List.count m (l.flatMap ga) + List.count m (l.flatMap gb)
  | [], _ => rfl
  | o :: l, h => by
    rw [List.flatMap_cons, List.flatMap_cons, List.flatMap_cons, List.count_append,
      List.count_append, List.count_append, h o (List.mem_cons_self _ _),
      count_flatMap_add m g ga gb l (fun o2 h2 => h o2 (List.mem_cons_of_mem _ h2))]
    omega

/-- Counting through a loop over origins: when the body of the first loop
writes, for each origin, as many of a move as the bodies of the two others
together, so do the loops. -/
theorem count_forBits_add {α : Type} [DecidableEq α] (m : α) (x : Nat)
    (g ga gb : Nat → List α)
    (h : ∀ o, List.count m (g o) = List.count m (ga o) + List.count m (gb o)) :
    List.count m (forBits x (fun _ o => g o)) =
      List.count m (forBits x (fun _ o => ga o)) + List.count m (forBits x (fun _ o => gb o)) := by
  unfold forBits
  rw [forBitsAux_flatMap g 64 x, forBitsAux_flatMap ga 64 x, forBitsAux_flatMap gb 64 x]
  exact count_flatMap_add m g ga gb _ (fun o _ => h o)

/-- On a consistent board the destinations admitted by the filter `All` are
those admitted by `Aggressive` together with those admitted by `Passive`, and
no square is admitted by both. -/
theorem Board.filters_split (b : Board) (hc : b.Consistent) (A : Alliance) :
    not64 (b.getPiecesOf A) < 2 ^ 64 ∧ b.getPiecesOf A.flip < 2 ^ 64 ∧
    not64 b.getAllPieces < 2 ^ 64 ∧
    (∀ d, (not64 (b.getPiecesOf A)).testBit d =
      ((b.getPiecesOf A.flip).testBit d || (not64 b.getAllPieces).testBit d)) ∧
    (∀ d, ¬ ((b.getPiecesOf A.flip).testBit d = true ∧
      (not64 b.getAllPieces).testBit d = true)) := by
  unfold Board.getPiecesOf Board.getAllPieces
  refine ⟨not64_lt (hc.range _ _), hc.range _ _, not64_lt hc.all_lt, fun d => ?_, fun d => ?_⟩
  · rw [testBit_not64, testBit_not64, hc.testBit_all A d]
    have h1 : (b.pieces A.flip .NullPT).testBit d = true →
        (b.pieces A .NullPT).testBit d = false := fun h => hc.union_disjoint h
    have h2 : (b.pieces A.flip .NullPT).testBit d = true → d < 64 :=
      fun h => lt_of_testBit (hc.range _ _) h
    have h3 : (b.pieces A .NullPT).testBit d = true → d < 64 :=
      fun h => lt_of_testBit (hc.range _ _) h
    cases ho : (b.pieces A .NullPT).testBit d <;> cases ht : (b.pieces A.flip .NullPT).testBit d <;>
      by_cases hd : d < 64 <;> simp_all
  · rw [testBit_not64, hc.testBit_all A d]
    rintro ⟨h1, h2⟩
    rw [h1] at h2
    have hd : d < 64 := lt_of_testBit (hc.range _ _) h1
    simp [hd] at h2

/-- Cutting three boards by the same boards keeps the first the union of the
two others, without a common square. -/
theorem split_and {p pa pb : Nat} (a c : Nat)
    (hor : ∀ d, p.testBit d = (pa.testBit d || pb.testBit d))
    (hdis : ∀ d, ¬ (pa.testBit d = true ∧ pb.testBit d = true)) :
    (∀ d, (a &&& (p &&& c)).testBit d =
      ((a &&& (pa &&& c)).testBit d || (a &&& (pb &&& c)).testBit d)) ∧
    (∀ d, ¬ ((a &&& (pa &&& c)).testBit d = true ∧ (a &&& (pb &&& c)).testBit d = true)) := by
  refine ⟨fun d => ?_, fun d => ?_⟩
  · simp only [Nat.testBit_and, hor d]
    cases a.testBit d <;> cases pa.testBit d <;> cases pb.testBit d <;> cases c.testBit d <;> rfl
  · simp only [Nat.testBit_and, Bool.and_eq_true]
    rintro ⟨⟨-, h1, -⟩, -, h2, -⟩
    exact hdis d ⟨h1, h2⟩

/-- The moves `makeMoves<A, PT>` writes under a filter that is the union of two
filters without a common square: as many of each as under the two filters
together. -/
theorem count_makeMovesOf (L : Lines) (W : Magics) (A : Alliance) (PT : PieceType) (b : Board)
    (kingGuard kingSquare checkPath : Nat) (m : Move) {p pa pb : Nat}
    (hp : p < 2 ^ 64) (hpa : pa < 2 ^ 64) (hpb : pb < 2 ^ 64)
    (hor : ∀ d, p.testBit d = (pa.testBit d || pb.testBit d))
    (hdis : ∀ d, ¬ (pa.testBit d = true ∧ pb.testBit d = true)) :
    List.count m (makeMovesOf L W A PT b kingGuard (p &&& checkPath) kingSquare) =
      List.count m (makeMovesOf L W A PT b kingGuard (pa &&& checkPath) kingSquare) +
      List.count m (makeMovesOf L W A PT b kingGuard (pb &&& checkPath) kingSquare) := by
  have hfree : ∀ x, List.count m (forBits x (fun _ origin =>
        forBits (attackBoard W PT b.getAllPieces origin &&& (p &&& checkPath)) (fun _ d =>
          [Move.makePlain origin d]))) =
      List.count m (forBits x (fun _ origin =>
        forBits (attackBoard W PT b.getAllPieces origin &&& (pa &&& checkPath)) (fun _ d =>
          [Move.makePlain origin d]))) +
      List.count m (forBits x (fun _ origin =>
        forBits (attackBoard W PT b.getAllPieces origin &&& (pb &&& checkPath)) (fun _ d =>
          [Move.makePlain origin d]))) := fun x =>
    count_forBits_add m x _ _ _ (fun o =>
      count_forBits_split (fun d => [Move.makePlain o d]) m
        (and_lt_right (and_lt_left hp)) (and_lt_right (and_lt_left hpa))
        (and_lt_right (and_lt_left hpb))
        (split_and _ _ hor hdis).1 (split_and _ _ hor hdis).2)
  have hpin : ∀ x, List.count m (forBits x (fun _ origin =>
        forBits (attackBoard W PT b.getAllPieces origin &&& (p &&& checkPath) &&&
          L.rayBoard kingSquare origin) (fun _ d => [Move.makePlain origin d]))) =
      List.count m (forBits x (fun _ origin =>
        forBits (attackBoard W PT b.getAllPieces origin &&& (pa &&& checkPath) &&&
          L.rayBoard kingSquare origin) (fun _ d => [Move.makePlain origin d]))) +
      List.count m (forBits x (fun _ origin =>
        forBits (attackBoard W PT b.getAllPieces origin &&& (pb &&& checkPath) &&&
          L.rayBoard kingSquare origin) (fun _ d => [Move.makePlain origin d]))) := fun x =>
    count_forBits_add m x _ _ _ (fun o => by
      have e : ∀ q : Nat, attackBoard W PT b.getAllPieces o &&& (q &&& checkPath) &&&
          L.rayBoard kingSquare o =
          attackBoard W PT b.getAllPieces o &&& (q &&& (checkPath &&& L.rayBoard kingSquare o)) := by
        intro q
        rw [Nat.and_assoc, Nat.and_assoc q]
      rw [e p, e pa, e pb]
      exact count_forBits_split (fun d => [Move.makePlain o d]) m
        (and_lt_right (and_lt_left hp)) (and_lt_right (and_lt_left hpa))
        (and_lt_right (and_lt_left hpb))
        (split_and _ _ hor hdis).1 (split_and _ _ hor hdis).2)
  unfold makeMovesOf
  dsimp only
  by_cases hk : PT = .Knight
  · rw [if_pos hk, if_pos hk, if_pos hk]
    exact hfree _
  · rw [if_neg hk, if_neg hk, if_neg hk, List.count_append, List.count_append, List.count_append,
      hfree]
    by_cases hz : b.getPieces A PT &&& kingGuard ≠ 0
    · rw [if_pos hz, if_pos hz, if_pos hz, hpin]
      omega
    · rw [if_neg hz, if_neg hz, if_neg hz]
      simp

/-- The moves `makePawnMoves<A, All>` writes: as many of each as
`makePawnMoves<A, Aggressive>` and `makePawnMoves<A, Passive>` write
together. -/
theorem count_makePawnMoves (L : Lines) (W : Magics) (A : Alliance) (b : Board)
    (checkPath kingGuard kingSquare : Nat) (m : Move) :
    List.count m (makePawnMoves L W A .All b checkPath kingGuard kingSquare) =
      List.count m (makePawnMoves L W A .Aggressive b checkPath kingGuard kingSquare) +
      List.count m (makePawnMoves L W A .Passive b checkPath kingGuard kingSquare) := by
  unfold makePawnMoves
  simp only [ne_eq, reduceCtorEq, not_false_eq_true, not_true_eq_false, if_true, if_false,
    List.count_append, List.count_nil, List.append_nil, List.nil_append]
  split_ifs <;> simp only [List.count_append, List.count_nil] <;> omega

/-- Cutting a board by three boards keeps the first cut the union of the two
others, without a common square. -/
theorem split_and_left {p pa pb : Nat} (a : Nat)
    (hor : ∀ d, p.testBit d = (pa.testBit d || pb.testBit d))
    (hdis : ∀ d, ¬ (pa.testBit d = true ∧ pb.testBit d = true)) :
    (∀ d, (a &&& p).testBit d = ((a &&& pa).testBit d || (a &&& pb).testBit d)) ∧
    (∀ d, ¬ ((a &&& pa).testBit d = true ∧ (a &&& pb).testBit d = true)) := by
  refine ⟨fun d => ?_, fun d => ?_⟩
  · simp only [Nat.testBit_and, hor d]
    cases a.testBit d <;> cases pa.testBit d <;> cases pb.testBit d <;> rfl
  · simp only [Nat.testBit_and, Bool.and_eq_true]
    rintro ⟨⟨-, h1⟩, -, h2⟩
    exact hdis d ⟨h1, h2⟩

/-- The moves `makeMoves<A, All>` writes on a consistent board: as many of each
as `makeMoves<A, Aggressive>` and `makeMoves<A, Passive>` write together. -/
theorem count_makeMoves (L : Lines) (W : Magics) (A : Alliance) (b : Board)
    (hc : b.Consistent) (m : Move) :
    List.count m (makeMoves L W A .All b) =
      List.count m (makeMoves L W A .Aggressive b) + List.count m (makeMoves L W A .Passive b) := by
  obtain ⟨hp, hpa, hpb, hor, hdis⟩ := Board.filters_split b hc A
  have hking : ∀ (f : Nat → List Move),
      List.count m (forBits (SquareToKingAttacks (bitScanFwd (b.getPieces A .King)) &&&
        not64 (b.getPiecesOf A)) (fun _ dest => f dest)) =
      List.count m (forBits (SquareToKingAttacks (bitScanFwd (b.getPieces A .King)) &&&
        b.getPiecesOf A.flip) (fun _ dest => f dest)) +
      List.count m (forBits (SquareToKingAttacks (bitScanFwd (b.getPieces A .King)) &&&
        not64 b.getAllPieces) (fun _ dest => f dest)) := fun f =>
    count_forBits_split f m (and_lt_right hp) (and_lt_right hpa) (and_lt_right hpb)
      (split_and_left _ hor hdis).1 (split_and_left _ hor hdis).2
  have hk := hking (fun dest => if attacksOn W A .King b dest = 0 then
    [Move.makePlain (bitScanFwd (b.getPieces A .King)) dest] else [])
  unfold makeMoves
  by_cases hdc : calculateCheck (attacksOn W A .King b (bitScanFwd (b.getPieces A .King))) =
      .DoubleCheck
  · simp only [hdc, reduceCtorEq, if_true, if_false, true_or, false_or, or_true, ne_eq,
      not_true_eq_false, not_false_eq_true, List.nil_append, List.count_append, List.count_nil]
    rw [hk]
  · by_cases hn : calculateCheck (attacksOn W A .King b (bitScanFwd (b.getPieces A .King))) =
        .None
    · simp only [hdc, hn, reduceCtorEq, if_true, if_false, true_or, false_or, or_true, or_false,
        ne_eq, not_true_eq_false, not_false_eq_true, List.count_append]
      rw [hk, count_makePawnMoves,
        count_makeMovesOf L W A .Queen b _ _ _ m hp hpa hpb hor hdis,
        count_makeMovesOf L W A .Knight b _ _ _ m hp hpa hpb hor hdis,
        count_makeMovesOf L W A .Bishop b _ _ _ m hp hpa hpb hor hdis,
        count_makeMovesOf L W A .Rook b _ _ _ m hp hpa hpb hor hdis]
      omega
    · simp only [hdc, hn, reduceCtorEq, if_true, if_false, true_or, false_or, or_true, or_false,
        ne_eq, not_true_eq_false, not_false_eq_true, List.count_append]
      rw [hk, count_makePawnMoves,
        count_makeMovesOf L W A .Queen b _ _ _ m hp hpa hpb hor hdis,
        count_makeMovesOf L W A .Knight b _ _ _ m hp hpa hpb hor hdis,
        count_makeMovesOf L W A .Bishop b _ _ _ m hp hpa hpb hor hdis,
        count_makeMovesOf L W A .Rook b _ _ _ m hp hpa hpb hor hdis]
      omega

/-- The attacks and the quiets written for one position share no move: an
attack lands on a piece of the opponent or is an en passant capture, a quiet
lands on an empty square and is no en passant capture. -/
theorem generateMoves_disjoint (L : Lines) (W : Magics) (b : Board) (hc : b.Consistent)
    (hs : b.StateFits) (m : Move) (ha : m ∈ generateMoves L W .Aggressive b) :
    m ∉ generateMoves L W .Passive b := by
  intro hp
  have h1 := (generateMoves_written L W b hc hs .Aggressive m ha).aggressive
  have h2 := (generateMoves_written L W b hc hs .Passive m hp).passive hc hs
  rcases h1 with h1 | h1
  · rw [hc.not_mem_of_empty b.currentPlayerAlliance.flip h2.1] at h1
    exact absurd h1 (by decide)
  · exact h2.2 h1

/-- Claim C36. On a board whose `allPieces` is the union of the two sides and
whose state fits its pieces, the moves written by `generateMoves<All>` are, as
a multiset, the moves written by `generateMoves<Aggressive>` together with the
moves written by `generateMoves<Passive>`, for the side to move and for either
side given to `makeMoves`; no move is in both partial lists; and the list of
`MoveList<AB>` is a permutation of the list of `MoveList<MCTS>`, whatever the
controls and the ply. -/
theorem generateMoves_all_split (L : Lines) (W : Magics) (b : Board) (hc : b.Consistent)
    (hs : b.StateFits) (q : Control) (d : Int) :
    (generateMoves L W .All b).Perm
      (generateMoves L W .Aggressive b ++ generateMoves L W .Passive b) ∧
    (∀ A, (makeMoves L W A .All b).Perm
      (makeMoves L W A .Aggressive b ++ makeMoves L W A .Passive b)) ∧
    (∀ m, List.count m (generateMoves L W .All b) =
      List.count m (generateMoves L W .Aggressive b) +
        List.count m (generateMoves L W .Passive b)) ∧
    (∀ m, m ∈ generateMoves L W .Aggressive b → m ∉ generateMoves L W .Passive b) ∧
    (moveListAB L W b q d).Perm (moveListMCTS L W b) ∧
    (∀ m, m ∈ moveListAB L W b q d ↔ m ∈ moveListMCTS L W b) ∧
    (moveListAB L W b q d).length = (moveListMCTS L W b).length := by
  have hA : ∀ A, (makeMoves L W A .All b).Perm
      (makeMoves L W A .Aggressive b ++ makeMoves L W A .Passive b) := by
    intro A
    rw [List.perm_iff_count]
    intro m
    rw [List.count_append]
    exact count_makeMoves L W A b hc m
  have hall : (generateMoves L W .All b).Perm
      (generateMoves L W .Aggressive b ++ generateMoves L W .Passive b) := by
    rw [generateMoves_eq, generateMoves_eq, generateMoves_eq]
    exact hA _
  have hab : (moveListAB L W b q d).Perm (moveListMCTS L W b) := by
    have hperm := moveListAB_perm L W b q d
    have hpv := moveListAB_pvMove L W b q d
    unfold moveListMCTS
    refine List.Perm.trans ?_ hall.symm
    rw [hpv]
    split_ifs with h
    · exact (List.perm_cons_erase h.2).symm.trans hperm
    · exact hperm
  refine ⟨hall, hA, fun m => ?_, generateMoves_disjoint L W b hc hs, hab,
    fun m => hab.mem_iff, hab.length_eq⟩
  rw [← List.count_append]
  exact hall.count_eq m

set_option maxRecDepth 1000000 in
/-- On the position `r3k2r/8/8/8/8/8/8/R3K2R` the 26 moves of
`generateMoves<All>` are the 2 attacks and the 24 quiets, and the list of the
alpha-beta search built with cleared controls has the 26 moves of the list of
the rollout. -/
theorem generateMoves_all_split_witness :
    (generateMoves PathsAndRays Witchcraft .All Board.castles).Perm
      (generateMoves PathsAndRays Witchcraft .Aggressive Board.castles ++
        generateMoves PathsAndRays Witchcraft .Passive Board.castles) ∧
    (generateMoves PathsAndRays Witchcraft .All Board.castles).length = 26 ∧
    (generateMoves PathsAndRays Witchcraft .Aggressive Board.castles).length = 2 ∧
    (generateMoves PathsAndRays Witchcraft .Passive Board.castles).length = 24 ∧
    (moveListAB PathsAndRays Witchcraft Board.castles (Control.cleared 8) 0).Perm
      (moveListMCTS PathsAndRays Witchcraft Board.castles) ∧
    (moveListAB PathsAndRays Witchcraft Board.castles (Control.cleared 8) 0).length = 26 :=
  have h := generateMoves_all_split PathsAndRays Witchcraft Board.castles
    Board.castles_consistent Board.castles_stateFits (Control.cleared 8) 0
  ⟨h.1, by decide!, by decide!, by decide!, h.2.2.2.2.1,
    h.2.2.2.2.2.2.trans (by decide!)⟩

end

/-! ## The captured piece of the state after a move -/

section

open Board

/-- The slots of the side that does not move, bit by bit, after
`applyMove<A>`: a promotion or a plain move toggles the destination in the
union slot and in the slot of the kind found on the destination, when one is
found there; a castling move leaves the slots as they are; an en-passant
capture toggles the en-passant square in the pawn slot and in the union
slot. -/
theorem Board.applyMoveFor_theirPieces (Z : Randoms) (A : Alliance) (b : Board) (m : Move)
    (s : State) (k : PieceType) (sq : Nat) :
    ((applyMoveFor Z A b m s).pieces A.flip k).testBit sq =
      if m.isPromotion = true ∨ m.moveType = MoveType.FreeForm.toNat ∨
          m.moveType = MoveType.PawnJump.toNat then
        ((b.pieces A.flip k).testBit sq ^^
          (decide (b.mailbox m.destination ≠ .NullPT ∧
              (k = .NullPT ∨ k = b.mailbox m.destination)) &&
            (SquareToBitBoard m.destination).testBit sq))
      else if m.moveType = MoveType.Castling.toNat then (b.pieces A.flip k).testBit sq
      else ((b.pieces A.flip k).testBit sq ^^
        (decide (k = .NullPT ∨ k = .Pawn) &&
          (SquareToBitBoard b.currentState.epSquare).testBit sq)) := by
  have hflip := Alliance.flip_ne A
  have hflip2 := Ne.symm hflip
  cases hprom : m.isPromotion with
  | true =>
    unfold applyMoveFor
    simp only [hprom, if_true, true_or]
    by_cases hcap : b.mailbox m.destination = .NullPT
    · simp only [hcap, ne_eq, not_true_eq_false, if_false]
      simp only [testBit_setPieces_xor, testBit_setPieces_or]
      simp [hflip, hflip2]
    · simp only [hcap, ne_eq, not_false_eq_true, if_true]
      simp only [testBit_setPieces_xor, testBit_setPieces_or]
      by_cases e1 : k = .NullPT
      · subst e1
        simp [hflip, hflip2, hcap, Ne.symm hcap]
      · by_cases e2 : k = b.mailbox m.destination
        · subst e2
          simp [hflip, hflip2, hcap, Ne.symm hcap]
        · simp [hflip, hflip2, e1, e2, Ne.symm e1, Ne.symm e2]
  | false =>
    by_cases h1 : m.moveType = MoveType.FreeForm.toNat ∨ m.moveType = MoveType.PawnJump.toNat
    · unfold applyMoveFor
      simp only [hprom, Bool.false_eq_true, if_false, if_pos h1, false_or]
      by_cases hcap : b.mailbox m.destination = .NullPT
      · simp only [hcap, ne_eq, not_true_eq_false, if_false]
        simp only [testBit_setPieces_xor, testBit_setPieces_or]
        simp [hflip, hflip2]
      · simp only [hcap, ne_eq, not_false_eq_true, if_true]
        simp only [testBit_setPieces_xor, testBit_setPieces_or]
        by_cases e1 : k = .NullPT
        · subst e1
          simp [hflip, hflip2, hcap, Ne.symm hcap]
        · by_cases e2 : k = b.mailbox m.destination
          · subst e2
            simp [hflip, hflip2, hcap, Ne.symm hcap]
          · simp [hflip, hflip2, e1, e2, Ne.symm e1, Ne.symm e2]
    · by_cases h2 : m.moveType = MoveType.Castling.toNat
      · unfold applyMoveFor
        simp only [hprom, Bool.false_eq_true, if_false, if_neg h1, if_pos h2, false_or]
        simp only [testBit_setPieces_xor]
        simp [hflip, hflip2]
      · unfold applyMoveFor
        simp only [hprom, Bool.false_eq_true, if_false, if_neg h1, if_neg h2, false_or]
        simp only [testBit_setPieces_xor]
        by_cases e1 : k = .NullPT
        · subst e1
          simp [hflip, hflip2]
        · by_cases e2 : k = .Pawn
          · subst e2
            simp [hflip, hflip2]
          · simp [hflip, hflip2, e1, e2, Ne.symm e1, Ne.symm e2]

/-- What a fitting move finds on its destination in the slots of the other
side, on a consistent board: the bit of the destination is set in the union
slot and in the slot of the kind the mailbox names, when the mailbox names
one, and in no other slot. -/
theorem Board.MoveFits.theirs_on_destination {b : Board} (hc : b.Consistent) {m : Move}
    (hfits : b.MoveFits m) (k : PieceType) :
    (b.pieces b.currentPlayerAlliance.flip k).testBit m.destination =
      decide (b.mailbox m.destination ≠ .NullPT ∧
        (k = .NullPT ∨ k = b.mailbox m.destination)) := by
  have hp := hc.placedBy
  obtain ⟨-, -, -, hfd⟩ := hfits.squares hp
  rcases hfd with ⟨hfd, hcap⟩ | ⟨hfd, hcap⟩
  · have hr : decide (b.mailbox m.destination ≠ .NullPT ∧
        (k = .NullPT ∨ k = b.mailbox m.destination)) = false :=
      decide_eq_false (fun h => h.1 hcap)
    rw [hr]
    by_cases hk : k = .NullPT
    · subst hk
      exact hp.testBit_union_none hfd _
    · rw [hp.testBit_kind _ k _ hk, hfd]
      exact decide_eq_false (fun h => Option.noConfusion h)
  · by_cases hk : k = .NullPT
    · subst hk
      rw [hp.testBit_union_some hfd]
      simp [hcap]
    · rw [hp.testBit_kind _ k _ hk, hfd]
      by_cases hk2 : k = b.mailbox m.destination
      · subst hk2
        simp [hcap]
      · have : ¬ (some (b.currentPlayerAlliance.flip, b.mailbox m.destination) =
            some (b.currentPlayerAlliance.flip, k)) := fun h =>
          hk2 (Prod.mk.inj (Option.some.inj h)).2.symm
        simp [this, hk, hk2]

/-- Claim C18 (as amended). For every move `m` that `generateMoves<All>`
writes on a consistent board whose state fits its pieces, the state pushed by
`applyMove(m, s)` has as `capturedPiece` the kind the mailbox held on the
destination of `m` before the move. `hasAttack()` is true exactly when a piece
of the other side stood on the destination; `capturedPiece` is the kind of that
piece, which the move removes from the slots of the other side; a move that is
no en-passant capture removes nothing else from them. After an en-passant
capture `capturedPiece` is `NullPT` and `hasAttack()` is false, while the pawn
on the en-passant square, which is not the destination, has been removed and
nothing else. -/
theorem Board.applyMove_capturedPiece (Z : Randoms) (L : Lines) (W : Magics) (b : Board)
    (m : Move) (s : State) (hc : b.Consistent) (hs : b.StateFits)
    (hm : m ∈ generateMoves L W .All b) :
    (b.applyMove Z m s).currentState.capturedPiece = b.mailbox m.destination ∧
    ((b.applyMove Z m s).hasAttack = true ↔
      (b.pieces b.currentPlayerAlliance.flip .NullPT).testBit m.destination = true) ∧
    (∀ k, k ≠ .NullPT →
      ((b.applyMove Z m s).currentState.capturedPiece = k ↔
        (b.pieces b.currentPlayerAlliance.flip k).testBit m.destination = true)) ∧
    (∀ k, ((b.applyMove Z m s).pieces b.currentPlayerAlliance.flip k).testBit
      m.destination = false) ∧
    (¬ m.isEnPassant → ∀ k sq, sq ≠ m.destination →
      ((b.applyMove Z m s).pieces b.currentPlayerAlliance.flip k).testBit sq =
        (b.pieces b.currentPlayerAlliance.flip k).testBit sq) ∧
    (m.isEnPassant →
      (b.applyMove Z m s).currentState.capturedPiece = .NullPT ∧
      (b.applyMove Z m s).hasAttack = false ∧
      b.currentState.epSquare ≠ m.destination ∧
      (b.pieces b.currentPlayerAlliance.flip .Pawn).testBit b.currentState.epSquare = true ∧
      ((b.applyMove Z m s).pieces b.currentPlayerAlliance.flip .Pawn).testBit
        b.currentState.epSquare = false ∧
      ∀ k sq, sq ≠ b.currentState.epSquare →
        ((b.applyMove Z m s).pieces b.currentPlayerAlliance.flip k).testBit sq =
          (b.pieces b.currentPlayerAlliance.flip k).testBit sq) := by
  have hfits := generateMoves_fits L W b hc hs .All m hm
  have hd := hfits.destination_lt
  have hold := fun k => hfits.theirs_on_destination hc k
  have hcapP : (b.applyMove Z m s).currentState.capturedPiece = b.mailbox m.destination := by
    rw [Board.applyMove_eq]
    exact Board.applyMoveFor_capturedPiece Z _ b m s
  have hnew : ∀ k sq, ((b.applyMove Z m s).pieces b.currentPlayerAlliance.flip k).testBit sq =
      if m.isPromotion = true ∨ m.moveType = MoveType.FreeForm.toNat ∨
          m.moveType = MoveType.PawnJump.toNat then
        ((b.pieces b.currentPlayerAlliance.flip k).testBit sq ^^
          (decide (b.mailbox m.destination ≠ .NullPT ∧
              (k = .NullPT ∨ k = b.mailbox m.destination)) &&
            (SquareToBitBoard m.destination).testBit sq))
      else if m.moveType = MoveType.Castling.toNat then
        (b.pieces b.currentPlayerAlliance.flip k).testBit sq
      else ((b.pieces b.currentPlayerAlliance.flip k).testBit sq ^^
        (decide (k = .NullPT ∨ k = .Pawn) &&
          (SquareToBitBoard b.currentState.epSquare).testBit sq)) := by
    intro k sq
    rw [Board.applyMove_eq]
    exact Board.applyMoveFor_theirPieces Z _ b m s k sq
  have hempty : b.allPieces.testBit m.destination = false →
      b.mailbox m.destination = .NullPT := by
    intro h
    have h1 := hc.not_mem_of_empty b.currentPlayerAlliance.flip h
    rw [hold] at h1
    by_contra hne
    exact absurd h1 (by simp [hne])
  have hep : m.isEnPassant → b.mailbox m.destination = .NullPT ∧
      b.currentState.epSquare < 64 ∧ b.currentState.epSquare ≠ m.destination ∧
      (b.pieces b.currentPlayerAlliance.flip .Pawn).testBit b.currentState.epSquare = true := by
    intro h
    obtain ⟨-, hde, he, hpe⟩ := hfits.enPassant h.1 h.2
    refine ⟨hempty hde, he, fun heq => ?_, hpe⟩
    have hu := hc.mem_union (by decide) hpe
    have ha := (hc.testBit_all b.currentPlayerAlliance.flip b.currentState.epSquare)
    rw [heq] at ha hu
    rw [hde, hu] at ha
    simp at ha
  have hcases : m.isPromotion = true ∨ m.moveType = MoveType.FreeForm.toNat ∨
      m.moveType = MoveType.PawnJump.toNat ∨ m.isCastling ∨ m.isEnPassant := by
    cases hprom : m.isPromotion with
    | true => exact Or.inl rfl
    | false =>
      rcases m.moveType_cases with (h | h) | h | h
      · exact Or.inr (Or.inl h)
      · exact Or.inr (Or.inr (Or.inl h))
      · exact Or.inr (Or.inr (Or.inr (Or.inl ⟨hprom, h⟩)))
      · exact Or.inr (Or.inr (Or.inr (Or.inr ⟨hprom, h⟩)))
  have hnotplain : m.isCastling ∨ m.isEnPassant →
      ¬ (m.isPromotion = true ∨ m.moveType = MoveType.FreeForm.toNat ∨
          m.moveType = MoveType.PawnJump.toNat) := by
    rintro (h | h) (h2 | h2 | h2)
    · rw [h.1] at h2; exact Bool.noConfusion h2
    · exact absurd (h.2.symm.trans h2) (by decide)
    · exact absurd (h.2.symm.trans h2) (by decide)
    · rw [h.1] at h2; exact Bool.noConfusion h2
    · exact absurd (h.2.symm.trans h2) (by decide)
    · exact absurd (h.2.symm.trans h2) (by decide)
  have hnotcas : m.isEnPassant → ¬ m.moveType = MoveType.Castling.toNat := fun h h2 =>
    absurd (h.2.symm.trans h2) (by decide)
  refine ⟨hcapP, ?_, ?_, ?_, ?_, ?_⟩
  · unfold Board.hasAttack
    rw [hcapP, hold]
    simp
  · intro k hk
    rw [hcapP, hold]
    constructor
    · intro h
      subst h
      simp [hk]
    · intro h
      have h2 := of_decide_eq_true h
      rcases h2.2 with h3 | h3
      · exact absurd h3 hk
      · exact h3.symm
  · intro k
    rw [hnew]
    split_ifs with h1 h2
    · rw [hold, testBit_SquareToBitBoard _ _ hd]
      simp
    · have hpr : m.isPromotion = false := by
        cases hh : m.isPromotion with
        | true => exact absurd (Or.inl hh) h1
        | false => rfl
      have hmb := hempty (hfits.castling hpr h2).2.1
      rw [hold]
      simp [hmb]
    · have hE : m.isEnPassant := by
        rcases hcases with h | h | h | h | h
        · exact absurd (Or.inl h) h1
        · exact absurd (Or.inr (Or.inl h)) h1
        · exact absurd (Or.inr (Or.inr h)) h1
        · exact absurd h.2 h2
        · exact h
      obtain ⟨hmb, he, hne, -⟩ := hep hE
      rw [hold, testBit_SquareToBitBoard _ _ he]
      simp [hmb, hne]
  · intro hnE k sq hsq
    rw [hnew]
    split_ifs with h1 h2
    · rw [testBit_SquareToBitBoard _ _ hd]
      simp [Ne.symm hsq]
    · rfl
    · exfalso
      rcases hcases with h | h | h | h | h
      · exact h1 (Or.inl h)
      · exact h1 (Or.inr (Or.inl h))
      · exact h1 (Or.inr (Or.inr h))
      · exact h2 h.2
      · exact hnE h
  · intro hE
    obtain ⟨hmb, he, hne, hpe⟩ := hep hE
    have h1 := hnotplain (Or.inr hE)
    have h2 := hnotcas hE
    refine ⟨hcapP.trans hmb, ?_, hne, hpe, ?_, ?_⟩
    · unfold Board.hasAttack
      rw [hcapP, hmb]
      rfl
    · rw [hnew, if_neg h1, if_neg h2, hpe, testBit_SquareToBitBoard _ _ he]
      simp
    · intro k sq hsq
      rw [hnew, if_neg h1, if_neg h2, testBit_SquareToBitBoard _ _ he]
      simp [Ne.symm hsq]

set_option maxRecDepth 1000000 in
/-- On the position `r3k2r/8/8/8/8/8/8/R3K2R` the capture of the rook on h8 by
the rook on h1 leaves `capturedPiece = Rook` and `hasAttack()` true, and the
black rook is gone from h8. -/
theorem Board.applyMove_capturedPiece_witness :
    Move.makePlain 0 56 ∈ generateMoves PathsAndRays Witchcraft .All Board.castles ∧
    (Board.castles.applyMove RandomsAtOne (Move.makePlain 0 56)
      State.default).currentState.capturedPiece = .Rook ∧
    (Board.castles.applyMove RandomsAtOne (Move.makePlain 0 56) State.default).hasAttack =
      true ∧
    (Board.castles.pieces .Black .Rook).testBit 56 = true ∧
    ((Board.castles.applyMove RandomsAtOne (Move.makePlain 0 56) State.default).pieces
      .Black .Rook).testBit 56 = false :=
  have h := Board.applyMove_capturedPiece RandomsAtOne PathsAndRays Witchcraft Board.castles
    (Move.makePlain 0 56) State.default Board.castles_consistent Board.castles_stateFits
    (by decide!)
  ⟨by decide!, h.1.trans (by decide!), h.2.1.mpr (by decide!), by decide!,
    h.2.2.2.1 .Rook⟩

end

end Homura
